import Mathlib

/-!
# The yfs storage core: block device, bitmap allocator, inode layer and log

A shallow embedding of `lab5/inode_manager.{h,cc}` (with the sibling
`lab4/inode_manager.cc`).  Bytes (`char`) are naturals below 256, a buffer of
`BLOCK_SIZE` bytes is a function from offsets to bytes, 32-bit fields are stored
least-significant byte first, and `time(NULL)` is an argument `now` of every
operation that reads the clock.  Every `for` loop of the source has a bound that
is fixed when the loop starts, so loops are folds over a counter.
-/

set_option linter.unusedVariables false

/-! ## Geometry (`inode_manager.h`) -/

def DISK_SIZE : Nat := 1024 * 1024 * 16
def BLOCK_SIZE : Nat := 512
def BLOCK_NUM : Nat := DISK_SIZE / BLOCK_SIZE
def INODE_NUM : Nat := 1024
/-- Inodes per block. -/
def IPB : Nat := 1
/-- Bitmap bits per block. -/
def BPB : Nat := BLOCK_SIZE * 8
/-- Block containing inode `i`. -/
def IBLOCK (i nblocks : Nat) : Nat := nblocks / BPB + i / IPB + 3
/-- Block containing bit for block `b`. -/
def BBLOCK (b : Nat) : Nat := b / BPB + 2
def NDIRECT : Nat := 32
def NINDIRECT : Nat := BLOCK_SIZE / 4
def MAXFILE : Nat := NDIRECT + NINDIRECT
def MAXFILESIZE : Nat := (NDIRECT - 1 + NINDIRECT) * BLOCK_SIZE

/-! ## Buffers and loops -/

/-- A buffer of bytes, offset to byte; a block buffer uses offsets below `BLOCK_SIZE`. -/
abbrev Block := Nat → Nat

/-- The buffer `buf` with the byte at offset `off` replaced by `v`. -/
def Block.set (buf : Block) (off v : Nat) : Block :=
  fun k => if k = off then v else buf k

/-- The buffer after `bzero`. -/
def zero_block : Block := fun _ => 0

/-- The loop `for (i = lo; i < lo + n; i++) s = body i s`, by the number `n` of
iterations still to run. -/
def for_loop {σ : Type} (body : Nat → σ → σ) : Nat → Nat → σ → σ
  | 0, _, s => s
  | n + 1, i, s => for_loop body n (i + 1) (body i s)

/-! ## Disk layer -/

/-- The device `unsigned char blocks[BLOCK_NUM][BLOCK_SIZE]`: every byte it holds is below
256. -/
structure disk where
  blocks : Nat → Block
  is_byte : ∀ k off, blocks k off < 256

namespace disk

/-- The constructor `disk::disk()`: every byte is zero. -/
def init : disk := ⟨fun _ => zero_block, fun _ _ => Nat.zero_lt_succ 255⟩

def read_block (d : disk) (id : Nat) : Block := d.blocks (id - 1)

/-- The method `disk::write_block`; a value stored in an `unsigned char` is taken modulo
256. -/
def write_block (d : disk) (id : Nat) (buf : Block) : disk :=
  ⟨fun k => if k = id - 1 then (fun off => buf off % 256) else d.blocks k, fun k off => by
    by_cases h : k = id - 1
    · simp only [h, if_true]; exact Nat.mod_lt _ (by decide)
    · simp only [h, if_false]; exact d.is_byte k off⟩

end disk

/-! ## Block layer -/

namespace block_manager

def valid_bnum (bnum : Nat) : Bool :=
  if bnum ≤ 0 ∨ bnum > BLOCK_NUM then false else true

/-- The method `block_manager::read_block`; `buf` is the caller's buffer, left as it is when
the id is rejected. -/
def read_block (d : disk) (bnum : Nat) (buf : Block) : Block :=
  if valid_bnum bnum then d.read_block bnum else buf

def write_block (d : disk) (bnum : Nat) (buf : Block) : disk :=
  if valid_bnum bnum then d.write_block bnum buf else d

/-- The mask `(char)1 << (7 - pos % 8)`. -/
def bit_mask (pos : Nat) : Nat := 1 <<< (7 - pos % 8)

/-- The inner loop of `alloc_block`, `for (pos = ..; pos < BPB; ++pos)`: the first
position whose bit is zero, `fuel` positions being left to read. -/
def scan_bits (bitmap : Block) : Nat → Nat → Option Nat
  | 0, _ => none
  | fuel + 1, pos =>
    if bitmap (pos / 8) &&& bit_mask pos = 0 then some pos
    else scan_bits bitmap fuel (pos + 1)

/-- The outer loop of `alloc_block` over the bitmap blocks, `fuel` blocks being left. -/
def alloc_loop (d : disk) : Nat → Nat → Nat × disk
  | 0, _ => (0, d)
  | fuel + 1, bitmap_bnum =>
    let bitmap := read_block d bitmap_bnum zero_block
    match scan_bits bitmap BPB 0 with
    | some pos =>
      let byte := bitmap (pos / 8)
      let d1 := write_block d bitmap_bnum (bitmap.set (pos / 8) (byte ||| bit_mask pos))
      ((bitmap_bnum - BBLOCK 1) * BPB + pos + 1, d1)
    | none => alloc_loop d fuel (bitmap_bnum + 1)

/-- Allocate a free disk block: the id (0 when none was found) and the device after. -/
def alloc_block (d : disk) : Nat × disk :=
  alloc_loop d (BBLOCK BLOCK_NUM + 1 - BBLOCK (IBLOCK INODE_NUM BLOCK_NUM + 1))
    (BBLOCK (IBLOCK INODE_NUM BLOCK_NUM + 1))

def free_block (d : disk) (bnum : Nat) : disk :=
  if valid_bnum bnum then
    let bitmap := read_block d (BBLOCK bnum) zero_block
    let byte_pos_in_bitmap := (bnum - 1) % BPB
    let byte := bitmap (byte_pos_in_bitmap / 8)
    write_block d (BBLOCK bnum)
      (bitmap.set (((bnum - 1) % BPB) / 8) (byte &&& (255 ^^^ bit_mask byte_pos_in_bitmap)))
  else d

/-- The constructor `block_manager::block_manager()`: format the disk. -/
def init : disk :=
  let last_bnum := IBLOCK INODE_NUM BLOCK_NUM
  let d := for_loop (fun bitmap_bnum d => write_block d bitmap_bnum (fun _ => 255))
    (BBLOCK last_bnum - BBLOCK 1) (BBLOCK 1) disk.init
  let remaining_bits_num := last_bnum - (BBLOCK last_bnum - BBLOCK 1) * BPB
  let buf : Block := fun off => if off < remaining_bits_num / 8 then 255 else 0
  let last_byte := for_loop (fun pos last_byte => last_byte ||| (1 <<< (7 - pos)))
    (remaining_bits_num % 8) 0 0
  write_block d (BBLOCK last_bnum) (buf.set (remaining_bits_num / 8) last_byte)

end block_manager

namespace block_manager

/-- Whether the bit at position `pos` of a bitmap buffer is 1 (the test of `alloc_block`). -/
def bit_set (bitmap : Block) (pos : Nat) : Bool :=
  bitmap (pos / 8) &&& bit_mask pos != 0

/-- Bit `pos` of bitmap block `bb` of the device. -/
def bitmap_bit (d : disk) (bb pos : Nat) : Bool := bit_set (d.read_block bb) pos

/-- The device after `alloc_block` has set bit `pos` of bitmap block `bb`. -/
def mark (d : disk) (bb pos : Nat) : disk :=
  write_block d bb ((read_block d bb zero_block).set (pos / 8)
    (read_block d bb zero_block (pos / 8) ||| bit_mask pos))

end block_manager

/-- The device in which the bits of the block ids 1 to `BLOCK_NUM` are all set: the bitmap
blocks 2 to 9 hold 0xFF in each byte, everything else is zero. -/
def full_disk : disk :=
  ⟨fun k off => if 1 ≤ k ∧ k ≤ 8 ∧ off < 512 then 255 else 0, fun k off => by
    show (if 1 ≤ k ∧ k ≤ 8 ∧ off < 512 then 255 else 0) < 256
    split <;> decide⟩

/-- The device in which exactly the bits of the block ids 1 to 4095 are set. -/
def disk_4095 : disk :=
  ⟨fun k off => if k = 1 ∧ off < 511 then 255 else if k = 1 ∧ off = 511 then 254 else 0,
    fun k off => by
      show (if k = 1 ∧ off < 511 then 255 else if k = 1 ∧ off = 511 then 254 else 0) < 256
      split_ifs <;> decide⟩

/-! ## Inode layer: the inode on disk -/

/-- The `uint32_t` stored at byte offset `off` of a buffer, least significant byte first. -/
def get_u32 (buf : Block) (off : Nat) : Nat :=
  buf off + 256 * buf (off + 1) + 65536 * buf (off + 2) + 16777216 * buf (off + 3)

/-- Byte `k` of the 32-bit value `v`. -/
def u32_byte (v k : Nat) : Nat := v / 256 ^ k % 256

/-- Store the `uint32_t` `v` at byte offset `off` of a buffer. -/
def set_u32 (buf : Block) (off v : Nat) : Block :=
  fun k => if off ≤ k ∧ k < off + 4 then u32_byte v (k - off) else buf k

/-- The record `struct inode`; `blocks` has `NDIRECT + 1` entries. -/
structure inode where
  type : Nat
  size : Nat
  atime : Nat
  mtime : Nat
  ctime : Nat
  blocks : Nat → Nat

namespace inode

/-- The struct read through `(struct inode *)buf` (with `IPB = 1` the offset
`(inum - 1) % IPB` is 0). -/
def decode (buf : Block) : inode where
  type := get_u32 buf 0
  size := get_u32 buf 4
  atime := get_u32 buf 8
  mtime := get_u32 buf 12
  ctime := get_u32 buf 16
  blocks := fun i => get_u32 buf (20 + 4 * i)

/-- The buffer after `*(struct inode *)buf = ino`: the first `20 + 4 * (NDIRECT + 1)` bytes
are those of the struct. -/
def encode (ino : inode) (buf : Block) : Block :=
  fun off =>
    if off < 4 then u32_byte ino.type off
    else if off < 8 then u32_byte ino.size (off - 4)
    else if off < 12 then u32_byte ino.atime (off - 8)
    else if off < 16 then u32_byte ino.mtime (off - 12)
    else if off < 20 then u32_byte ino.ctime (off - 16)
    else if off < 20 + 4 * (NDIRECT + 1) then u32_byte (ino.blocks ((off - 20) / 4)) ((off - 20) % 4)
    else buf off

end inode

/-- The array `blockid_t indirect_block_buf[BLOCK_SIZE / sizeof(blockid_t)]` seen as the
bytes of a block. -/
def table_bytes (tbl : Nat → Nat) : Block :=
  fun off => if off < BLOCK_SIZE then u32_byte (tbl (off / 4)) (off % 4) else 0

/-- The bytes of a block seen as an array of `blockid_t`. -/
def bytes_table (buf : Block) : Nat → Nat := fun i => get_u32 buf (4 * i)

/-- The contents of the locals that the code declares without initialising them: the `char`
buffers and the `blockid_t` arrays (among them `indirect_block_buf` and the `blocks` of a
`struct inode` on the stack). -/
structure garbage where
  block : Block
  table : Nat → Nat

/-- The `BLOCK_SIZE` bytes at `buf + off`. -/
def chunk (buf : Block) (off : Nat) : Block :=
  fun k => if k < BLOCK_SIZE then buf (off + k) else 0

/-- The buffer `padding` after `bzero(padding, BLOCK_SIZE)` and
`memcpy(padding, buf + off, size - off)`. -/
def padded (buf : Block) (size off : Nat) : Block :=
  fun k => if k < size - off then buf (off + k) else 0

/-- The buffer `dst` after `memcpy(dst + doff, src, n)`. -/
def memcpy (dst : Block) (doff : Nat) (src : Block) (n : Nat) : Block :=
  fun k => if doff ≤ k ∧ k < doff + n then src (k - doff) else dst k

/-- The block count `(size + BLOCK_SIZE - 1) / BLOCK_SIZE` of a stored `unsigned int` size. -/
def block_num_of (size : Nat) : Nat := (size + BLOCK_SIZE - 1) % 4294967296 / BLOCK_SIZE

/-! ## Log manager -/

/-- The record `struct log_entry`. -/
inductive log_entry where
  | create (inum type : Nat)
  | update (inum old_size new_size : Nat) (old_buf new_buf : List Nat)
  | deletee (inum type : Nat)
  | commit
  deriving DecidableEq

/-- The log manager: the bytes of the file `disk.log`, the position of the stream `logfile`
and the vector `previous_checkpoints`, last element first. -/
structure log_manager where
  logfile : List Nat
  pos : Nat
  previous_checkpoints : List Nat
  deriving DecidableEq

namespace log_manager

/-- The constructor: the file is opened with `trunc`. -/
def init : log_manager := ⟨[], 0, []⟩

/-- The decimal digits of `n`, as character codes (`fuel` bounds the number of digits). -/
def digits : Nat → Nat → List Nat
  | 0, _ => []
  | fuel + 1, n => if n < 10 then [48 + n] else digits fuel (n / 10) ++ [48 + n % 10]

/-- The text `ss << n` of a number. -/
def decimal (n : Nat) : List Nat := digits (n + 1) n

/-- The first `n` bytes of a buffer, as `ss.write(buf, n)` emits them. -/
def bytes_of (buf : Block) (n : Nat) : List Nat := (List.range n).map buf

/-- The method `log_manager::log`: when the position is before the end of the file the file
is first cut at the position; then the entry is written at the end. -/
def log (lm : log_manager) (entry : List Nat) : log_manager :=
  if lm.pos < lm.logfile.length then
    { lm with logfile := lm.logfile.take lm.pos ++ entry,
              pos := (lm.logfile.take lm.pos ++ entry).length }
  else
    { lm with logfile := lm.logfile ++ entry, pos := (lm.logfile ++ entry).length }

/-- The text "create". -/
def str_create : List Nat := [99, 114, 101, 97, 116, 101]
/-- The text "update". -/
def str_update : List Nat := [117, 112, 100, 97, 116, 101]
/-- The text "delete". -/
def str_delete : List Nat := [100, 101, 108, 101, 116, 101]
/-- The text "commit". -/
def str_commit : List Nat := [99, 111, 109, 109, 105, 116]

def create_log (lm : log_manager) (inum type : Nat) : log_manager :=
  lm.log (str_create ++ [32] ++ decimal inum ++ [32] ++ decimal type ++ [10])

def update_log (lm : log_manager) (inum old_size : Nat) (old_buf : Block) (new_size : Nat)
    (new_buf : Block) : log_manager :=
  lm.log (str_update ++ [32] ++ decimal inum ++ [32] ++ decimal old_size ++ [32] ++
    decimal new_size ++ [32] ++ bytes_of old_buf old_size ++ bytes_of new_buf new_size ++ [10])

def delete_log (lm : log_manager) (inum type : Nat) : log_manager :=
  lm.log (str_delete ++ [32] ++ decimal inum ++ [32] ++ decimal type ++ [10])

/-- Whether a character is white space for the stream extractors. -/
def is_space (c : Nat) : Bool := c = 32 || (9 ≤ c && c ≤ 13)

/-- The extraction `logfile >> log_type` of a word from the bytes ahead: leading white space
is skipped, the word runs up to the next white space; the word and the bytes left. -/
def read_word (s : List Nat) : List Nat × List Nat :=
  let s1 := s.dropWhile is_space
  (s1.takeWhile (fun c => !is_space c), s1.dropWhile (fun c => !is_space c))

/-- The extraction `logfile >> n` of an unsigned decimal number: leading white space is
skipped, the digits are read; no result when no digit is there. -/
def read_num (s : List Nat) : Option (Nat × List Nat) :=
  let s1 := s.dropWhile is_space
  let ds := s1.takeWhile (fun c => 48 ≤ c && c ≤ 57)
  if ds = [] then none
  else some (ds.foldl (fun acc c => 10 * acc + (c - 48)) 0, s1.dropWhile (fun c => 48 ≤ c && c ≤ 57))

/-- The method `log_manager::next_log` on the bytes ahead of the position: the entry read
and the bytes left; no result where the code exits (unexpected log type) or where an
extraction fails. -/
def parse_log (s : List Nat) : Option (log_entry × List Nat) :=
  let (log_type, s1) := read_word s
  if log_type = str_create then
    match read_num s1 with
    | none => none
    | some (inum, s2) =>
      match read_num s2 with
      | none => none
      | some (type, s3) => some (log_entry.create inum type, s3.drop 1)
  else if log_type = str_update then
    match read_num s1 with
    | none => none
    | some (inum, s2) =>
      match read_num s2 with
      | none => none
      | some (old_size, s3) =>
        match read_num s3 with
        | none => none
        | some (new_size, s4) =>
          let s5 := s4.drop 1
          let old_buf := s5.take old_size
          let s6 := s5.drop old_size
          let new_buf := s6.take new_size
          let s7 := s6.drop new_size
          some (log_entry.update inum old_size new_size old_buf new_buf, s7.drop 1)
  else if log_type = str_delete then
    match read_num s1 with
    | none => none
    | some (inum, s2) =>
      match read_num s2 with
      | none => none
      | some (type, s3) => some (log_entry.deletee inum type, s3.drop 1)
  else if log_type = str_commit then some (log_entry.commit, s1.drop 1)
  else none

/-- The method `log_manager::next_log`: the entry at the position, and the log manager with
the position after it. -/
def next_log (lm : log_manager) : Option (log_entry × log_manager) :=
  match parse_log (lm.logfile.drop lm.pos) with
  | none => none
  | some (entry, rest) => some (entry, { lm with pos := lm.logfile.length - rest.length })

def commit (lm : log_manager) : log_manager :=
  let lm1 := lm.log (str_commit ++ [10])
  { lm1 with previous_checkpoints := lm1.pos :: lm1.previous_checkpoints }

/-- The loop `while (logfile.tellp() < curr_pos) entries.push_back(next_log())` of
`rollback`; `fuel` bounds the iterations, each of which reads at least one byte. -/
def read_until (curr_pos : Nat) : Nat → log_manager → List log_entry →
    Option (List log_entry × log_manager)
  | 0, lm, entries => if lm.pos < curr_pos then none else some (entries, lm)
  | fuel + 1, lm, entries =>
    if lm.pos < curr_pos then
      match lm.next_log with
      | none => none
      | some (entry, lm1) => read_until curr_pos fuel lm1 (entries ++ [entry])
    else some (entries, lm)

/-- The branch `curr_pos > prev_ckp` of `rollback`: read all writes since the checkpoint
and go back to it. -/
def rollback_read (lm : log_manager) (prev_ckp : Nat) : Option (List log_entry × log_manager) :=
  let curr_pos := lm.pos
  match read_until curr_pos (curr_pos - prev_ckp) { lm with pos := prev_ckp } [] with
  | none => none
  | some (entries, lm1) => some (entries, { lm1 with pos := prev_ckp })

/-- The method `log_manager::rollback`: the entries to undo, in log order, and the log
manager after; no result where `next_log` has none.  The call of `rollback` by itself
happens after `pop_back` with the position above the new last checkpoint, where it takes
the first branch.  For a position below the last checkpoint the code has no
`return`; the entries are then taken to be empty. -/
def rollback (lm : log_manager) : Option (List log_entry × log_manager) :=
  match lm.previous_checkpoints with
  | [] => some ([], lm)
  | prev_ckp :: rest =>
    if lm.pos > prev_ckp then rollback_read lm prev_ckp
    else if lm.pos = prev_ckp then
      match rest with
      | [] => some ([], lm)
      | prev_ckp2 :: _ =>
        let lm1 := { lm with pos := lm.pos - 7, previous_checkpoints := rest }
        if lm1.pos > prev_ckp2 then rollback_read lm1 prev_ckp2
        else some ([], lm1)
    else some ([], lm)

/-- The `do ... while (logfile.peek() != EOF)` loop of `forward`; `fuel` bounds the
iterations. -/
def forward_loop : Nat → log_manager → List log_entry → Option (List log_entry × log_manager)
  | 0, lm, entries => some (entries, lm)
  | fuel + 1, lm, entries =>
    match lm.next_log with
    | none => none
    | some (entry, lm1) =>
      match entry with
      | log_entry.commit =>
        some (entries, { lm1 with previous_checkpoints := lm1.pos :: lm1.previous_checkpoints })
      | _ =>
        if lm1.pos < lm1.logfile.length then forward_loop fuel lm1 (entries ++ [entry])
        else some (entries ++ [entry], lm1)

def forward (lm : log_manager) : Option (List log_entry × log_manager) :=
  if lm.pos < lm.logfile.length then forward_loop (lm.logfile.length - lm.pos) lm []
  else some ([], lm)

end log_manager

/-! ## Inode manager -/

/-- Modelled from the spec: the header `extent_protocol.h`, which declares the inode types,
is not among the sources; the spec gives the types as `0 = free, T_FILE, T_DIR, T_SLINK`,
so `T_DIR` is a nonzero constant (1 in the header of the lab). -/
def T_DIR : Nat := 1

/-- The inode manager: the device of its block manager `bm` and its log manager `lm`. -/
structure inode_manager where
  bm : disk
  lm : log_manager

namespace inode_manager

open block_manager in
/-- The table filled by `bm->read_block(bnum, (char *)indirect_block_buf)`. -/
def read_table (d : disk) (bnum : Nat) (tbl : Nat → Nat) : Nat → Nat :=
  if valid_bnum bnum then bytes_table (d.read_block bnum) else tbl

def valid_inum (inum : Nat) : Bool :=
  if inum ≤ 0 ∨ inum > INODE_NUM then false else true

def valid_type (type : Nat) : Bool :=
  if type = 0 then false else true

def valid_size (size : Int) : Bool :=
  if size < 0 ∨ size.toNat > MAXFILESIZE then false else true

/-- The function `get_inode`: the inode, or nothing (`NULL`). -/
def get_inode (d : disk) (inum : Nat) : Option inode :=
  if valid_inum inum then
    let buf := block_manager.read_block d (IBLOCK inum BLOCK_NUM) zero_block
    let ino_disk := inode.decode buf
    if ino_disk.type = 0 then none else some ino_disk
  else none

def put_inode (d : disk) (inum : Nat) (ino : inode) (now : Nat) : disk :=
  if valid_inum inum then
    let ino1 := { ino with ctime := now }
    let buf := block_manager.read_block d (IBLOCK inum BLOCK_NUM) zero_block
    block_manager.write_block d (IBLOCK inum BLOCK_NUM) (ino1.encode buf)
  else d

/-- The loop `for (inum = 1; inum <= INODE_NUM; inum++)` of `alloc_inode`: the value of
`inum` when the loop is left, `fuel` slots being left to read. -/
def find_free_inode (d : disk) : Nat → Nat → Nat
  | 0, inum => inum
  | fuel + 1, inum =>
    let buf := block_manager.read_block d (IBLOCK inum BLOCK_NUM) zero_block
    if (inode.decode buf).type = 0 then inum else find_free_inode d fuel (inum + 1)

/-- Create a new file and return its inum. -/
def alloc_inode (im : inode_manager) (type now : Nat) : Nat × inode_manager :=
  if valid_type type then
    let inum := find_free_inode im.bm INODE_NUM 1
    if inum > INODE_NUM then (0, im)
    else
      let buf := block_manager.read_block im.bm (IBLOCK inum BLOCK_NUM) zero_block
      let buf1 := set_u32 (set_u32 (set_u32 (set_u32 (set_u32 buf 0 type) 4 0) 8 now) 12 now) 16 now
      (inum, { bm := block_manager.write_block im.bm (IBLOCK inum BLOCK_NUM) buf1,
               lm := im.lm.create_log inum type })
  else (0, im)

/-- The buffers of `read_file` while it copies: the output `buf_out` and `block_buf`. -/
structure read_state where
  buf_out : Block
  block_buf : Block

/-- One round of the loop of `read_file` over the direct entries. -/
def read_direct_step (d : disk) (ino : inode) (block_num : Nat) (i : Nat) (s : read_state) :
    read_state :=
  let block_buf := block_manager.read_block d (ino.blocks i) s.block_buf
  if i = block_num - 1 then
    ⟨memcpy s.buf_out (i * BLOCK_SIZE) block_buf (ino.size - i * BLOCK_SIZE), block_buf⟩
  else ⟨memcpy s.buf_out (i * BLOCK_SIZE) block_buf BLOCK_SIZE, block_buf⟩

/-- One round of the loop of `read_file` over the indirect entries. -/
def read_indirect_step (d : disk) (ino : inode) (block_num : Nat) (tbl : Nat → Nat) (i : Nat)
    (s : read_state) : read_state :=
  let block_buf := block_manager.read_block d (tbl i) s.block_buf
  if i = block_num - NDIRECT - 1 then
    ⟨memcpy s.buf_out ((i + NDIRECT) * BLOCK_SIZE) block_buf
      (ino.size - (i + NDIRECT) * BLOCK_SIZE), block_buf⟩
  else ⟨memcpy s.buf_out ((i + NDIRECT) * BLOCK_SIZE) block_buf BLOCK_SIZE, block_buf⟩

/-- The function `read_file`, on the device: the outputs `(*buf_out, *size)`, which stay
unset when the inode is rejected, and the device after (the access time is written). -/
def read_file (d : disk) (inum now : Nat) (g : garbage) : Option (Block × Nat) × disk :=
  if valid_inum inum then
    match get_inode d inum with
    | none => (none, d)
    | some ino =>
      let block_num := block_num_of ino.size
      let s1 := for_loop (read_direct_step d ino block_num)
        (if block_num > NDIRECT then NDIRECT else block_num) 0 ⟨g.block, g.block⟩
      let s2 :=
        if block_num > NDIRECT then
          let tbl := read_table d (ino.blocks NDIRECT) g.table
          for_loop (read_indirect_step d ino block_num tbl) (block_num - NDIRECT) 0 s1
        else s1
      (some (s2.buf_out, ino.size), put_inode d inum { ino with atime := now } now)
  else (none, d)

/-- The block written for direct entry `i` by the loops that pad the block `i == last`. -/
def data_block (buf : Block) (size last i : Nat) : Block :=
  if i = last then padded buf size (i * BLOCK_SIZE) else chunk buf (i * BLOCK_SIZE)

/-- The block written for indirect entry `i` by the loops that pad the last block. -/
def indirect_data_block (buf : Block) (size block_num_new i : Nat) : Block :=
  if i = block_num_new - NDIRECT - 1 then padded buf size ((i + NDIRECT) * BLOCK_SIZE)
  else chunk buf ((i + NDIRECT) * BLOCK_SIZE)

/-- One round of the loops of `_write_file` that allocate: a block is allocated, its id is
stored at index `i` of the array of block ids (`ino->blocks` or `indirect_block_buf`), and
the block `D i` is written to it. -/
def alloc_write_step (D : Nat → Block) (i : Nat) (s : disk × (Nat → Nat)) : disk × (Nat → Nat) :=
  ((block_manager.write_block (block_manager.alloc_block s.1).2 (block_manager.alloc_block s.1).1
      (D i)),
    fun j => if j = i then (block_manager.alloc_block s.1).1 else s.2 j)

/-- The first half of the branch `block_num_new <= block_num_old` of `_write_file`: the new
content is written to the old direct blocks, the indirect block is read if needed and the
new content is written to the old indirect blocks.  The device after and
`indirect_block_buf`, which holds `tbl0` before it is loaded. -/
def rewrite_old (d : disk) (ino : inode) (tbl0 : Nat → Nat) (buf : Block)
    (size block_num_new : Nat) : disk × (Nat → Nat) :=
  -- write to old direct block
  let d1 := for_loop
    (fun i d => block_manager.write_block d (ino.blocks i) (data_block buf size (block_num_new - 1) i))
    (if block_num_new > NDIRECT then NDIRECT else block_num_new) 0 d
  -- read indirect block entry, if needed
  if block_num_new > NDIRECT then
    let tbl := read_table d1 (ino.blocks NDIRECT) tbl0
    -- write to old indirect block, if needed
    (for_loop
      (fun i d => block_manager.write_block d (tbl i) (indirect_data_block buf size block_num_new i))
      (block_num_new - NDIRECT) 0 d1, tbl)
  else (d1, tbl0)

/-- The second half of the branch `block_num_new <= block_num_old` of `_write_file`: the
unused direct blocks, the unused indirect blocks and, if needed, the indirect entry are
freed. -/
def free_unused (d : disk) (ino : inode) (tbl : Nat → Nat)
    (block_num_old block_num_new : Nat) : disk :=
  -- free unused direct blocks, if any
  let d3 := for_loop (fun i d => block_manager.free_block d (ino.blocks i))
    ((if block_num_old > NDIRECT then NDIRECT else block_num_old) - block_num_new)
    block_num_new d
  -- free unused indirect blocks, if any
  if block_num_old > NDIRECT then
    let lo := if block_num_new > NDIRECT then block_num_new - NDIRECT else 0
    let d4 := for_loop (fun i d => block_manager.free_block d (tbl i))
      (block_num_old - NDIRECT - lo) lo d3
    -- free indirect entry, if needed
    if block_num_new ≤ NDIRECT then block_manager.free_block d4 (ino.blocks NDIRECT) else d4
  else d3

/-- The branch `block_num_new <= block_num_old` of `_write_file` (write a smaller file):
the device after. -/
def write_smaller (d : disk) (ino : inode) (tbl0 : Nat → Nat) (buf : Block)
    (size block_num_old block_num_new : Nat) : disk :=
  free_unused (rewrite_old d ino tbl0 buf size block_num_new).1 ino
    (rewrite_old d ino tbl0 buf size block_num_new).2 block_num_old block_num_new

/-- The direct part of the branch `block_num_new > block_num_old` of `_write_file`: the new
content is written to the old direct blocks, then the remaining direct blocks are
allocated and written.  The device and the array `ino->blocks` after. -/
def grow_direct (d : disk) (ino : inode) (buf : Block) (size block_num_old block_num_new : Nat) :
    disk × (Nat → Nat) :=
  -- write to old direct blocks
  let d1 := for_loop
    (fun i d => block_manager.write_block d (ino.blocks i) (chunk buf (i * BLOCK_SIZE)))
    (if block_num_old > NDIRECT then NDIRECT else block_num_old) 0 d
  -- alloc and write to remaining direct blocks, if any
  for_loop (alloc_write_step (data_block buf size (block_num_new - 1)))
    ((if block_num_new > NDIRECT then NDIRECT else block_num_new) - block_num_old)
    block_num_old (d1, ino.blocks)

/-- The step "read indirect entry, alloc first if needed" of the same branch: the device,
`ino->blocks` and `indirect_block_buf` after. -/
def indirect_entry (r : disk × (Nat → Nat)) (tbl0 : Nat → Nat) (block_num_old : Nat) :
    disk × (Nat → Nat) × (Nat → Nat) :=
  if block_num_old ≤ NDIRECT then
    ((block_manager.alloc_block r.1).2,
      (fun j => if j = NDIRECT then (block_manager.alloc_block r.1).1 else r.2 j), tbl0)
  else (r.1, r.2, read_table r.1 (r.2 NDIRECT) tbl0)

/-- The indirect part of the same branch: the new content is written to the old indirect
blocks, the remaining indirect blocks are allocated and written, and the table is saved
in the indirect block `ind`. -/
def grow_indirect (d : disk) (ind : Nat) (tbl : Nat → Nat) (buf : Block)
    (size block_num_old block_num_new : Nat) : disk :=
  let n_old := if block_num_old > NDIRECT then block_num_old - NDIRECT else 0
  -- write to old indirect blocks, if any
  let d4 := for_loop
    (fun i d => block_manager.write_block d (tbl i) (chunk buf ((i + NDIRECT) * BLOCK_SIZE)))
    n_old 0 d
  -- alloc and write to remaining indirect block, if needed
  let r5 := for_loop (alloc_write_step (indirect_data_block buf size block_num_new))
    (block_num_new - NDIRECT - n_old) n_old (d4, tbl)
  -- save indirect block entry
  block_manager.write_block r5.1 ind (table_bytes r5.2)

/-- The branch `block_num_new > block_num_old` of `_write_file` (write a bigger file): the
device and the array `ino->blocks` after. -/
def write_bigger (d : disk) (ino : inode) (tbl0 : Nat → Nat) (buf : Block)
    (size block_num_old block_num_new : Nat) : disk × (Nat → Nat) :=
  let r2 := grow_direct d ino buf size block_num_old block_num_new
  if block_num_new > NDIRECT then
    let r3 := indirect_entry r2 tbl0 block_num_old
    (grow_indirect r3.1 (r3.2.1 NDIRECT) r3.2.2 buf size block_num_old block_num_new, r3.2.1)
  else r2

/-- The function `_write_file`: 1 on success and 0 otherwise, and the device after. -/
def _write_file (d : disk) (inum : Nat) (buf : Block) (size : Int) (now : Nat) (g : garbage) :
    Nat × disk :=
  if !valid_inum inum || !valid_size size then (0, d)
  else
    match get_inode d inum with
    | none => (0, d)
    | some ino =>
      let block_num_old := block_num_of ino.size
      let block_num_new := (size.toNat + BLOCK_SIZE - 1) / BLOCK_SIZE
      let r :=
        if block_num_new ≤ block_num_old then
          (write_smaller d ino g.table buf size.toNat block_num_old block_num_new, ino.blocks)
        else write_bigger d ino g.table buf size.toNat block_num_old block_num_new
      (1, put_inode r.1 inum
        { ino with size := size.toNat, mtime := now, ctime := now, blocks := r.2 } now)

/-- The function `write_file`: read the old content for the log, write, and log on
success. -/
def write_file (im : inode_manager) (inum : Nat) (buf : Block) (size : Int) (now : Nat)
    (g : garbage) : inode_manager :=
  let old := read_file im.bm inum now g
  let r := _write_file old.2 inum buf size now g
  if r.1 ≠ 0 then
    match old.1 with
    | some (old_buf, old_size) =>
      { bm := r.2, lm := im.lm.update_log inum old_size old_buf size.toNat buf }
    | none => { bm := r.2, lm := im.lm.update_log inum (get_u32 g.block 0) g.block size.toNat buf }
  else { bm := r.2, lm := im.lm }

def free_inode (d : disk) (inum now : Nat) : disk :=
  if valid_inum inum then
    match get_inode d inum with
    | none => d
    | some ino => put_inode d inum { ino with type := 0 } now
  else d

def remove_file (im : inode_manager) (inum now : Nat) (g : garbage) : inode_manager :=
  if valid_inum inum then
    match get_inode im.bm inum with
    | none => im
    | some ino =>
      let old := read_file im.bm inum now g
      let lm1 :=
        match old.1 with
        | some (old_buf, old_size) => im.lm.update_log inum old_size old_buf 0 zero_block
        | none => im.lm.update_log inum (get_u32 g.block 0) g.block 0 zero_block
      let lm2 := lm1.delete_log inum ino.type
      let d1 := free_inode old.2 inum now
      let block_num := block_num_of ino.size
      let d2 := for_loop (fun i d => block_manager.free_block d (ino.blocks i))
        (if block_num > NDIRECT then NDIRECT else block_num) 0 d1
      let d3 :=
        if block_num > NDIRECT then
          let tbl := read_table d2 (ino.blocks NDIRECT) g.table
          for_loop (fun i d => block_manager.free_block d (tbl i)) (block_num - NDIRECT) 0 d2
        else d2
      { bm := d3, lm := lm2 }
  else im

/-- The function `getattr`: `(type, atime, mtime, ctime, size)`, or nothing when the output
is left as it was. -/
def getattr (d : disk) (inum : Nat) : Option (Nat × Nat × Nat × Nat × Nat) :=
  if valid_inum inum then
    match get_inode d inum with
    | none => none
    | some ino => some (ino.type, ino.atime, ino.mtime, ino.ctime, ino.size)
  else none

def commit (im : inode_manager) : inode_manager := { im with lm := im.lm.commit }

/-- A buffer holding the bytes of a list. -/
def list_buf (l : List Nat) : Block := fun k => l.getD k 0

def redo (d : disk) (entry : log_entry) (now : Nat) (g : garbage) : disk :=
  match entry with
  | log_entry.create inum type =>
    put_inode d inum ⟨type, 0, now, now, now, g.table⟩ now
  | log_entry.update inum old_size new_size old_buf new_buf =>
    (_write_file d inum (list_buf new_buf) new_size now g).2
  | log_entry.deletee inum type => free_inode d inum now
  | log_entry.commit => d

def undo (d : disk) (entry : log_entry) (now : Nat) (g : garbage) : disk :=
  match entry with
  | log_entry.create inum type => free_inode d inum now
  | log_entry.update inum old_size new_size old_buf new_buf =>
    (_write_file d inum (list_buf old_buf) old_size now g).2
  | log_entry.deletee inum type =>
    put_inode d inum ⟨type, 0, now, now, now, g.table⟩ now
  | log_entry.commit => d

/-- The loop `for (i = entries.size(); i > 0; --i) undo(entries[i - 1])` of `rollback`, on
the entries in log order; `g k` is the garbage met by the call of `undo` that has `k`
entries after it. -/
def undo_all (d : disk) (now : Nat) (g : Nat → garbage) : List log_entry → disk
  | [] => d
  | entry :: entries => undo (undo_all d now g entries) entry now (g entries.length)

/-- The loop `for (i = 0; i < entries.size(); ++i) redo(entries[i])` of `forward`, from
index `i` on; `g i` is the garbage met while entry `i` is redone. -/
def redo_all (now : Nat) (g : Nat → garbage) : List log_entry → Nat → disk → disk
  | [], _, d => d
  | entry :: entries, i, d => redo_all now g entries (i + 1) (redo d entry now (g i))

/-- The function `rollback`; no result where the log manager has none. -/
def rollback (im : inode_manager) (now : Nat) (g : Nat → garbage) : Option inode_manager :=
  match im.lm.rollback with
  | none => none
  | some (entries, lm1) => some { bm := undo_all im.bm now g entries, lm := lm1 }

def forward (im : inode_manager) (now : Nat) (g : Nat → garbage) : Option inode_manager :=
  match im.lm.forward with
  | none => none
  | some (entries, lm1) => some { bm := redo_all now g entries 0 im.bm, lm := lm1 }

/-- The constructor `inode_manager::inode_manager()`: format the disk and allocate the root
directory (the code exits unless that is inode 1, which it is). -/
def init (now : Nat) : inode_manager :=
  (alloc_inode ⟨block_manager.init, log_manager.init⟩ T_DIR now).2

end inode_manager

/-! ## Notions used by the statements -/

namespace block_manager

/-- Whether block id `b` is marked used for `alloc_block`: the bit that `alloc_block` tests
and sets when it returns `b`, bit `(b - 1) mod BPB` of bitmap block `(b - 1) / BPB + 2`. -/
def used (d : disk) (b : Nat) : Bool := bitmap_bit d ((b - 1) / BPB + 2) ((b - 1) % BPB)

/-- At least `m` block ids between 1 and `BLOCK_NUM` are free for `alloc_block`. -/
def has_free (d : disk) (m : Nat) : Prop :=
  ∃ l : List Nat, l.Nodup ∧ m ≤ l.length ∧ ∀ b ∈ l, 1 ≤ b ∧ b ≤ BLOCK_NUM ∧ used d b = false

end block_manager

namespace log_entry

open log_manager in
/-- The text of a log record, as `create_log`, `update_log`, `delete_log` and `commit` write
it. -/
def bytes : log_entry → List Nat
  | create inum type => str_create ++ [32] ++ decimal inum ++ [32] ++ decimal type ++ [10]
  | update inum old_size new_size old_buf new_buf =>
    str_update ++ [32] ++ decimal inum ++ [32] ++ decimal old_size ++ [32] ++
      decimal new_size ++ [32] ++ old_buf ++ new_buf ++ [10]
  | deletee inum type => str_delete ++ [32] ++ decimal inum ++ [32] ++ decimal type ++ [10]
  | commit => str_commit ++ [10]

/-- The sizes of an update record are the lengths of its buffers. -/
def wf : log_entry → Prop
  | update _ old_size new_size old_buf new_buf =>
    old_buf.length = old_size ∧ new_buf.length = new_size
  | _ => True

end log_entry

/-- The text of a sequence of log records. -/
def log_text : List log_entry → List Nat
  | [] => []
  | e :: es => e.bytes ++ log_text es

namespace inode_manager

/-- The id of data block `j` of a file: a direct entry, or an entry of the table held by the
indirect block. -/
def file_block (d : disk) (ino : inode) (j : Nat) : Nat :=
  if j < NDIRECT then ino.blocks j
  else bytes_table (d.read_block (ino.blocks NDIRECT)) (j - NDIRECT)

/-- The block ids an inode refers to: its data blocks, then the indirect block when the
file has more than `NDIRECT` blocks. -/
def file_blocks (d : disk) (ino : inode) : List Nat :=
  (List.range (block_num_of ino.size)).map (file_block d ino) ++
    (if block_num_of ino.size > NDIRECT then [ino.blocks NDIRECT] else [])

/-- The number of blocks a file of `n` data blocks holds: its data blocks and, above
`NDIRECT` of them, the indirect block. -/
def blocks_total (n : Nat) : Nat := n + (if n > NDIRECT then 1 else 0)

/-- Block id `b` is referenced by an inode with type ≠ 0. -/
def referenced (d : disk) (b : Nat) : Prop :=
  ∃ inum ino, get_inode d inum = some ino ∧ b ∈ file_blocks d ino

/-- What `getattr` and `read_file` show of inode `inum`: its type, its size and the bytes of
its content; nothing for an inode that does not exist. -/
def snapshot (d : disk) (inum : Nat) (g : garbage) : Option (Nat × Nat × List Nat) :=
  match getattr d inum, (read_file d inum 0 g).1 with
  | some a, some (buf, size) => some (a.1, size, log_manager.bytes_of buf size)
  | _, _ => none

/-- The states reached from the constructor through `alloc_inode`, `write_file` and
`remove_file`. -/
inductive reachable : inode_manager → Prop
  | init (now : Nat) : reachable (init now)
  | alloc_inode (im : inode_manager) (type now : Nat) :
      reachable im → reachable (alloc_inode im type now).2
  | write_file (im : inode_manager) (inum : Nat) (buf : Block) (size : Int) (now : Nat)
      (g : garbage) : reachable im → reachable (write_file im inum buf size now g)
  | remove_file (im : inode_manager) (inum now : Nat) (g : garbage) :
      reachable im → reachable (remove_file im inum now g)

end inode_manager

/-! ## The states of the worked examples -/

/-- Uninitialised locals that hold zeros. -/
def garbage_zero : garbage := ⟨zero_block, fun _ => 0⟩

/-- Uninitialised locals whose `blockid_t` entries hold 1036. -/
def garbage_1036 : garbage := ⟨zero_block, fun _ => 1036⟩

/-- The fresh file system after 33 blocks of zeros were written to inode 1. -/
def im_big : inode_manager :=
  inode_manager.write_file (inode_manager.init 0) 1 zero_block 16896 0 garbage_zero

/-- The state `im_big` after inode 1 was removed. -/
def im_removed : inode_manager := inode_manager.remove_file im_big 1 0 garbage_zero

/-- The state `im_big` after inode 1 was rewritten with 32 blocks while the uninitialised
`indirect_block_buf` held 1036. -/
def im_shrunk : inode_manager :=
  inode_manager.write_file im_big 1 zero_block 16384 0 garbage_1036

/-- The state `im_shrunk` after inode 2 was allocated and one byte was written to it. -/
def im_shared : inode_manager :=
  inode_manager.write_file (inode_manager.alloc_inode im_shrunk 2 0).2
    2 (inode_manager.list_buf [7]) 1 0 garbage_zero

/-- The fresh file system after a second inode, the empty file 2, was allocated. -/
def im_slot2 : inode_manager := (inode_manager.alloc_inode (inode_manager.init 0) 2 0).2

/-- The state `im_slot2` after the byte 7 was written to inode 2 (it is held in block 1036). -/
def im_two : inode_manager :=
  inode_manager.write_file im_slot2 2 (inode_manager.list_buf [7]) 1 0 garbage_zero

/-- The state `im_two`, committed, after 33 blocks were written to inode 1. -/
def im_two_ops : inode_manager :=
  inode_manager.write_file im_two.commit 1 zero_block 16896 0 garbage_zero

/-- The state `im_two` after a third inode, the empty file 3, was allocated. -/
def im_slot3 : inode_manager := (inode_manager.alloc_inode im_two 2 0).2

/-- The state `im_slot3` after the byte 9 was written to inode 3 (it is held in block 1037),
committed. -/
def im_three : inode_manager :=
  (inode_manager.write_file im_slot3 3 (inode_manager.list_buf [9]) 1 0 garbage_zero).commit

/-- The state `im_three` after inode 3 was emptied. -/
def im_three_emptied : inode_manager :=
  inode_manager.write_file im_three 3 zero_block 0 0 garbage_zero

/-- The state `im_three` after two operations: inode 3 is emptied, 33 blocks are written
to inode 1. -/
def im_three_ops : inode_manager :=
  inode_manager.write_file im_three_emptied 1 zero_block 16896 0 garbage_zero

/-- The state with the bitmap bit of block 12 (the block of inode 1) cleared; inode 1 is the
empty root directory. -/
def im_unmarked : inode_manager :=
  ⟨block_manager.free_block (inode_manager.init 0).bm 12, (inode_manager.init 0).lm⟩

/-! ## Auxiliary notions of the proofs -/

/-- Block id `b` is the id of a data block: above the inode table and at most `BLOCK_NUM`. -/
def is_data_block (b : Nat) : Prop := IBLOCK INODE_NUM BLOCK_NUM < b ∧ b ≤ BLOCK_NUM

/-! ## The states of the worked example on the direct/indirect boundary -/

/-- The fresh file system after exactly `NDIRECT * BLOCK_SIZE` bytes were written to the
empty inode 1. -/
def im_direct : inode_manager :=
  inode_manager.write_file (inode_manager.init 0) 1 zero_block 16384 0 garbage_zero

/-- The state `im_direct` after `NDIRECT * BLOCK_SIZE + 1` bytes were written to inode 1. -/
def im_over : inode_manager :=
  inode_manager.write_file im_direct 1 zero_block 16385 0 garbage_zero

/-- The state `im_over` after `NDIRECT * BLOCK_SIZE` bytes were written to inode 1 again,
the uninitialised locals of that call holding `g`. -/
def im_back (g : garbage) : inode_manager :=
  inode_manager.write_file im_over 1 zero_block 16384 0 g

/-! ## The file system client (`lab4/yfs_client.cc`)

The client reaches the extent service through `ec` and the lock service through `lc`; the
classes `extent_client` and `lock_client` are not among the sources.  The extent service
is an argument `ec` of every operation, and the calls made on the two services are
recorded, in the order in which they are made. -/

/-- Modelled from the spec: the inode type `T_FILE` of the header `extent_protocol.h`, which
is not among the sources; it is a type other than 0 (2 in the header of the lab). -/
def T_FILE : Nat := 2

/-- Modelled from the spec: the inode type `T_SLINK` of the header `extent_protocol.h`,
which is not among the sources; it is a type other than 0 (3 in the header of the lab). -/
def T_SLINK : Nat := 3

namespace extent_protocol

/-- Modelled from the spec: the status codes of the extent protocol, `OK, RPCERR, NOENT,
IOERR, EXIST`; the header `extent_protocol.h` is not among the sources. -/
inductive status where
  | OK
  | RPCERR
  | NOENT
  | IOERR
  | EXIST
  deriving DecidableEq

/-- Modelled from the spec: the attributes that `getattr` copies, type, size and the three
times; the header `extent_protocol.h` is not among the sources. -/
structure attr where
  type : Nat
  atime : Nat
  mtime : Nat
  ctime : Nat
  size : Nat

end extent_protocol

/-- Modelled from the spec: the class `extent_client`, which is not among the sources, with
the calls `create`, `get`, `getattr`, `put` and `remove` of the extent interface.  A call
yields its status, the value it leaves in its reference argument, and the state of the
service after the call; `σ` is the type of the states of the service. -/
structure extent_client (σ : Type) where
  create : Nat → σ → extent_protocol.status × Nat × σ
  get : Nat → σ → extent_protocol.status × List Nat × σ
  getattr : Nat → σ → extent_protocol.status × extent_protocol.attr × σ
  put : Nat → List Nat → σ → extent_protocol.status × σ
  remove : Nat → σ → extent_protocol.status × σ

namespace yfs_client

/-- The enumeration `xxstatus` of `yfs_client.h`. -/
inductive xxstatus where
  | OK
  | RPCERR
  | NOENT
  | IOERR
  | EXIST
  deriving DecidableEq

/-- The record `struct dirent`; a name is a string of bytes. -/
structure dirent where
  name : List Nat
  inum : Nat
  deriving DecidableEq

/-- The record `struct fileinfo`. -/
structure fileinfo where
  size : Nat
  atime : Nat
  mtime : Nat
  ctime : Nat

/-- The record `struct dirinfo`. -/
structure dirinfo where
  atime : Nat
  mtime : Nat
  ctime : Nat

/-- A call that the client makes on the lock client `lc` or on the extent client `ec`, with
its arguments; for `create`, also the status and the inum that the call yields. -/
inductive event where
  | acquire (inum : Nat)
  | release (inum : Nat)
  | create (type : Nat) (st : extent_protocol.status) (inum : Nat)
  | get (inum : Nat)
  | getattr (inum : Nat)
  | put (inum : Nat) (content : List Nat)
  | remove (inum : Nat)
  deriving DecidableEq

/-- What lies behind `ec` and `lc`: the state of the extent service and the calls made so
far, the first call first. -/
structure world (σ : Type) where
  ext : σ
  trace : List event

namespace world

variable {σ : Type}

/-- The call `ec->create(type, ino_out)`. -/
def create (w : world σ) (ec : extent_client σ) (type : Nat) :
    extent_protocol.status × Nat × world σ :=
  ((ec.create type w.ext).1, (ec.create type w.ext).2.1,
    ⟨(ec.create type w.ext).2.2,
      w.trace ++ [event.create type (ec.create type w.ext).1 (ec.create type w.ext).2.1]⟩)

/-- The call `ec->get(inum, content)`. -/
def get (w : world σ) (ec : extent_client σ) (inum : Nat) :
    extent_protocol.status × List Nat × world σ :=
  ((ec.get inum w.ext).1, (ec.get inum w.ext).2.1,
    ⟨(ec.get inum w.ext).2.2, w.trace ++ [event.get inum]⟩)

/-- The call `ec->getattr(inum, a)`. -/
def getattr (w : world σ) (ec : extent_client σ) (inum : Nat) :
    extent_protocol.status × extent_protocol.attr × world σ :=
  ((ec.getattr inum w.ext).1, (ec.getattr inum w.ext).2.1,
    ⟨(ec.getattr inum w.ext).2.2, w.trace ++ [event.getattr inum]⟩)

/-- The call `ec->put(inum, content)`. -/
def put (w : world σ) (ec : extent_client σ) (inum : Nat) (content : List Nat) :
    extent_protocol.status × world σ :=
  ((ec.put inum content w.ext).1,
    ⟨(ec.put inum content w.ext).2, w.trace ++ [event.put inum content]⟩)

/-- The call `ec->remove(inum)`. -/
def remove (w : world σ) (ec : extent_client σ) (inum : Nat) :
    extent_protocol.status × world σ :=
  ((ec.remove inum w.ext).1, ⟨(ec.remove inum w.ext).2, w.trace ++ [event.remove inum]⟩)

end world

variable {σ : Type}

/-- The method `_acquire`: the call `lc->acquire(inum)`. -/
def _acquire (inum : Nat) (w : world σ) : world σ :=
  { w with trace := w.trace ++ [event.acquire inum] }

/-- The method `_release`: the call `lc->release(inum)`. -/
def _release (inum : Nat) (w : world σ) : world σ :=
  { w with trace := w.trace ++ [event.release inum] }

/-! ### The strings and streams of the C++ library -/

/-- The method `std::string::resize(n, c)`. -/
def string_resize (s : List Nat) (n c : Nat) : List Nat :=
  s.take n ++ List.replicate (n - s.length) c

/-- The method `std::string::substr(pos, n)`; no result where it throws
`std::out_of_range`, which is when `pos` is beyond the size. -/
def string_substr (s : List Nat) (pos n : Nat) : Option (List Nat) :=
  if pos > s.length then none else some ((s.drop pos).take n)

/-- The method `std::string::replace(pos, len, t)`, `t` being the characters put in; no
result where it throws `std::out_of_range`, which is when `pos` is beyond the size. -/
def string_replace (s : List Nat) (pos len : Nat) (t : List Nat) : Option (List Nat) :=
  if pos > s.length then none
  else some (s.take pos ++ t ++ s.drop (pos + min len (s.length - pos)))

/-- The stream `std::istringstream ist(content)`: the characters ahead and the state bits
`eofbit` and `failbit`. -/
structure istream where
  rest : List Nat
  eofbit : Bool
  failbit : Bool

/-- The test `good()` of a stream. -/
def istream.good (ist : istream) : Bool := !ist.eofbit && !ist.failbit

/-- The call `std::getline(ist, str, '\0')`: the stream and the string after.  On a stream
that is not good the call sets `failbit` and leaves the string.  Otherwise the characters
up to the next 0 byte are taken and that byte is dropped; when the end is reached first,
`eofbit` is set, and `failbit` too if nothing was taken. -/
def getline (ist : istream) (str : List Nat) : istream × List Nat :=
  if ist.good then
    match ist.rest.dropWhile (fun c => c != 0) with
    | [] => (⟨[], true, (ist.rest.takeWhile (fun c => c != 0)).isEmpty⟩,
        ist.rest.takeWhile (fun c => c != 0))
    | _ :: rest1 => (⟨rest1, false, false⟩, ist.rest.takeWhile (fun c => c != 0))
  else ({ ist with failbit := true }, str)

/-- Whether a character is a decimal digit. -/
def is_digit (c : Nat) : Bool := 48 ≤ c && c ≤ 57

/-- The value of a string of decimal digits. -/
def digits_value (ds : List Nat) : Nat := ds.foldl (fun acc c => 10 * acc + (c - 48)) 0

/-- The extraction `ist >> n` of an `unsigned long long`: the stream and the number after.
On a stream that is not good the call sets `failbit` and leaves the number.  Otherwise
white space is skipped; at the end of the characters `eofbit` and `failbit` are set and the
number is left.  Then a sign, if there is one, and the digits are taken; `eofbit` is set
when that reaches the end.  Without a digit `failbit` is set and the number is 0; a value
above 2^64 - 1 sets `failbit` and gives 2^64 - 1; after a minus sign the value is negated
modulo 2^64. -/
def read_inum (ist : istream) (inum : Nat) : istream × Nat :=
  if ist.good then
    match ist.rest.dropWhile log_manager.is_space with
    | [] => (⟨[], true, true⟩, inum)
    | c :: s2 =>
      let s3 := if c = 43 ∨ c = 45 then s2 else c :: s2
      let ds := s3.takeWhile is_digit
      let s4 := s3.dropWhile is_digit
      if ds = [] then (⟨s4, s4.isEmpty, true⟩, 0)
      else if digits_value ds > 18446744073709551615 then
        (⟨s4, s4.isEmpty, true⟩, 18446744073709551615)
      else
        (⟨s4, s4.isEmpty, false⟩,
          if c = 45 then (18446744073709551616 - digits_value ds) % 18446744073709551616
          else digits_value ds)
  else ({ ist with failbit := true }, inum)

/-- The loop `while (std::getline(ist, entry.name, '\0')) { ist >> entry.inum;
list.push_back(entry); }` of `_readdir`, `entry` being the variable declared before the
loop; `fuel` bounds the rounds, each of which takes at least one character. -/
def readdir_loop : Nat → istream → dirent → List dirent → List dirent
  | 0, _, _, list => list
  | fuel + 1, ist, entry, list =>
    if (getline ist entry.name).1.failbit then list
    else
      readdir_loop fuel (read_inum (getline ist entry.name).1 entry.inum).1
        ⟨(getline ist entry.name).2, (read_inum (getline ist entry.name).1 entry.inum).2⟩
        (list ++ [⟨(getline ist entry.name).2,
          (read_inum (getline ist entry.name).1 entry.inum).2⟩])

/-- The entries that the loop of `_readdir` reads from the content of a directory; `junk`
is the value of `entry.inum`, which is not initialised, before the loop. -/
def decode (content : List Nat) (junk : Nat) : List dirent :=
  readdir_loop (content.length + 1) ⟨content, false, false⟩ ⟨[], junk⟩ []

/-- The text that the loop of `_writedir` writes: for each entry the name, a 0 byte and the
inum in decimal. -/
def encode : List dirent → List Nat
  | [] => []
  | e :: es => e.name ++ [0] ++ log_manager.decimal e.inum ++ encode es

/-! ### The operations -/

def _isfile (ec : extent_client σ) (inum : Nat) (w : world σ) : Bool × world σ :=
  let r := w.getattr ec inum
  if r.1 ≠ extent_protocol.status.OK then (false, r.2.2)
  else if r.2.1.type ≠ T_FILE then (false, r.2.2)
  else (true, r.2.2)

def isfile (ec : extent_client σ) (inum : Nat) (w : world σ) : Bool × world σ :=
  let r := _isfile ec inum (_acquire inum w)
  (r.1, _release inum r.2)

def _isdir (ec : extent_client σ) (inum : Nat) (w : world σ) : Bool × world σ :=
  let r := w.getattr ec inum
  if r.1 ≠ extent_protocol.status.OK then (false, r.2.2)
  else if r.2.1.type ≠ T_DIR then (false, r.2.2)
  else (true, r.2.2)

def isdir (ec : extent_client σ) (inum : Nat) (w : world σ) : Bool × world σ :=
  let r := _isdir ec inum (_acquire inum w)
  (r.1, _release inum r.2)

/-- The method `_getfile`; `fin` is the caller's record, left as it is on failure. -/
def _getfile (ec : extent_client σ) (inum : Nat) (fin : fileinfo) (w : world σ) :
    xxstatus × fileinfo × world σ :=
  let r := w.getattr ec inum
  if r.1 ≠ extent_protocol.status.OK then (xxstatus.IOERR, fin, r.2.2)
  else (xxstatus.OK, ⟨r.2.1.size, r.2.1.atime, r.2.1.mtime, r.2.1.ctime⟩, r.2.2)

def getfile (ec : extent_client σ) (inum : Nat) (fin : fileinfo) (w : world σ) :
    xxstatus × fileinfo × world σ :=
  let r := _getfile ec inum fin (_acquire inum w)
  (r.1, r.2.1, _release inum r.2.2)

def _getdir (ec : extent_client σ) (inum : Nat) (din : dirinfo) (w : world σ) :
    xxstatus × dirinfo × world σ :=
  let r := w.getattr ec inum
  if r.1 ≠ extent_protocol.status.OK then (xxstatus.IOERR, din, r.2.2)
  else (xxstatus.OK, ⟨r.2.1.atime, r.2.1.mtime, r.2.1.ctime⟩, r.2.2)

def getdir (ec : extent_client σ) (inum : Nat) (din : dirinfo) (w : world σ) :
    xxstatus × dirinfo × world σ :=
  let r := _getdir ec inum din (_acquire inum w)
  (r.1, r.2.1, _release inum r.2.2)

/-- The method `_getslink` (`slinkinfo` is `fileinfo`). -/
def _getslink (ec : extent_client σ) (inum : Nat) (sin : fileinfo) (w : world σ) :
    xxstatus × fileinfo × world σ :=
  let r := w.getattr ec inum
  if r.1 ≠ extent_protocol.status.OK then (xxstatus.IOERR, sin, r.2.2)
  else (xxstatus.OK, ⟨r.2.1.size, r.2.1.atime, r.2.1.mtime, r.2.1.ctime⟩, r.2.2)

def getslink (ec : extent_client σ) (inum : Nat) (sin : fileinfo) (w : world σ) :
    xxstatus × fileinfo × world σ :=
  let r := _getslink ec inum sin (_acquire inum w)
  (r.1, r.2.1, _release inum r.2.2)

/-- The method `_readdir`; `list` is the caller's list, left as it is on failure, and `junk`
the value of the variable `entry.inum`, which is not initialised. -/
def _readdir (ec : extent_client σ) (dir : Nat) (list : List dirent) (junk : Nat)
    (w : world σ) : xxstatus × List dirent × world σ :=
  -- get content
  let r := w.get ec dir
  if r.1 ≠ extent_protocol.status.OK then (xxstatus.IOERR, list, r.2.2)
  -- read entries
  else (xxstatus.OK, decode r.2.1 junk, r.2.2)

def readdir (ec : extent_client σ) (dir : Nat) (list : List dirent) (junk : Nat)
    (w : world σ) : xxstatus × List dirent × world σ :=
  let r := _readdir ec dir list junk (_acquire dir w)
  (r.1, r.2.1, _release dir r.2.2)

def _writedir (ec : extent_client σ) (dir : Nat) (entries : List dirent) (w : world σ) :
    xxstatus × world σ :=
  -- prepare content, write to file
  let r := w.put ec dir (encode entries)
  if r.1 ≠ extent_protocol.status.OK then (xxstatus.IOERR, r.2) else (xxstatus.OK, r.2)

/-- The loop of `_lookup` over the entries: `(found, ino_out)` after it; the last entry with
the name is the one that stays. -/
def lookup_loop (name : List Nat) (entries : List dirent) (ino_out : Nat) : Bool × Nat :=
  entries.foldl (fun acc e => if e.name = name then (true, e.inum) else acc) (false, ino_out)

/-- The method `_lookup`: the status, `found` and `ino_out`; the two outputs are left as
they are when the directory cannot be read. -/
def _lookup (ec : extent_client σ) (parent : Nat) (name : List Nat) (found : Bool)
    (ino_out junk : Nat) (w : world σ) : xxstatus × Bool × Nat × world σ :=
  -- read directory entries
  let r := _readdir ec parent [] junk w
  if r.1 ≠ xxstatus.OK then (xxstatus.IOERR, found, ino_out, r.2.2)
  -- check if name exists
  else (xxstatus.OK, (lookup_loop name r.2.1 ino_out).1, (lookup_loop name r.2.1 ino_out).2, r.2.2)

def lookup (ec : extent_client σ) (parent : Nat) (name : List Nat) (found : Bool)
    (ino_out junk : Nat) (w : world σ) : xxstatus × Bool × Nat × world σ :=
  let r := _lookup ec parent name found ino_out junk (_acquire parent w)
  (r.1, r.2.1, r.2.2.1, _release parent r.2.2.2)

/-- The method `_has_duplicate`; `exist` and `old_inum`, which are not initialised, are read
only after `_lookup` has set them. -/
def _has_duplicate (ec : extent_client σ) (parent : Nat) (name : List Nat) (junk : Nat)
    (w : world σ) : Bool × world σ :=
  let r := _lookup ec parent name false junk junk w
  if r.1 ≠ xxstatus.OK then (true, r.2.2.2) else (r.2.1, r.2.2.2)

def _add_entry_and_save (ec : extent_client σ) (parent : Nat) (name : List Nat) (inum junk : Nat)
    (w : world σ) : Bool × world σ :=
  let r := _readdir ec parent [] junk w
  if r.1 ≠ xxstatus.OK then (false, r.2.2)
  else
    let r1 := _writedir ec parent (r.2.1 ++ [⟨name, inum⟩]) r.2.2
    if r1.1 ≠ xxstatus.OK then (false, r1.2) else (true, r1.2)

/-- The method `_mkdir` (the argument `mode` is not used): the status and `ino_out`. -/
def _mkdir (ec : extent_client σ) (parent : Nat) (name : List Nat) (ino_out junk : Nat)
    (w : world σ) : xxstatus × Nat × world σ :=
  -- on exist, return EXIST
  let r := _has_duplicate ec parent name junk w
  if r.1 then (xxstatus.EXIST, ino_out, r.2)
  else
    -- create file first
    let r1 := r.2.create ec T_DIR
    if r1.1 ≠ extent_protocol.status.OK then (xxstatus.IOERR, r1.2.1, r1.2.2)
    else
      -- write back
      let r2 := _add_entry_and_save ec parent name r1.2.1 junk r1.2.2
      if r2.1 = false then (xxstatus.IOERR, r1.2.1, r2.2) else (xxstatus.OK, r1.2.1, r2.2)

def mkdir (ec : extent_client σ) (parent : Nat) (name : List Nat) (ino_out junk : Nat)
    (w : world σ) : xxstatus × Nat × world σ :=
  let r := _mkdir ec parent name ino_out junk (_acquire parent w)
  (r.1, r.2.1, _release parent r.2.2)

/-- The method `_create` (the argument `mode` is not used): the status and `ino_out`. -/
def _create (ec : extent_client σ) (parent : Nat) (name : List Nat) (ino_out junk : Nat)
    (w : world σ) : xxstatus × Nat × world σ :=
  -- on exist, return EXIST
  let r := _has_duplicate ec parent name junk w
  if r.1 then (xxstatus.EXIST, ino_out, r.2)
  else
    -- create file first
    let r1 := r.2.create ec T_FILE
    if r1.1 ≠ extent_protocol.status.OK then (xxstatus.IOERR, r1.2.1, r1.2.2)
    else
      -- write back
      let r2 := _add_entry_and_save ec parent name r1.2.1 junk r1.2.2
      if r2.1 = false then (xxstatus.IOERR, r1.2.1, r2.2) else (xxstatus.OK, r1.2.1, r2.2)

def create (ec : extent_client σ) (parent : Nat) (name : List Nat) (ino_out junk : Nat)
    (w : world σ) : xxstatus × Nat × world σ :=
  let r := _create ec parent name ino_out junk (_acquire parent w)
  (r.1, r.2.1, _release parent r.2.2)

/-- The method `_setattr` (the test `size < 0` on a `size_t` never holds). -/
def _setattr (ec : extent_client σ) (ino size : Nat) (w : world σ) : xxstatus × world σ :=
  -- keep off invalid input
  if ino ≤ 0 then (xxstatus.IOERR, w)
  else
    -- read old content
    let r := w.get ec ino
    if r.1 ≠ extent_protocol.status.OK then (xxstatus.IOERR, r.2.2)
    -- just return if no resize should be applied
    else if size = r.2.1.length then (xxstatus.OK, r.2.2)
    else
      -- resize and write back
      let r1 := r.2.2.put ec ino (string_resize r.2.1 size 0)
      if r1.1 ≠ extent_protocol.status.OK then (xxstatus.IOERR, r1.2) else (xxstatus.OK, r1.2)

def setattr (ec : extent_client σ) (ino size : Nat) (w : world σ) : xxstatus × world σ :=
  let r := _setattr ec ino size (_acquire ino w)
  (r.1, _release ino r.2)

/-- The method `_read`: the status and `data`, the caller's string; no result where
`substr` throws.  The offset `off` is an `off_t`; the test `size < 0` on a `size_t` never
holds. -/
def _read (ec : extent_client σ) (ino size : Nat) (off : Int) (data : List Nat) (w : world σ) :
    Option (xxstatus × List Nat) × world σ :=
  -- keep off invalid input
  if ino ≤ 0 then (some (xxstatus.IOERR, data), w)
  else if off < 0 then (some (xxstatus.IOERR, data), w)
  else
    -- return IOERR if offset is beyond file size
    let r := w.getattr ec ino
    if r.1 ≠ extent_protocol.status.OK then (some (xxstatus.IOERR, data), r.2.2)
    else if off ≥ (r.2.1.size : Int) then (some (xxstatus.IOERR, data), r.2.2)
    else
      -- read the file and get desired data
      let r1 := r.2.2.get ec ino
      if r1.1 ≠ extent_protocol.status.OK then (some (xxstatus.IOERR, data), r1.2.2)
      else
        match string_substr r1.2.1 off.toNat size with
        | none => (none, r1.2.2)
        | some s => (some (xxstatus.OK, s), r1.2.2)

/-- The method `read`; the lock is released when `_read` returns. -/
def read (ec : extent_client σ) (ino size : Nat) (off : Int) (data : List Nat) (w : world σ) :
    Option (xxstatus × List Nat) × world σ :=
  let r := _read ec ino size off data (_acquire ino w)
  match r.1 with
  | none => (none, r.2)
  | some x => (some x, _release ino r.2)

/-- The content that `_write` puts together from the old content: beyond the end the
string is resized to `off` and the data is appended, otherwise the data replaces the
characters from `off` on; no result where `replace` throws.  The test of the offset is made
on `(unsigned)off`, the offset modulo 2^32, and the sum `off + size` is a `size_t`. -/
def write_content (content : List Nat) (size : Nat) (off : Int) (data : List Nat) :
    Option (List Nat) :=
  if off.toNat % 4294967296 ≥ content.length then
    some (string_resize content off.toNat 0 ++ data.take size)
  else
    string_replace content off.toNat
      (if (off.toNat + size) % 18446744073709551616 ≤ content.length then size
        else content.length - off.toNat)
      (data.take size)

/-- The method `_write`, `data` holding the `size` bytes to write: the status; no result
where `replace` throws.  The output `bytes_written` is never assigned; the test `size < 0`
on a `size_t` never holds. -/
def _write (ec : extent_client σ) (ino size : Nat) (off : Int) (data : List Nat) (w : world σ) :
    Option xxstatus × world σ :=
  -- keep off invalid input
  if ino ≤ 0 then (some xxstatus.IOERR, w)
  else if off < 0 then (some xxstatus.IOERR, w)
  else
    -- read the file
    let r := w.get ec ino
    if r.1 ≠ extent_protocol.status.OK then (some xxstatus.IOERR, r.2.2)
    else
      -- replace old data with new data, then write back
      match write_content r.2.1 size off data with
      | none => (none, r.2.2)
      | some content =>
        let r1 := r.2.2.put ec ino content
        if r1.1 ≠ extent_protocol.status.OK then (some xxstatus.IOERR, r1.2)
        else (some xxstatus.OK, r1.2)

/-- The method `write`; the lock is released when `_write` returns. -/
def write (ec : extent_client σ) (ino size : Nat) (off : Int) (data : List Nat) (w : world σ) :
    Option xxstatus × world σ :=
  let r := _write ec ino size off data (_acquire ino w)
  match r.1 with
  | none => (none, r.2)
  | some x => (some x, _release ino r.2)

/-- The loop `for (it = entries.begin(); it != entries.end(); ++it) if (it->name == name)
break;` of `_unlink` and `_rmdir`: the first entry with the name. -/
def find_entry (name : List Nat) (entries : List dirent) : Option dirent :=
  entries.find? (fun e => e.name = name)

/-- The list after `entries.erase(it)`, `it` being the first entry with the name. -/
def erase_entry (name : List Nat) : List dirent → List dirent
  | [] => []
  | e :: es => if e.name = name then es else e :: erase_entry name es

def _unlink (ec : extent_client σ) (parent : Nat) (name : List Nat) (junk : Nat) (w : world σ) :
    xxstatus × world σ :=
  -- invalid inode number
  if parent ≤ 0 then (xxstatus.IOERR, w)
  else
    -- read entries
    let r := _readdir ec parent [] junk w
    if r.1 ≠ xxstatus.OK then (xxstatus.IOERR, r.2.2)
    else
      -- locate target inode number
      match find_entry name r.2.1 with
      | none => (xxstatus.IOERR, r.2.2)
      | some it =>
        let r1 := _isfile ec it.inum r.2.2
        if r1.1 = false then (xxstatus.IOERR, r1.2)
        else
          -- remove file and entry in directory
          let r2 := r1.2.remove ec it.inum
          if r2.1 ≠ extent_protocol.status.OK then (xxstatus.IOERR, r2.2)
          else _writedir ec parent (erase_entry name r.2.1) r2.2

/-- The method `unlink`; `found` and `ino` are not initialised before `_lookup` (`junk`). -/
def unlink (ec : extent_client σ) (parent : Nat) (name : List Nat) (junk : Nat) (w : world σ) :
    xxstatus × world σ :=
  let r := _lookup ec parent name false junk junk (_acquire parent w)
  if r.1 ≠ xxstatus.OK then (xxstatus.IOERR, _release parent r.2.2.2)
  else if r.2.1 = false then (xxstatus.IOERR, _release parent r.2.2.2)
  else
    let r1 := _unlink ec parent name junk (_acquire r.2.2.1 r.2.2.2)
    (r1.1, _release parent (_release r.2.2.1 r1.2))

/-- The method `_symlink`: the status and `ino_out`. -/
def _symlink (ec : extent_client σ) (parent : Nat) (link name : List Nat) (ino_out junk : Nat)
    (w : world σ) : xxstatus × Nat × world σ :=
  -- keep off invalid input
  if parent ≤ 0 then (xxstatus.IOERR, ino_out, w)
  else
    -- create file first
    let r := w.create ec T_SLINK
    if r.1 ≠ extent_protocol.status.OK then (xxstatus.IOERR, r.2.1, r.2.2)
    else
      -- write path to file
      let r1 := r.2.2.put ec r.2.1 link
      if r1.1 ≠ extent_protocol.status.OK then (xxstatus.IOERR, r.2.1, r1.2)
      else
        -- add entry to directory
        let r2 := _add_entry_and_save ec parent name r.2.1 junk r1.2
        if r2.1 = false then (xxstatus.IOERR, r.2.1, r2.2) else (xxstatus.OK, r.2.1, r2.2)

def symlink (ec : extent_client σ) (parent : Nat) (link name : List Nat) (ino_out junk : Nat)
    (w : world σ) : xxstatus × Nat × world σ :=
  let r := _symlink ec parent link name ino_out junk (_acquire parent w)
  (r.1, r.2.1, _release parent r.2.2)

/-- The method `_readslink`: the status and `path`, the caller's string, which the call of
`get` fills. -/
def _readslink (ec : extent_client σ) (ino : Nat) (path : List Nat) (w : world σ) :
    xxstatus × List Nat × world σ :=
  -- keep off invalid input
  if ino ≤ 0 then (xxstatus.IOERR, path, w)
  else
    -- read path
    let r := w.get ec ino
    if r.1 ≠ extent_protocol.status.OK then (xxstatus.IOERR, r.2.1, r.2.2)
    else (xxstatus.OK, r.2.1, r.2.2)

def readslink (ec : extent_client σ) (ino : Nat) (path : List Nat) (w : world σ) :
    xxstatus × List Nat × world σ :=
  let r := _readslink ec ino path (_acquire ino w)
  (r.1, r.2.1, _release ino r.2.2)

def _rmdir (ec : extent_client σ) (parent : Nat) (name : List Nat) (junk : Nat) (w : world σ) :
    xxstatus × world σ :=
  -- invalid inode number
  if parent ≤ 0 then (xxstatus.IOERR, w)
  else
    -- read entries
    let r := _readdir ec parent [] junk w
    if r.1 ≠ xxstatus.OK then (xxstatus.IOERR, r.2.2)
    else
      -- locate target inode number
      match find_entry name r.2.1 with
      | none => (xxstatus.IOERR, r.2.2)
      | some it =>
        let r1 := _isdir ec it.inum r.2.2
        if r1.1 = false then (xxstatus.IOERR, r1.2)
        else
          -- check if target directory is empty
          let r2 := _readdir ec it.inum [] junk r1.2
          if r2.1 ≠ xxstatus.OK then (xxstatus.IOERR, r2.2.2)
          else if r2.2.1.length ≠ 0 then (xxstatus.IOERR, r2.2.2)
          else
            -- remove file and entry in directory
            let r3 := r2.2.2.remove ec it.inum
            if r3.1 ≠ extent_protocol.status.OK then (xxstatus.IOERR, r3.2)
            else _writedir ec parent (erase_entry name r.2.1) r3.2

/-- The method `rmdir`; `found` and `ino` are not initialised before `_lookup` (`junk`). -/
def rmdir (ec : extent_client σ) (parent : Nat) (name : List Nat) (junk : Nat) (w : world σ) :
    xxstatus × world σ :=
  let r := _lookup ec parent name false junk junk (_acquire parent w)
  if r.1 ≠ xxstatus.OK then (xxstatus.IOERR, _release parent r.2.2.2)
  else if r.2.1 = false then (xxstatus.IOERR, _release parent r.2.2.2)
  else
    let r1 := _rmdir ec parent name junk (_acquire r.2.2.1 r.2.2.2)
    (r1.1, _release parent (_release r.2.2.1 r1.2))

end yfs_client

/-! ## Notions used by the statements on the client -/

namespace yfs_client

/-- Whether a name begins with a decimal digit. -/
def starts_with_digit (name : List Nat) : Bool :=
  match name with
  | [] => false
  | c :: _ => is_digit c

/-- The content after `write(ino, size, off, data)` in the words of the spec, for the old
content `c`: when `off` is at or beyond the end, `c`, then zero bytes up to `off`, then the
data; otherwise the bytes of `c` before `off`, the data, and the bytes of `c` from
`min(off + size, |c|)` on. -/
def write_spec (c : List Nat) (off : Nat) (data : List Nat) : List Nat :=
  if off ≥ c.length then c ++ List.replicate (off - c.length) 0 ++ data
  else c.take off ++ data ++ c.drop (min (off + data.length) c.length)

/-- Whether a call can change what the extent service holds: `create`, `put` and
`remove`. -/
def event.writes : event → Bool
  | event.create _ _ _ => true
  | event.put _ _ => true
  | event.remove _ => true
  | _ => false

/-- Every call of the extent service on an inode is made while the lock of that inode is
held: `held` lists the locks held before the events, a lock acquired twice being listed
twice. -/
def calls_locked : List Nat → List event → Bool
  | _, [] => true
  | held, event.acquire i :: t => calls_locked (i :: held) t
  | held, event.release i :: t => calls_locked (held.erase i) t
  | held, event.create _ _ _ :: t => calls_locked held t
  | held, event.get i :: t => decide (i ∈ held) && calls_locked held t
  | held, event.getattr i :: t => decide (i ∈ held) && calls_locked held t
  | held, event.put i _ :: t => decide (i ∈ held) && calls_locked held t
  | held, event.remove i :: t => decide (i ∈ held) && calls_locked held t

/-- Every call of the extent service on an inode is made while the lock of that inode is
held, or on an inode that a call of `create` among the events before has yielded with
status `OK`; `made` lists those inodes. -/
def calls_locked_or_own : List Nat → List Nat → List event → Bool
  | _, _, [] => true
  | held, made, event.acquire i :: t => calls_locked_or_own (i :: held) made t
  | held, made, event.release i :: t => calls_locked_or_own (held.erase i) made t
  | held, made, event.create _ st i :: t =>
    calls_locked_or_own held (if st = extent_protocol.status.OK then i :: made else made) t
  | held, made, event.get i :: t =>
    (decide (i ∈ held) || decide (i ∈ made)) && calls_locked_or_own held made t
  | held, made, event.getattr i :: t =>
    (decide (i ∈ held) || decide (i ∈ made)) && calls_locked_or_own held made t
  | held, made, event.put i _ :: t =>
    (decide (i ∈ held) || decide (i ∈ made)) && calls_locked_or_own held made t
  | held, made, event.remove i :: t =>
    (decide (i ∈ held) || decide (i ∈ made)) && calls_locked_or_own held made t

/-- Every release is of a lock that is held, and after the events no lock is held: each
lock acquired has been released once. -/
def released_once : List Nat → List event → Bool
  | held, [] => held.isEmpty
  | held, event.acquire i :: t => released_once (i :: held) t
  | held, event.release i :: t => decide (i ∈ held) && released_once (held.erase i) t
  | held, event.create _ _ _ :: t => released_once held t
  | held, event.get _ :: t => released_once held t
  | held, event.getattr _ :: t => released_once held t
  | held, event.put _ _ :: t => released_once held t
  | held, event.remove _ :: t => released_once held t

/-- The locks that are acquired, in the order of the calls. -/
def acquired : List event → List Nat
  | [] => []
  | event.acquire i :: t => i :: acquired t
  | event.release _ :: t => acquired t
  | event.create _ _ _ :: t => acquired t
  | event.get _ :: t => acquired t
  | event.getattr _ :: t => acquired t
  | event.put _ _ :: t => acquired t
  | event.remove _ :: t => acquired t

/-- Whether an event is a call of `get`, `getattr`, `put` or `remove` on one of the inodes
of `S`. -/
def event.calls_on (S : List Nat) : event → Bool
  | event.get i => decide (i ∈ S)
  | event.getattr i => decide (i ∈ S)
  | event.put i _ => decide (i ∈ S)
  | event.remove i => decide (i ∈ S)
  | _ => false

/-- The public operations of the client, with their arguments. -/
inductive op where
  | isfile (inum : Nat)
  | isdir (inum : Nat)
  | getfile (inum : Nat)
  | getdir (inum : Nat)
  | getslink (inum : Nat)
  | mkdir (parent : Nat) (name : List Nat)
  | lookup (parent : Nat) (name : List Nat)
  | readdir (dir : Nat)
  | setattr (ino size : Nat)
  | create (parent : Nat) (name : List Nat)
  | read (ino size : Nat) (off : Int)
  | write (ino size : Nat) (off : Int) (data : List Nat)
  | unlink (parent : Nat) (name : List Nat)
  | symlink (parent : Nat) (link name : List Nat)
  | readslink (ino : Nat)
  | rmdir (parent : Nat) (name : List Nat)

/-- The run of a public operation: whether it returns (it does not where the library
throws; every call of the lock client is taken to return) and what lies behind `ec` and
`lc` after it.  The outputs of the caller start empty; `junk` is the value of the variables
that are not initialised. -/
def run {σ : Type} (ec : extent_client σ) (junk : Nat) : op → world σ → Bool × world σ
  | op.isfile inum, w => (true, (isfile ec inum w).2)
  | op.isdir inum, w => (true, (isdir ec inum w).2)
  | op.getfile inum, w => (true, (getfile ec inum ⟨0, 0, 0, 0⟩ w).2.2)
  | op.getdir inum, w => (true, (getdir ec inum ⟨0, 0, 0⟩ w).2.2)
  | op.getslink inum, w => (true, (getslink ec inum ⟨0, 0, 0, 0⟩ w).2.2)
  | op.mkdir parent name, w => (true, (mkdir ec parent name junk junk w).2.2)
  | op.lookup parent name, w => (true, (lookup ec parent name false junk junk w).2.2.2)
  | op.readdir dir, w => (true, (readdir ec dir [] junk w).2.2)
  | op.setattr ino size, w => (true, (setattr ec ino size w).2)
  | op.create parent name, w => (true, (create ec parent name junk junk w).2.2)
  | op.read ino size off, w => ((read ec ino size off [] w).1.isSome, (read ec ino size off [] w).2)
  | op.write ino size off data, w =>
    ((write ec ino size off data w).1.isSome, (write ec ino size off data w).2)
  | op.unlink parent name, w => (true, (unlink ec parent name junk w).2)
  | op.symlink parent link name, w => (true, (symlink ec parent link name junk junk w).2.2)
  | op.readslink ino, w => (true, (readslink ec ino [] w).2.2)
  | op.rmdir parent name, w => (true, (rmdir ec parent name junk w).2)

/-- In `unlink` and `rmdir` the lock of the child is taken on the inum that `_lookup` gives,
the last entry with the name in its reading of the directory, and the extent calls on the
child are made on the first entry with the name in the reading of `_unlink` or `_rmdir`.
This says that the two are the same inum; for the other operations it says nothing. -/
def same_child {σ : Type} (ec : extent_client σ) (junk : Nat) (s : σ) : op → Prop
  | op.unlink parent name =>
    ∀ it, find_entry name (decode (ec.get parent (ec.get parent s).2.2).2.1 junk) = some it →
      it.inum = (lookup_loop name (decode (ec.get parent s).2.1 junk) junk).2
  | op.rmdir parent name =>
    ∀ it, find_entry name (decode (ec.get parent (ec.get parent s).2.2).2.1 junk) = some it →
      it.inum = (lookup_loop name (decode (ec.get parent s).2.1 junk) junk).2
  | _ => True

end yfs_client

/-- Modelled from the spec: what the extent service keeps, which the class `extent_client`
(not among the sources) gives access to.  The service holds for each inum a type
(`kind`, 0 for an inode that does not exist) and a content (`holds`).  A `get` that
succeeds yields the content and a `getattr` that succeeds the type, and neither changes a
type or a content; a `put` that succeeds sets the content of its inode and nothing else
(`put(i, X)` then `get(i)` returns `X`); a `create` that succeeds yields an inum that did
not exist, gives it the type asked for and an empty content, and changes nothing else. -/
structure extent_client.stores {σ : Type} (ec : extent_client σ) (holds : σ → Nat → List Nat)
    (kind : σ → Nat → Nat) : Prop where
  get_content : ∀ i s, (ec.get i s).1 = extent_protocol.status.OK → (ec.get i s).2.1 = holds s i
  get_holds : ∀ i s j, holds (ec.get i s).2.2 j = holds s j
  get_kind : ∀ i s j, kind (ec.get i s).2.2 j = kind s j
  getattr_type : ∀ i s, (ec.getattr i s).1 = extent_protocol.status.OK →
    (ec.getattr i s).2.1.type = kind s i
  getattr_holds : ∀ i s j, holds (ec.getattr i s).2.2 j = holds s j
  getattr_kind : ∀ i s j, kind (ec.getattr i s).2.2 j = kind s j
  put_holds : ∀ i c s, (ec.put i c s).1 = extent_protocol.status.OK →
    ∀ j, holds (ec.put i c s).2 j = if j = i then c else holds s j
  put_kind : ∀ i c s, (ec.put i c s).1 = extent_protocol.status.OK →
    ∀ j, kind (ec.put i c s).2 j = kind s j
  create_new : ∀ t s, (ec.create t s).1 = extent_protocol.status.OK →
    kind s (ec.create t s).2.1 = 0
  create_kind : ∀ t s, (ec.create t s).1 = extent_protocol.status.OK →
    ∀ j, kind (ec.create t s).2.2 j = if j = (ec.create t s).2.1 then t else kind s j
  create_holds : ∀ t s, (ec.create t s).1 = extent_protocol.status.OK →
    ∀ j, holds (ec.create t s).2.2 j = if j = (ec.create t s).2.1 then [] else holds s j

/-! ## The extent service of the worked examples -/

namespace mem_extent

/-- The inodes 1, 2, ... of the example service, each with its type and its content. -/
abbrev state := List (Nat × List Nat)

/-- The type of an inode, 0 when it does not exist. -/
def kind (s : state) (i : Nat) : Nat := if i = 0 then 0 else (s.getD (i - 1) (0, [])).1

/-- The content of an inode. -/
def holds (s : state) (i : Nat) : List Nat := if i = 0 then [] else (s.getD (i - 1) (0, [])).2

/-- The example service: `create` hands out the next inum, and a call on an inode that does
not exist fails with `NOENT`. -/
def client : extent_client state where
  create := fun t s => (extent_protocol.status.OK, s.length + 1, s ++ [(t, [])])
  get := fun i s =>
    if kind s i = 0 then (extent_protocol.status.NOENT, [], s)
    else (extent_protocol.status.OK, holds s i, s)
  getattr := fun i s =>
    if kind s i = 0 then (extent_protocol.status.NOENT, ⟨0, 0, 0, 0, 0⟩, s)
    else (extent_protocol.status.OK, ⟨kind s i, 0, 0, 0, (holds s i).length⟩, s)
  put := fun i c s =>
    if kind s i = 0 then (extent_protocol.status.NOENT, s)
    else (extent_protocol.status.OK, s.set (i - 1) (kind s i, c))
  remove := fun i s =>
    if kind s i = 0 then (extent_protocol.status.NOENT, s)
    else (extent_protocol.status.OK, s.set (i - 1) (0, []))

end mem_extent

/-! ## The lock server (lab6/lock_server.cc) -/

namespace lock_protocol

/-- Modelled from the spec: the values of `lock_protocol::status` that the lock server
returns, `OK` and `NOENT`; the header `lock_protocol.h` is not among the sources. -/
inductive status where
  | OK
  | NOENT
  deriving DecidableEq

end lock_protocol

/-- The members of the class `lock_server`: the counter `nacquire`, the set `locks` of the
lock ids that are held, and the lock ids that have an entry in the map `conds` of condition
variables.  The mutex is held for the whole of a method, apart from the wait, so a state
is one between two methods. -/
structure lock_server where
  nacquire : Int
  locks : List Nat
  conds : List Nat

namespace lock_server

/-- The constructor. -/
def init : lock_server := ⟨0, [], []⟩

/-- The method `stat`: the status and `r`. -/
def stat (ls : lock_server) (_clt : Int) (_lid : Nat) : lock_protocol.status × Int × lock_server :=
  (lock_protocol.status.OK, ls.nacquire, ls)

/-- The method `acquire`, up to the point where it returns or waits: no status when the lock
is held, where the thread waits on `conds[lid]` (an access that enters `lid` into the map)
until it is woken and tests again; otherwise `lid` is inserted into `locks`, the condition
variable is created if needed, and the status is `OK`. -/
def acquire (ls : lock_server) (_clt : Int) (lid : Nat) : Option lock_protocol.status × lock_server :=
  -- wait until lock is free
  if lid ∈ ls.locks then (none, { ls with conds := ls.conds.insert lid })
  else
    -- now target lock is free and mutex is held: acquire lock,
    -- create condition variable if needed
    (some lock_protocol.status.OK,
      { ls with locks := ls.locks.insert lid, conds := ls.conds.insert lid })

/-- The method `release`; `locks.erase(lid)` leaves no `lid` in the set, and the signal on
`conds[lid]` enters `lid` into the map. -/
def release (ls : lock_server) (_clt : Int) (lid : Nat) : lock_protocol.status × lock_server :=
  -- if target lock is not existing
  if lid ∉ ls.locks then (lock_protocol.status.NOENT, ls)
  else
    (lock_protocol.status.OK,
      { ls with locks := ls.locks.filter (fun l => l ≠ lid), conds := ls.conds.insert lid })

/-- The server together with the grants: the pairs of a client and a lock id for which a
call of `acquire` of the client has returned and which the client has not released
since. -/
structure system where
  server : lock_server
  granted : List (Int × Nat)

/-- The steps of the system: a call of `acquire` that returns and grants the lock to the
client, a call of `acquire` that waits, a call of `release` by a client for a lock that it
has been granted and has not released, and a call of `stat`. -/
inductive step : system → system → Prop where
  | acquire (s : system) (clt : Int) (lid : Nat)
      (h : (s.server.acquire clt lid).1 = some lock_protocol.status.OK) :
      step s ⟨(s.server.acquire clt lid).2, (clt, lid) :: s.granted⟩
  | wait (s : system) (clt : Int) (lid : Nat) (h : (s.server.acquire clt lid).1 = none) :
      step s ⟨(s.server.acquire clt lid).2, s.granted⟩
  | release (s : system) (clt : Int) (lid : Nat) (h : (clt, lid) ∈ s.granted) :
      step s ⟨(s.server.release clt lid).2, s.granted.erase (clt, lid)⟩
  | stat (s : system) (clt : Int) (lid : Nat) :
      step s ⟨(s.server.stat clt lid).2.2, s.granted⟩

/-- The states that the system reaches from the constructed server with no grant. -/
inductive reachable : system → Prop where
  | init : reachable ⟨init, []⟩
  | step (s t : system) (hs : reachable s) (ht : step s t) : reachable t

end lock_server

/-! ## Proposal numbers (lab6/paxos.cc) -/

/-- The comparison `a.compare(b)` of two `std::string`s, by their bytes: the first byte in
which they differ decides, and a string is below every string that it begins. -/
def string_compare : List Nat → List Nat → Ordering
  | [], [] => Ordering.eq
  | [], _ :: _ => Ordering.lt
  | _ :: _, [] => Ordering.gt
  | a :: s, b :: t => if a < b then Ordering.lt else if b < a then Ordering.gt else string_compare s t

/-- Modelled from the spec: the proposal number `prop_t` of `paxos_protocol.h`, which is not
among the sources: the pair of the number `n`, an `unsigned`, and the name `m` of the
proposing node, a `std::string`. -/
structure prop_t where
  n : Nat
  m : List Nat
  deriving DecidableEq

namespace prop_t

/-- The function `operator>` on proposal numbers. -/
def gt (a b : prop_t) : Bool :=
  decide (a.n > b.n) || (decide (a.n = b.n) && decide (string_compare a.m b.m = Ordering.gt))

/-- The function `operator>=` on proposal numbers. -/
def ge (a b : prop_t) : Bool :=
  decide (a.n > b.n) || (decide (a.n = b.n) && decide (string_compare a.m b.m ≠ Ordering.lt))

end prop_t

/-! ## Paxos (lab6/paxos.cc) -/

namespace paxos

/-- A record that the acceptor hands to its log: the calls `loginstance`, `logprop` and
`logaccept` of the class `log`, which is not among the sources. -/
inductive logged where
  | loginstance (inst : Nat) (value : List Nat)
  | logprop (n : prop_t)
  | logaccept (n : prop_t) (v : List Nat)
  deriving DecidableEq

/-- The map access `values[k]`: the value stored for `k`, the empty string when there is
none. -/
def values_at (values : List (Nat × List Nat)) (k : Nat) : List Nat :=
  match values.lookup k with
  | some v => v
  | none => []

/-- The map after the access `values[k]`, which enters the empty string for a key that is
not there. -/
def values_touch (values : List (Nat × List Nat)) (k : Nat) : List (Nat × List Nat) :=
  match values.lookup k with
  | some _ => values
  | none => (k, []) :: values

/-- The map after `values[k] = v`. -/
def values_set (values : List (Nat × List Nat)) (k : Nat) (v : List Nat) :
    List (Nat × List Nat) :=
  (k, v) :: values.filter (fun x => x.1 ≠ k)

/-- The members of the class `acceptor` that its methods use: the name `me`, the highest
instance decided `instance_h`, the map `values` of the decided values, the proposal numbers
`n_h` and `n_a`, the value `v_a`, and the records handed to the log `l`. -/
structure acceptor where
  me : List Nat
  instance_h : Nat
  values : List (Nat × List Nat)
  n_h : prop_t
  n_a : prop_t
  v_a : List Nat
  l : List logged
  deriving DecidableEq

/-- Modelled from the spec: the reply `paxos_protocol::prepareres` of `paxos_protocol.h`,
which is not among the sources, with the fields `oldinstance`, `accept`, `n_a` and
`v_a`. -/
structure prepareres where
  oldinstance : Bool
  accept : Bool
  n_a : prop_t
  v_a : List Nat
  deriving DecidableEq

namespace acceptor

/-- The constructor `acceptor::acceptor(_cfg, _first, _me, _value)`. -/
def init (_first : Bool) (_me _value : List Nat) : acceptor :=
  if _first then
    ⟨_me, 1, values_set [] 1 _value, ⟨0, _me⟩, ⟨0, _me⟩, [], [logged.loginstance 1 _value]⟩
  else ⟨_me, 0, [], ⟨0, _me⟩, ⟨0, _me⟩, [], []⟩

/-- The method `commit_wo`; the upcall `cfg->paxos_commit`, into a class that is not among
the sources, does not touch the acceptor. -/
def commit_wo (a : acceptor) (inst : Nat) (value : List Nat) : acceptor :=
  if inst > a.instance_h then
    { a with values := values_set a.values inst value,
             l := a.l ++ [logged.loginstance inst value],
             instance_h := inst,
             n_h := ⟨0, a.me⟩,
             n_a := ⟨0, a.me⟩,
             v_a := [] }
  else a

/-- The method `commit`. -/
def commit (a : acceptor) (inst : Nat) (value : List Nat) : acceptor := a.commit_wo inst value

/-- The handler `preparereq` for the arguments `a.instance` and `a.n`: the reply and the
acceptor after.  The fields of the reply that a branch does not assign are those of `r0`,
the reply object that the handler is given. -/
def preparereq (a : acceptor) (inst : Nat) (n : prop_t) (r0 : prepareres) :
    prepareres × acceptor :=
  if inst ≤ a.instance_h then
    ({ r0 with accept := false, oldinstance := true, v_a := values_at a.values inst },
      { a with values := values_touch a.values inst })
  else if n.gt a.n_h then
    ({ r0 with accept := true, oldinstance := false, n_a := a.n_a, v_a := a.v_a },
      { a with n_h := n, l := a.l ++ [logged.logprop n] })
  else ({ r0 with accept := false, oldinstance := false }, a)

/-- The handler `acceptreq` for the arguments `a.instance`, `a.n` and `a.v`: the reply and
the acceptor after. -/
def acceptreq (a : acceptor) (_inst : Nat) (n : prop_t) (v : List Nat) : Bool × acceptor :=
  if n.ge a.n_h then (true, { a with n_a := n, v_a := v, l := a.l ++ [logged.logaccept n v] })
  else (false, a)

/-- The handler `decidereq` for the arguments `a.instance` and `a.v`: the acceptor after; no
result where a `VERIFY` fails and the process aborts.  The sum `instance_h + 1` is one of
`unsigned` numbers (the type of the argument of `commit_wo`, which is assigned to
`instance_h`), so it is 0 after 4294967295. -/
def decidereq (a : acceptor) (inst : Nat) (v : List Nat) : Option acceptor :=
  if inst = (a.instance_h + 1) % 4294967296 then
    if a.v_a = v then some (a.commit_wo inst a.v_a) else none
  else if inst ≤ a.instance_h then
    -- we are ahead ignore.
    some a
  else
    -- we are behind
    none

end acceptor

/-- The members of the class `proposer` that `run` uses. -/
structure proposer where
  me : List Nat
  break1 : Bool
  break2 : Bool
  stable : Bool
  my_n : prop_t
  deriving DecidableEq

/-- The constructor `proposer::proposer(_cfg, _acceptor, _me)`. -/
def proposer.init (_me : List Nat) : proposer := ⟨_me, false, false, true, ⟨0, _me⟩⟩

/-- A node: an acceptor and the proposer that holds a pointer `acc` to it. -/
structure node where
  acc : acceptor
  pro : proposer
  deriving DecidableEq

/-- The node of a name, where there is one. -/
def find (net : List node) (name : List Nat) : Option node :=
  net.find? (fun nd => nd.acc.me = name)

/-- The nodes after the acceptor of a name has changed. -/
def set_acc (net : List node) (name : List Nat) (a : acceptor) : List node :=
  net.map (fun nd => if nd.acc.me = name then { nd with acc := a } else nd)

/-- The nodes after the proposer of a name has changed. -/
def set_pro (net : List node) (name : List Nat) (p : proposer) : List node :=
  net.map (fun nd => if nd.acc.me = name then { nd with pro := p } else nd)

/-- What becomes of one call `cl->call(..., rpcc::to(1000))`: the request reaches the handler
and the reply comes back (`ok`); the bind or the call fails and the handler never runs
(`lost`); the handler runs and the call fails all the same, the reply being lost or late
(`no_reply`). -/
inductive delivery where
  | ok
  | lost
  | no_reply
  deriving DecidableEq

/-- The function `isamember`. -/
def isamember (m : List Nat) (nodes : List (List Nat)) : Bool := nodes.any (fun x => x = m)

/-- The method `proposer::majority`: whether `l2` holds a majority of the nodes of `l1`. -/
def majority (l1 l2 : List (List Nat)) : Bool :=
  (l1.filter (fun x => isamember x l2)).length ≥ l1.length / 2 + 1

/-- The method `proposer::setn`, on `unsigned` numbers. -/
def setn (acc_n_h my_n : prop_t) : prop_t :=
  { my_n with n := if (acc_n_h.n + 1) % 4294967296 > (my_n.n + 1) % 4294967296
      then (acc_n_h.n + 1) % 4294967296 else (my_n.n + 1) % 4294967296 }

/-- The loop of `proposer::prepare` over the nodes still to ask, at the proposer `me` with
the proposal number `my_n`: whether `prepare` returns true, `accepts`, `v`, the nodes after
and the deliveries left; `highest` is `highest_accepted_n` and `r0` a fresh reply. -/
def prepare_loop (me : List Nat) (inst : Nat) (my_n : prop_t) (r0 : prepareres) :
    List (List Nat) → List node → List (List Nat) → List Nat → prop_t → List delivery →
    Bool × List (List Nat) × List Nat × List node × List delivery
  | [], net, accepts, v, _, ds => (true, accepts, v, net, ds)
  | acceptor :: rest, net, accepts, v, highest, ds =>
    match ds, find net acceptor with
    | [], _ => prepare_loop me inst my_n r0 rest net accepts v highest []
    | _ :: ds1, none => prepare_loop me inst my_n r0 rest net accepts v highest ds1
    | delivery.lost :: ds1, some _ => prepare_loop me inst my_n r0 rest net accepts v highest ds1
    | delivery.no_reply :: ds1, some nd =>
      prepare_loop me inst my_n r0 rest
        (set_acc net acceptor (nd.acc.preparereq inst my_n r0).2) accepts v highest ds1
    | delivery.ok :: ds1, some nd =>
      let reply := (nd.acc.preparereq inst my_n r0).1
      let net1 := set_acc net acceptor (nd.acc.preparereq inst my_n r0).2
      if reply.oldinstance then
        match find net1 me with
        | none => (false, accepts, v, net1, ds1)
        | some mine => (false, accepts, v, set_acc net1 me (mine.acc.commit inst reply.v_a), ds1)
      else if reply.accept then
        if reply.n_a.gt highest then
          prepare_loop me inst my_n r0 rest net1 (accepts ++ [acceptor]) reply.v_a reply.n_a ds1
        else prepare_loop me inst my_n r0 rest net1 (accepts ++ [acceptor]) v highest ds1
      else prepare_loop me inst my_n r0 rest net1 accepts v highest ds1

/-- The method `proposer::prepare`. -/
def prepare (me : List Nat) (inst : Nat) (my_n : prop_t) (r0 : prepareres)
    (accepts : List (List Nat)) (nodes : List (List Nat)) (v : List Nat) (net : List node)
    (ds : List delivery) : Bool × List (List Nat) × List Nat × List node × List delivery :=
  prepare_loop me inst my_n r0 nodes net accepts v ⟨0, []⟩ ds

/-- The method `proposer::accept`: `accepts`, the nodes after and the deliveries left. -/
def accept (inst : Nat) (my_n : prop_t) (v : List Nat) :
    List (List Nat) → List node → List (List Nat) → List delivery →
    List (List Nat) × List node × List delivery
  | [], net, accepts, ds => (accepts, net, ds)
  | acceptor :: rest, net, accepts, ds =>
    match ds, find net acceptor with
    | [], _ => accept inst my_n v rest net accepts []
    | _ :: ds1, none => accept inst my_n v rest net accepts ds1
    | delivery.lost :: ds1, some _ => accept inst my_n v rest net accepts ds1
    | delivery.no_reply :: ds1, some nd =>
      accept inst my_n v rest (set_acc net acceptor (nd.acc.acceptreq inst my_n v).2) accepts ds1
    | delivery.ok :: ds1, some nd =>
      if (nd.acc.acceptreq inst my_n v).1 then
        accept inst my_n v rest (set_acc net acceptor (nd.acc.acceptreq inst my_n v).2)
          (accepts ++ [acceptor]) ds1
      else
        accept inst my_n v rest (set_acc net acceptor (nd.acc.acceptreq inst my_n v).2)
          accepts ds1

/-- The method `proposer::decide`: the nodes after and the deliveries left; no result where
a `VERIFY` of `decidereq` fails. -/
def decide_loop (inst : Nat) (v : List Nat) :
    List (List Nat) → List node → List delivery → Option (List node × List delivery)
  | [], net, ds => some (net, ds)
  | acceptor :: rest, net, ds =>
    match ds, find net acceptor with
    | [], _ => decide_loop inst v rest net []
    | _ :: ds1, none => decide_loop inst v rest net ds1
    | delivery.lost :: ds1, some _ => decide_loop inst v rest net ds1
    | _ :: ds1, some nd =>
      match nd.acc.decidereq inst v with
      | none => none
      | some a => decide_loop inst v rest (set_acc net acceptor a) ds1

/-- The method `proposer::run(instance, cur_nodes, newv)` at the node `me`, with what becomes
of its calls in the order in which it makes them: the result and the nodes after; no result
where a `VERIFY` fails, where a breakpoint ends the process, or where `me` is no node. -/
def run (net : List node) (me : List Nat) (inst : Nat) (cur_nodes : List (List Nat))
    (newv : List Nat) (r0 : prepareres) (ds : List delivery) : Option (Bool × List node) :=
  match find net me with
  | none => none
  | some mine =>
    if !mine.pro.stable then some (false, net)  -- already running proposer?
    else
      let my_n := setn mine.acc.n_h mine.pro.my_n
      let p := prepare me inst my_n r0 [] cur_nodes [] net ds
      if p.1 then
        if majority cur_nodes p.2.1 then
          let v := if p.2.2.1.length = 0 then newv else p.2.2.1
          if mine.pro.break1 then none
          else
            let a := accept inst my_n v p.2.1 p.2.2.2.1 [] p.2.2.2.2
            if majority cur_nodes a.1 then
              if mine.pro.break2 then none
              else
                match decide_loop inst v a.1 a.2.1 a.2.2 with
                | none => none
                | some d => some (true, set_pro d.1 me { mine.pro with my_n := my_n })
            else some (false, set_pro a.2.1 me { mine.pro with my_n := my_n })
        else some (false, set_pro p.2.2.2.1 me { mine.pro with my_n := my_n })
      else some (false, set_pro p.2.2.2.1 me { mine.pro with my_n := my_n })

/-- The value that a node records as decided for an instance, where it records one. -/
def decided (net : List node) (name : List Nat) (inst : Nat) : Option (List Nat) :=
  match find net name with
  | none => none
  | some nd => nd.acc.values.lookup inst

/-- Three nodes as their constructors leave them: the node "1" is the first one and holds
the value "v" for instance 1. -/
def three_nodes : List node :=
  [⟨acceptor.init true [49] [118], proposer.init [49]⟩,
   ⟨acceptor.init false [50] [118], proposer.init [50]⟩,
   ⟨acceptor.init false [51] [118], proposer.init [51]⟩]

/-- One run after the other: each step names the proposing node, the instance, the value
proposed and what becomes of the calls. -/
def runs (cur_nodes : List (List Nat)) (r0 : prepareres) :
    List (List Nat × Nat × List Nat × List delivery) → List node → Option (List node)
  | [], net => some net
  | (me, inst, newv, ds) :: rest, net =>
    match run net me inst cur_nodes newv r0 ds with
    | none => none
    | some r => runs cur_nodes r0 rest r.2

/-- Five runs on the three nodes, with what becomes of each call.  The nodes "3" and "2"
ask for instance 1 and learn its value from node "1".  Node "3" proposes "x" for instance 2;
all accept, and the decide call to node "2" is lost.  Node "1" proposes "y" for instance 3;
its calls to node "2" are lost, the nodes "1" and "3" accept, and the decide call to node
"3" is lost.  Node "3" proposes "z" for instance 3; its calls to node "1" and its decide
call to node "2" are lost. -/
def lagging_steps : List (List Nat × Nat × List Nat × List delivery) :=
  [([51], 1, [99], [delivery.ok]),
   ([50], 1, [98], [delivery.ok]),
   ([51], 2, [120], [delivery.ok, delivery.ok, delivery.ok, delivery.ok, delivery.ok,
      delivery.ok, delivery.ok, delivery.lost, delivery.ok]),
   ([49], 3, [121], [delivery.ok, delivery.lost, delivery.ok, delivery.ok, delivery.ok,
      delivery.ok, delivery.lost]),
   ([51], 3, [122], [delivery.lost, delivery.ok, delivery.ok, delivery.ok, delivery.ok,
      delivery.lost, delivery.ok])]

end paxos

/-! ## Sequences of operations of an acceptor -/

namespace paxos

/-- An operation of an acceptor: one of the three handlers, or the method `commit`. -/
inductive acceptor.op where
  | preparereq (inst : Nat) (n : prop_t) (r0 : prepareres)
  | acceptreq (inst : Nat) (n : prop_t) (v : List Nat)
  | decidereq (inst : Nat) (v : List Nat)
  | commit (inst : Nat) (value : List Nat)

/-- The acceptor after an operation; none where a `VERIFY` fails. -/
def acceptor.apply (a : acceptor) : acceptor.op → Option acceptor
  | acceptor.op.preparereq inst n r0 => some (a.preparereq inst n r0).2
  | acceptor.op.acceptreq inst n v => some (a.acceptreq inst n v).2
  | acceptor.op.decidereq inst v => a.decidereq inst v
  | acceptor.op.commit inst value => some (a.commit inst value)

/-- The acceptor after a sequence of operations, each of which returns. -/
def acceptor.apply_all (a : acceptor) : List acceptor.op → Option acceptor
  | [] => some a
  | o :: os =>
    match a.apply o with
    | none => none
    | some b => b.apply_all os

end paxos

/-! ## The replies to a prepare -/

namespace paxos

/-- The replies that the loop of `proposer::prepare` receives, in their order: the reply of
every node asked whose call is answered, up to the first reply with `oldinstance`, at which
`prepare` returns. -/
def replies_received (inst : Nat) (my_n : prop_t) (r0 : prepareres) :
    List (List Nat) → List node → List delivery → List prepareres
  | [], _, _ => []
  | acceptor :: rest, net, ds =>
    match ds, find net acceptor with
    | [], _ => replies_received inst my_n r0 rest net []
    | _ :: ds1, none => replies_received inst my_n r0 rest net ds1
    | delivery.lost :: ds1, some _ => replies_received inst my_n r0 rest net ds1
    | delivery.no_reply :: ds1, some nd =>
      replies_received inst my_n r0 rest
        (set_acc net acceptor (nd.acc.preparereq inst my_n r0).2) ds1
    | delivery.ok :: ds1, some nd =>
      if (nd.acc.preparereq inst my_n r0).1.oldinstance then [(nd.acc.preparereq inst my_n r0).1]
      else (nd.acc.preparereq inst my_n r0).1 ::
        replies_received inst my_n r0 rest
          (set_acc net acceptor (nd.acc.preparereq inst my_n r0).2) ds1

/-- The loop of `proposer::prepare` on the replies that it receives: whether `prepare`
returns true, and `v` and `highest_accepted_n` after. -/
def prepare_replies : List prepareres → List Nat → prop_t → Bool × List Nat × prop_t
  | [], v, highest => (true, v, highest)
  | reply :: rest, v, highest =>
    if reply.oldinstance then (false, v, highest)
    else if reply.accept then
      if reply.n_a.gt highest then prepare_replies rest reply.v_a reply.n_a
      else prepare_replies rest v highest
    else prepare_replies rest v highest

/-- The value that `proposer::run` hands to `accept` after a `prepare` that received these
replies: `v` as `prepare` leaves it, from the empty string and the number (0, ""), and
`newv` in its place where it is empty; none where `prepare` returns false. -/
def accept_value (replies : List prepareres) (newv : List Nat) : Option (List Nat) :=
  if (prepare_replies replies [] ⟨0, []⟩).1 then
    some (if (prepare_replies replies [] ⟨0, []⟩).2.1.length = 0 then newv
      else (prepare_replies replies [] ⟨0, []⟩).2.1)
  else none

/-- Four runs on the three nodes.  The nodes "3" and "2" ask for instance 1 and learn its
value from node "1".  Node "2" proposes "x" for instance 2: all answer its prepare, and of
its accept calls only the one to node "1" arrives.  Node "3" proposes the empty string for
instance 2: its prepare to node "1" is lost, the nodes "2" and "3" answer, and of its accept
calls only the one to node "3" arrives. -/
def empty_value_steps : List (List Nat × Nat × List Nat × List delivery) :=
  [([51], 1, [99], [delivery.ok]),
   ([50], 1, [98], [delivery.ok]),
   ([50], 2, [120], [delivery.ok, delivery.ok, delivery.ok, delivery.ok, delivery.lost,
      delivery.lost]),
   ([51], 2, [], [delivery.lost, delivery.ok, delivery.ok, delivery.lost, delivery.ok])]

end paxos

/-! ## The array accesses of `read_file` and `_write_file` -/

namespace inode_manager

/-- An access that `read_file` or `_write_file` makes to an array: the entry `blocks[i]` of
the inode, whose array holds `NDIRECT + 1` entries, the entry `indirect_block_buf[i]` of the
table, which holds `NINDIRECT` entries, or a read of the `len` bytes from `buf + off` of the
caller's buffer. -/
inductive access where
  | blocks (i : Nat)
  | indirect (i : Nat)
  | buf (off len : Nat)
  deriving DecidableEq

/-- Whether an access stays within its array, for a caller's buffer of `size` bytes. -/
def access.ok (size : Nat) : access → Bool
  | access.blocks i => decide (i ≤ NDIRECT)
  | access.indirect i => decide (i < NINDIRECT)
  | access.buf off len => decide (off + len ≤ size)

/-- The bytes of the caller's buffer that the loops over the direct blocks read for block
`i`: `size - i * BLOCK_SIZE` bytes for the padded block `i == last`, a whole block
otherwise. -/
def direct_read (size last i : Nat) : access :=
  if i = last then access.buf (i * BLOCK_SIZE) (size - i * BLOCK_SIZE)
  else access.buf (i * BLOCK_SIZE) BLOCK_SIZE

/-- The bytes of the caller's buffer that the loops over the indirect blocks read for the
entry `i` of the table. -/
def indirect_read (size block_num_new i : Nat) : access :=
  if i = block_num_new - NDIRECT - 1 then
    access.buf ((i + NDIRECT) * BLOCK_SIZE) (size - (i + NDIRECT) * BLOCK_SIZE)
  else access.buf ((i + NDIRECT) * BLOCK_SIZE) BLOCK_SIZE

/-- The accesses of `read_file` to `ino->blocks` and `indirect_block_buf`, in their order,
for an inode of the stored size `ino_size`. -/
def read_file_accesses (ino_size : Nat) : List access :=
  let block_num := block_num_of ino_size
  -- read direct entry
  let t1 := for_loop (fun i t => t ++ [access.blocks i])
    (if block_num > NDIRECT then NDIRECT else block_num) 0 []
  -- read indirect entry, if needed
  if block_num > NDIRECT then
    for_loop (fun i t => t ++ [access.indirect i]) (block_num - NDIRECT) 0
      (t1 ++ [access.blocks NDIRECT])
  else t1

/-- The accesses of `_write_file` to `ino->blocks`, `indirect_block_buf` and the caller's
buffer, in their order, for an inode of the stored size `ino_size` and the new size
`size`. -/
def _write_file_accesses (ino_size size : Nat) : List access :=
  let block_num_old := block_num_of ino_size
  let block_num_new := (size + BLOCK_SIZE - 1) / BLOCK_SIZE
  if block_num_new ≤ block_num_old then  -- write a smaller file
    -- write to old direct block
    let t1 := for_loop
      (fun i t => t ++ [direct_read size (block_num_new - 1) i, access.blocks i])
      (if block_num_new > NDIRECT then NDIRECT else block_num_new) 0 []
    -- read indirect block entry, if needed
    let t2 :=
      if block_num_new > NDIRECT then
        -- write to old indirect block, if needed
        for_loop (fun i t => t ++ [indirect_read size block_num_new i, access.indirect i])
          (block_num_new - NDIRECT) 0 (t1 ++ [access.blocks NDIRECT])
      else t1
    -- free unused direct blocks, if any
    let t3 := for_loop (fun i t => t ++ [access.blocks i])
      ((if block_num_old > NDIRECT then NDIRECT else block_num_old) - block_num_new)
      block_num_new t2
    -- free unused indirect blocks, if any
    if block_num_old > NDIRECT then
      let lo := if block_num_new > NDIRECT then block_num_new - NDIRECT else 0
      let t4 := for_loop (fun i t => t ++ [access.indirect i])
        (block_num_old - NDIRECT - lo) lo t3
      -- free indirect entry, if needed
      if block_num_new ≤ NDIRECT then t4 ++ [access.blocks NDIRECT] else t4
    else t3
  else  -- write a bigger file
    -- write to old direct blocks
    let t1 := for_loop
      (fun i t => t ++ [access.blocks i, access.buf (i * BLOCK_SIZE) BLOCK_SIZE])
      (if block_num_old > NDIRECT then NDIRECT else block_num_old) 0 []
    -- alloc and write to remaining direct blocks, if any
    let t2 := for_loop
      (fun i t => t ++ [access.blocks i, direct_read size (block_num_new - 1) i,
        access.blocks i])
      ((if block_num_new > NDIRECT then NDIRECT else block_num_new) - block_num_old)
      block_num_old t1
    -- read indirect entry, alloc first if needed
    if block_num_new > NDIRECT then
      let t3 := t2 ++ [access.blocks NDIRECT]
      let n_old := if block_num_old > NDIRECT then block_num_old - NDIRECT else 0
      -- write to old indirect blocks, if any
      let t4 := for_loop
        (fun i t => t ++ [access.indirect i, access.buf ((i + NDIRECT) * BLOCK_SIZE) BLOCK_SIZE])
        n_old 0 t3
      -- alloc and write to remaining indirect block, if needed
      let t5 := for_loop
        (fun i t => t ++ [access.indirect i, indirect_read size block_num_new i,
          access.indirect i])
        (block_num_new - NDIRECT - n_old) n_old t4
      -- save indirect block entry, if needed
      t5 ++ [access.blocks NDIRECT]
    else t2

end inode_manager

/-! ## The states of the log manager -/

namespace log_manager

/-- The states of the log manager reached from the constructor through the methods that
append a record (`create_log`, `update_log`, `delete_log`), `commit`, `rollback` and
`forward`, where these return. -/
inductive reachable : log_manager → Prop
  | init : reachable init
  | create_log (lm : log_manager) (inum type : Nat) :
      reachable lm → reachable (lm.create_log inum type)
  | update_log (lm : log_manager) (inum old_size : Nat) (old_buf : Block) (new_size : Nat)
      (new_buf : Block) :
      reachable lm → reachable (lm.update_log inum old_size old_buf new_size new_buf)
  | delete_log (lm : log_manager) (inum type : Nat) :
      reachable lm → reachable (lm.delete_log inum type)
  | commit (lm : log_manager) : reachable lm → reachable lm.commit
  | rollback (lm : log_manager) (entries : List log_entry) (lm1 : log_manager) :
      reachable lm → lm.rollback = some (entries, lm1) → reachable lm1
  | forward (lm : log_manager) (entries : List log_entry) (lm1 : log_manager) :
      reachable lm → lm.forward = some (entries, lm1) → reachable lm1

/-- The position `c` is the end of a commit record among the records `done`. -/
def at_commit (done : List log_entry) (c : Nat) : Prop :=
  ∃ pre post, done = pre ++ log_entry.commit :: post ∧ c = (log_text pre).length + 7

/-- The log is the text of well-formed records, of which `done` lie before the position
and `ahead` after it; the checkpoints decrease from the last one pushed, and each is the
end of a commit record before the position. -/
def consistent (lm : log_manager) : Prop :=
  ∃ done ahead : List log_entry,
    (∀ e ∈ done, e.wf) ∧ (∀ e ∈ ahead, e.wf) ∧
    lm.logfile = log_text done ++ log_text ahead ∧
    lm.pos = (log_text done).length ∧
    lm.previous_checkpoints.Pairwise (fun a b => a > b) ∧
    ∀ c ∈ lm.previous_checkpoints, at_commit done c

end log_manager

/-! ## The calls that write the log -/

namespace log_manager

/-- A call of one of the methods that write a record to the log. -/
inductive call where
  | create_log (inum type : Nat)
  | update_log (inum old_size : Nat) (old_buf : Block) (new_size : Nat) (new_buf : Block)
  | delete_log (inum type : Nat)
  | commit

/-- The record that a call is to write: an update record holds the first `old_size` bytes
of the one buffer and the first `new_size` bytes of the other. -/
def call.record : call → log_entry
  | call.create_log inum type => log_entry.create inum type
  | call.update_log inum old_size old_buf new_size new_buf =>
    log_entry.update inum old_size new_size (bytes_of old_buf old_size)
      (bytes_of new_buf new_size)
  | call.delete_log inum type => log_entry.deletee inum type
  | call.commit => log_entry.commit

/-- The log manager after a call. -/
def run (lm : log_manager) : call → log_manager
  | call.create_log inum type => lm.create_log inum type
  | call.update_log inum old_size old_buf new_size new_buf =>
    lm.update_log inum old_size old_buf new_size new_buf
  | call.delete_log inum type => lm.delete_log inum type
  | call.commit => lm.commit

/-- The log manager after a sequence of calls. -/
def run_all (lm : log_manager) : List call → log_manager
  | [] => lm
  | c :: cs => (lm.run c).run_all cs

end log_manager

/-! ## A file held in the block of its inode -/

theorem BLOCK_NUM_eq : BLOCK_NUM = 32768 := rfl
theorem BPB_eq : BPB = 4096 := rfl
theorem BLOCK_SIZE_eq : BLOCK_SIZE = 512 := rfl
theorem INODE_NUM_eq : INODE_NUM = 1024 := rfl
theorem NDIRECT_eq : NDIRECT = 32 := rfl
theorem NINDIRECT_eq : NINDIRECT = 128 := rfl
theorem MAXFILESIZE_eq : MAXFILESIZE = 81408 := rfl
theorem BBLOCK_eq (b : Nat) : BBLOCK b = b / 4096 + 2 := rfl
theorem IBLOCK_eq (i : Nat) : IBLOCK i BLOCK_NUM = i + 11 := by
  simp [IBLOCK, BLOCK_NUM_eq, BPB_eq, IPB]; omega

theorem for_loop_succ {σ : Type} (body : Nat → σ → σ) (n i : Nat) (s : σ) :
    for_loop body (n + 1) i s = body (i + n) (for_loop body n i s) := by
  induction n generalizing i s with
  | zero => rfl
  | succ n ih =>
    show for_loop body (n + 1) (i + 1) (body i s) = _
    rw [ih]
    have : i + 1 + n = i + (n + 1) := by omega
    rw [this]
    rfl

/-- Loop invariant rule: an invariant that holds at entry and is kept by every iteration
holds at exit. -/
theorem for_loop_inv {σ : Type} (body : Nat → σ → σ) (P : Nat → σ → Prop) (n lo : Nat) (s : σ)
    (h0 : P lo s) (hstep : ∀ i s, lo ≤ i → i < lo + n → P i s → P (i + 1) (body i s)) :
    P (lo + n) (for_loop body n lo s) := by
  induction n generalizing lo s with
  | zero => exact h0
  | succ n ih =>
    have h1 : P (lo + 1) (body lo s) := hstep lo s (le_refl _) (by omega) h0
    have := ih (lo + 1) (body lo s) h1 (fun i s hi hlt => hstep i s (by omega) (by omega))
    have e : lo + 1 + n = lo + (n + 1) := by omega
    rw [e] at this
    exact this

namespace block_manager

theorem bit_mask_eq (pos : Nat) : bit_mask pos = 2 ^ (7 - pos % 8) := by
  simp [bit_mask, Nat.one_shiftLeft]

theorem and_two_pow_eq_zero (x k : Nat) : x &&& 2 ^ k = 0 ↔ x.testBit k = false := by
  rw [Nat.and_two_pow]
  cases h : x.testBit k <;> simp

theorem bit_set_eq_testBit (bitmap : Block) (pos : Nat) :
    bit_set bitmap pos = (bitmap (pos / 8)).testBit (7 - pos % 8) := by
  unfold bit_set
  rw [bit_mask_eq]
  cases h : (bitmap (pos / 8)).testBit (7 - pos % 8)
  · simp [(and_two_pow_eq_zero _ _).2 h]
  · have : ¬ (bitmap (pos / 8) &&& 2 ^ (7 - pos % 8) = 0) := by
      rw [and_two_pow_eq_zero]; simp [h]
    simpa using this

theorem bit_free_iff (bitmap : Block) (pos : Nat) :
    bitmap (pos / 8) &&& bit_mask pos = 0 ↔ bit_set bitmap pos = false := by
  simp [bit_set]

theorem testBit_255 (k : Nat) (h : k < 8) : Nat.testBit 255 k = true := by
  interval_cases k <;> decide

theorem bit_set_set_or (bitmap : Block) (pos q : Nat) :
    bit_set (bitmap.set (pos / 8) (bitmap (pos / 8) ||| bit_mask pos)) q =
      if q = pos then true else bit_set bitmap q := by
  simp only [bit_set_eq_testBit, Block.set]
  by_cases hq : q / 8 = pos / 8
  · simp only [hq, if_true, bit_mask_eq, Nat.testBit_lor, Nat.testBit_two_pow]
    by_cases h : q = pos
    · subst h; simp
    · have : ¬ (7 - pos % 8 = 7 - q % 8) := by omega
      simp [h, this]
  · have h : q ≠ pos := fun h => hq (by rw [h])
    simp [hq, h]

theorem bit_set_set_andnot (bitmap : Block) (pos q : Nat) :
    bit_set (bitmap.set (pos / 8) (bitmap (pos / 8) &&& (255 ^^^ bit_mask pos))) q =
      if q = pos then false else bit_set bitmap q := by
  simp only [bit_set_eq_testBit, Block.set]
  by_cases hq : q / 8 = pos / 8
  · simp only [hq, if_true, bit_mask_eq, Nat.testBit_land, Nat.testBit_xor, Nat.testBit_two_pow]
    rw [testBit_255 _ (by omega)]
    by_cases h : q = pos
    · subst h; simp
    · have : ¬ (7 - pos % 8 = 7 - q % 8) := by omega
      simp [h, this]
  · have h : q ≠ pos := fun h => hq (by rw [h])
    simp [hq, h]

theorem bit_set_mod (f : Block) (q : Nat) : bit_set (fun off => f off % 256) q = bit_set f q := by
  simp only [bit_set_eq_testBit]
  have : (256 : Nat) = 2 ^ 8 := by norm_num
  rw [this, Nat.testBit_mod_two_pow]
  have : 7 - q % 8 < 8 := by omega
  simp [this]

/-- Clearing a bit that is already 0 in a byte leaves the byte as it is. -/
theorem andnot_of_clear (x pos : Nat) (hx : x < 256)
    (h : x.testBit (7 - pos % 8) = false) : x &&& (255 ^^^ bit_mask pos) = x := by
  apply Nat.eq_of_testBit_eq
  intro i
  rw [Nat.testBit_land, Nat.testBit_xor, bit_mask_eq, Nat.testBit_two_pow]
  by_cases hi : i < 8
  · rw [testBit_255 i hi]
    by_cases e : 7 - pos % 8 = i
    · subst e; simp [h]
    · simp [e]
  · have : x.testBit i = false := by
      apply Nat.testBit_lt_two_pow
      calc x < 256 := hx
        _ = 2 ^ 8 := by norm_num
        _ ≤ 2 ^ i := Nat.pow_le_pow_right (by norm_num) (by omega)
    simp [this]

/-- What the inner loop of `alloc_block` finds: the first position from `pos` on, among
`fuel` positions, whose bit is 0. -/
theorem scan_bits_some (bitmap : Block) (fuel pos p : Nat)
    (h : scan_bits bitmap fuel pos = some p) :
    pos ≤ p ∧ p < pos + fuel ∧ bit_set bitmap p = false ∧
      ∀ q, pos ≤ q → q < p → bit_set bitmap q = true := by
  induction fuel generalizing pos with
  | zero => simp [scan_bits] at h
  | succ fuel ih =>
    unfold scan_bits at h
    split at h
    · rename_i h0
      injection h with h
      subst h
      exact ⟨le_refl _, by omega, (bit_free_iff _ _).1 h0, fun q h1 h2 => by omega⟩
    · rename_i h0
      obtain ⟨h1, h2, h3, h4⟩ := ih (pos + 1) h
      refine ⟨by omega, by omega, h3, fun q hq1 hq2 => ?_⟩
      by_cases e : q = pos
      · subst e
        cases hb : bit_set bitmap q
        · exact absurd ((bit_free_iff _ _).2 hb) h0
        · rfl
      · exact h4 q (by omega) hq2

theorem scan_bits_none (bitmap : Block) (fuel pos : Nat)
    (h : scan_bits bitmap fuel pos = none) :
    ∀ q, pos ≤ q → q < pos + fuel → bit_set bitmap q = true := by
  induction fuel generalizing pos with
  | zero => intro q h1 h2; omega
  | succ fuel ih =>
    unfold scan_bits at h
    split at h
    · simp at h
    · rename_i h0
      intro q hq1 hq2
      by_cases e : q = pos
      · subst e
        cases hb : bit_set bitmap q
        · exact absurd ((bit_free_iff _ _).2 hb) h0
        · rfl
      · exact ih (pos + 1) h q (by omega) (by omega)

theorem scan_bits_of_free (bitmap : Block) (fuel pos q : Nat) (h1 : pos ≤ q)
    (h2 : q < pos + fuel) (hq : bit_set bitmap q = false) :
    ∃ p, scan_bits bitmap fuel pos = some p := by
  cases h : scan_bits bitmap fuel pos with
  | some p => exact ⟨p, rfl⟩
  | none =>
    have := scan_bits_none bitmap fuel pos h q h1 h2
    rw [hq] at this
    exact absurd this (by simp)

end block_manager

namespace block_manager

theorem valid_bnum_iff (b : Nat) : valid_bnum b = true ↔ 1 ≤ b ∧ b ≤ BLOCK_NUM := by
  unfold valid_bnum
  split <;> simp <;> omega

theorem read_block_valid (d : disk) (b : Nat) (buf : Block) (h : valid_bnum b = true) :
    read_block d b buf = d.blocks (b - 1) := by
  simp [read_block, h, disk.read_block]

theorem write_block_valid (d : disk) (b : Nat) (buf : Block) (h : valid_bnum b = true) :
    (write_block d b buf).blocks =
      fun k => if k = b - 1 then (fun off => buf off % 256) else d.blocks k := by
  simp [write_block, h, disk.write_block]

theorem write_block_invalid (d : disk) (b : Nat) (buf : Block) (h : valid_bnum b = false) :
    write_block d b buf = d := by
  simp [write_block, h]

theorem alloc_loop_some (d : disk) (fuel start pos : Nat)
    (h : scan_bits (read_block d start zero_block) BPB 0 = some pos) :
    alloc_loop d (fuel + 1) start = ((start - BBLOCK 1) * BPB + pos + 1, mark d start pos) := by
  simp only [alloc_loop, h, mark]

theorem alloc_loop_none (d : disk) (fuel start : Nat)
    (h : scan_bits (read_block d start zero_block) BPB 0 = none) :
    alloc_loop d (fuel + 1) start = alloc_loop d fuel (start + 1) := by
  simp only [alloc_loop, h]

/-- What the outer loop of `alloc_block` does over the bitmap blocks `start` to
`start + fuel - 1`: it marks the first zero bit in scan order, or finds none. -/
theorem alloc_loop_spec (d : disk) (fuel start : Nat) :
    (∃ bb pos, start ≤ bb ∧ bb < start + fuel ∧ pos < BPB ∧
        bit_set (read_block d bb zero_block) pos = false ∧
        (∀ bb1 pos1, start ≤ bb1 → pos1 < BPB → (bb1 < bb ∨ (bb1 = bb ∧ pos1 < pos)) →
          bit_set (read_block d bb1 zero_block) pos1 = true) ∧
        alloc_loop d fuel start = ((bb - BBLOCK 1) * BPB + pos + 1, mark d bb pos)) ∨
    ((∀ bb1 pos1, start ≤ bb1 → bb1 < start + fuel → pos1 < BPB →
        bit_set (read_block d bb1 zero_block) pos1 = true) ∧
      alloc_loop d fuel start = (0, d)) := by
  induction fuel generalizing start with
  | zero =>
    right
    exact ⟨fun bb1 pos1 h1 h2 => by omega, rfl⟩
  | succ fuel ih =>
    cases hs : scan_bits (read_block d start zero_block) BPB 0 with
    | some pos =>
      left
      obtain ⟨h1, h2, h3, h4⟩ := scan_bits_some _ _ _ _ hs
      refine ⟨start, pos, le_refl _, by omega, by omega, h3, ?_, alloc_loop_some _ _ _ _ hs⟩
      intro bb1 pos1 hb1 hp1 hor
      rcases hor with hlt | ⟨he, hlt⟩
      · omega
      · subst he
        exact h4 pos1 (Nat.zero_le _) hlt
    | none =>
      have hnone := scan_bits_none _ _ _ hs
      rw [alloc_loop_none _ _ _ hs]
      rcases ih (start + 1) with ⟨bb, pos, h1, h2, h3, h4, h5, h6⟩ | ⟨h1, h2⟩
      · left
        refine ⟨bb, pos, by omega, by omega, h3, h4, ?_, h6⟩
        intro bb1 pos1 hb1 hp1 hor
        by_cases e : bb1 = start
        · subst e
          exact hnone pos1 (Nat.zero_le _) (by omega)
        · exact h5 bb1 pos1 (by omega) hp1 hor
      · right
        refine ⟨?_, h2⟩
        intro bb1 pos1 hb1 hb2 hp1
        by_cases e : bb1 = start
        · subst e
          exact hnone pos1 (Nat.zero_le _) (by omega)
        · exact h1 bb1 pos1 (by omega) (by omega) hp1

theorem scan_first : BBLOCK (IBLOCK INODE_NUM BLOCK_NUM + 1) = 2 := by decide
theorem scan_last : BBLOCK BLOCK_NUM = 10 := by decide

theorem alloc_block_eq (d : disk) : alloc_block d = alloc_loop d 9 2 := rfl

theorem valid_bnum_bitmap (bb : Nat) (h1 : 2 ≤ bb) (h2 : bb ≤ 10) : valid_bnum bb = true := by
  rw [valid_bnum_iff, BLOCK_NUM_eq]; omega

theorem bitmap_bit_eq (d : disk) (bb pos : Nat) (h : valid_bnum bb = true) :
    bit_set (read_block d bb zero_block) pos = bitmap_bit d bb pos := by
  simp [read_block, h, bitmap_bit]

theorem mark_blocks (d : disk) (bb pos : Nat) (h : valid_bnum bb = true) :
    (mark d bb pos).blocks = fun k => if k = bb - 1 then
      (fun off => (d.blocks (bb - 1)).set (pos / 8)
        (d.blocks (bb - 1) (pos / 8) ||| bit_mask pos) off % 256)
      else d.blocks k := by
  unfold mark
  rw [write_block_valid _ _ _ h, read_block_valid _ _ _ h]

theorem bitmap_bit_mark (d : disk) (bb pos bb1 pos1 : Nat) (h : valid_bnum bb = true)
    (h1 : 1 ≤ bb1) :
    bitmap_bit (mark d bb pos) bb1 pos1 =
      if bb1 = bb ∧ pos1 = pos then true else bitmap_bit d bb1 pos1 := by
  have hb := (valid_bnum_iff bb).1 h
  unfold bitmap_bit disk.read_block
  rw [mark_blocks _ _ _ h]
  by_cases e : bb1 = bb
  · subst e
    simp only [if_true, true_and]
    rw [bit_set_mod]
    exact bit_set_set_or _ _ _
  · have : ¬ (bb1 - 1 = bb - 1) := by omega
    simp [this, e]

end block_manager

namespace block_manager

/-- C6. Whenever some bit of the scanned bitmap blocks is 0, `alloc_block` sets exactly the
first 0 bit in scan order (bitmap blocks in increasing order, positions in increasing order,
that is most significant bit first within each byte), leaves every other bit of the bitmap
and every other block of the device as it was, and returns
`(bitmap_block - first_bitmap_block) * BPB + bit_index + 1`, the lowest block id whose bit
was 0. -/
theorem alloc_block_first_zero (d : disk) (bb pos : Nat)
    (hbb : BBLOCK (IBLOCK INODE_NUM BLOCK_NUM + 1) ≤ bb ∧ bb ≤ BBLOCK BLOCK_NUM)
    (hpos : pos < BPB) (hzero : bitmap_bit d bb pos = false) :
    ∃ bb0 pos0,
      BBLOCK (IBLOCK INODE_NUM BLOCK_NUM + 1) ≤ bb0 ∧ bb0 ≤ BBLOCK BLOCK_NUM ∧ pos0 < BPB ∧
      bitmap_bit d bb0 pos0 = false ∧
      (∀ bb1 pos1, BBLOCK (IBLOCK INODE_NUM BLOCK_NUM + 1) ≤ bb1 → pos1 < BPB →
        (bb1 < bb0 ∨ (bb1 = bb0 ∧ pos1 < pos0)) → bitmap_bit d bb1 pos1 = true) ∧
      bitmap_bit (alloc_block d).2 bb0 pos0 = true ∧
      (∀ bb1 pos1, 1 ≤ bb1 → ¬ (bb1 = bb0 ∧ pos1 = pos0) →
        bitmap_bit (alloc_block d).2 bb1 pos1 = bitmap_bit d bb1 pos1) ∧
      (∀ k, k ≠ bb0 - 1 → (alloc_block d).2.blocks k = d.blocks k) ∧
      (alloc_block d).1 = (bb0 - BBLOCK 1) * BPB + pos0 + 1 ∧
      (∀ bb1 pos1, BBLOCK (IBLOCK INODE_NUM BLOCK_NUM + 1) ≤ bb1 → bb1 ≤ BBLOCK BLOCK_NUM →
        pos1 < BPB → bitmap_bit d bb1 pos1 = false →
        (alloc_block d).1 ≤ (bb1 - BBLOCK 1) * BPB + pos1 + 1) := by
  rw [scan_first, scan_last] at *
  have hv : ∀ b, 2 ≤ b → b ≤ 10 → valid_bnum b = true := valid_bnum_bitmap
  rcases alloc_loop_spec d 9 2 with ⟨bb0, pos0, h1, h2, h3, h4, h5, h6⟩ | ⟨h1, h2⟩
  · have hv0 := hv bb0 h1 (by omega)
    rw [bitmap_bit_eq _ _ _ hv0] at h4
    rw [alloc_block_eq, h6]
    refine ⟨bb0, pos0, h1, by omega, h3, h4, ?_, ?_, ?_, ?_, rfl, ?_⟩
    · intro bb1 pos1 hb1 hp1 hor
      have := h5 bb1 pos1 hb1 hp1 hor
      rwa [bitmap_bit_eq _ _ _ (hv bb1 hb1 (by omega))] at this
    · simp [bitmap_bit_mark _ _ _ _ _ hv0 (by omega : 1 ≤ bb0)]
    · intro bb1 pos1 hb1 hne
      rw [bitmap_bit_mark _ _ _ _ _ hv0 hb1]
      simp [hne]
    · intro k hk
      show (mark d bb0 pos0).blocks k = d.blocks k
      rw [mark_blocks _ _ _ hv0]
      simp [hk]
    · intro bb1 pos1 hb1 hb2 hp1 hz
      show (bb0 - BBLOCK 1) * BPB + pos0 + 1 ≤ (bb1 - BBLOCK 1) * BPB + pos1 + 1
      have hB : BBLOCK 1 = 2 := rfl
      by_contra hlt
      have hor : bb1 < bb0 ∨ (bb1 = bb0 ∧ pos1 < pos0) := by
        rw [hB, BPB_eq] at hlt
        rw [BPB_eq] at hp1 h3
        omega
      have := h5 bb1 pos1 hb1 hp1 hor
      rw [bitmap_bit_eq _ _ _ (hv bb1 hb1 hb2), hz] at this
      exact absurd this (by simp)
  · have := h1 bb pos hbb.1 (by omega) hpos
    rw [bitmap_bit_eq _ _ _ (hv bb hbb.1 hbb.2), hzero] at this
    exact absurd this (by simp)

end block_manager

namespace block_manager

/-- The result of `alloc_block` from the first zero bit in scan order. -/
theorem alloc_block_of_first (d : disk) (bb pos : Nat) (h1 : 2 ≤ bb) (h2 : bb ≤ 10)
    (hpos : pos < BPB) (hz : bitmap_bit d bb pos = false)
    (hfirst : ∀ bb1 pos1, 2 ≤ bb1 → pos1 < BPB → (bb1 < bb ∨ (bb1 = bb ∧ pos1 < pos)) →
      bitmap_bit d bb1 pos1 = true) :
    alloc_block d = ((bb - 2) * BPB + pos + 1, mark d bb pos) := by
  have hv : ∀ b, 2 ≤ b → b ≤ 10 → valid_bnum b = true := valid_bnum_bitmap
  rcases alloc_loop_spec d 9 2 with ⟨bb0, pos0, g1, g2, g3, g4, g5, g6⟩ | ⟨g1, g2⟩
  · rw [bitmap_bit_eq _ _ _ (hv bb0 g1 (by omega))] at g4
    have e : bb0 = bb ∧ pos0 = pos := by
      by_contra hne
      have hor : (bb0 < bb ∨ (bb0 = bb ∧ pos0 < pos)) ∨ (bb < bb0 ∨ (bb = bb0 ∧ pos < pos0)) := by
        omega
      rcases hor with hor | hor
      · have := hfirst bb0 pos0 g1 g3 hor
        rw [g4] at this
        exact absurd this (by simp)
      · have := g5 bb pos h1 hpos hor
        rw [bitmap_bit_eq _ _ _ (hv bb h1 h2), hz] at this
        exact absurd this (by simp)
    obtain ⟨e1, e2⟩ := e
    subst e1 e2
    rw [alloc_block_eq, g6]
    rfl
  · have := g1 bb pos h1 (by omega) hpos
    rw [bitmap_bit_eq _ _ _ (hv bb h1 h2), hz] at this
    exact absurd this (by simp)

theorem full_disk_bits (bb pos : Nat) (h1 : 2 ≤ bb) (h2 : bb ≤ 9) (hpos : pos < BPB) :
    bitmap_bit full_disk bb pos = true := by
  rw [BPB_eq] at hpos
  unfold bitmap_bit
  rw [bit_set_eq_testBit]
  have h3 : 1 ≤ bb - 1 ∧ bb - 1 ≤ 8 ∧ pos / 8 < 512 := by omega
  have : full_disk.read_block bb (pos / 8) = 255 := by
    show (if 1 ≤ bb - 1 ∧ bb - 1 ≤ 8 ∧ pos / 8 < 512 then 255 else 0) = 255
    rw [if_pos h3]
  rw [this]
  exact testBit_255 _ (by omega)

theorem alloc_block_full_disk : alloc_block full_disk = (32769, mark full_disk 10 0) := by
  have := alloc_block_of_first full_disk 10 0 (by decide) (by decide) (by decide) (by decide)
    (fun bb1 pos1 hb hp hor => full_disk_bits bb1 pos1 hb (by omega) hp)
  rw [this]
  rfl

/-- C7, evaluated on the device whose bitmap marks every block id from 1 to `BLOCK_NUM` as
used: `alloc_block` does not return 0 there, it returns 32769, which `valid_bnum`
rejects, and it changes the device (it sets the first bit of block 10). -/
theorem alloc_block_full_returns_invalid :
    (∀ b, 1 ≤ b → b ≤ BLOCK_NUM →
      bitmap_bit full_disk ((b - 1) / BPB + 2) ((b - 1) % BPB) = true) ∧
    (alloc_block full_disk).1 = 32769 ∧
    valid_bnum (alloc_block full_disk).1 = false ∧
    (alloc_block full_disk).2.blocks 9 0 = 128 ∧ full_disk.blocks 9 0 = 0 := by
  refine ⟨?_, ?_, ?_, ?_, ?_⟩
  · intro b h1 h2
    rw [BLOCK_NUM_eq] at h2
    rw [BPB_eq]
    exact full_disk_bits _ _ (by omega) (by omega) (by rw [BPB_eq]; omega)
  · rw [alloc_block_full_disk]
  · rw [alloc_block_full_disk]; decide
  · rw [alloc_block_full_disk]; decide
  · decide

end block_manager

theorem disk.eq_of_blocks (d1 d2 : disk) (h : ∀ k off, d1.blocks k off = d2.blocks k off) :
    d1 = d2 := by
  cases d1 with
  | mk b1 p1 =>
    cases d2 with
    | mk b2 p2 =>
      have : b1 = b2 := funext fun k => funext fun off => h k off
      subst this
      rfl

namespace block_manager

theorem free_block_invalid (d : disk) (b : Nat) (h : valid_bnum b = false) :
    free_block d b = d := by
  simp [free_block, h]

theorem valid_bnum_BBLOCK (b : Nat) (h : valid_bnum b = true) : valid_bnum (BBLOCK b) = true := by
  rw [valid_bnum_iff, BLOCK_NUM_eq] at *
  rw [BBLOCK_eq]
  omega

theorem free_block_blocks (d : disk) (b : Nat) (h : valid_bnum b = true) :
    (free_block d b).blocks = fun k => if k = BBLOCK b - 1 then
      (fun off => (d.blocks (BBLOCK b - 1)).set ((b - 1) % BPB / 8)
        (d.blocks (BBLOCK b - 1) ((b - 1) % BPB / 8) &&& (255 ^^^ bit_mask ((b - 1) % BPB)))
        off % 256)
      else d.blocks k := by
  have hv := valid_bnum_BBLOCK b h
  simp only [free_block, h, if_true]
  rw [write_block_valid _ _ _ hv, read_block_valid _ _ _ hv]

theorem bitmap_bit_free_block (d : disk) (b bb1 pos1 : Nat) (h : valid_bnum b = true)
    (h1 : 1 ≤ bb1) :
    bitmap_bit (free_block d b) bb1 pos1 =
      if bb1 = BBLOCK b ∧ pos1 = (b - 1) % BPB then false else bitmap_bit d bb1 pos1 := by
  unfold bitmap_bit disk.read_block
  rw [free_block_blocks _ _ h]
  by_cases e : bb1 = BBLOCK b
  · subst e
    simp only [if_true, true_and]
    rw [bit_set_mod]
    exact bit_set_set_andnot _ _ _
  · have : ¬ (bb1 - 1 = BBLOCK b - 1) := by
      rw [BBLOCK_eq] at *
      omega
    simp [this, e]

/-- C9. `free_block b` leaves the whole device as it is when `b` is outside 1..`BLOCK_NUM`;
for `b` in range the bit it addresses (bit `(b - 1) mod BPB` of block `BBLOCK b`) is 0
afterwards, every other bit of that bitmap block and every other block are unchanged, and
nothing at all changes when that bit was 0 already. -/
theorem free_block_frame (d : disk) (b : Nat) :
    (¬ (1 ≤ b ∧ b ≤ BLOCK_NUM) → free_block d b = d) ∧
    (1 ≤ b ∧ b ≤ BLOCK_NUM →
      bitmap_bit (free_block d b) (BBLOCK b) ((b - 1) % BPB) = false ∧
      (∀ bb1 pos1, 1 ≤ bb1 → ¬ (bb1 = BBLOCK b ∧ pos1 = (b - 1) % BPB) →
        bitmap_bit (free_block d b) bb1 pos1 = bitmap_bit d bb1 pos1) ∧
      (∀ k, k ≠ BBLOCK b - 1 → (free_block d b).blocks k = d.blocks k) ∧
      (bitmap_bit d (BBLOCK b) ((b - 1) % BPB) = false → free_block d b = d)) := by
  constructor
  · intro h
    apply free_block_invalid
    rw [← valid_bnum_iff] at h
    simpa using h
  · intro h
    have hv := (valid_bnum_iff b).2 h
    have hB : 1 ≤ BBLOCK b := by rw [BBLOCK_eq]; omega
    refine ⟨?_, ?_, ?_, ?_⟩
    · simp [bitmap_bit_free_block _ _ _ _ hv hB]
    · intro bb1 pos1 h1 hne
      rw [bitmap_bit_free_block _ _ _ _ hv h1]
      simp [hne]
    · intro k hk
      rw [free_block_blocks _ _ hv]
      simp [hk]
    · intro hz
      apply disk.eq_of_blocks
      intro k off
      rw [free_block_blocks _ _ hv]
      by_cases hk : k = BBLOCK b - 1
      · subst hk
        simp only [if_true, Block.set]
        by_cases ho : off = (b - 1) % BPB / 8
        · subst ho
          simp only [if_true]
          rw [andnot_of_clear _ _ (d.is_byte _ _)]
          · exact Nat.mod_eq_of_lt (d.is_byte _ _)
          · rw [← bit_set_eq_testBit]
            exact hz
        · simp only [ho, if_false]
          exact Nat.mod_eq_of_lt (d.is_byte _ _)
      · simp [hk]

theorem disk_4095_bits (pos : Nat) (hpos : pos < 4095) : bitmap_bit disk_4095 2 pos = true := by
  unfold bitmap_bit
  rw [bit_set_eq_testBit]
  show Nat.testBit (if (2 - 1 : Nat) = 1 ∧ pos / 8 < 511 then 255
    else if (2 - 1 : Nat) = 1 ∧ pos / 8 = 511 then 254 else 0) (7 - pos % 8) = true
  by_cases h : pos / 8 < 511
  · rw [if_pos ⟨rfl, h⟩]
    exact testBit_255 _ (by omega)
  · rw [if_neg (fun hh => h hh.2), if_pos ⟨rfl, by omega⟩]
    have : 7 - pos % 8 = 1 ∨ 7 - pos % 8 = 2 ∨ 7 - pos % 8 = 3 ∨ 7 - pos % 8 = 4 ∨
        7 - pos % 8 = 5 ∨ 7 - pos % 8 = 6 ∨ 7 - pos % 8 = 7 := by omega
    rcases this with e | e | e | e | e | e | e <;> rw [e] <;> decide

theorem alloc_block_disk_4095 : alloc_block disk_4095 = (4096, mark disk_4095 2 4095) := by
  have := alloc_block_of_first disk_4095 2 4095 (by decide) (by decide) (by decide) (by decide)
    (fun bb1 pos1 hb hp hor => by
      have : bb1 = 2 ∧ pos1 < 4095 := by omega
      rw [this.1]
      exact disk_4095_bits pos1 this.2)
  rw [this]
  rfl

/-- C8, evaluated where the bits of the block ids 1 to 4095 are set: `alloc_block` returns
4096 and sets bit 4095 of bitmap block 2, `free_block 4096` addresses bit 4095 of bitmap
block `BBLOCK 4096 = 3`, so the bit set by `alloc_block` stays set and the bitmap is not
restored. -/
theorem alloc_then_free_4096_not_restored :
    (alloc_block disk_4095).1 = 4096 ∧
    bitmap_bit disk_4095 2 4095 = false ∧
    bitmap_bit (alloc_block disk_4095).2 2 4095 = true ∧
    BBLOCK 4096 = 3 ∧ (4096 - 1) % BPB = 4095 ∧
    bitmap_bit (free_block (alloc_block disk_4095).2 4096) 2 4095 = true ∧
    free_block (alloc_block disk_4095).2 4096 ≠ disk_4095 := by
  have hbit : bitmap_bit (free_block (mark disk_4095 2 4095) 4096) 2 4095 = true := by decide
  refine ⟨?_, by decide, ?_, by decide, by decide, ?_, ?_⟩
  · rw [alloc_block_disk_4095]
  · rw [alloc_block_disk_4095]; decide
  · rw [alloc_block_disk_4095]; exact hbit
  · rw [alloc_block_disk_4095]
    intro h
    have h2 : bitmap_bit (free_block (mark disk_4095 2 4095) 4096) 2 4095 =
        bitmap_bit disk_4095 2 4095 := by rw [h]
    rw [hbit] at h2
    exact absurd h2 (by decide)

end block_manager

namespace block_manager

/-- Witness of C6 on the freshly formatted device, whose first zero bit is bit 1035 of
bitmap block 2. -/
theorem alloc_block_first_zero_witness :
    (BBLOCK (IBLOCK INODE_NUM BLOCK_NUM + 1) ≤ 2 ∧ 2 ≤ BBLOCK BLOCK_NUM) ∧ 1035 < BPB ∧
    bitmap_bit init 2 1035 = false ∧
    ∃ bb0 pos0,
      BBLOCK (IBLOCK INODE_NUM BLOCK_NUM + 1) ≤ bb0 ∧ bb0 ≤ BBLOCK BLOCK_NUM ∧ pos0 < BPB ∧
      bitmap_bit init bb0 pos0 = false ∧
      (∀ bb1 pos1, BBLOCK (IBLOCK INODE_NUM BLOCK_NUM + 1) ≤ bb1 → pos1 < BPB →
        (bb1 < bb0 ∨ (bb1 = bb0 ∧ pos1 < pos0)) → bitmap_bit init bb1 pos1 = true) ∧
      bitmap_bit (alloc_block init).2 bb0 pos0 = true ∧
      (∀ bb1 pos1, 1 ≤ bb1 → ¬ (bb1 = bb0 ∧ pos1 = pos0) →
        bitmap_bit (alloc_block init).2 bb1 pos1 = bitmap_bit init bb1 pos1) ∧
      (∀ k, k ≠ bb0 - 1 → (alloc_block init).2.blocks k = init.blocks k) ∧
      (alloc_block init).1 = (bb0 - BBLOCK 1) * BPB + pos0 + 1 ∧
      (∀ bb1 pos1, BBLOCK (IBLOCK INODE_NUM BLOCK_NUM + 1) ≤ bb1 → bb1 ≤ BBLOCK BLOCK_NUM →
        pos1 < BPB → bitmap_bit init bb1 pos1 = false →
        (alloc_block init).1 ≤ (bb1 - BBLOCK 1) * BPB + pos1 + 1) :=
  ⟨by decide, by decide, by decide,
    alloc_block_first_zero init 2 1035 (by decide) (by decide) (by decide)⟩

/-- Witness of C9 on the freshly formatted device: block id 0 is out of range, the bit of
block id 1036 is 0 already, the bit of block id 1035 is set. -/
theorem free_block_frame_witness :
    ¬ (1 ≤ 0 ∧ 0 ≤ BLOCK_NUM) ∧ free_block init 0 = init ∧
    (1 ≤ 1036 ∧ 1036 ≤ BLOCK_NUM) ∧
    bitmap_bit init (BBLOCK 1036) ((1036 - 1) % BPB) = false ∧
    free_block init 1036 = init ∧
    bitmap_bit init (BBLOCK 1035) ((1035 - 1) % BPB) = true ∧
    bitmap_bit (free_block init 1035) (BBLOCK 1035) ((1035 - 1) % BPB) = false :=
  ⟨by decide, (free_block_frame init 0).1 (by decide), by decide, by decide,
    ((free_block_frame init 1036).2 (by decide)).2.2.2 (by decide), by decide,
    ((free_block_frame init 1035).2 (by decide)).1⟩

end block_manager

/-! ## The inode on disk -/

theorem u32_byte_lt (v k : Nat) : u32_byte v k < 256 := Nat.mod_lt _ (by decide)

theorem get_u32_of_bytes (f : Block) (off v : Nat)
    (h : ∀ k, k < 4 → f (off + k) = u32_byte v k) : get_u32 f off = v % 4294967296 := by
  have h0 := h 0 (by decide)
  have h1 := h 1 (by decide)
  have h2 := h 2 (by decide)
  have h3 := h 3 (by decide)
  simp only [Nat.add_zero] at h0
  unfold get_u32
  rw [h0, h1, h2, h3]
  unfold u32_byte
  norm_num
  omega

theorem get_u32_lt (f : Block) (off : Nat) (h : ∀ k, f k < 256) :
    get_u32 f off < 4294967296 := by
  unfold get_u32
  have h0 := h off
  have h1 := h (off + 1)
  have h2 := h (off + 2)
  have h3 := h (off + 3)
  omega

theorem get_u32_congr (f g : Block) (off : Nat) (h : ∀ k, k < 4 → f (off + k) = g (off + k)) :
    get_u32 f off = get_u32 g off := by
  have h0 := h 0 (by decide)
  have h1 := h 1 (by decide)
  have h2 := h 2 (by decide)
  have h3 := h 3 (by decide)
  simp only [Nat.add_zero] at h0
  unfold get_u32
  rw [h0, h1, h2, h3]

namespace inode

theorem decode_encode_type (ino : inode) (buf : Block) :
    (decode (fun off => ino.encode buf off % 256)).type = ino.type % 4294967296 := by
  simp only [decode]
  apply get_u32_of_bytes
  intro k hk
  simp only [encode, Nat.zero_add, hk, if_true]
  exact Nat.mod_eq_of_lt (u32_byte_lt _ _)

theorem decode_encode_size (ino : inode) (buf : Block) :
    (decode (fun off => ino.encode buf off % 256)).size = ino.size % 4294967296 := by
  simp only [decode]
  apply get_u32_of_bytes
  intro k hk
  have h1 : ¬ (4 + k < 4) := by omega
  have h2 : 4 + k < 8 := by omega
  have h3 : 4 + k - 4 = k := by omega
  simp only [encode, h1, h2, h3, if_true, if_false]
  exact Nat.mod_eq_of_lt (u32_byte_lt _ _)

theorem decode_encode_blocks (ino : inode) (buf : Block) (i : Nat) (hi : i ≤ NDIRECT) :
    (decode (fun off => ino.encode buf off % 256)).blocks i = ino.blocks i % 4294967296 := by
  simp only [decode]
  apply get_u32_of_bytes
  intro k hk
  rw [NDIRECT_eq] at hi
  have h1 : ¬ (20 + 4 * i + k < 4) := by omega
  have h2 : ¬ (20 + 4 * i + k < 8) := by omega
  have h3 : ¬ (20 + 4 * i + k < 12) := by omega
  have h4 : ¬ (20 + 4 * i + k < 16) := by omega
  have h5 : ¬ (20 + 4 * i + k < 20) := by omega
  have h6 : 20 + 4 * i + k < 20 + 4 * (NDIRECT + 1) := by rw [NDIRECT_eq]; omega
  have h7 : (20 + 4 * i + k - 20) / 4 = i := by omega
  have h8 : (20 + 4 * i + k - 20) % 4 = k := by omega
  simp only [encode, h1, h2, h3, h4, h5, h6, h7, h8, if_true, if_false]
  exact Nat.mod_eq_of_lt (u32_byte_lt _ _)

theorem decode_lt (d : disk) (k : Nat) :
    (decode (d.blocks k)).type < 4294967296 ∧ (decode (d.blocks k)).size < 4294967296 ∧
    ∀ i, (decode (d.blocks k)).blocks i < 4294967296 :=
  ⟨get_u32_lt _ _ (d.is_byte k), get_u32_lt _ _ (d.is_byte k),
    fun i => get_u32_lt _ _ (d.is_byte k)⟩

end inode

theorem bytes_table_table_bytes (tbl : Nat → Nat) (i : Nat) (hi : i < NINDIRECT) :
    bytes_table (fun off => table_bytes tbl off % 256) i = tbl i % 4294967296 := by
  simp only [bytes_table]
  apply get_u32_of_bytes
  intro k hk
  rw [NINDIRECT_eq] at hi
  have h1 : 4 * i + k < BLOCK_SIZE := by rw [BLOCK_SIZE_eq]; omega
  have h2 : (4 * i + k) / 4 = i := by omega
  have h3 : (4 * i + k) % 4 = k := by omega
  simp only [table_bytes, h1, h2, h3, if_true]
  exact Nat.mod_eq_of_lt (u32_byte_lt _ _)

namespace inode_manager

open block_manager

theorem valid_inum_iff (inum : Nat) : valid_inum inum = true ↔ 1 ≤ inum ∧ inum ≤ INODE_NUM := by
  unfold valid_inum
  split <;> simp <;> omega

theorem valid_bnum_IBLOCK (inum : Nat) (h : valid_inum inum = true) :
    valid_bnum (IBLOCK inum BLOCK_NUM) = true := by
  rw [valid_inum_iff, INODE_NUM_eq] at h
  rw [valid_bnum_iff, IBLOCK_eq, BLOCK_NUM_eq]
  omega

theorem get_inode_invalid (d : disk) (inum : Nat) (h : ¬ (1 ≤ inum ∧ inum ≤ INODE_NUM)) :
    get_inode d inum = none := by
  have : valid_inum inum = false := by
    rw [← valid_inum_iff] at h
    simpa using h
  simp [get_inode, this]

theorem get_inode_eq (d : disk) (inum : Nat) (h : valid_inum inum = true) :
    get_inode d inum = if (inode.decode (d.blocks (inum + 10))).type = 0 then none
      else some (inode.decode (d.blocks (inum + 10))) := by
  have e : IBLOCK inum BLOCK_NUM - 1 = inum + 10 := by rw [IBLOCK_eq]; omega
  simp only [get_inode, h, if_true, read_block_valid _ _ _ (valid_bnum_IBLOCK inum h), e]

theorem get_inode_some (d : disk) (inum : Nat) (ino : inode) (h : get_inode d inum = some ino) :
    valid_inum inum = true ∧ ino = inode.decode (d.blocks (inum + 10)) ∧ ino.type ≠ 0 := by
  by_cases hv : valid_inum inum = true
  · rw [get_inode_eq _ _ hv] at h
    split at h
    · exact absurd h (by simp)
    · rename_i hne
      injection h with h
      subst h
      exact ⟨hv, rfl, hne⟩
  · simp [get_inode, hv] at h

theorem get_inode_congr (d1 d2 : disk) (inum : Nat)
    (h : d1.blocks (inum + 10) = d2.blocks (inum + 10)) : get_inode d1 inum = get_inode d2 inum := by
  by_cases hv : valid_inum inum = true
  · rw [get_inode_eq _ _ hv, get_inode_eq _ _ hv, h]
  · simp [get_inode, hv]

theorem put_inode_blocks (d : disk) (inum : Nat) (ino : inode) (now : Nat)
    (h : valid_inum inum = true) :
    (put_inode d inum ino now).blocks = fun k => if k = inum + 10 then
      (fun off => ({ ino with ctime := now } : inode).encode (d.blocks (inum + 10)) off % 256)
      else d.blocks k := by
  have e : IBLOCK inum BLOCK_NUM - 1 = inum + 10 := by rw [IBLOCK_eq]; omega
  have hv := valid_bnum_IBLOCK inum h
  simp only [put_inode, h, if_true]
  rw [write_block_valid _ _ _ hv, read_block_valid _ _ _ hv, e]

theorem put_inode_other (d : disk) (inum : Nat) (ino : inode) (now k : Nat) (hk : k ≠ inum + 10) :
    (put_inode d inum ino now).blocks k = d.blocks k := by
  by_cases h : valid_inum inum = true
  · rw [put_inode_blocks _ _ _ _ h]
    simp [hk]
  · simp [put_inode, h]

/-- The inode read back after `put_inode`. -/
theorem get_inode_put_inode (d : disk) (inum : Nat) (ino : inode) (now : Nat)
    (h : valid_inum inum = true) (ht : ino.type % 4294967296 ≠ 0) :
    ∃ ino1, get_inode (put_inode d inum ino now) inum = some ino1 ∧
      ino1.type = ino.type % 4294967296 ∧ ino1.size = ino.size % 4294967296 ∧
      ∀ i, i ≤ NDIRECT → ino1.blocks i = ino.blocks i % 4294967296 := by
  rw [get_inode_eq _ _ h, put_inode_blocks _ _ _ _ h]
  simp only [if_true]
  have e1 := inode.decode_encode_type { ino with ctime := now } (d.blocks (inum + 10))
  have e2 := inode.decode_encode_size { ino with ctime := now } (d.blocks (inum + 10))
  rw [if_neg (by rw [e1]; exact ht)]
  exact ⟨_, rfl, e1, e2, fun i hi => inode.decode_encode_blocks _ _ i hi⟩

end inode_manager

/-! ## The allocator on block ids -/

namespace block_manager

theorem used_congr (d1 d2 : disk) (b : Nat)
    (h : d1.blocks ((b - 1) / BPB + 1) = d2.blocks ((b - 1) / BPB + 1)) :
    used d1 b = used d2 b := by
  unfold used bitmap_bit disk.read_block
  have e : (b - 1) / BPB + 2 - 1 = (b - 1) / BPB + 1 := rfl
  rw [e, h]

/-- The result of `alloc_block` when some block id up to 36864 is free: the lowest free id,
whose bit is set afterwards, nothing else being changed. -/
theorem alloc_block_spec (d : disk) (b0 : Nat) (h1 : 1 ≤ b0) (h2 : b0 ≤ 36864)
    (hfree : used d b0 = false) :
    1 ≤ (alloc_block d).1 ∧ (alloc_block d).1 ≤ b0 ∧ used d (alloc_block d).1 = false ∧
    (∀ b, 1 ≤ b → b < (alloc_block d).1 → used d b = true) ∧
    (∀ b, 1 ≤ b → (used (alloc_block d).2 b = true ↔ (used d b = true ∨ b = (alloc_block d).1))) ∧
    (∀ k, k ≠ ((alloc_block d).1 - 1) / BPB + 1 → (alloc_block d).2.blocks k = d.blocks k) := by
  have hv : ∀ b, 2 ≤ b → b ≤ 10 → valid_bnum b = true := valid_bnum_bitmap
  have hB : BBLOCK 1 = 2 := rfl
  rcases alloc_loop_spec d 9 2 with ⟨bb, pos, g1, g2, g3, g4, g5, g6⟩ | ⟨g1, g2⟩
  · have hvb := hv bb g1 (by omega)
    rw [bitmap_bit_eq _ _ _ hvb] at g4
    rw [alloc_block_eq, g6]
    simp only [hB]
    rw [BPB_eq] at g3
    have ea : ((bb - 2) * BPB + pos + 1 - 1) / BPB + 2 = bb := by rw [BPB_eq]; omega
    have ep : ((bb - 2) * BPB + pos + 1 - 1) % BPB = pos := by rw [BPB_eq]; omega
    have hearlier : ∀ b, 1 ≤ b → b < (bb - 2) * BPB + pos + 1 → used d b = true := by
      intro b hb1 hb2
      unfold used
      have := g5 ((b - 1) / BPB + 2) ((b - 1) % BPB) (by simp only [BPB_eq]; omega)
        (Nat.mod_lt _ (by rw [BPB_eq]; decide)) (by simp only [BPB_eq] at *; omega)
      rwa [bitmap_bit_eq _ _ _ (hv _ (by simp only [BPB_eq]; omega)
        (by simp only [BPB_eq] at *; omega))] at this
    refine ⟨by omega, ?_, ?_, hearlier, ?_, ?_⟩
    · by_contra hlt
      have := hearlier b0 h1 (by omega)
      rw [hfree] at this
      exact absurd this (by simp)
    · unfold used
      rw [ea, ep]
      exact g4
    · intro b hb
      unfold used
      rw [bitmap_bit_mark _ _ _ _ _ hvb (by simp only [BPB_eq]; omega)]
      by_cases e : b = (bb - 2) * BPB + pos + 1
      · subst e
        rw [ea, ep]
        simp
      · have : ¬ ((b - 1) / BPB + 2 = bb ∧ (b - 1) % BPB = pos) := by
          simp only [BPB_eq] at *
          omega
        simp [this, e]
    · intro k hk
      rw [mark_blocks _ _ _ hvb]
      have : k ≠ bb - 1 := by
        simp only [BPB_eq] at *
        omega
      simp [this]
  · have := g1 ((b0 - 1) / BPB + 2) ((b0 - 1) % BPB) (by simp only [BPB_eq]; omega)
      (by simp only [BPB_eq]; omega) (Nat.mod_lt _ (by rw [BPB_eq]; decide))
    rw [bitmap_bit_eq _ _ _ (hv _ (by simp only [BPB_eq]; omega)
      (by simp only [BPB_eq]; omega))] at this
    unfold used at hfree
    rw [hfree] at this
    exact absurd this (by simp)

theorem has_free_mono (d : disk) (m n : Nat) (h : has_free d n) (hmn : m ≤ n) : has_free d m := by
  obtain ⟨l, h1, h2, h3⟩ := h
  exact ⟨l, h1, by omega, h3⟩

theorem has_free_exists (d : disk) (n : Nat) (h : has_free d (n + 1)) :
    ∃ b, 1 ≤ b ∧ b ≤ BLOCK_NUM ∧ used d b = false := by
  obtain ⟨l, h1, h2, h3⟩ := h
  cases l with
  | nil => simp at h2
  | cons b l => exact ⟨b, h3 b (by simp)⟩

/-- After a device change that sets the bit of `a` and no other, one free block less is
left. -/
theorem has_free_after (d d1 : disk) (a n : Nat) (h : has_free d (n + 1))
    (hu : ∀ b, 1 ≤ b → b ≤ BLOCK_NUM → (used d1 b = true ↔ (used d b = true ∨ b = a))) :
    has_free d1 n := by
  obtain ⟨l, h1, h2, h3⟩ := h
  refine ⟨l.erase a, h1.erase a, ?_, ?_⟩
  · have := List.length_erase_of_mem (a := a) (l := l)
    by_cases ha : a ∈ l
    · rw [List.length_erase_of_mem ha]; omega
    · rw [List.erase_of_not_mem ha]; omega
  · intro b hb
    have hbl : b ∈ l := List.mem_of_mem_erase hb
    obtain ⟨g1, g2, g3⟩ := h3 b hbl
    refine ⟨g1, g2, ?_⟩
    have hne : b ≠ a := by
      intro e
      subst e
      exact absurd hb (h1.not_mem_erase)
    cases hc : used d1 b
    · rfl
    · rcases (hu b g1 g2).1 hc with h | h
      · rw [g3] at h; exact absurd h (by simp)
      · exact absurd h hne

/-- The bits of a device stay as they are when the bitmap blocks do. -/
theorem used_of_frame (d1 d2 : disk) (h : ∀ k, 1 ≤ k → k ≤ 9 → d1.blocks k = d2.blocks k)
    (b : Nat) (hb : b ≤ 36864) : used d1 b = used d2 b := by
  apply used_congr
  apply h
  · simp only [BPB_eq]; omega
  · simp only [BPB_eq]; omega

theorem has_free_of_frame (d1 d2 : disk) (n : Nat)
    (h : ∀ k, 1 ≤ k → k ≤ 9 → d1.blocks k = d2.blocks k) (hf : has_free d2 n) :
    has_free d1 n := by
  obtain ⟨l, h1, h2, h3⟩ := hf
  refine ⟨l, h1, h2, fun b hb => ?_⟩
  obtain ⟨g1, g2, g3⟩ := h3 b hb
  refine ⟨g1, g2, ?_⟩
  rw [used_of_frame d1 d2 h b (by rw [BLOCK_NUM_eq] at g2; omega)]
  exact g3

theorem write_block_blocks_ne (d : disk) (p : Nat) (buf : Block) (k : Nat) (hk : k ≠ p - 1) :
    (write_block d p buf).blocks k = d.blocks k := by
  by_cases hv : valid_bnum p = true
  · rw [write_block_valid _ _ _ hv]; simp [hk]
  · simp [write_block, hv]

theorem write_block_blocks_eq (d : disk) (p : Nat) (buf : Block) (hv : valid_bnum p = true) :
    (write_block d p buf).blocks (p - 1) = fun off => buf off % 256 := by
  rw [write_block_valid _ _ _ hv]; simp

theorem is_data_block_iff (b : Nat) : is_data_block b ↔ 1036 ≤ b ∧ b ≤ 32768 := by
  unfold is_data_block
  rw [IBLOCK_eq, INODE_NUM_eq, BLOCK_NUM_eq]
  omega

theorem is_data_block_valid (b : Nat) (h : is_data_block b) : valid_bnum b = true := by
  rw [is_data_block_iff] at h
  rw [valid_bnum_iff, BLOCK_NUM_eq]
  omega

end block_manager

/-! ## The loops that write blocks -/

namespace block_manager

/-- A loop of `write_block` leaves alone every block it does not address. -/
theorem write_loop_frame (P : Nat → Nat) (D : Nat → Block) (n lo : Nat) (d : disk) (k : Nat)
    (hk : ∀ i, lo ≤ i → i < lo + n → k ≠ P i - 1) :
    (for_loop (fun i d => write_block d (P i) (D i)) n lo d).blocks k = d.blocks k := by
  have := for_loop_inv (fun i d => write_block d (P i) (D i))
    (fun i d1 => i ≤ lo + n → d1.blocks k = d.blocks k) n lo d (fun _ => rfl)
    (fun i d1 h1 h2 ih _ => by
      show (write_block d1 (P i) (D i)).blocks k = d.blocks k
      rw [write_block_blocks_ne _ _ _ _ (hk i h1 h2)]
      exact ih (by omega))
  exact this (le_refl _)

/-- A loop of `write_block` over distinct valid ids leaves in each block what was written
to it. -/
theorem write_loop_spec (P : Nat → Nat) (D : Nat → Block) (n lo : Nat) (d : disk)
    (hv : ∀ i, lo ≤ i → i < lo + n → valid_bnum (P i) = true)
    (hinj : ∀ i j, lo ≤ i → i < lo + n → lo ≤ j → j < lo + n → P i = P j → i = j)
    (i : Nat) (h1 : lo ≤ i) (h2 : i < lo + n) :
    (for_loop (fun i d => write_block d (P i) (D i)) n lo d).blocks (P i - 1) =
      fun off => D i off % 256 := by
  have := for_loop_inv (fun i d => write_block d (P i) (D i))
    (fun m d1 => m ≤ lo + n → ∀ i, lo ≤ i → i < m → d1.blocks (P i - 1) = fun off => D i off % 256)
    n lo d (fun _ i g1 g2 => by omega)
    (fun m d1 g1 g2 ih _ i g3 g4 => by
      show (write_block d1 (P m) (D m)).blocks (P i - 1) = _
      by_cases e : i = m
      · subst e
        exact write_block_blocks_eq _ _ _ (hv i g1 g2)
      · have hne : P i ≠ P m := fun h => e (hinj i m g3 (by omega) g1 g2 h)
        have hvi := (valid_bnum_iff _).1 (hv i g3 (by omega))
        have hvm := (valid_bnum_iff _).1 (hv m g1 g2)
        rw [write_block_blocks_ne _ _ _ _ (by omega)]
        exact ih (by omega) i g3 (by omega))
  exact this (le_refl _) i h1 h2

theorem alloc_write_loop_spec (D : Nat → Block) (n lo total : Nat) (d0 : disk)
    (rec0 : Nat → Nat) (hmeta : ∀ b, 1 ≤ b → b ≤ 1035 → used d0 b = true)
    (hfree : has_free d0 total) (hn : n ≤ total) :
    (∀ b, 1 ≤ b → b ≤ 36864 →
      (used (for_loop (inode_manager.alloc_write_step D) n lo (d0, rec0)).1 b = true ↔
        (used d0 b = true ∨
          ∃ j, lo ≤ j ∧ j < lo + n ∧ (for_loop (inode_manager.alloc_write_step D) n lo (d0, rec0)).2 j = b))) ∧
    (∀ j, lo ≤ j → j < lo + n →
      is_data_block ((for_loop (inode_manager.alloc_write_step D) n lo (d0, rec0)).2 j) ∧
      used d0 ((for_loop (inode_manager.alloc_write_step D) n lo (d0, rec0)).2 j) = false ∧
      (for_loop (inode_manager.alloc_write_step D) n lo (d0, rec0)).1.blocks
        ((for_loop (inode_manager.alloc_write_step D) n lo (d0, rec0)).2 j - 1) = fun off => D j off % 256) ∧
    (∀ j j1, lo ≤ j → j < lo + n → lo ≤ j1 → j1 < lo + n →
      (for_loop (inode_manager.alloc_write_step D) n lo (d0, rec0)).2 j =
        (for_loop (inode_manager.alloc_write_step D) n lo (d0, rec0)).2 j1 → j = j1) ∧
    (∀ j, (j < lo ∨ lo + n ≤ j) → (for_loop (inode_manager.alloc_write_step D) n lo (d0, rec0)).2 j = rec0 j) ∧
    (∀ k, (k = 0 ∨ 10 ≤ k) →
      (∀ j, lo ≤ j → j < lo + n → k ≠ (for_loop (inode_manager.alloc_write_step D) n lo (d0, rec0)).2 j - 1) →
      (for_loop (inode_manager.alloc_write_step D) n lo (d0, rec0)).1.blocks k = d0.blocks k) ∧
    has_free (for_loop (inode_manager.alloc_write_step D) n lo (d0, rec0)).1 (total - n) := by
  have key := for_loop_inv (inode_manager.alloc_write_step D)
    (fun i s => i ≤ lo + n →
      (∀ b, 1 ≤ b → b ≤ 36864 →
        (used s.1 b = true ↔ (used d0 b = true ∨ ∃ j, lo ≤ j ∧ j < i ∧ s.2 j = b))) ∧
      (∀ j, lo ≤ j → j < i → is_data_block (s.2 j) ∧ used d0 (s.2 j) = false ∧
        s.1.blocks (s.2 j - 1) = fun off => D j off % 256) ∧
      (∀ j j1, lo ≤ j → j < i → lo ≤ j1 → j1 < i → s.2 j = s.2 j1 → j = j1) ∧
      (∀ j, (j < lo ∨ i ≤ j) → s.2 j = rec0 j) ∧
      (∀ k, (k = 0 ∨ 10 ≤ k) → (∀ j, lo ≤ j → j < i → k ≠ s.2 j - 1) →
        s.1.blocks k = d0.blocks k) ∧
      has_free s.1 (total - (i - lo)))
    n lo (d0, rec0) ?_ ?_
  · have := key (le_refl _)
    have e : total - (lo + n - lo) = total - n := by omega
    rw [e] at this
    exact this
  · intro _
    refine ⟨fun b h1 h2 => ?_, fun j h1 h2 => by omega, fun j j1 h1 h2 => by omega,
      fun j _ => rfl, fun k _ _ => rfl, ?_⟩
    · constructor
      · intro h; exact Or.inl h
      · rintro (h | ⟨j, g1, g2, _⟩)
        · exact h
        · omega
    · have e : total - (lo - lo) = total := by omega
      rw [e]; exact hfree
  · intro i s hi1 hi2 ih _
    obtain ⟨iu, ic, iinj, iout, ifr, ifree⟩ := ih (by omega)
    -- the allocation of this round
    have hf1 : has_free s.1 ((total - (i + 1 - lo)) + 1) := by
      have e : total - (i + 1 - lo) + 1 = total - (i - lo) := by omega
      rw [e]; exact ifree
    obtain ⟨b0, hb1, hb2, hb3⟩ := has_free_exists _ _ hf1
    rw [BLOCK_NUM_eq] at hb2
    obtain ⟨a1, a2, a3, a4, a5, a6⟩ := alloc_block_spec s.1 b0 hb1 (by omega) hb3
    have ha_meta : 1035 < (alloc_block s.1).1 := by
      by_contra hle
      have h1 := hmeta _ a1 (by omega)
      have h2 := (iu _ a1 (by omega)).2 (Or.inl h1)
      rw [a3] at h2
      exact absurd h2 (by simp)
    have ha_data : is_data_block (alloc_block s.1).1 := by
      rw [is_data_block_iff]; omega
    have ha_valid := is_data_block_valid _ ha_data
    have ha_fresh : used d0 (alloc_block s.1).1 = false := by
      cases hc : used d0 (alloc_block s.1).1
      · rfl
      · have h2 := (iu _ a1 (by omega)).2 (Or.inl hc)
        rw [a3] at h2
        exact absurd h2 (by simp)
    have ha_new : ∀ j, lo ≤ j → j < i → s.2 j ≠ (alloc_block s.1).1 := by
      intro j g1 g2 e
      have hd := (is_data_block_iff _).1 (ic j g1 g2).1
      have h2 := (iu (s.2 j) (by omega) (by omega)).2 (Or.inr ⟨j, g1, g2, rfl⟩)
      rw [e, a3] at h2
      exact absurd h2 (by simp)
    have hbit : ((alloc_block s.1).1 - 1) / BPB + 1 ≤ 8 ∧ 1 ≤ ((alloc_block s.1).1 - 1) / BPB + 1 := by
      simp only [BPB_eq]; omega
    -- the blocks after this round
    have hblk : ∀ k, k ≠ (alloc_block s.1).1 - 1 → (k = 0 ∨ 10 ≤ k) →
        (inode_manager.alloc_write_step D i s).1.blocks k = s.1.blocks k := by
      intro k hk1 hk2
      show (write_block (alloc_block s.1).2 (alloc_block s.1).1 (D i)).blocks k = _
      rw [write_block_blocks_ne _ _ _ _ hk1]
      exact a6 k (by omega)
    have hused : ∀ b, 1 ≤ b → b ≤ 36864 → used (inode_manager.alloc_write_step D i s).1 b =
        used (alloc_block s.1).2 b := by
      intro b g1 g2
      apply used_of_frame _ _ _ b g2
      intro k k1 k2
      show (write_block (alloc_block s.1).2 (alloc_block s.1).1 (D i)).blocks k = _
      exact write_block_blocks_ne _ _ _ _ (by omega)
    have hrec : ∀ j, (inode_manager.alloc_write_step D i s).2 j = if j = i then (alloc_block s.1).1 else s.2 j :=
      fun j => rfl
    refine ⟨?_, ?_, ?_, ?_, ?_, ?_⟩
    · intro b g1 g2
      rw [hused b g1 g2, a5 b g1, iu b g1 g2]
      constructor
      · rintro ((h | ⟨j, j1, j2, j3⟩) | h)
        · exact Or.inl h
        · exact Or.inr ⟨j, j1, by omega, by rw [hrec, if_neg (by omega)]; exact j3⟩
        · exact Or.inr ⟨i, hi1, by omega, by rw [hrec, if_pos rfl]; exact h.symm⟩
      · rintro (h | ⟨j, j1, j2, j3⟩)
        · exact Or.inl (Or.inl h)
        · rw [hrec] at j3
          by_cases e : j = i
          · rw [if_pos e] at j3
            exact Or.inr j3.symm
          · rw [if_neg e] at j3
            exact Or.inl (Or.inr ⟨j, j1, by omega, j3⟩)
    · intro j g1 g2
      rw [hrec]
      by_cases e : j = i
      · subst e
        rw [if_pos rfl]
        refine ⟨ha_data, ha_fresh, ?_⟩
        show (write_block (alloc_block s.1).2 (alloc_block s.1).1 (D j)).blocks _ = _
        exact write_block_blocks_eq _ _ _ ha_valid
      · rw [if_neg e]
        obtain ⟨c1, c2, c3⟩ := ic j g1 (by omega)
        refine ⟨c1, c2, ?_⟩
        have hd := (is_data_block_iff _).1 c1
        have hne := ha_new j g1 (by omega)
        rw [hblk _ (by omega) (Or.inr (by omega))]
        exact c3
    · intro j j1 g1 g2 g3 g4
      rw [hrec, hrec]
      by_cases e : j = i
      · by_cases e1 : j1 = i
        · intro _; omega
        · rw [if_pos e, if_neg e1]
          intro h
          exact absurd h.symm (ha_new j1 g3 (by omega))
      · by_cases e1 : j1 = i
        · rw [if_neg e, if_pos e1]
          intro h
          exact absurd h (ha_new j g1 (by omega))
        · rw [if_neg e, if_neg e1]
          exact iinj j j1 g1 (by omega) g3 (by omega)
    · intro j hj
      rw [hrec, if_neg (by omega)]
      exact iout j (by omega)
    · intro k hk1 hk2
      have h1 := hk2 i hi1 (by omega)
      rw [hrec, if_pos rfl] at h1
      rw [hblk k h1 hk1]
      apply ifr k hk1
      intro j g1 g2
      have := hk2 j g1 (by omega)
      rw [hrec, if_neg (by omega)] at this
      exact this
    · apply has_free_after s.1 _ (alloc_block s.1).1 _ hf1
      intro b g1 g2
      rw [BLOCK_NUM_eq] at g2
      rw [hused b g1 (by omega)]
      exact a5 b g1

end block_manager

namespace block_manager

/-- A loop of `free_block` changes bitmap blocks only. -/
theorem free_loop_frame (P : Nat → Nat) (n lo : Nat) (d : disk) (k : Nat)
    (hk : k = 0 ∨ 10 ≤ k) :
    (for_loop (fun i d => free_block d (P i)) n lo d).blocks k = d.blocks k := by
  have := for_loop_inv (fun i d => free_block d (P i))
    (fun i d1 => i ≤ lo + n → d1.blocks k = d.blocks k) n lo d (fun _ => rfl)
    (fun i d1 h1 h2 ih _ => by
      show (free_block d1 (P i)).blocks k = d.blocks k
      by_cases hv : valid_bnum (P i) = true
      · rw [free_block_blocks _ _ hv]
        have hb := (valid_bnum_iff _).1 hv
        rw [BLOCK_NUM_eq] at hb
        have : k ≠ BBLOCK (P i) - 1 := by rw [BBLOCK_eq]; omega
        simp only [this, if_false]
        exact ih (by omega)
      · rw [free_block_invalid _ _ (by simpa using hv)]
        exact ih (by omega))
  exact this (le_refl _)

theorem free_block_frame_blocks (d : disk) (b k : Nat) (hk : k = 0 ∨ 10 ≤ k) :
    (free_block d b).blocks k = d.blocks k := by
  by_cases hv : valid_bnum b = true
  · rw [free_block_blocks _ _ hv]
    have hb := (valid_bnum_iff _).1 hv
    rw [BLOCK_NUM_eq] at hb
    have : k ≠ BBLOCK b - 1 := by rw [BBLOCK_eq]; omega
    simp only [this, if_false]
  · rw [free_block_invalid _ _ (by simpa using hv)]

/-- A loop that writes to the blocks already recorded at the indices `lo` to `mid - 1` of an
array of block ids, followed by a loop that allocates and writes the blocks of the indices
`mid` to `hi - 1`: every block of the array holds what was written to it, the new ids are
fresh data blocks, and nothing else changes outside the bitmap. -/
theorem phase_spec (Dw D : Nat → Block) (rec : Nat → Nat) (lo mid hi total : Nat) (d : disk)
    (h1 : lo ≤ mid) (h2 : mid ≤ hi)
    (hmeta : ∀ b, 1 ≤ b → b ≤ 1035 → used d b = true)
    (hold : ∀ j, lo ≤ j → j < mid → is_data_block (rec j) ∧ used d (rec j) = true)
    (hinj : ∀ j j1, lo ≤ j → j < mid → lo ≤ j1 → j1 < mid → rec j = rec j1 → j = j1)
    (hfree : has_free d total) (hn : hi - mid ≤ total)
    (d1 : disk) (hd1 : d1 = for_loop (fun i d => write_block d (rec i) (Dw i)) (mid - lo) lo d)
    (r : disk × (Nat → Nat)) (hr : r = for_loop (inode_manager.alloc_write_step D) (hi - mid) mid (d1, rec)) :
    (∀ j, lo ≤ j → j < hi → is_data_block (r.2 j) ∧
      r.1.blocks (r.2 j - 1) = fun off => (if j < mid then Dw j else D j) off % 256) ∧
    (∀ j, (j < mid ∨ hi ≤ j) → r.2 j = rec j) ∧
    (∀ j j1, lo ≤ j → j < hi → lo ≤ j1 → j1 < hi → r.2 j = r.2 j1 → j = j1) ∧
    (∀ j, mid ≤ j → j < hi → used d (r.2 j) = false) ∧
    (∀ b, 1 ≤ b → b ≤ 36864 →
      (used r.1 b = true ↔ (used d b = true ∨ ∃ j, mid ≤ j ∧ j < hi ∧ r.2 j = b))) ∧
    (∀ k, (k = 0 ∨ 10 ≤ k) → (∀ j, lo ≤ j → j < hi → k ≠ r.2 j - 1) →
      r.1.blocks k = d.blocks k) ∧
    has_free r.1 (total - (hi - mid)) := by
  have elo : lo + (mid - lo) = mid := by omega
  have ehi : mid + (hi - mid) = hi := by omega
  have hvalid : ∀ i, lo ≤ i → i < lo + (mid - lo) → valid_bnum (rec i) = true :=
    fun i g1 g2 => is_data_block_valid _ (hold i g1 (by omega)).1
  have hdata : ∀ j, lo ≤ j → j < mid → 1036 ≤ rec j ∧ rec j ≤ 32768 :=
    fun j g1 g2 => (is_data_block_iff _).1 (hold j g1 g2).1
  -- the device after the first loop
  have hw_eq : ∀ i, lo ≤ i → i < mid → d1.blocks (rec i - 1) = fun off => Dw i off % 256 := by
    intro i g1 g2
    rw [hd1]
    exact write_loop_spec rec Dw (mid - lo) lo d hvalid
      (fun i j a1 a2 a3 a4 => hinj i j a1 (by omega) a3 (by omega)) i g1 (by omega)
  have hw_fr : ∀ k, (∀ i, lo ≤ i → i < mid → k ≠ rec i - 1) → d1.blocks k = d.blocks k := by
    intro k hk
    rw [hd1]
    exact write_loop_frame rec Dw (mid - lo) lo d k (fun i a1 a2 => hk i a1 (by omega))
  have hbm : ∀ k, 1 ≤ k → k ≤ 9 → d1.blocks k = d.blocks k := by
    intro k k1 k2
    apply hw_fr
    intro i g1 g2
    have := hdata i g1 g2
    omega
  have hused1 : ∀ b, b ≤ 36864 → used d1 b = used d b := used_of_frame d1 d hbm
  have hmeta1 : ∀ b, 1 ≤ b → b ≤ 1035 → used d1 b = true := by
    intro b g1 g2
    rw [hused1 b (by omega)]
    exact hmeta b g1 g2
  have hfree1 : has_free d1 total := has_free_of_frame d1 d total hbm hfree
  obtain ⟨s1, s2, s3, s4, s5, s6⟩ :=
    alloc_write_loop_spec D (hi - mid) mid total d1 rec hmeta1 hfree1 hn
  rw [← hr, ehi] at s1 s2 s3 s4 s5
  rw [← hr] at s6
  have hfresh : ∀ j, mid ≤ j → j < hi → used d (r.2 j) = false := by
    intro j g1 g2
    have hd := (is_data_block_iff _).1 (s2 j g1 g2).1
    rw [← hused1 _ (by omega)]
    exact (s2 j g1 g2).2.1
  have hne : ∀ i j, lo ≤ i → i < mid → mid ≤ j → j < hi → rec i ≠ r.2 j := by
    intro i j g1 g2 g3 g4 e
    have := hfresh j g3 g4
    rw [← e, (hold i g1 g2).2] at this
    exact absurd this (by simp)
  refine ⟨?_, ?_, ?_, hfresh, ?_, ?_, s6⟩
  · intro j g1 g2
    by_cases hj : j < mid
    · rw [s4 j (Or.inl hj), if_pos hj]
      refine ⟨(hold j g1 hj).1, ?_⟩
      have hd := hdata j g1 hj
      rw [s5 (rec j - 1) (Or.inr (by omega))]
      · exact hw_eq j g1 hj
      · intro i a1 a2
        have := hne j i g1 hj a1 a2
        have hdi := (is_data_block_iff _).1 (s2 i a1 a2).1
        omega
    · rw [if_neg hj]
      exact ⟨(s2 j (by omega) g2).1, (s2 j (by omega) g2).2.2⟩
  · intro j hj
    exact s4 j hj
  · intro j j1 g1 g2 g3 g4 e
    by_cases hj : j < mid
    · by_cases hj1 : j1 < mid
      · rw [s4 j (Or.inl hj), s4 j1 (Or.inl hj1)] at e
        exact hinj j j1 g1 hj g3 hj1 e
      · rw [s4 j (Or.inl hj)] at e
        exact absurd e (hne j j1 g1 hj (by omega) g4)
    · by_cases hj1 : j1 < mid
      · rw [s4 j1 (Or.inl hj1)] at e
        exact absurd e.symm (hne j1 j g3 hj1 (by omega) g2)
      · exact s3 j j1 (by omega) g2 (by omega) g4 e
  · intro b g1 g2
    rw [s1 b g1 g2, hused1 b g2]
  · intro k hk1 hk2
    rw [s5 k hk1 (fun j a1 a2 => hk2 j (by omega) a2)]
    apply hw_fr
    intro i a1 a2
    have := hk2 i a1 (by omega)
    rw [s4 i (Or.inl a2)] at this
    exact this

end block_manager

/-! ## Reading a file -/

namespace inode_manager

open block_manager

theorem block_num_of_eq (size : Nat) (h : size ≤ MAXFILESIZE) :
    block_num_of size = (size + 511) / 512 := by
  rw [MAXFILESIZE_eq] at h
  unfold block_num_of
  rw [BLOCK_SIZE_eq]
  have : (size + 512 - 1) % 4294967296 = size + 511 := by omega
  rw [this]

theorem block_num_of_le (size : Nat) (h : size ≤ MAXFILESIZE) : block_num_of size ≤ 159 := by
  rw [block_num_of_eq size h]
  rw [MAXFILESIZE_eq] at h
  omega

theorem read_file_eq (d : disk) (inum now : Nat) (g : garbage) (ino : inode)
    (hi : get_inode d inum = some ino) :
    read_file d inum now g =
      (some ((if block_num_of ino.size > NDIRECT then
          for_loop (read_indirect_step d ino (block_num_of ino.size)
              (read_table d (ino.blocks NDIRECT) g.table))
            (block_num_of ino.size - NDIRECT) 0
            (for_loop (read_direct_step d ino (block_num_of ino.size))
              (if block_num_of ino.size > NDIRECT then NDIRECT else block_num_of ino.size) 0
              ⟨g.block, g.block⟩)
        else
          for_loop (read_direct_step d ino (block_num_of ino.size))
            (if block_num_of ino.size > NDIRECT then NDIRECT else block_num_of ino.size) 0
            ⟨g.block, g.block⟩).buf_out, ino.size),
        put_inode d inum { ino with atime := now } now) := by
  have hv := (get_inode_some d inum ino hi).1
  simp only [read_file, hv, if_true, hi]

/-- The direct loop of `read_file` copies the blocks of the direct entries. -/
theorem read_direct_loop (d : disk) (ino : inode) (n m : Nat) (s0 : read_state)
    (hn : n = (ino.size + 511) / 512) (hm : m ≤ n)
    (hv : ∀ j, j < m → valid_bnum (ino.blocks j) = true) :
    ∀ k, k < m * 512 → k < ino.size →
      (for_loop (read_direct_step d ino n) m 0 s0).buf_out k =
        d.blocks (ino.blocks (k / 512) - 1) (k % 512) := by
  have key := for_loop_inv (read_direct_step d ino n)
    (fun i s => i ≤ m → ∀ k, k < i * 512 → k < ino.size →
      s.buf_out k = d.blocks (ino.blocks (k / 512) - 1) (k % 512)) m 0 s0
    (fun _ k hk => by omega)
    (fun i s g1 g2 ih _ k hk1 hk2 => by
      have hvi := hv i (by omega)
      by_cases hlt : k < i * 512
      · have hold := ih (by omega) k hlt hk2
        unfold read_direct_step
        simp only
        split
        · simp only [memcpy, BLOCK_SIZE_eq]
          rw [if_neg (by omega)]
          exact hold
        · simp only [memcpy, BLOCK_SIZE_eq]
          rw [if_neg (by omega)]
          exact hold
      · have e1 : k / 512 = i := by omega
        have e2 : k % 512 = k - i * 512 := by omega
        unfold read_direct_step
        simp only
        split
        · simp only [memcpy, BLOCK_SIZE_eq]
          rw [if_pos (by omega), read_block_valid _ _ _ hvi, e1, e2]
        · simp only [memcpy, BLOCK_SIZE_eq]
          rw [if_pos (by omega), read_block_valid _ _ _ hvi, e1, e2])
  intro k hk1 hk2
  have := key (by omega) k (by omega) hk2
  simpa using this

/-- The indirect loop of `read_file` copies the blocks of the entries of the table and keeps
what the direct loop copied. -/
theorem read_indirect_loop (d : disk) (ino : inode) (n m : Nat) (tbl : Nat → Nat)
    (s0 : read_state) (F : Nat → Nat)
    (hn : n = (ino.size + 511) / 512) (hm : m + 32 ≤ n)
    (hv : ∀ i, i < m → valid_bnum (tbl i) = true)
    (hF : ∀ i, i < m → F (i + 32) = tbl i)
    (h0 : ∀ k, k < 32 * 512 → k < ino.size → s0.buf_out k = d.blocks (F (k / 512) - 1) (k % 512)) :
    ∀ k, k < (m + 32) * 512 → k < ino.size →
      (for_loop (read_indirect_step d ino n tbl) m 0 s0).buf_out k =
        d.blocks (F (k / 512) - 1) (k % 512) := by
  have key := for_loop_inv (read_indirect_step d ino n tbl)
    (fun i s => i ≤ m → ∀ k, k < (i + 32) * 512 → k < ino.size →
      s.buf_out k = d.blocks (F (k / 512) - 1) (k % 512)) m 0 s0
    (fun _ k hk1 hk2 => h0 k (by omega) hk2)
    (fun i s g1 g2 ih _ k hk1 hk2 => by
      have hvi := hv i (by omega)
      by_cases hlt : k < (i + 32) * 512
      · have hold := ih (by omega) k hlt hk2
        unfold read_indirect_step
        simp only
        split
        · simp only [memcpy, BLOCK_SIZE_eq, NDIRECT_eq]
          rw [if_neg (by omega)]
          exact hold
        · simp only [memcpy, BLOCK_SIZE_eq, NDIRECT_eq]
          rw [if_neg (by omega)]
          exact hold
      · have e1 : k / 512 = i + 32 := by omega
        have e2 : k % 512 = k - (i + 32) * 512 := by omega
        unfold read_indirect_step
        simp only
        split
        · simp only [memcpy, BLOCK_SIZE_eq, NDIRECT_eq]
          rw [if_pos (by omega), read_block_valid _ _ _ hvi, e1, e2, hF i (by omega)]
        · simp only [memcpy, BLOCK_SIZE_eq, NDIRECT_eq]
          rw [if_pos (by omega), read_block_valid _ _ _ hvi, e1, e2, hF i (by omega)])
  intro k hk1 hk2
  have := key (by omega) k (by omega) hk2
  simpa using this

end inode_manager

namespace inode_manager

open block_manager

/-- What `read_file` returns for an inode whose block ids are valid: the stored size, and
the bytes of the blocks of the file in order. -/
theorem read_file_spec (d : disk) (inum now : Nat) (g : garbage) (ino : inode)
    (hi : get_inode d inum = some ino) (hs : ino.size ≤ MAXFILESIZE)
    (hv : ∀ j, j < block_num_of ino.size → valid_bnum (file_block d ino j) = true)
    (hind : block_num_of ino.size > NDIRECT → valid_bnum (ino.blocks NDIRECT) = true) :
    ∃ out, (read_file d inum now g).1 = some (out, ino.size) ∧
      ∀ k, k < ino.size →
        out k = d.blocks (file_block d ino (k / BLOCK_SIZE) - 1) (k % BLOCK_SIZE) := by
  rw [read_file_eq d inum now g ino hi]
  refine ⟨_, rfl, ?_⟩
  have hn := block_num_of_eq _ hs
  have hle := block_num_of_le _ hs
  rw [MAXFILESIZE_eq] at hs
  intro k hk
  rw [BLOCK_SIZE_eq]
  by_cases hbig : block_num_of ino.size > NDIRECT
  · have hbig32 : block_num_of ino.size > 32 := hbig
    simp only [hbig, if_true]
    have hvi := hind hbig
    have htbl : read_table d (ino.blocks NDIRECT) g.table =
        bytes_table (d.read_block (ino.blocks NDIRECT)) := by
      simp [read_table, hvi]
    apply read_indirect_loop d ino (block_num_of ino.size) (block_num_of ino.size - 32) _ _
      (file_block d ino) hn (by omega)
    · intro i hi2
      have := hv (i + 32) (by omega)
      rw [htbl]
      simpa [file_block, NDIRECT_eq] using this
    · intro i hi2
      rw [htbl]
      simp [file_block, NDIRECT_eq]
    · intro k1 hk1 hk2
      have e : file_block d ino (k1 / 512) = ino.blocks (k1 / 512) := by
        have : k1 / 512 < NDIRECT := by rw [NDIRECT_eq]; omega
        simp [file_block, this]
      rw [e]
      apply read_direct_loop d ino (block_num_of ino.size) NDIRECT _ hn (by omega)
      · intro j hj
        have := hv j (by omega)
        simpa [file_block, hj] using this
      · rw [NDIRECT_eq]; exact hk1
      · exact hk2
    · omega
    · exact hk
  · simp only [hbig, if_false]
    have hsmall : block_num_of ino.size ≤ 32 := by
      have : ¬ (block_num_of ino.size > 32) := hbig
      omega
    have e : file_block d ino (k / 512) = ino.blocks (k / 512) := by
      have : k / 512 < NDIRECT := by rw [NDIRECT_eq]; omega
      simp [file_block, this]
    rw [e]
    apply read_direct_loop d ino (block_num_of ino.size) _ _ hn (le_refl _)
    · intro j hj
      have := hv j hj
      have hj32 : j < NDIRECT := by rw [NDIRECT_eq]; omega
      simpa [file_block, hj32] using this
    · omega
    · exact hk

theorem read_file_device (d : disk) (inum now : Nat) (g : garbage) (ino : inode)
    (hi : get_inode d inum = some ino) :
    (read_file d inum now g).2 = put_inode d inum { ino with atime := now } now := by
  rw [read_file_eq d inum now g ino hi]

end inode_manager

/-! ## Writing a smaller file -/

namespace inode_manager

open block_manager

theorem for_loop_zero {σ : Type} (body : Nat → σ → σ) (n i : Nat) (s : σ) (h : n = 0) :
    for_loop body n i s = s := by
  subst h; rfl

theorem free_unused_frame (d : disk) (ino : inode) (tbl : Nat → Nat) (old new k : Nat)
    (hk : k = 0 ∨ 10 ≤ k) : (free_unused d ino tbl old new).blocks k = d.blocks k := by
  unfold free_unused
  simp only
  split
  · split
    · rw [free_block_frame_blocks _ _ _ hk, free_loop_frame _ _ _ _ _ hk,
        free_loop_frame _ _ _ _ _ hk]
    · rw [free_loop_frame _ _ _ _ _ hk, free_loop_frame _ _ _ _ _ hk]
  · rw [free_loop_frame _ _ _ _ _ hk]

theorem file_block_direct (d : disk) (ino : inode) (j : Nat) (h : j < 32) :
    file_block d ino j = ino.blocks j := by
  have : j < NDIRECT := h
  simp [file_block, this]

theorem file_block_indirect (d : disk) (ino : inode) (j : Nat) (h : 32 ≤ j) :
    file_block d ino j = bytes_table (d.blocks (ino.blocks NDIRECT - 1)) (j - 32) := by
  have : ¬ (j < NDIRECT) := by rw [NDIRECT_eq]; omega
  unfold file_block
  rw [if_neg this]
  rfl

theorem indirect_data_block_eq (buf : Block) (size new i : Nat) (h : 32 < new) :
    indirect_data_block buf size new i = data_block buf size (new - 1) (i + 32) := by
  unfold indirect_data_block data_block
  rw [NDIRECT_eq]
  by_cases e : i = new - 32 - 1
  · rw [if_pos e, if_pos (by omega)]
  · rw [if_neg e, if_neg (by omega)]

/-- The first half of the shrinking branch leaves block `j` of the new content in block `j`
of the file, for every block of the new content, and changes nothing else. -/
theorem rewrite_old_spec (d : disk) (ino : inode) (tbl0 : Nat → Nat) (buf : Block)
    (size old new : Nat) (hno : new ≤ old)
    (hdata : ∀ j, j < old → is_data_block (file_block d ino j))
    (hinj : ∀ j j1, j < old → j1 < old → file_block d ino j = file_block d ino j1 → j = j1)
    (hind : old > 32 → is_data_block (ino.blocks NDIRECT) ∧
      ∀ j, j < old → file_block d ino j ≠ ino.blocks NDIRECT) :
    (∀ j, j < new → (rewrite_old d ino tbl0 buf size new).1.blocks (file_block d ino j - 1) =
      fun off => data_block buf size (new - 1) j off % 256) ∧
    (∀ k, (∀ j, j < new → k ≠ file_block d ino j - 1) →
      (rewrite_old d ino tbl0 buf size new).1.blocks k = d.blocks k) := by
  have hge : ∀ j, j < old → 1036 ≤ file_block d ino j ∧ file_block d ino j ≤ 32768 :=
    fun j hj => (is_data_block_iff _).1 (hdata j hj)
  by_cases hbig : new > NDIRECT
  · have hbig32 : 32 < new := hbig
    obtain ⟨hi1, hi2⟩ := hind (by omega)
    have hi3 := (is_data_block_iff _).1 hi1
    -- the direct loop
    have hdir_v : ∀ i, 0 ≤ i → i < 0 + 32 → valid_bnum (ino.blocks i) = true := by
      intro i _ h2
      have := is_data_block_valid _ (hdata i (by omega))
      rwa [file_block_direct d ino i (by omega)] at this
    have hdir_inj : ∀ i j, 0 ≤ i → i < 0 + 32 → 0 ≤ j → j < 0 + 32 →
        ino.blocks i = ino.blocks j → i = j := by
      intro i j _ h2 _ h4 e
      apply hinj i j (by omega) (by omega)
      rw [file_block_direct d ino i (by omega), file_block_direct d ino j (by omega)]
      exact e
    have hd1_ind : (for_loop (fun i d => write_block d (ino.blocks i)
        (data_block buf size (new - 1) i)) 32 0 d).blocks (ino.blocks NDIRECT - 1) =
        d.blocks (ino.blocks NDIRECT - 1) := by
      apply write_loop_frame
      intro i _ h2
      have h3 := hi2 i (by omega)
      have h4 := hge i (by omega)
      rw [file_block_direct d ino i (by omega)] at h3 h4
      omega
    have htbl : ∀ i, read_table (for_loop (fun i d => write_block d (ino.blocks i)
        (data_block buf size (new - 1) i)) 32 0 d) (ino.blocks NDIRECT) tbl0 i =
        file_block d ino (i + 32) := by
      intro i
      rw [file_block_indirect d ino (i + 32) (by omega)]
      simp only [read_table, is_data_block_valid _ hi1, if_true, disk.read_block, hd1_ind]
      simp
    have hrw : rewrite_old d ino tbl0 buf size new =
        (for_loop (fun i d1 => write_block d1 (file_block d ino (i + 32))
            (data_block buf size (new - 1) (i + 32))) (new - 32) 0
          (for_loop (fun i d => write_block d (ino.blocks i)
            (data_block buf size (new - 1) i)) 32 0 d),
         read_table (for_loop (fun i d => write_block d (ino.blocks i)
            (data_block buf size (new - 1) i)) 32 0 d) (ino.blocks NDIRECT) tbl0) := by
      unfold rewrite_old
      simp only [hbig, if_true]
      have e1 : (fun i d1 => write_block d1 (read_table (for_loop (fun i d => write_block d
          (ino.blocks i) (data_block buf size (new - 1) i)) NDIRECT 0 d) (ino.blocks NDIRECT)
          tbl0 i) (indirect_data_block buf size new i)) =
          (fun i d1 => write_block d1 (file_block d ino (i + 32))
            (data_block buf size (new - 1) (i + 32))) := by
        funext i d1
        rw [indirect_data_block_eq _ _ _ _ hbig32]
        have := htbl i
        rw [← NDIRECT_eq] at this
        simp only [NDIRECT_eq] at this ⊢
        rw [this]
      rw [e1]
      simp only [NDIRECT_eq]
    rw [hrw]
    simp only
    have hind_v : ∀ i, 0 ≤ i → i < 0 + (new - 32) →
        valid_bnum (file_block d ino (i + 32)) = true :=
      fun i _ h2 => is_data_block_valid _ (hdata _ (by omega))
    have hind_inj : ∀ i j, 0 ≤ i → i < 0 + (new - 32) → 0 ≤ j → j < 0 + (new - 32) →
        file_block d ino (i + 32) = file_block d ino (j + 32) → i = j := by
      intro i j _ h2 _ h4 e
      have := hinj _ _ (by omega) (by omega) e
      omega
    constructor
    · intro j hj
      by_cases hj32 : j < 32
      · rw [write_loop_frame]
        · have := write_loop_spec ino.blocks (fun i => data_block buf size (new - 1) i) 32 0 d
            hdir_v hdir_inj j (Nat.zero_le _) (by omega)
          rw [file_block_direct d ino j hj32]
          exact this
        · intro i _ h2 e
          have h3 := hge j (by omega)
          have h4 := hge (i + 32) (by omega)
          have := hinj j (i + 32) (by omega) (by omega) (by omega)
          omega
      · have := write_loop_spec (fun i => file_block d ino (i + 32))
          (fun i => data_block buf size (new - 1) (i + 32)) (new - 32) 0
          (for_loop (fun i d => write_block d (ino.blocks i)
            (data_block buf size (new - 1) i)) 32 0 d) hind_v hind_inj
          (j - 32) (Nat.zero_le _) (by omega)
        have e : j - 32 + 32 = j := by omega
        simp only [e] at this
        exact this
    · intro k hk
      rw [write_loop_frame, write_loop_frame]
      · intro i _ h2
        have := hk i (by omega)
        rwa [file_block_direct d ino i (by omega)] at this
      · intro i _ h2
        exact hk (i + 32) (by omega)
  · have hsmall : new ≤ 32 := by
      have : ¬ (new > 32) := hbig
      omega
    have hrw : rewrite_old d ino tbl0 buf size new =
        (for_loop (fun i d => write_block d (ino.blocks i)
            (data_block buf size (new - 1) i)) new 0 d, tbl0) := by
      unfold rewrite_old
      simp only [hbig, if_false]
    rw [hrw]
    simp only
    constructor
    · intro j hj
      have := write_loop_spec ino.blocks (fun i => data_block buf size (new - 1) i) new 0 d
        (fun i _ h2 => by
          have := is_data_block_valid _ (hdata i (by omega))
          rwa [file_block_direct d ino i (by omega)] at this)
        (fun i j _ h2 _ h4 e => by
          apply hinj i j (by omega) (by omega)
          rw [file_block_direct d ino i (by omega), file_block_direct d ino j (by omega)]
          exact e)
        j (Nat.zero_le _) (by omega)
      rw [file_block_direct d ino j (by omega)]
      exact this
    · intro k hk
      apply write_loop_frame
      intro i _ h2
      have := hk i (by omega)
      rwa [file_block_direct d ino i (by omega)] at this

/-- The shrinking branch leaves block `j` of the new content in block `j` of the file and
changes nothing else outside the bitmap. -/
theorem write_smaller_spec (d : disk) (ino : inode) (tbl0 : Nat → Nat) (buf : Block)
    (size old new : Nat) (hno : new ≤ old)
    (hdata : ∀ j, j < old → is_data_block (file_block d ino j))
    (hinj : ∀ j j1, j < old → j1 < old → file_block d ino j = file_block d ino j1 → j = j1)
    (hind : old > 32 → is_data_block (ino.blocks NDIRECT) ∧
      ∀ j, j < old → file_block d ino j ≠ ino.blocks NDIRECT) :
    (∀ j, j < new → (write_smaller d ino tbl0 buf size old new).blocks (file_block d ino j - 1) =
      fun off => data_block buf size (new - 1) j off % 256) ∧
    (∀ k, (k = 0 ∨ 10 ≤ k) → (∀ j, j < new → k ≠ file_block d ino j - 1) →
      (write_smaller d ino tbl0 buf size old new).blocks k = d.blocks k) := by
  obtain ⟨h1, h2⟩ := rewrite_old_spec d ino tbl0 buf size old new hno hdata hinj hind
  unfold write_smaller
  constructor
  · intro j hj
    have := (is_data_block_iff _).1 (hdata j (by omega))
    rw [free_unused_frame _ _ _ _ _ _ (Or.inr (by omega))]
    exact h1 j hj
  · intro k hk1 hk2
    rw [free_unused_frame _ _ _ _ _ _ hk1]
    exact h2 k hk2

end inode_manager

/-! ## Writing a bigger file -/

namespace inode_manager

open block_manager

theorem data_block_of_lt (buf : Block) (size last j : Nat) (h : j < last) :
    data_block buf size last j = chunk buf (j * BLOCK_SIZE) := by
  unfold data_block
  rw [if_neg (by omega)]

/-- The direct part of the growing branch. -/
theorem grow_direct_spec (d : disk) (ino : inode) (buf : Block) (size old new total : Nat)
    (hon : old < new)
    (hmeta : ∀ b, 1 ≤ b → b ≤ 1035 → used d b = true)
    (hold : ∀ j, j < old → j < 32 → is_data_block (ino.blocks j) ∧ used d (ino.blocks j) = true)
    (hinj : ∀ j j1, j < old → j < 32 → j1 < old → j1 < 32 → ino.blocks j = ino.blocks j1 → j = j1)
    (hfree : has_free d total) (hn : min new 32 - min old 32 ≤ total)
    (r : disk × (Nat → Nat)) (hr : r = grow_direct d ino buf size old new) :
    (∀ j, j < min new 32 → is_data_block (r.2 j) ∧
      r.1.blocks (r.2 j - 1) = fun off => data_block buf size (new - 1) j off % 256) ∧
    (∀ j, (j < min old 32 ∨ min new 32 ≤ j) → r.2 j = ino.blocks j) ∧
    (∀ j j1, j < min new 32 → j1 < min new 32 → r.2 j = r.2 j1 → j = j1) ∧
    (∀ j, min old 32 ≤ j → j < min new 32 → used d (r.2 j) = false) ∧
    (∀ b, 1 ≤ b → b ≤ 36864 →
      (used r.1 b = true ↔ (used d b = true ∨ ∃ j, min old 32 ≤ j ∧ j < min new 32 ∧ r.2 j = b))) ∧
    (∀ k, (k = 0 ∨ 10 ≤ k) → (∀ j, j < min new 32 → k ≠ r.2 j - 1) →
      r.1.blocks k = d.blocks k) ∧
    has_free r.1 (total - (min new 32 - min old 32)) := by
  have hr2 : r = for_loop (alloc_write_step (data_block buf size (new - 1)))
      (min new 32 - min old 32) (min old 32)
      (for_loop (fun i d => write_block d (ino.blocks i) (chunk buf (i * BLOCK_SIZE)))
        (min old 32 - 0) 0 d, ino.blocks) := by
    rw [hr]
    unfold grow_direct
    simp only [NDIRECT_eq]
    by_cases ho : old > 32
    · have e1 : min old 32 = 32 := by omega
      have e2 : min new 32 = 32 := by omega
      have e3 : (if new > 32 then 32 else new) = 32 := by rw [if_pos (by omega)]
      rw [if_pos ho, e1, e2, e3]
      rw [for_loop_zero _ (32 - old) _ _ (by omega), for_loop_zero _ (32 - 32) _ _ (by omega)]
    · have e1 : min old 32 = old := by omega
      have e2 : (if new > 32 then 32 else new) = min new 32 := by
        split <;> omega
      rw [if_neg ho, e1, e2]
      rfl
  obtain ⟨p1, p2, p3, p4, p5, p6, p7⟩ :=
    phase_spec (fun i => chunk buf (i * BLOCK_SIZE)) (data_block buf size (new - 1)) ino.blocks
      0 (min old 32) (min new 32) total d (Nat.zero_le _) (by omega) hmeta
      (fun j _ h2 => hold j (by omega) (by omega))
      (fun j j1 _ h2 _ h4 => hinj j j1 (by omega) (by omega) (by omega) (by omega))
      hfree hn _ rfl r hr2
  refine ⟨?_, p2, fun j j1 h1 h2 => p3 j j1 (Nat.zero_le _) h1 (Nat.zero_le _) h2, p4, p5,
    fun k hk1 hk2 => p6 k hk1 (fun j _ h2 => hk2 j h2), p7⟩
  intro j hj
  obtain ⟨q1, q2⟩ := p1 j (Nat.zero_le _) hj
  refine ⟨q1, ?_⟩
  rw [q2]
  by_cases hjm : j < min old 32
  · rw [if_pos hjm, data_block_of_lt _ _ _ _ (by omega)]
  · rw [if_neg hjm]

/-- The indirect part of the growing branch: the blocks of the table hold the new content,
the indirect block holds the table, and nothing else changes outside the bitmap. -/
theorem grow_indirect_spec (d : disk) (ind : Nat) (tbl : Nat → Nat) (buf : Block)
    (size old new total : Nat) (hon : old < new) (hnew : 32 < new) (hnew2 : new ≤ 160)
    (hmeta : ∀ b, 1 ≤ b → b ≤ 1035 → used d b = true)
    (hold : ∀ i, i < old - 32 → is_data_block (tbl i) ∧ used d (tbl i) = true)
    (hinj : ∀ i i1, i < old - 32 → i1 < old - 32 → tbl i = tbl i1 → i = i1)
    (hfree : has_free d total) (hn : new - 32 - (old - 32) ≤ total)
    (hind : is_data_block ind ∧ used d ind = true ∧ ∀ i, i < old - 32 → tbl i ≠ ind) :
    ∃ tbl5 : Nat → Nat,
      (∀ i, i < new - 32 → is_data_block (tbl5 i) ∧
        (grow_indirect d ind tbl buf size old new).blocks (tbl5 i - 1) =
          fun off => data_block buf size (new - 1) (i + 32) off % 256) ∧
      (∀ i, i < old - 32 → tbl5 i = tbl i) ∧
      (∀ i, old - 32 ≤ i → i < new - 32 → used d (tbl5 i) = false) ∧
      (∀ i, i < new - 32 →
        bytes_table ((grow_indirect d ind tbl buf size old new).blocks (ind - 1)) i = tbl5 i) ∧
      (∀ k, (k = 0 ∨ 10 ≤ k) → k ≠ ind - 1 → (∀ i, i < new - 32 → k ≠ tbl5 i - 1) →
        (grow_indirect d ind tbl buf size old new).blocks k = d.blocks k) := by
  have hnold : (if old > NDIRECT then old - NDIRECT else 0) = old - 32 := by
    rw [NDIRECT_eq]; split <;> omega
  obtain ⟨p1, p2, p3, p4, p5, p6, p7⟩ :=
    phase_spec (fun i => chunk buf ((i + NDIRECT) * BLOCK_SIZE))
      (indirect_data_block buf size new) tbl 0 (old - 32) (new - 32) total d (Nat.zero_le _)
      (by omega) hmeta (fun i _ h2 => hold i h2)
      (fun i i1 _ h2 _ h4 => hinj i i1 h2 h4) hfree hn _ rfl _ rfl
  have hgi : grow_indirect d ind tbl buf size old new =
      write_block (for_loop (alloc_write_step (indirect_data_block buf size new))
        (new - 32 - (old - 32)) (old - 32)
        (for_loop (fun i d => write_block d (tbl i) (chunk buf ((i + NDIRECT) * BLOCK_SIZE)))
          (old - 32 - 0) 0 d, tbl)).1 ind
      (table_bytes (for_loop (alloc_write_step (indirect_data_block buf size new))
        (new - 32 - (old - 32)) (old - 32)
        (for_loop (fun i d => write_block d (tbl i) (chunk buf ((i + NDIRECT) * BLOCK_SIZE)))
          (old - 32 - 0) 0 d, tbl)).2) := by
    unfold grow_indirect
    simp only [hnold]
    rfl
  rw [hgi]
  generalize for_loop (alloc_write_step (indirect_data_block buf size new))
        (new - 32 - (old - 32)) (old - 32)
        (for_loop (fun i d => write_block d (tbl i) (chunk buf ((i + NDIRECT) * BLOCK_SIZE)))
          (old - 32 - 0) 0 d, tbl) = r5 at p1 p2 p3 p4 p5 p6 p7 ⊢
  obtain ⟨hi1, hi2, hi3⟩ := hind
  have hi4 := (is_data_block_iff _).1 hi1
  have hvi := is_data_block_valid _ hi1
  have hne : ∀ i, i < new - 32 → r5.2 i ≠ ind := by
    intro i h e
    by_cases hi : i < old - 32
    · rw [p2 i (Or.inl hi)] at e
      exact hi3 i hi e
    · have := p4 i (by omega) h
      rw [e, hi2] at this
      exact absurd this (by simp)
  refine ⟨r5.2, ?_, fun i hi => p2 i (Or.inl hi), p4, ?_, ?_⟩
  · intro i hi
    obtain ⟨q1, q2⟩ := p1 i (Nat.zero_le _) hi
    refine ⟨q1, ?_⟩
    have hd := (is_data_block_iff _).1 q1
    have := hne i hi
    rw [write_block_blocks_ne _ _ _ _ (by omega), q2]
    by_cases him : i < old - 32
    · rw [if_pos him, data_block_of_lt _ _ _ _ (by omega), NDIRECT_eq]
    · rw [if_neg him, indirect_data_block_eq _ _ _ _ hnew]
  · intro i hi
    rw [write_block_blocks_eq _ _ _ hvi, bytes_table_table_bytes _ _ (by rw [NINDIRECT_eq]; omega)]
    have hd := (is_data_block_iff _).1 (p1 i (Nat.zero_le _) hi).1
    omega
  · intro k hk1 hk2 hk3
    rw [write_block_blocks_ne _ _ _ _ hk2]
    exact p6 k hk1 (fun j _ h2 => hk3 j h2)

end inode_manager

namespace inode_manager

open block_manager

/-- The growing branch: every block of the new content is in a data block recorded for
it in the inode or in the table of the indirect block, and no block of the inode table
changes. -/
theorem write_bigger_spec (d : disk) (ino : inode) (tbl0 : Nat → Nat) (buf : Block)
    (size old new : Nat) (hon : old < new) (hnew : new ≤ 159)
    (hmeta : ∀ b, 1 ≤ b → b ≤ 1035 → used d b = true)
    (hdata : ∀ j, j < old → is_data_block (file_block d ino j) ∧
      used d (file_block d ino j) = true)
    (hinj : ∀ j j1, j < old → j1 < old → file_block d ino j = file_block d ino j1 → j = j1)
    (hind : old > 32 → is_data_block (ino.blocks NDIRECT) ∧ used d (ino.blocks NDIRECT) = true ∧
      ∀ j, j < old → file_block d ino j ≠ ino.blocks NDIRECT)
    (hfree : has_free d (blocks_total new - blocks_total old)) :
    ∃ L : Nat → Nat,
      (∀ j, j < new → is_data_block (L j) ∧
        (write_bigger d ino tbl0 buf size old new).1.blocks (L j - 1) =
          fun off => data_block buf size (new - 1) j off % 256) ∧
      (∀ j, j < new → j < 32 → (write_bigger d ino tbl0 buf size old new).2 j = L j) ∧
      (new > 32 → is_data_block ((write_bigger d ino tbl0 buf size old new).2 NDIRECT) ∧
        ∀ i, i < new - 32 →
          bytes_table ((write_bigger d ino tbl0 buf size old new).1.blocks
            ((write_bigger d ino tbl0 buf size old new).2 NDIRECT - 1)) i = L (i + 32)) ∧
      (∀ k, 10 ≤ k → k < 1035 → (write_bigger d ino tbl0 buf size old new).1.blocks k =
        d.blocks k) := by
  have htot : blocks_total new - blocks_total old =
      (new + (if new > 32 then 1 else 0)) - (old + (if old > 32 then 1 else 0)) := rfl
  have hneed : min new 32 - min old 32 ≤ blocks_total new - blocks_total old := by
    rw [htot]; split <;> split <;> omega
  obtain ⟨p1, p2, p3, p4, p5, p6, p7⟩ := grow_direct_spec d ino buf size old new
    (blocks_total new - blocks_total old) hon hmeta
    (fun j h1 h2 => by
      have := hdata j h1
      rwa [file_block_direct d ino j h2] at this)
    (fun j j1 h1 h2 h3 h4 e => by
      apply hinj j j1 h1 h3
      rw [file_block_direct d ino j h2, file_block_direct d ino j1 h4]
      exact e)
    hfree hneed _ rfl
  generalize hr2 : grow_direct d ino buf size old new = r2 at p1 p2 p3 p4 p5 p6 p7
  -- the direct blocks are marked used after the direct part
  have hused2 : ∀ j, j < min new 32 → used r2.1 (r2.2 j) = true := by
    intro j hj
    have hd := (is_data_block_iff _).1 (p1 j hj).1
    rw [p5 _ (by omega) (by omega)]
    by_cases hjo : j < min old 32
    · left
      rw [p2 j (Or.inl hjo)]
      have := (hdata j (by omega)).2
      rwa [file_block_direct d ino j (by omega)] at this
    · right
      exact ⟨j, by omega, hj, rfl⟩
  have hmeta2 : ∀ b, 1 ≤ b → b ≤ 1035 → used r2.1 b = true := by
    intro b h1 h2
    rw [p5 b h1 (by omega)]
    exact Or.inl (hmeta b h1 h2)
  have hframe2 : ∀ k, 10 ≤ k → k < 1035 → r2.1.blocks k = d.blocks k := by
    intro k h1 h2
    apply p6 k (Or.inr h1)
    intro j hj
    have hd := (is_data_block_iff _).1 (p1 j hj).1
    omega
  by_cases hbig : new > 32
  · have hbigN : new > NDIRECT := hbig
    have hm32 : min new 32 = 32 := by omega
    rw [hm32] at p1 p2 p3 p4 p5 p6 p7 hused2
    by_cases hob : old ≤ 32
    · -- the indirect block is allocated
      have hobN : old ≤ NDIRECT := hob
      have hmo : min old 32 = old := by omega
      rw [hmo] at p2 p4 p5 p7
      have hwb : write_bigger d ino tbl0 buf size old new =
          (grow_indirect (alloc_block r2.1).2 (alloc_block r2.1).1 tbl0 buf size old new,
            fun j => if j = NDIRECT then (alloc_block r2.1).1 else r2.2 j) := by
        unfold write_bigger
        simp only [hbigN, if_true, hr2, indirect_entry, hobN]
      have hf2 : has_free r2.1 ((new - 32) + 1) := by
        apply has_free_mono _ _ _ p7
        rw [htot, if_pos hbig, if_neg (by omega)]
        omega
      obtain ⟨b0, hb1, hb2, hb3⟩ := has_free_exists _ _ hf2
      rw [BLOCK_NUM_eq] at hb2
      obtain ⟨a1, a2, a3, a4, a5, a6⟩ := alloc_block_spec r2.1 b0 hb1 (by omega) hb3
      generalize ha : (alloc_block r2.1).1 = a at hwb a1 a2 a3 a4 a5 a6
      generalize hd3 : (alloc_block r2.1).2 = d3 at hwb a5 a6
      have ha_meta : 1035 < a := by
        by_contra hle
        have := hmeta2 a a1 (by omega)
        rw [a3] at this
        exact absurd this (by simp)
      have ha_data : is_data_block a := by rw [is_data_block_iff]; omega
      have hf3 : has_free d3 (new - 32) :=
        has_free_after r2.1 d3 a _ hf2 (fun b g1 _ => a5 b g1)
      obtain ⟨tbl5, q1, q2, q3, q4, q5⟩ := grow_indirect_spec d3 a tbl0 buf size old new
        (new - 32) hon hbig (by omega)
        (fun b g1 g2 => (a5 b g1).2 (Or.inl (hmeta2 b g1 g2)))
        (fun i hi => by omega) (fun i i1 hi => by omega) hf3 (by omega)
        ⟨ha_data, (a5 a a1).2 (Or.inr rfl), fun i hi => by omega⟩
      rw [hwb]
      simp only
      have hbita : (a - 1) / BPB + 1 ≤ 8 := by simp only [BPB_eq]; omega
      refine ⟨fun j => if j < 32 then r2.2 j else tbl5 (j - 32), ?_, ?_, ?_, ?_⟩
      · intro j hj
        by_cases hj32 : j < 32
        · simp only [hj32, if_true]
          obtain ⟨c1, c2⟩ := p1 j hj32
          refine ⟨c1, ?_⟩
          have hd := (is_data_block_iff _).1 c1
          have hu := hused2 j hj32
          rw [q5 _ (Or.inr (by omega))]
          · rw [a6 _ (by omega)]
            exact c2
          · intro e
            have : r2.2 j = a := by omega
            rw [this, a3] at hu
            exact absurd hu (by simp)
          · intro i hi e
            have hdi := (is_data_block_iff _).1 (q1 i hi).1
            have h3 := q3 i (by omega) hi
            have : tbl5 i = r2.2 j := by omega
            rw [this, (a5 _ (by omega)).2 (Or.inl hu)] at h3
            exact absurd h3 (by simp)
        · simp only [hj32, if_false]
          have := q1 (j - 32) (by omega)
          have e : j - 32 + 32 = j := by omega
          rw [e] at this
          exact this
      · intro j hj hj32
        have : j ≠ NDIRECT := by rw [NDIRECT_eq]; omega
        simp only [this, hj32, if_false, if_true]
      · intro _
        simp only [if_true]
        refine ⟨ha_data, fun i hi => ?_⟩
        rw [q4 i hi]
        have : ¬ (i + 32 < 32) := by omega
        simp only [this, if_false]
        congr 1
      · intro k h1 h2
        rw [q5 k (Or.inr h1) (by omega), a6 k (by omega), hframe2 k h1 h2]
        intro i hi
        have hdi := (is_data_block_iff _).1 (q1 i hi).1
        omega
    · -- the indirect block exists already
      have hob2 : 32 < old := by omega
      have hobN : ¬ (old ≤ NDIRECT) := by rw [NDIRECT_eq]; omega
      have hmo : min old 32 = 32 := by omega
      rw [hmo] at p2 p4 p5 p7
      obtain ⟨hi1, hi2, hi3⟩ := hind hob2
      have hi4 := (is_data_block_iff _).1 hi1
      have hblocks : ∀ j, r2.2 j = ino.blocks j := by
        intro j
        apply p2 j
        omega
      have hfb : ∀ j, j < 32 → file_block d ino j = r2.2 j := by
        intro j hj
        rw [file_block_direct d ino j hj, hblocks]
      have hindblk : r2.1.blocks (ino.blocks NDIRECT - 1) = d.blocks (ino.blocks NDIRECT - 1) := by
        apply p6 _ (Or.inr (by omega))
        intro j hj e
        have h1 := hi3 j (by omega)
        have h2 := (is_data_block_iff _).1 (hdata j (by omega)).1
        rw [hfb j hj] at h1 h2
        omega
      have htbl : ∀ i, read_table r2.1 (r2.2 NDIRECT) tbl0 i = file_block d ino (i + 32) := by
        intro i
        rw [file_block_indirect d ino (i + 32) (by omega), hblocks]
        simp only [read_table, is_data_block_valid _ hi1, if_true, disk.read_block, hindblk]
        simp
      have hwb : write_bigger d ino tbl0 buf size old new =
          (grow_indirect r2.1 (ino.blocks NDIRECT) (fun i => file_block d ino (i + 32)) buf size
            old new, r2.2) := by
        unfold write_bigger
        simp only [hbigN, if_true, hr2, indirect_entry, hobN, if_false]
        have e : read_table r2.1 (r2.2 NDIRECT) tbl0 = fun i => file_block d ino (i + 32) :=
          funext htbl
        rw [e, hblocks]
      have husedd : ∀ b, 1 ≤ b → b ≤ 36864 → used d b = true → used r2.1 b = true := by
        intro b g1 g2 g3
        rw [p5 b g1 g2]
        exact Or.inl g3
      have hf2 : has_free r2.1 (new - old) := by
        apply has_free_mono _ _ _ p7
        rw [htot, if_pos hbig, if_pos hob2]
        omega
      obtain ⟨tbl5, q1, q2, q3, q4, q5⟩ := grow_indirect_spec r2.1 (ino.blocks NDIRECT)
        (fun i => file_block d ino (i + 32)) buf size old new (new - old) hon hbig (by omega)
        hmeta2
        (fun i hi => by
          obtain ⟨c1, c2⟩ := hdata (i + 32) (by omega)
          have := (is_data_block_iff _).1 c1
          exact ⟨c1, husedd (file_block d ino (i + 32)) (by omega) (by omega) c2⟩)
        (fun i i1 h1 h2 e => by
          have := hinj (i + 32) (i1 + 32) (by omega) (by omega) e
          omega)
        hf2 (by omega)
        ⟨hi1, husedd _ (by omega) (by omega) hi2, fun i hi => hi3 (i + 32) (by omega)⟩
      rw [hwb]
      simp only
      refine ⟨fun j => if j < 32 then r2.2 j else tbl5 (j - 32), ?_, ?_, ?_, ?_⟩
      · intro j hj
        by_cases hj32 : j < 32
        · simp only [hj32, if_true]
          obtain ⟨c1, c2⟩ := p1 j hj32
          refine ⟨c1, ?_⟩
          have hd := (is_data_block_iff _).1 c1
          have hu := hused2 j hj32
          rw [q5 _ (Or.inr (by omega))]
          · exact c2
          · intro e
            have h1 := hi3 j (by omega)
            rw [hfb j hj32] at h1
            omega
          · intro i hi e
            have hdi := (is_data_block_iff _).1 (q1 i hi).1
            have e2 : tbl5 i = r2.2 j := by omega
            by_cases hio : i < old - 32
            · rw [q2 i hio, ← hfb j hj32] at e2
              have := hinj _ _ (by omega) (by omega) e2
              omega
            · have h3 := q3 i (by omega) hi
              rw [e2, hu] at h3
              exact absurd h3 (by simp)
        · simp only [hj32, if_false]
          have := q1 (j - 32) (by omega)
          have e : j - 32 + 32 = j := by omega
          rw [e] at this
          exact this
      · intro j hj hj32
        simp only [hj32, if_true]
      · intro _
        rw [hblocks]
        refine ⟨hi1, fun i hi => ?_⟩
        rw [q4 i hi]
        have : ¬ (i + 32 < 32) := by omega
        simp only [this, if_false]
        congr 1
      · intro k h1 h2
        rw [q5 k (Or.inr h1) (by omega), hframe2 k h1 h2]
        intro i hi
        have hdi := (is_data_block_iff _).1 (q1 i hi).1
        omega
  · have hsmall : new ≤ 32 := by omega
    have hbigN : ¬ (new > NDIRECT) := hbig
    have hm : min new 32 = new := by omega
    rw [hm] at p1 p2 p3 p4 p5 p6 p7
    have hwb : write_bigger d ino tbl0 buf size old new = r2 := by
      unfold write_bigger
      simp only [hbigN, if_false, hr2]
    rw [hwb]
    exact ⟨r2.2, p1, fun j _ _ => rfl, fun h => absurd h hbig, hframe2⟩

end inode_manager

/-! ## Writing, then reading -/

namespace inode_manager

open block_manager

theorem valid_size_of_le (n : Nat) (h : n ≤ MAXFILESIZE) : valid_size (n : Int) = true := by
  unfold valid_size
  rw [if_neg]
  simp only [Int.toNat_ofNat]
  omega

theorem _write_file_eq (d : disk) (inum : Nat) (buf : Block) (n now : Nat) (g : garbage)
    (ino : inode) (hi : get_inode d inum = some ino) (hn : n ≤ MAXFILESIZE) :
    _write_file d inum buf (n : Int) now g =
      (1, put_inode
        (if (n + 511) / 512 ≤ block_num_of ino.size then
          (write_smaller d ino g.table buf n (block_num_of ino.size) ((n + 511) / 512), ino.blocks)
        else write_bigger d ino g.table buf n (block_num_of ino.size) ((n + 511) / 512)).1 inum
        { ino with size := n, mtime := now, ctime := now,
                   blocks := (if (n + 511) / 512 ≤ block_num_of ino.size then
          (write_smaller d ino g.table buf n (block_num_of ino.size) ((n + 511) / 512), ino.blocks)
        else write_bigger d ino g.table buf n (block_num_of ino.size) ((n + 511) / 512)).2 }
        now) := by
  have hv := (get_inode_some d inum ino hi).1
  unfold _write_file
  simp only [hv, valid_size_of_le n hn, hi, Int.toNat_ofNat, BLOCK_SIZE_eq]
  rfl

theorem data_block_apply (buf : Block) (size j off : Nat) (h1 : off < 512)
    (h2 : j * 512 + off < size) :
    data_block buf size ((size + 511) / 512 - 1) j off = buf (j * 512 + off) := by
  unfold data_block
  split
  · simp only [padded, BLOCK_SIZE_eq]
    rw [if_pos (by omega)]
  · simp only [chunk, BLOCK_SIZE_eq]
    rw [if_pos h1]

/-- On a device where the blocks of inode `inum` are distinct data blocks marked used, the
blocks of the inode table are marked used and enough blocks are free, `_write_file`
succeeds and a following `read_file` returns the size and the bytes written. -/
theorem _write_file_read_file (d : disk) (inum : Nat) (buf : Block) (n now now1 : Nat)
    (g g1 : garbage) (ino : inode) (hi : get_inode d inum = some ino)
    (hs : ino.size ≤ MAXFILESIZE) (hn : n ≤ MAXFILESIZE)
    (hmeta : ∀ b, 1 ≤ b → b ≤ 1035 → used d b = true)
    (hdata : ∀ j, j < block_num_of ino.size → is_data_block (file_block d ino j) ∧
      used d (file_block d ino j) = true)
    (hinj : ∀ j j1, j < block_num_of ino.size → j1 < block_num_of ino.size →
      file_block d ino j = file_block d ino j1 → j = j1)
    (hind : block_num_of ino.size > 32 → is_data_block (ino.blocks NDIRECT) ∧
      used d (ino.blocks NDIRECT) = true ∧
      ∀ j, j < block_num_of ino.size → file_block d ino j ≠ ino.blocks NDIRECT)
    (hfree : has_free d (blocks_total ((n + 511) / 512) - blocks_total (block_num_of ino.size))) :
    (_write_file d inum buf (n : Int) now g).1 = 1 ∧
    ∃ out, (read_file (_write_file d inum buf (n : Int) now g).2 inum now1 g1).1 = some (out, n) ∧
      ∀ k, k < n → out k = buf k % 256 := by
  have hv := (get_inode_some d inum ino hi).1
  have hino := (get_inode_some d inum ino hi).2.1
  have htype := (get_inode_some d inum ino hi).2.2
  have hvi := (valid_inum_iff inum).1 hv
  rw [INODE_NUM_eq] at hvi
  have hlt := inode.decode_lt d (inum + 10)
  rw [← hino] at hlt
  obtain ⟨hlt1, hlt2, hlt3⟩ := hlt
  have hnew_le : (n + 511) / 512 ≤ 159 := by rw [MAXFILESIZE_eq] at hn; omega
  have hn32 : n < 4294967296 := by rw [MAXFILESIZE_eq] at hn; omega
  have hbn : block_num_of n = (n + 511) / 512 := block_num_of_eq n hn
  rw [_write_file_eq d inum buf n now g ino hi hn]
  refine ⟨rfl, ?_⟩
  simp only
  -- what the branch leaves
  have hbranch : ∃ (r : disk × (Nat → Nat)) (L : Nat → Nat),
      r = (if (n + 511) / 512 ≤ block_num_of ino.size then
          (write_smaller d ino g.table buf n (block_num_of ino.size) ((n + 511) / 512), ino.blocks)
        else write_bigger d ino g.table buf n (block_num_of ino.size) ((n + 511) / 512)) ∧
      (∀ j, j < (n + 511) / 512 → is_data_block (L j) ∧
        r.1.blocks (L j - 1) = fun off => data_block buf n ((n + 511) / 512 - 1) j off % 256) ∧
      (∀ j, j < (n + 511) / 512 → j < 32 → r.2 j = L j) ∧
      ((n + 511) / 512 > 32 → is_data_block (r.2 NDIRECT) ∧
        ∀ i, i < (n + 511) / 512 - 32 →
          bytes_table (r.1.blocks (r.2 NDIRECT - 1)) i = L (i + 32)) := by
    by_cases hc : (n + 511) / 512 ≤ block_num_of ino.size
    · obtain ⟨w1, w2⟩ := write_smaller_spec d ino g.table buf n (block_num_of ino.size)
        ((n + 511) / 512) hc (fun j hj => (hdata j hj).1) hinj
        (fun h => ⟨(hind h).1, (hind h).2.2⟩)
      refine ⟨_, file_block d ino, rfl, ?_, ?_, ?_⟩
      · intro j hj
        rw [if_pos hc]
        exact ⟨(hdata j (by omega)).1, w1 j hj⟩
      · intro j hj hj32
        rw [if_pos hc, file_block_direct d ino j hj32]
      · intro hbig
        rw [if_pos hc]
        obtain ⟨i1, i2, i3⟩ := hind (by omega)
        refine ⟨i1, fun i hi2 => ?_⟩
        have hd := (is_data_block_iff _).1 i1
        simp only
        rw [w2 _ (Or.inr (by omega)), file_block_indirect d ino (i + 32) (by omega)]
        · simp
        · intro j hj e
          have h1 := i3 j (by omega)
          have h2 := (is_data_block_iff _).1 (hdata j (by omega)).1
          omega
    · obtain ⟨L, w1, w2, w3, w4⟩ := write_bigger_spec d ino g.table buf n (block_num_of ino.size)
        ((n + 511) / 512) (by omega) hnew_le hmeta hdata hinj hind hfree
      refine ⟨_, L, rfl, ?_, ?_, ?_⟩
      · rw [if_neg hc]; exact w1
      · rw [if_neg hc]; exact w2
      · rw [if_neg hc]; exact w3
  obtain ⟨r, L, hr, b1, b2, b3⟩ := hbranch
  rw [← hr]
  -- the inode after `put_inode`
  obtain ⟨ino2, e1, e2, e3, e4⟩ := get_inode_put_inode r.1 inum
    { ino with size := n, mtime := now, ctime := now, blocks := r.2 } now hv
    (by
      show ino.type % 4294967296 ≠ 0
      rw [Nat.mod_eq_of_lt hlt1]; exact htype)
  simp only at e2 e3 e4
  rw [Nat.mod_eq_of_lt hn32] at e3
  generalize hd2e : put_inode r.1 inum
    { ino with size := n, mtime := now, ctime := now, blocks := r.2 } now = d2 at e1
  have hd2 : ∀ k, k ≠ inum + 10 → d2.blocks k = r.1.blocks k := by
    intro k hk
    rw [← hd2e]
    exact put_inode_other r.1 inum _ now k hk
  have hfb : ∀ j, j < (n + 511) / 512 → file_block d2 ino2 j = L j := by
    intro j hj
    have hL := (is_data_block_iff _).1 (b1 j hj).1
    by_cases hj32 : j < 32
    · rw [file_block_direct d2 ino2 j hj32, e4 j (by rw [NDIRECT_eq]; omega), b2 j hj hj32]
      exact Nat.mod_eq_of_lt (by omega)
    · obtain ⟨c1, c2⟩ := b3 (by omega)
      have hc := (is_data_block_iff _).1 c1
      rw [file_block_indirect d2 ino2 j (by omega), e4 NDIRECT (le_refl _),
        Nat.mod_eq_of_lt (by omega), hd2 _ (by omega), c2 (j - 32) (by omega)]
      congr 1
      omega
  have hsz2 : ino2.size ≤ MAXFILESIZE := by rw [e3]; exact hn
  have hbn2 : block_num_of ino2.size = (n + 511) / 512 := by rw [e3]; exact hbn
  obtain ⟨out, o1, o2⟩ := read_file_spec d2 inum now1 g1 ino2 e1 hsz2
    (fun j hj => by
      rw [hbn2] at hj
      rw [hfb j hj]
      exact is_data_block_valid _ (b1 j hj).1)
    (fun h => by
      rw [hbn2, NDIRECT_eq] at h
      obtain ⟨c1, c2⟩ := b3 h
      have hc := (is_data_block_iff _).1 c1
      rw [e4 NDIRECT (le_refl _), Nat.mod_eq_of_lt (by omega)]
      exact is_data_block_valid _ c1)
  rw [e3] at o1 o2
  refine ⟨out, o1, fun k hk => ?_⟩
  rw [o2 k hk, BLOCK_SIZE_eq]
  have hj : k / 512 < (n + 511) / 512 := by omega
  obtain ⟨c1, c2⟩ := b1 (k / 512) hj
  have hc := (is_data_block_iff _).1 c1
  rw [hfb _ hj, hd2 _ (by omega), c2]
  simp only
  rw [data_block_apply buf n (k / 512) (k % 512) (Nat.mod_lt _ (by decide)) (by omega)]
  congr 2
  omega

end inode_manager

namespace inode_manager

open block_manager

theorem write_file_bm (im : inode_manager) (inum : Nat) (buf : Block) (size : Int) (now : Nat)
    (g : garbage) :
    (write_file im inum buf size now g).bm =
      (_write_file (read_file im.bm inum now g).2 inum buf size now g).2 := by
  unfold write_file
  simp only
  split
  · split <;> rfl
  · rfl

/-- What the list `file_blocks` says of the single entries. -/
theorem file_blocks_facts (d : disk) (ino : inode) (P : Nat → Prop)
    (hnd : (file_blocks d ino).Nodup) (hall : ∀ b ∈ file_blocks d ino, P b) :
    (∀ j, j < block_num_of ino.size → P (file_block d ino j)) ∧
    (∀ j j1, j < block_num_of ino.size → j1 < block_num_of ino.size →
      file_block d ino j = file_block d ino j1 → j = j1) ∧
    (block_num_of ino.size > 32 → P (ino.blocks NDIRECT) ∧
      ∀ j, j < block_num_of ino.size → file_block d ino j ≠ ino.blocks NDIRECT) := by
  unfold file_blocks at hnd hall
  rw [List.nodup_append] at hnd
  obtain ⟨n1, n2, n3⟩ := hnd
  refine ⟨?_, ?_, ?_⟩
  · intro j hj
    apply hall
    rw [List.mem_append]
    left
    exact List.mem_map.2 ⟨j, List.mem_range.2 hj, rfl⟩
  · intro j j1 hj hj1 e
    exact List.inj_on_of_nodup_map n1 (List.mem_range.2 hj) (List.mem_range.2 hj1) e
  · intro hbig
    have hbigN : block_num_of ino.size > NDIRECT := hbig
    rw [if_pos hbigN] at hall n3
    refine ⟨hall _ (by simp), ?_⟩
    intro j hj e
    exact n3 (List.mem_map.2 ⟨j, List.mem_range.2 hj, rfl⟩) (by rw [e]; simp)

theorem bytes_of_eq (out : Block) (B : List Nat) (h : ∀ k, k < B.length → out k = B.getD k 0) :
    log_manager.bytes_of out B.length = B := by
  unfold log_manager.bytes_of
  apply List.ext_getElem
  · simp
  · intro k h1 h2
    simp only [List.getElem_map, List.getElem_range]
    rw [h k h2]
    simp [List.getD_eq_getElem?_getD, List.getElem?_eq_getElem h2]

/-- C1, amended. For a live inode whose stored size is at most `MAXFILESIZE` and whose
block ids are distinct ids of data blocks marked used, on a device where the blocks of the
superblock, the bitmap and the inode table are marked used and enough block ids up to
`BLOCK_NUM` are free for the write ("marked used" is the bit that `alloc_block` tests for
the id), and for a byte string `B` of at most `MAXFILESIZE` bytes: `write_file` of `B`
followed by `read_file` reports the size `|B|` and returns the bytes of `B`. -/
theorem write_file_read_file (im : inode_manager) (inum : Nat) (ino : inode) (B : List Nat)
    (now now1 : Nat) (g g1 : garbage)
    (hlive : get_inode im.bm inum = some ino)
    (hsize : ino.size ≤ MAXFILESIZE)
    (hB : B.length ≤ MAXFILESIZE) (hbytes : ∀ x ∈ B, x < 256)
    (hmeta : ∀ b, 1 ≤ b → b ≤ IBLOCK INODE_NUM BLOCK_NUM → used im.bm b = true)
    (hnodup : (file_blocks im.bm ino).Nodup)
    (hblocks : ∀ b ∈ file_blocks im.bm ino, is_data_block b ∧ used im.bm b = true)
    (hfree : has_free im.bm
      (blocks_total (block_num_of B.length) - blocks_total (block_num_of ino.size))) :
    ∃ out, (read_file (write_file im inum (list_buf B) B.length now g).bm inum now1 g1).1 =
        some (out, B.length) ∧
      log_manager.bytes_of out B.length = B := by
  obtain ⟨f1, f2, f3⟩ := file_blocks_facts im.bm ino
    (fun b => is_data_block b ∧ used im.bm b = true) hnodup hblocks
  have hv := (get_inode_some _ inum ino hlive).1
  have hino := (get_inode_some _ inum ino hlive).2.1
  have htype := (get_inode_some _ inum ino hlive).2.2
  have hvi := (valid_inum_iff inum).1 hv
  rw [INODE_NUM_eq] at hvi
  have hlt := inode.decode_lt im.bm (inum + 10)
  rw [← hino] at hlt
  obtain ⟨hlt1, hlt2, hlt3⟩ := hlt
  have hmeta1 : ∀ b, 1 ≤ b → b ≤ 1035 → used im.bm b = true := by
    intro b h1 h2
    apply hmeta b h1
    rw [IBLOCK_eq, INODE_NUM_eq]
    exact h2
  -- the device after the `read_file` of `write_file`
  rw [write_file_bm, read_file_device im.bm inum now g ino hlive]
  obtain ⟨ino1, e1, e2, e3, e4⟩ := get_inode_put_inode im.bm inum { ino with atime := now } now hv
    (by
      show ino.type % 4294967296 ≠ 0
      rw [Nat.mod_eq_of_lt hlt1]; exact htype)
  simp only at e2 e3 e4
  rw [Nat.mod_eq_of_lt hlt2] at e3
  have hd1 : ∀ k, k ≠ inum + 10 →
      (put_inode im.bm inum { ino with atime := now } now).blocks k = im.bm.blocks k :=
    fun k hk => put_inode_other im.bm inum _ now k hk
  generalize put_inode im.bm inum { ino with atime := now } now = d1 at e1 hd1
  have hbn : block_num_of ino1.size = block_num_of ino.size := by rw [e3]
  have hused : ∀ b, b ≤ 36864 → used d1 b = used im.bm b :=
    used_of_frame d1 im.bm (fun k k1 k2 => hd1 k (by omega))
  have hfb : ∀ j, j < block_num_of ino.size → file_block d1 ino1 j = file_block im.bm ino j := by
    intro j hj
    by_cases hj32 : j < 32
    · rw [file_block_direct d1 ino1 j hj32, file_block_direct im.bm ino j hj32,
        e4 j (by rw [NDIRECT_eq]; omega)]
      exact Nat.mod_eq_of_lt (hlt3 j)
    · obtain ⟨⟨c1, c2⟩, c3⟩ := f3 (by omega)
      have hc := (is_data_block_iff _).1 c1
      rw [file_block_indirect d1 ino1 j (by omega), file_block_indirect im.bm ino j (by omega),
        e4 NDIRECT (le_refl _), Nat.mod_eq_of_lt (hlt3 _), hd1 _ (by omega)]
  have hindeq : ino1.blocks NDIRECT = ino.blocks NDIRECT := by
    rw [e4 NDIRECT (le_refl _)]
    exact Nat.mod_eq_of_lt (hlt3 _)
  have hBn : block_num_of B.length = (B.length + 511) / 512 := block_num_of_eq _ hB
  obtain ⟨_, out, o1, o2⟩ := _write_file_read_file d1 inum (list_buf B) B.length now now1 g g1
    ino1 e1 (by rw [e3]; exact hsize) hB
    (fun b h1 h2 => by rw [hused b (by omega)]; exact hmeta1 b h1 h2)
    (fun j hj => by
      rw [hbn] at hj
      rw [hfb j hj]
      obtain ⟨c1, c2⟩ := f1 j hj
      have hc := (is_data_block_iff _).1 c1
      exact ⟨c1, by rw [hused _ (by omega)]; exact c2⟩)
    (fun j j1 hj hj1 e => by
      rw [hbn] at hj hj1
      rw [hfb j hj, hfb j1 hj1] at e
      exact f2 j j1 hj hj1 e)
    (fun h => by
      rw [hbn] at h
      obtain ⟨⟨c1, c2⟩, c3⟩ := f3 h
      have hc := (is_data_block_iff _).1 c1
      rw [hindeq]
      refine ⟨c1, by rw [hused _ (by omega)]; exact c2, fun j hj => ?_⟩
      rw [hbn] at hj
      rw [hfb j hj]
      exact c3 j hj)
    (by
      rw [hbn, ← hBn]
      exact has_free_of_frame d1 im.bm _ (fun k k1 k2 => hd1 k (by omega)) hfree)
  refine ⟨out, o1, ?_⟩
  apply bytes_of_eq
  intro k hk
  rw [o2 k hk]
  show B.getD k 0 % 256 = B.getD k 0
  apply Nat.mod_eq_of_lt
  rw [List.getD_eq_getElem?_getD, List.getElem?_eq_getElem hk]
  exact hbytes _ (List.getElem_mem _)

end inode_manager

namespace inode_manager

open block_manager

theorem init_meta_used :
    ∀ b, 1 ≤ b → b ≤ IBLOCK INODE_NUM BLOCK_NUM → used (init 0).bm b = true := by
  have h : ∀ b, b < 1036 → (1 ≤ b → used (init 0).bm b = true) := by decide!
  intro b h1 h2
  rw [IBLOCK_eq, INODE_NUM_eq] at h2
  exact h b (by omega) h1

theorem init_root_live :
    get_inode (init 0).bm 1 = some (inode.decode ((init 0).bm.blocks 11)) := by
  rw [get_inode_eq _ _ (by decide)]
  exact if_neg (by decide)

theorem init_root_no_blocks :
    file_blocks (init 0).bm (inode.decode ((init 0).bm.blocks 11)) = [] := by decide

/-- Witness of C1 on the freshly constructed file system: the byte 7 is written to the
empty root directory, inode 1, and read back. -/
theorem write_file_read_file_witness :
    get_inode (init 0).bm 1 = some (inode.decode ((init 0).bm.blocks 11)) ∧
    (inode.decode ((init 0).bm.blocks 11)).size ≤ MAXFILESIZE ∧
    [7].length ≤ MAXFILESIZE ∧
    (file_blocks (init 0).bm (inode.decode ((init 0).bm.blocks 11))).Nodup ∧
    has_free (init 0).bm (blocks_total (block_num_of [7].length) -
      blocks_total (block_num_of (inode.decode ((init 0).bm.blocks 11)).size)) ∧
    ∃ out, (read_file (write_file (init 0) 1 (list_buf [7]) ([7] : List Nat).length 0
        garbage_zero).bm 1 0 garbage_zero).1 = some (out, [7].length) ∧
      log_manager.bytes_of out [7].length = [7] :=
  have hfree : has_free (init 0).bm (blocks_total (block_num_of [7].length) -
      blocks_total (block_num_of (inode.decode ((init 0).bm.blocks 11)).size)) :=
    ⟨[1036], by decide, by decide, by decide⟩
  have hnodup : (file_blocks (init 0).bm (inode.decode ((init 0).bm.blocks 11))).Nodup := by
    rw [init_root_no_blocks]; exact List.nodup_nil
  ⟨init_root_live, by decide, by decide, hnodup, hfree,
    write_file_read_file (init 0) 1 (inode.decode ((init 0).bm.blocks 11)) [7] 0 0
      garbage_zero garbage_zero init_root_live (by decide) (by decide) (by decide)
      init_meta_used hnodup
      (fun b hb => by rw [init_root_no_blocks] at hb; exact absurd hb (List.not_mem_nil b))
      hfree⟩

/-- C1 as stated fails where the bitmap marks a block of the inode table free. In the state
`im_unmarked` inode 1 is live and empty, so it has no block ids at all, and the data block
1036 is free; but the bit of block 12, which holds inode 1, is 0. `write_file` of the byte
7 allocates block 12, and `read_file` then returns the first byte of the inode. -/
theorem write_file_read_file_unmarked :
    (get_inode im_unmarked.bm 1).map (fun ino => (ino.size, file_blocks im_unmarked.bm ino)) =
      some (0, []) ∧
    is_data_block 1036 ∧ used im_unmarked.bm 1036 = false ∧
    used im_unmarked.bm 12 = false ∧
    (read_file (write_file im_unmarked 1 (list_buf [7]) ([7] : List Nat).length 0
        garbage_zero).bm 1 0 garbage_zero).1.map (fun r => (r.2, log_manager.bytes_of r.1 r.2)) =
      some (1, [1]) := by
  refine ⟨by decide, (is_data_block_iff 1036).2 (by decide), by decide, by decide, by decide!⟩

end inode_manager
/-! ## Exact results on a bitmap that is filled up to an id -/

namespace block_manager

/-- When every id up to `m` is used and `m + 1` is free, `alloc_block` returns `m + 1`. -/
theorem alloc_block_next (d : disk) (m : Nat) (hm : m < 36864)
    (hlow : ∀ b, 1 ≤ b → b ≤ m → used d b = true) (hfree : used d (m + 1) = false) :
    (alloc_block d).1 = m + 1 ∧
    (∀ b, 1 ≤ b → (used (alloc_block d).2 b = true ↔ (used d b = true ∨ b = m + 1))) ∧
    (∀ k, k ≠ m / BPB + 1 → (alloc_block d).2.blocks k = d.blocks k) := by
  obtain ⟨g1, g2, g3, g4, g5, g6⟩ := alloc_block_spec d (m + 1) (by omega) (by omega) hfree
  have e : (alloc_block d).1 = m + 1 := by
    by_contra hne
    have := hlow _ g1 (by omega)
    rw [g3] at this
    exact absurd this (by simp)
  rw [e] at g5 g6
  exact ⟨e, g5, g6⟩

/-- On an id that is no multiple of `BPB`, `free_block` clears the bit of that id and of no
other id. -/
theorem used_free_block (d : disk) (q b : Nat) (hq1 : 1 ≤ q) (hq2 : q ≤ BLOCK_NUM)
    (hq : q % BPB ≠ 0) (hb : 1 ≤ b) :
    (used (free_block d q) b = true ↔ (used d b = true ∧ b ≠ q)) := by
  unfold used
  rw [bitmap_bit_free_block _ _ _ _ ((valid_bnum_iff q).2 ⟨hq1, hq2⟩)
    (Nat.succ_le_succ (Nat.zero_le _))]
  by_cases e : b = q
  · subst e
    have : (b - 1) / BPB + 2 = BBLOCK b := by
      rw [BBLOCK_eq]
      simp only [BPB_eq] at *
      omega
    simp [this]
  · have : ¬ ((b - 1) / BPB + 2 = BBLOCK q ∧ (b - 1) % BPB = (q - 1) % BPB) := by
      rw [BBLOCK_eq]
      simp only [BPB_eq] at *
      omega
    simp [this, e]

/-- A loop of `free_block` over valid ids that are no multiples of `BPB` clears exactly
their bits. -/
theorem used_free_loop (P : Nat → Nat) (n lo : Nat) (d : disk)
    (hP : ∀ i, lo ≤ i → i < lo + n → 1 ≤ P i ∧ P i ≤ BLOCK_NUM ∧ P i % BPB ≠ 0)
    (b : Nat) (hb : 1 ≤ b) :
    (used (for_loop (fun i d => free_block d (P i)) n lo d) b = true ↔
      (used d b = true ∧ ∀ i, lo ≤ i → i < lo + n → b ≠ P i)) := by
  have := for_loop_inv (fun i d => free_block d (P i))
    (fun m d1 => m ≤ lo + n →
      (used d1 b = true ↔ (used d b = true ∧ ∀ i, lo ≤ i → i < m → b ≠ P i)))
    n lo d (fun _ => ⟨fun h => ⟨h, fun i g1 g2 => by omega⟩, fun h => h.1⟩)
    (fun m d1 g1 g2 ih _ => by
      show (used (free_block d1 (P m)) b = true ↔ _)
      obtain ⟨p1, p2, p3⟩ := hP m g1 g2
      rw [used_free_block _ _ _ p1 p2 p3 hb, ih (by omega)]
      constructor
      · rintro ⟨⟨h1, h2⟩, h3⟩
        refine ⟨h1, fun i g3 g4 => ?_⟩
        by_cases e : i = m
        · subst e; exact h3
        · exact h2 i g3 (by omega)
      · rintro ⟨h1, h2⟩
        exact ⟨⟨h1, fun i g3 g4 => h2 i g3 (by omega)⟩, h2 m g1 (by omega)⟩)
  exact this (le_refl _)

/-- Writing a block that is no bitmap block changes no bit. -/
theorem used_write_block (d : disk) (p : Nat) (buf : Block) (b : Nat) (hp : 11 ≤ p)
    (hb : b ≤ 36864) : used (write_block d p buf) b = used d b :=
  used_of_frame _ _ (fun k h1 h2 => write_block_blocks_ne _ _ _ _ (by omega)) b hb

/-- The loop that allocates and writes `n` blocks, on a bitmap where every id up to `m` is
used and the ids `m + 1` to `m + n` are free: entry `lo + j` receives the id `m + 1 + j`. -/
theorem alloc_write_loop_exact (D : Nat → Block) (n lo m : Nat) (d0 : disk) (rec0 : Nat → Nat)
    (hm : 1035 ≤ m) (hmn : m + n ≤ 32768)
    (hlow : ∀ b, 1 ≤ b → b ≤ m → used d0 b = true)
    (hfree : ∀ b, m < b → b ≤ m + n → used d0 b = false) :
    (∀ j, lo ≤ j → j < lo + n →
      (for_loop (inode_manager.alloc_write_step D) n lo (d0, rec0)).2 j = m + 1 + (j - lo)) ∧
    (∀ j, (j < lo ∨ lo + n ≤ j) →
      (for_loop (inode_manager.alloc_write_step D) n lo (d0, rec0)).2 j = rec0 j) ∧
    (∀ j, lo ≤ j → j < lo + n →
      (for_loop (inode_manager.alloc_write_step D) n lo (d0, rec0)).1.blocks (m + (j - lo)) =
        fun off => D j off % 256) ∧
    (∀ b, 1 ≤ b → b ≤ 36864 →
      (used (for_loop (inode_manager.alloc_write_step D) n lo (d0, rec0)).1 b = true ↔
        (used d0 b = true ∨ (m < b ∧ b ≤ m + n)))) ∧
    (∀ k, (k = 0 ∨ 10 ≤ k) → (k < m ∨ m + n ≤ k) →
      (for_loop (inode_manager.alloc_write_step D) n lo (d0, rec0)).1.blocks k = d0.blocks k) := by
  have key := for_loop_inv (inode_manager.alloc_write_step D)
    (fun i s => i ≤ lo + n →
      (∀ j, lo ≤ j → j < i → s.2 j = m + 1 + (j - lo)) ∧
      (∀ j, (j < lo ∨ i ≤ j) → s.2 j = rec0 j) ∧
      (∀ j, lo ≤ j → j < i → s.1.blocks (m + (j - lo)) = fun off => D j off % 256) ∧
      (∀ b, 1 ≤ b → b ≤ 36864 →
        (used s.1 b = true ↔ (used d0 b = true ∨ (m < b ∧ b ≤ m + (i - lo))))) ∧
      (∀ k, (k = 0 ∨ 10 ≤ k) → (k < m ∨ m + (i - lo) ≤ k) → s.1.blocks k = d0.blocks k))
    n lo (d0, rec0) ?_ ?_
  · have := key (le_refl _)
    have e : lo + n - lo = n := by omega
    rw [e] at this
    exact this
  · intro _
    refine ⟨fun j h1 h2 => by omega, fun j _ => rfl, fun j h1 h2 => by omega,
      fun b h1 h2 => ⟨fun h => Or.inl h, fun h => ?_⟩, fun k _ _ => rfl⟩
    rcases h with h | h
    · exact h
    · omega
  · intro i s g1 g2 ih _
    obtain ⟨i1, i2, i3, i4, i5⟩ := ih (by omega)
    have hlow1 : ∀ b, 1 ≤ b → b ≤ m + (i - lo) → used s.1 b = true := by
      intro b h1 h2
      apply (i4 b h1 (by omega)).2
      by_cases hb : b ≤ m
      · exact Or.inl (hlow b h1 hb)
      · exact Or.inr ⟨by omega, h2⟩
    have hfree1 : used s.1 (m + (i - lo) + 1) = false := by
      cases hc : used s.1 (m + (i - lo) + 1)
      · rfl
      · rcases (i4 _ (by omega) (by omega)).1 hc with h | h
        · rw [hfree _ (by omega) (by omega)] at h
          exact absurd h (by simp)
        · omega
    obtain ⟨a1, a2, a3⟩ := alloc_block_next s.1 (m + (i - lo)) (by omega) hlow1 hfree1
    have hv : valid_bnum (m + (i - lo) + 1) = true := by
      rw [valid_bnum_iff, BLOCK_NUM_eq]; omega
    have hbm : (m + (i - lo)) / BPB + 1 ≤ 9 ∧ 1 ≤ (m + (i - lo)) / BPB + 1 := by
      simp only [BPB_eq]; omega
    show
      (∀ j, lo ≤ j → j < i + 1 → (inode_manager.alloc_write_step D i s).2 j = m + 1 + (j - lo)) ∧
      (∀ j, (j < lo ∨ i + 1 ≤ j) → (inode_manager.alloc_write_step D i s).2 j = rec0 j) ∧
      (∀ j, lo ≤ j → j < i + 1 →
        (inode_manager.alloc_write_step D i s).1.blocks (m + (j - lo)) = fun off => D j off % 256) ∧
      (∀ b, 1 ≤ b → b ≤ 36864 →
        (used (inode_manager.alloc_write_step D i s).1 b = true ↔
          (used d0 b = true ∨ (m < b ∧ b ≤ m + (i + 1 - lo))))) ∧
      (∀ k, (k = 0 ∨ 10 ≤ k) → (k < m ∨ m + (i + 1 - lo) ≤ k) →
        (inode_manager.alloc_write_step D i s).1.blocks k = d0.blocks k)
    unfold inode_manager.alloc_write_step
    simp only [a1]
    refine ⟨fun j h1 h2 => ?_, fun j h => ?_, fun j h1 h2 => ?_, fun b h1 h2 => ?_,
      fun k h1 h2 => ?_⟩
    · by_cases e : j = i
      · subst e; simp; omega
      · simp only [e, if_false]
        exact i1 j h1 (by omega)
    · have e : j ≠ i := by omega
      simp only [e, if_false]
      exact i2 j (by omega)
    · by_cases e : j = i
      · subst e
        have := write_block_blocks_eq (alloc_block s.1).2 (m + (j - lo) + 1) (D j) hv
        simpa using this
      · rw [write_block_blocks_ne _ _ _ _ (by omega), a3 _ (by omega)]
        exact i3 j h1 (by omega)
    · rw [used_write_block _ _ _ _ (by omega) h2, a2 b h1, i4 b h1 h2]
      constructor
      · rintro (h | h)
        · rcases h with h | h
          · exact Or.inl h
          · exact Or.inr ⟨h.1, by omega⟩
        · exact Or.inr ⟨by omega, by omega⟩
      · rintro (h | h)
        · exact Or.inl (Or.inl h)
        · by_cases e : b = m + (i - lo) + 1
          · exact Or.inr e
          · exact Or.inl (Or.inr ⟨h.1, by omega⟩)
    · rw [write_block_blocks_ne _ _ _ _ (by omega), a3 _ (by omega)]
      exact i5 k h1 (by omega)

end block_manager
/-! ## Writing to an empty file on a bitmap that is filled up to an id -/

namespace inode_manager

open block_manager

theorem blocks_total_eq (n : Nat) : blocks_total n = n + (if n > 32 then 1 else 0) := rfl

theorem grow_direct_fresh (d : disk) (ino : inode) (buf : Block) (size new : Nat) :
    grow_direct d ino buf size 0 new =
      for_loop (alloc_write_step (data_block buf size (new - 1))) (min new 32) 0
        (d, ino.blocks) := by
  unfold grow_direct
  have e1 : (if 0 > NDIRECT then NDIRECT else 0) = 0 := rfl
  have e2 : (if new > NDIRECT then NDIRECT else new) - 0 = min new 32 := by
    rw [NDIRECT_eq]; split <;> omega
  simp only [e1, e2]
  rfl

theorem grow_indirect_fresh (d : disk) (ind : Nat) (tbl : Nat → Nat) (buf : Block)
    (size new : Nat) :
    grow_indirect d ind tbl buf size 0 new =
      write_block (for_loop (alloc_write_step (indirect_data_block buf size new)) (new - 32) 0
        (d, tbl)).1 ind (table_bytes (for_loop (alloc_write_step
          (indirect_data_block buf size new)) (new - 32) 0 (d, tbl)).2) := by
  unfold grow_indirect
  have e1 : (if 0 > NDIRECT then 0 - NDIRECT else 0) = 0 := rfl
  simp only [e1, NDIRECT_eq, Nat.sub_zero]
  rfl

/-- The growing branch on an empty file, on a bitmap where every id up to `m` is used and
the ids after `m` are free: data block `j` gets the id `m + 1 + j`, the indirect block the
id `m + 33`, and its pointees the ids from `m + 34` on. -/
theorem write_bigger_fresh (d : disk) (ino : inode) (tbl0 : Nat → Nat) (buf : Block)
    (size new m : Nat) (hnew0 : 0 < new) (hnew : new ≤ 159) (hm : 1035 ≤ m)
    (hmn : m + blocks_total new ≤ 32768)
    (hlow : ∀ b, 1 ≤ b → b ≤ m → used d b = true)
    (hfree : ∀ b, m < b → b ≤ m + blocks_total new → used d b = false) :
    (∀ j, j < new → j < 32 → (write_bigger d ino tbl0 buf size 0 new).2 j = m + 1 + j) ∧
    (∀ j, 32 < j → (write_bigger d ino tbl0 buf size 0 new).2 j = ino.blocks j) ∧
    (32 < new → (write_bigger d ino tbl0 buf size 0 new).2 NDIRECT = m + 33 ∧
      ∀ i, i < new - 32 →
        bytes_table ((write_bigger d ino tbl0 buf size 0 new).1.blocks (m + 32)) i =
          m + 34 + i) ∧
    (∀ j, j < new →
      (write_bigger d ino tbl0 buf size 0 new).1.blocks (if j < 32 then m + j else m + 1 + j) =
        fun off => data_block buf size (new - 1) j off % 256) ∧
    (∀ b, 1 ≤ b → b ≤ 36864 →
      (used (write_bigger d ino tbl0 buf size 0 new).1 b = true ↔
        (used d b = true ∨ (m < b ∧ b ≤ m + blocks_total new)))) ∧
    (∀ k, (k = 0 ∨ 10 ≤ k) → (k < m ∨ m + blocks_total new ≤ k) →
      (write_bigger d ino tbl0 buf size 0 new).1.blocks k = d.blocks k) := by
  have htot := blocks_total_eq new
  by_cases hbig : new > 32
  · have hbigN : new > NDIRECT := hbig
    rw [htot, if_pos hbig] at hmn hfree
    rw [htot, if_pos hbig]
    have hm32 : min new 32 = 32 := by omega
    obtain ⟨p1, p2, p3, p4, p5⟩ := alloc_write_loop_exact (data_block buf size (new - 1)) 32 0 m
      d ino.blocks hm (by omega) hlow (fun b h1 h2 => hfree b h1 (by omega))
    have hr2 := grow_direct_fresh d ino buf size new
    rw [hm32] at hr2
    generalize for_loop (alloc_write_step (data_block buf size (new - 1))) 32 0 (d, ino.blocks)
      = r2 at hr2 p1 p2 p3 p4 p5
    have hlow2 : ∀ b, 1 ≤ b → b ≤ m + 32 → used r2.1 b = true := by
      intro b h1 h2
      apply (p4 b h1 (by omega)).2
      by_cases hb : b ≤ m
      · exact Or.inl (hlow b h1 hb)
      · exact Or.inr ⟨by omega, h2⟩
    have hfree2 : ∀ b, m + 32 < b → b ≤ m + new + 1 → used r2.1 b = false := by
      intro b h1 h2
      cases hc : used r2.1 b
      · rfl
      · rcases (p4 b (by omega) (by omega)).1 hc with h | h
        · rw [hfree b (by omega) (by omega)] at h
          exact absurd h (by simp)
        · omega
    obtain ⟨a1, a2, a3⟩ := alloc_block_next r2.1 (m + 32) (by omega) hlow2
      (hfree2 _ (by omega) (by omega))
    have hbm : 1 ≤ (m + 32) / BPB + 1 ∧ (m + 32) / BPB + 1 ≤ 9 := by
      simp only [BPB_eq]; omega
    have hwb : write_bigger d ino tbl0 buf size 0 new =
        (grow_indirect (alloc_block r2.1).2 (alloc_block r2.1).1 tbl0 buf size 0 new,
          fun j => if j = NDIRECT then (alloc_block r2.1).1 else r2.2 j) := by
      unfold write_bigger
      have h0 : (0 : Nat) ≤ NDIRECT := Nat.zero_le _
      simp only [hbigN, if_true, hr2, indirect_entry, h0]
    rw [a1] at hwb
    generalize (alloc_block r2.1).2 = d3 at hwb a2 a3
    have hlow3 : ∀ b, 1 ≤ b → b ≤ m + 33 → used d3 b = true := by
      intro b h1 h2
      apply (a2 b h1).2
      by_cases hb : b ≤ m + 32
      · exact Or.inl (hlow2 b h1 hb)
      · exact Or.inr (by omega)
    have hfree3 : ∀ b, m + 33 < b → b ≤ m + 33 + (new - 32) → used d3 b = false := by
      intro b h1 h2
      cases hc : used d3 b
      · rfl
      · rcases (a2 b (by omega)).1 hc with h | h
        · rw [hfree2 b (by omega) (by omega)] at h
          exact absurd h (by simp)
        · omega
    obtain ⟨q1, q2, q3, q4, q5⟩ := alloc_write_loop_exact (indirect_data_block buf size new)
      (new - 32) 0 (m + 33) d3 tbl0 (by omega) (by omega) hlow3 hfree3
    rw [grow_indirect_fresh] at hwb
    generalize for_loop (alloc_write_step (indirect_data_block buf size new)) (new - 32) 0
      (d3, tbl0) = r5 at hwb q1 q2 q3 q4 q5
    rw [hwb]
    simp only
    have hv : valid_bnum (m + 33) = true := by rw [valid_bnum_iff, BLOCK_NUM_eq]; omega
    refine ⟨fun j h1 h2 => ?_, fun j hj => ?_, fun _ => ⟨?_, fun i hi => ?_⟩, fun j hj => ?_,
      fun b h1 h2 => ?_, fun k h1 h2 => ?_⟩
    · have : j ≠ NDIRECT := by rw [NDIRECT_eq]; omega
      simp only [this, if_false]
      rw [p1 j (by omega) (by omega)]
      omega
    · have : j ≠ NDIRECT := by rw [NDIRECT_eq]; omega
      simp only [this, if_false]
      exact p2 j (Or.inr (by omega))
    · simp
    · have := write_block_blocks_eq r5.1 (m + 33) (table_bytes r5.2) hv
      have e : m + 33 - 1 = m + 32 := by omega
      rw [e] at this
      rw [this, bytes_table_table_bytes _ _ (by rw [NINDIRECT_eq]; omega),
        q1 i (by omega) (by omega)]
      omega
    · rw [write_block_blocks_ne _ _ _ _ (by split <;> omega)]
      by_cases hj32 : j < 32
      · simp only [hj32, if_true]
        rw [q5 _ (Or.inr (by omega)) (Or.inl (by omega)), a3 _ (by omega)]
        exact p3 j (by omega) (by omega)
      · simp only [hj32, if_false]
        have := q3 (j - 32) (by omega) (by omega)
        have e : m + 33 + (j - 32 - 0) = m + 1 + j := by omega
        rw [e, indirect_data_block_eq _ _ _ _ hbig] at this
        have e2 : j - 32 + 32 = j := by omega
        rw [e2] at this
        exact this
    · rw [used_write_block _ _ _ _ (by omega) h2, q4 b h1 h2, a2 b h1, p4 b h1 h2]
      constructor
      · rintro ((h | h) | h)
        · rcases h with h | h
          · exact Or.inl h
          · exact Or.inr ⟨by omega, by omega⟩
        · exact Or.inr ⟨by omega, by omega⟩
        · exact Or.inr ⟨by omega, by omega⟩
      · rintro (h | h)
        · exact Or.inl (Or.inl (Or.inl h))
        · by_cases e1 : b ≤ m + 32
          · exact Or.inl (Or.inl (Or.inr ⟨h.1, e1⟩))
          · by_cases e2 : b = m + 33
            · exact Or.inl (Or.inr e2)
            · exact Or.inr ⟨by omega, by omega⟩
    · rw [write_block_blocks_ne _ _ _ _ (by omega), q5 k h1 (by omega), a3 k (by omega)]
      exact p5 k h1 (by omega)
  · have hbigN : ¬ new > NDIRECT := hbig
    rw [htot, if_neg hbig] at hmn hfree
    rw [htot, if_neg hbig]
    have hm32 : min new 32 = new := by omega
    obtain ⟨p1, p2, p3, p4, p5⟩ := alloc_write_loop_exact (data_block buf size (new - 1)) new 0 m
      d ino.blocks hm (by omega) hlow (fun b h1 h2 => hfree b h1 (by omega))
    have hr2 := grow_direct_fresh d ino buf size new
    rw [hm32] at hr2
    have hwb : write_bigger d ino tbl0 buf size 0 new =
        for_loop (alloc_write_step (data_block buf size (new - 1))) new 0 (d, ino.blocks) := by
      unfold write_bigger
      simp only [hbigN, if_false, hr2]
    rw [hwb]
    refine ⟨fun j h1 h2 => ?_, fun j hj => p2 j (Or.inr (by omega)),
      fun h => absurd h hbig, fun j hj => ?_, fun b h1 h2 => ?_, fun k h1 h2 => ?_⟩
    · rw [p1 j (by omega) (by omega)]
      omega
    · have hj32 : j < 32 := by omega
      simp only [hj32, if_true]
      exact p3 j (by omega) (by omega)
    · simpa using p4 b h1 h2
    · exact p5 k h1 (by simpa using h2)

end inode_manager
/-! ## The inode after `read_file` and `write_file` -/

namespace inode_manager

open block_manager

/-- The fields of an inode read from the device are 32-bit values. -/
theorem get_inode_lt (d : disk) (inum : Nat) (ino : inode) (h : get_inode d inum = some ino) :
    ino.type < 4294967296 ∧ ino.size < 4294967296 ∧ ∀ i, ino.blocks i < 4294967296 := by
  obtain ⟨_, e, _⟩ := get_inode_some d inum ino h
  rw [e]
  exact inode.decode_lt d (inum + 10)

theorem get_inode_bounds (d : disk) (inum : Nat) (ino : inode) (h : get_inode d inum = some ino) :
    1 ≤ inum ∧ inum ≤ 1024 := by
  have := (valid_inum_iff inum).1 (get_inode_some d inum ino h).1
  rw [INODE_NUM_eq] at this
  exact this

/-- Writing an inode changes no bit of the bitmap. -/
theorem used_put_inode (d : disk) (inum : Nat) (ino : inode) (now b : Nat) (hb : b ≤ 36864) :
    used (put_inode d inum ino now) b = used d b := by
  by_cases hv : valid_inum inum = true
  · have := (valid_inum_iff inum).1 hv
    exact used_of_frame _ _ (fun k h1 h2 => put_inode_other _ _ _ _ _ (by omega)) b hb
  · simp [put_inode, hv]

/-- The device after `read_file`: only the block of the inode is written, and type, size
and block ids of the inode stay. -/
theorem read_file_inode (d : disk) (inum now : Nat) (g : garbage) (ino : inode)
    (hi : get_inode d inum = some ino) :
    ∃ ino_r, get_inode (read_file d inum now g).2 inum = some ino_r ∧
      ino_r.type = ino.type ∧ ino_r.size = ino.size ∧
      (∀ i, i ≤ NDIRECT → ino_r.blocks i = ino.blocks i) ∧
      (∀ k, k ≠ inum + 10 → (read_file d inum now g).2.blocks k = d.blocks k) ∧
      (∀ b, b ≤ 36864 → used (read_file d inum now g).2 b = used d b) := by
  obtain ⟨hv, _, ht⟩ := get_inode_some d inum ino hi
  obtain ⟨l1, l2, l3⟩ := get_inode_lt d inum ino hi
  rw [read_file_device d inum now g ino hi]
  obtain ⟨ino1, g1, g2, g3, g4⟩ := get_inode_put_inode d inum { ino with atime := now } now hv
    (by
      show ino.type % 4294967296 ≠ 0
      rw [Nat.mod_eq_of_lt l1]
      exact ht)
  refine ⟨ino1, g1, ?_, ?_, fun i hi => ?_, fun k hk => put_inode_other _ _ _ _ _ hk,
    fun b hb => used_put_inode _ _ _ _ _ hb⟩
  · rw [g2]; exact Nat.mod_eq_of_lt l1
  · rw [g3]; exact Nat.mod_eq_of_lt l2
  · rw [g4 i hi]; exact Nat.mod_eq_of_lt (l3 i)

/-- The function `_write_file` with `n > 0` bytes on an empty file, on a bitmap where every
id up to `m` is used and the ids after `m` are free: the inode afterwards, the blocks
written, the bitmap and the blocks left as they were. -/
theorem _write_file_fresh (d : disk) (inum : Nat) (ino : inode) (buf : Block)
    (n now m : Nat) (g : garbage)
    (hi : get_inode d inum = some ino) (hsz : ino.size = 0)
    (hn0 : 0 < n) (hn : n ≤ MAXFILESIZE) (hm : 1035 ≤ m)
    (hmn : m + blocks_total ((n + 511) / 512) ≤ 32768)
    (hlow : ∀ b, 1 ≤ b → b ≤ m → used d b = true)
    (hfree : ∀ b, m < b → b ≤ m + blocks_total ((n + 511) / 512) → used d b = false) :
    ∃ ino1, get_inode (_write_file d inum buf (n : Int) now g).2 inum = some ino1 ∧
      ino1.type = ino.type ∧ ino1.size = n ∧
      (∀ j, j < (n + 511) / 512 → j < 32 → ino1.blocks j = m + 1 + j) ∧
      (32 < (n + 511) / 512 → ino1.blocks NDIRECT = m + 33 ∧
        ∀ i, i < (n + 511) / 512 - 32 →
          bytes_table ((_write_file d inum buf (n : Int) now g).2.blocks (m + 32)) i =
            m + 34 + i) ∧
      (∀ j, j < (n + 511) / 512 →
        (_write_file d inum buf (n : Int) now g).2.blocks (if j < 32 then m + j else m + 1 + j) =
          fun off => data_block buf n ((n + 511) / 512 - 1) j off % 256) ∧
      (∀ b, 1 ≤ b → b ≤ 36864 →
        (used (_write_file d inum buf (n : Int) now g).2 b = true ↔
          (used d b = true ∨ (m < b ∧ b ≤ m + blocks_total ((n + 511) / 512))))) ∧
      (∀ k, (k = 0 ∨ 10 ≤ k) → k ≠ inum + 10 →
        (k < m ∨ m + blocks_total ((n + 511) / 512) ≤ k) →
        (_write_file d inum buf (n : Int) now g).2.blocks k = d.blocks k) := by
  obtain ⟨hv, _, ht⟩ := get_inode_some d inum ino hi
  obtain ⟨hb1, hb2⟩ := get_inode_bounds d inum ino hi
  obtain ⟨l1, l2, l3⟩ := get_inode_lt d inum ino hi
  rw [MAXFILESIZE_eq] at hn
  have hnew0 : 0 < (n + 511) / 512 := by omega
  have hnew : (n + 511) / 512 ≤ 159 := by omega
  have hbn : block_num_of ino.size = 0 := by rw [hsz]; rfl
  rw [_write_file_eq _ inum buf n now g ino hi (by rw [MAXFILESIZE_eq]; exact hn),
    hbn, if_neg (by omega)]
  obtain ⟨w1, w2, w3, w4, w5, w6⟩ := write_bigger_fresh d ino g.table buf n
    ((n + 511) / 512) m hnew0 hnew hm hmn hlow hfree
  generalize write_bigger d ino g.table buf n 0 ((n + 511) / 512) = W at w1 w2 w3 w4 w5 w6
  have htot := blocks_total_eq ((n + 511) / 512)
  obtain ⟨ino1, g1, g2, g3, g4⟩ := get_inode_put_inode W.1 inum
    { ino with size := n, mtime := now, ctime := now, blocks := W.2 } now hv
    (by
      show ino.type % 4294967296 ≠ 0
      rw [Nat.mod_eq_of_lt l1]
      exact ht)
  have hsmall : ∀ x, x ≤ 40000 → x % 4294967296 = x := fun x hx => Nat.mod_eq_of_lt (by omega)
  refine ⟨ino1, g1, ?_, ?_, fun j h1 h2 => ?_, fun h => ⟨?_, fun i hi => ?_⟩, fun j hj => ?_,
    fun b h1 h2 => ?_, fun k h1 h2 h3 => ?_⟩
  · rw [g2]
    show ino.type % 4294967296 = ino.type
    exact Nat.mod_eq_of_lt l1
  · rw [g3]
    show n % 4294967296 = n
    exact Nat.mod_eq_of_lt (by omega)
  · rw [g4 j (by rw [NDIRECT_eq]; omega)]
    show W.2 j % 4294967296 = m + 1 + j
    rw [w1 j h1 h2]
    exact hsmall _ (by split at htot <;> omega)
  · rw [g4 _ (le_refl _)]
    show W.2 NDIRECT % 4294967296 = m + 33
    rw [(w3 h).1]
    exact hsmall _ (by split at htot <;> omega)
  · rw [put_inode_other _ _ _ _ _ (by omega)]
    exact (w3 h).2 i hi
  · rw [put_inode_other _ _ _ _ _ (by split <;> omega)]
    exact w4 j hj
  · rw [used_put_inode _ _ _ _ _ h2, w5 b h1 h2]
  · rw [put_inode_other _ _ _ _ _ h2, w6 k h1 h3]

/-- Writing `n > 0` bytes to an empty file with `write_file`, on a bitmap where every id
up to `m` is used and the ids after `m` are free. -/
theorem write_file_fresh (im : inode_manager) (inum : Nat) (ino : inode) (buf : Block)
    (n now m : Nat) (g : garbage)
    (hi : get_inode im.bm inum = some ino) (hsz : ino.size = 0)
    (hn0 : 0 < n) (hn : n ≤ MAXFILESIZE) (hm : 1035 ≤ m)
    (hmn : m + blocks_total ((n + 511) / 512) ≤ 32768)
    (hlow : ∀ b, 1 ≤ b → b ≤ m → used im.bm b = true)
    (hfree : ∀ b, m < b → b ≤ m + blocks_total ((n + 511) / 512) → used im.bm b = false) :
    ∃ ino1, get_inode (write_file im inum buf (n : Int) now g).bm inum = some ino1 ∧
      ino1.type = ino.type ∧ ino1.size = n ∧
      (∀ j, j < (n + 511) / 512 → j < 32 → ino1.blocks j = m + 1 + j) ∧
      (32 < (n + 511) / 512 → ino1.blocks NDIRECT = m + 33 ∧
        ∀ i, i < (n + 511) / 512 - 32 →
          bytes_table ((write_file im inum buf (n : Int) now g).bm.blocks (m + 32)) i =
            m + 34 + i) ∧
      (∀ j, j < (n + 511) / 512 →
        (write_file im inum buf (n : Int) now g).bm.blocks (if j < 32 then m + j else m + 1 + j) =
          fun off => data_block buf n ((n + 511) / 512 - 1) j off % 256) ∧
      (∀ b, 1 ≤ b → b ≤ 36864 →
        (used (write_file im inum buf (n : Int) now g).bm b = true ↔
          (used im.bm b = true ∨ (m < b ∧ b ≤ m + blocks_total ((n + 511) / 512))))) ∧
      (∀ k, (k = 0 ∨ 10 ≤ k) → k ≠ inum + 10 →
        (k < m ∨ m + blocks_total ((n + 511) / 512) ≤ k) →
        (write_file im inum buf (n : Int) now g).bm.blocks k = im.bm.blocks k) := by
  obtain ⟨ino_r, r1, r2, r3, r4, r5, r6⟩ := read_file_inode im.bm inum now g ino hi
  rw [write_file_bm]
  generalize (read_file im.bm inum now g).2 = d_r at r1 r5 r6
  obtain ⟨ino1, w1, w2, w3, w4, w5, w6, w7, w8⟩ := _write_file_fresh d_r inum ino_r buf n now m g
    r1 (by rw [r3, hsz]) hn0 hn hm hmn
    (fun b h1 h2 => by rw [r6 b (by omega)]; exact hlow b h1 h2)
    (fun b h1 h2 => by rw [r6 b (by omega)]; exact hfree b h1 h2)
  refine ⟨ino1, w1, by rw [w2, r2], w3, w4, w5, w6, fun b h1 h2 => ?_, fun k h1 h2 h3 => ?_⟩
  · rw [w7 b h1 h2, r6 b h2]
  · rw [w8 k h1 h2 h3]
    exact r5 k h2

end inode_manager
namespace block_manager

theorem init_eq : init = write_block disk.init 2
    (Block.set (fun off => if off < 129 then 255 else 0) 129 224) := rfl

theorem init_blocks_ne (k : Nat) (hk : k ≠ 1) : init.blocks k = zero_block := by
  rw [init_eq, write_block_blocks_ne _ _ _ _ (by omega)]
  rfl

theorem init_bitmap (off : Nat) :
    init.blocks 1 off = if off < 129 then 255 else if off = 129 then 224 else 0 := by
  rw [init_eq]
  have := write_block_blocks_eq disk.init 2
    (Block.set (fun off => if off < 129 then 255 else 0) 129 224) (by decide)
  have e : (2 : Nat) - 1 = 1 := rfl
  rw [e] at this
  rw [this]
  simp only [Block.set]
  split_ifs <;> first | rfl | omega

theorem bit_set_of_byte (B : Block) (pos v : Nat) (h : B (pos / 8) = v) :
    bit_set B pos = (v &&& (1 <<< (7 - pos % 8)) != 0) := by
  unfold bit_set bit_mask
  rw [h]

/-- The bitmap after the format: exactly the ids up to `IBLOCK(INODE_NUM)` = 1035 are
marked used. -/
theorem init_used (b : Nat) (h1 : 1 ≤ b) (h2 : b ≤ 36864) :
    (used init b = true ↔ b ≤ 1035) := by
  unfold used bitmap_bit disk.read_block
  have e : (b - 1) / BPB + 2 - 1 = (b - 1) / BPB + 1 := rfl
  rw [e]
  by_cases hb : b ≤ 4096
  · have e1 : (b - 1) / BPB + 1 = 1 := by simp only [BPB_eq]; omega
    have e2 : (b - 1) % BPB = b - 1 := by simp only [BPB_eq]; omega
    rw [e1, e2, bit_set_of_byte _ _ _ (init_bitmap _)]
    have hr : (b - 1) % 8 < 8 := Nat.mod_lt _ (by decide)
    by_cases c1 : (b - 1) / 8 < 129
    · simp only [c1, if_true]
      have : b ≤ 1035 := by omega
      simp only [this, iff_true]
      generalize (b - 1) % 8 = r at hr
      interval_cases r <;> decide
    · by_cases c2 : (b - 1) / 8 = 129
      · simp only [c2, lt_irrefl, if_false, if_true]
        have : (b ≤ 1035 ↔ (b - 1) % 8 < 3) := by omega
        rw [this]
        generalize (b - 1) % 8 = r at hr
        interval_cases r <;> decide
      · simp only [c1, c2, if_false]
        have : ¬ b ≤ 1035 := by omega
        simp [this]
  · have e1 : (b - 1) / BPB + 1 ≠ 1 := by simp only [BPB_eq]; omega
    rw [init_blocks_ne _ e1]
    have : ¬ b ≤ 1035 := by omega
    simp [this, bit_set, zero_block]

end block_manager

/-! ## Allocating an inode -/

namespace inode_manager

open block_manager

theorem inode_block_read (d : disk) (i : Nat) (h1 : 1 ≤ i) (h2 : i ≤ 1024) :
    block_manager.read_block d (IBLOCK i BLOCK_NUM) zero_block = d.blocks (i + 10) := by
  have hv : valid_bnum (IBLOCK i BLOCK_NUM) = true :=
    valid_bnum_IBLOCK i ((valid_inum_iff i).2 ⟨h1, by rw [INODE_NUM_eq]; exact h2⟩)
  rw [read_block_valid _ _ _ hv, IBLOCK_eq]
  rfl

/-- The scan of `alloc_inode` stops at the first slot whose type is 0. -/
theorem find_free_inode_spec (d : disk) (fuel start k : Nat) (h0 : 1 ≤ start) (h1 : start ≤ k)
    (h2 : k < start + fuel) (h3 : k ≤ 1024)
    (hlive : ∀ i, start ≤ i → i < k → (inode.decode (d.blocks (i + 10))).type ≠ 0)
    (hfree : (inode.decode (d.blocks (k + 10))).type = 0) :
    find_free_inode d fuel start = k := by
  induction fuel generalizing start with
  | zero => omega
  | succ fuel ih =>
    unfold find_free_inode
    simp only
    rw [inode_block_read d start h0 (by omega)]
    by_cases e : start = k
    · subst e
      rw [if_pos hfree]
    · rw [if_neg (hlive start (le_refl _) (by omega))]
      exact ih (start + 1) (by omega) (by omega) (by omega)
        (fun i g1 g2 => hlive i (by omega) g2)

/-- The function `alloc_inode` when slot `k` is the first whose type is 0: it returns `k`,
slot `k` holds an empty inode of the type asked for, and no other block changes. -/
theorem alloc_inode_spec (im : inode_manager) (type now k : Nat) (ht : type ≠ 0)
    (ht2 : type < 4294967296) (hk1 : 1 ≤ k) (hk2 : k ≤ 1024)
    (hlive : ∀ i, 1 ≤ i → i < k → (inode.decode (im.bm.blocks (i + 10))).type ≠ 0)
    (hfree : (inode.decode (im.bm.blocks (k + 10))).type = 0) :
    (alloc_inode im type now).1 = k ∧
    (∃ ino, get_inode (alloc_inode im type now).2.bm k = some ino ∧ ino.type = type ∧
      ino.size = 0) ∧
    (∀ j, j ≠ k + 10 → (alloc_inode im type now).2.bm.blocks j = im.bm.blocks j) ∧
    (alloc_inode im type now).2.lm = im.lm.create_log k type := by
  have hf := find_free_inode_spec im.bm INODE_NUM 1 k (le_refl _) hk1
    (by rw [INODE_NUM_eq]; omega) hk2 hlive hfree
  have hvt : valid_type type = true := by simp [valid_type, ht]
  have hgt : ¬ k > INODE_NUM := by rw [INODE_NUM_eq]; omega
  have hvi : valid_inum k = true := (valid_inum_iff k).2 ⟨hk1, by rw [INODE_NUM_eq]; exact hk2⟩
  have hvb := valid_bnum_IBLOCK k hvi
  have e : IBLOCK k BLOCK_NUM - 1 = k + 10 := by rw [IBLOCK_eq]; omega
  unfold alloc_inode
  simp only [hvt, if_true, hf, hgt, if_false]
  refine ⟨trivial, ?_, fun j hj => write_block_blocks_ne _ _ _ _ (by rw [e]; exact hj), trivial⟩
  rw [get_inode_eq _ _ hvi]
  have hb := write_block_blocks_eq im.bm (IBLOCK k BLOCK_NUM)
    (set_u32 (set_u32 (set_u32 (set_u32 (set_u32
      (block_manager.read_block im.bm (IBLOCK k BLOCK_NUM) zero_block) 0 type) 4 0) 8 now) 12 now)
      16 now) hvb
  rw [e] at hb
  rw [hb]
  have htype : (inode.decode (fun off => set_u32 (set_u32 (set_u32 (set_u32 (set_u32
      (block_manager.read_block im.bm (IBLOCK k BLOCK_NUM) zero_block) 0 type) 4 0) 8 now) 12 now)
      16 now off % 256)).type = type := by
    have := get_u32_of_bytes (fun off => set_u32 (set_u32 (set_u32 (set_u32 (set_u32
      (block_manager.read_block im.bm (IBLOCK k BLOCK_NUM) zero_block) 0 type) 4 0) 8 now) 12 now)
      16 now off % 256) 0 type (fun j hj => by
        simp only [set_u32]
        have c1 : ¬ (16 ≤ 0 + j ∧ 0 + j < 16 + 4) := by omega
        have c2 : ¬ (12 ≤ 0 + j ∧ 0 + j < 12 + 4) := by omega
        have c3 : ¬ (8 ≤ 0 + j ∧ 0 + j < 8 + 4) := by omega
        have c4 : ¬ (4 ≤ 0 + j ∧ 0 + j < 4 + 4) := by omega
        have c5 : (0 ≤ 0 + j ∧ 0 + j < 0 + 4) := by omega
        simp only [c1, c2, c3, c4, c5, if_false, and_self, if_true]
        rw [Nat.mod_eq_of_lt (u32_byte_lt _ _)]
        congr 1
        omega)
    rw [Nat.mod_eq_of_lt ht2] at this
    exact this
  have hsize : (inode.decode (fun off => set_u32 (set_u32 (set_u32 (set_u32 (set_u32
      (block_manager.read_block im.bm (IBLOCK k BLOCK_NUM) zero_block) 0 type) 4 0) 8 now) 12 now)
      16 now off % 256)).size = 0 := by
    have := get_u32_of_bytes (fun off => set_u32 (set_u32 (set_u32 (set_u32 (set_u32
      (block_manager.read_block im.bm (IBLOCK k BLOCK_NUM) zero_block) 0 type) 4 0) 8 now) 12 now)
      16 now off % 256) 4 0 (fun j hj => by
        simp only [set_u32]
        have c1 : ¬ (16 ≤ 4 + j ∧ 4 + j < 16 + 4) := by omega
        have c2 : ¬ (12 ≤ 4 + j ∧ 4 + j < 12 + 4) := by omega
        have c3 : ¬ (8 ≤ 4 + j ∧ 4 + j < 8 + 4) := by omega
        have c4 : (4 ≤ 4 + j ∧ 4 + j < 4 + 4) := by omega
        simp only [c1, c2, c3, c4, if_false, and_self, if_true]
        rw [Nat.mod_eq_of_lt (u32_byte_lt _ _)]
        congr 1
        omega)
    exact this
  rw [if_neg (by rw [htype]; exact ht)]
  exact ⟨_, rfl, htype, hsize⟩

end inode_manager

/-! ## The constructor -/

namespace inode_manager

open block_manager

/-- The freshly constructed file system: inode 1 is the empty root directory, every other
inode slot is zero, and exactly the ids up to 1035 are marked used. -/
theorem init_spec (now : Nat) :
    (∃ ino, get_inode (init now).bm 1 = some ino ∧ ino.type = T_DIR ∧ ino.size = 0) ∧
    (∀ j, j ≠ 11 → (init now).bm.blocks j = block_manager.init.blocks j) ∧
    (∀ b, 1 ≤ b → b ≤ 36864 → (used (init now).bm b = true ↔ b ≤ 1035)) ∧
    (init now).lm = log_manager.init.create_log 1 T_DIR := by
  obtain ⟨_, a2, a3, a4⟩ := alloc_inode_spec ⟨block_manager.init, log_manager.init⟩ T_DIR now 1
    (by decide) (by decide) (le_refl _) (by decide) (fun i h1 h2 => by omega)
    (by
      show (inode.decode (block_manager.init.blocks 11)).type = 0
      rw [init_blocks_ne 11 (by decide)]
      rfl)
  refine ⟨a2, a3, fun b h1 h2 => ?_, a4⟩
  rw [← init_used b h1 h2]
  rw [used_of_frame (init now).bm block_manager.init (fun k g1 g2 => a3 k (by omega)) b h2]

theorem init_slot_free (now i : Nat) (hi : 2 ≤ i) :
    (inode.decode ((init now).bm.blocks (i + 10))).type = 0 := by
  rw [(init_spec now).2.1 _ (by omega), init_blocks_ne _ (by omega)]
  rfl

end inode_manager
/-! ## Removing a file -/

namespace inode_manager

open block_manager

theorem get_inode_free (d : disk) (inum : Nat) (ino : inode) (now : Nat)
    (hv : valid_inum inum = true) (ht : ino.type = 0) :
    get_inode (put_inode d inum ino now) inum = none := by
  rw [get_inode_eq _ _ hv, put_inode_blocks _ _ _ _ hv]
  simp only [if_true]
  have e1 := inode.decode_encode_type { ino with ctime := now } (d.blocks (inum + 10))
  rw [if_pos (by rw [e1]; show ino.type % 4294967296 = 0; rw [ht])]

theorem read_table_valid (d : disk) (p : Nat) (tbl : Nat → Nat) (hp : valid_bnum p = true) :
    read_table d p tbl = bytes_table (d.blocks (p - 1)) := by
  unfold read_table
  rw [if_pos hp]
  rfl

/-- The function `remove_file` on a file whose data blocks are data-block ids that are no
multiples of `BPB`: the inode is gone, exactly the bits of the data blocks are cleared
(the bit of the indirect block is not among them), and no block outside the bitmap and
the inode changes. -/
theorem remove_file_spec (im : inode_manager) (inum now : Nat) (g : garbage) (ino : inode)
    (hi : get_inode im.bm inum = some ino)
    (hdata : ∀ j, j < block_num_of ino.size →
      is_data_block (file_block im.bm ino j) ∧ file_block im.bm ino j % BPB ≠ 0)
    (hind : block_num_of ino.size > 32 → is_data_block (ino.blocks NDIRECT)) :
    get_inode (remove_file im inum now g).bm inum = none ∧
    (∀ b, 1 ≤ b → b ≤ 36864 → (used (remove_file im inum now g).bm b = true ↔
      (used im.bm b = true ∧ ∀ j, j < block_num_of ino.size → b ≠ file_block im.bm ino j))) ∧
    (∀ k, (k = 0 ∨ 10 ≤ k) → k ≠ inum + 10 →
      (remove_file im inum now g).bm.blocks k = im.bm.blocks k) := by
  obtain ⟨hv, _, ht⟩ := get_inode_some im.bm inum ino hi
  obtain ⟨hb1, hb2⟩ := get_inode_bounds im.bm inum ino hi
  obtain ⟨ino_r, r1, r2, r3, r4, r5, r6⟩ := read_file_inode im.bm inum now g ino hi
  have hrm : (remove_file im inum now g).bm =
      if block_num_of ino.size > NDIRECT then
        for_loop (fun i d => block_manager.free_block d
            (read_table (for_loop (fun i d => block_manager.free_block d (ino.blocks i))
              (if block_num_of ino.size > NDIRECT then NDIRECT else block_num_of ino.size) 0
              (free_inode (read_file im.bm inum now g).2 inum now)) (ino.blocks NDIRECT)
              g.table i))
          (block_num_of ino.size - NDIRECT) 0
          (for_loop (fun i d => block_manager.free_block d (ino.blocks i))
            (if block_num_of ino.size > NDIRECT then NDIRECT else block_num_of ino.size) 0
            (free_inode (read_file im.bm inum now g).2 inum now))
      else
        for_loop (fun i d => block_manager.free_block d (ino.blocks i))
          (if block_num_of ino.size > NDIRECT then NDIRECT else block_num_of ino.size) 0
          (free_inode (read_file im.bm inum now g).2 inum now) := by
    unfold remove_file
    simp only [hv, if_true, hi]
  rw [hrm]
  have hfi : free_inode (read_file im.bm inum now g).2 inum now =
      put_inode (read_file im.bm inum now g).2 inum { ino_r with type := 0 } now := by
    unfold free_inode
    simp only [hv, if_true, r1]
  rw [hfi]
  generalize (read_file im.bm inum now g).2 = d_r at r1 r5 r6
  have hnone : get_inode (put_inode d_r inum { ino_r with type := 0 } now) inum = none :=
    get_inode_free d_r inum _ now hv rfl
  generalize hd1 : put_inode d_r inum { ino_r with type := 0 } now = d1 at hnone
  have hd1b : ∀ k, k ≠ inum + 10 → d1.blocks k = im.bm.blocks k := by
    intro k hk
    rw [← hd1, put_inode_other _ _ _ _ _ hk]
    exact r5 k hk
  have hd1u : ∀ b, b ≤ 36864 → used d1 b = used im.bm b := by
    intro b hb
    rw [← hd1, used_put_inode _ _ _ _ _ hb]
    exact r6 b hb
  generalize hcnt : (if block_num_of ino.size > NDIRECT then NDIRECT else block_num_of ino.size)
    = cnt
  have hcnt2 : cnt = min (block_num_of ino.size) 32 := by
    rw [← hcnt, NDIRECT_eq]; split <;> omega
  have hP : ∀ i, 0 ≤ i → i < 0 + cnt →
      1 ≤ ino.blocks i ∧ ino.blocks i ≤ BLOCK_NUM ∧ ino.blocks i % BPB ≠ 0 := by
    intro i _ h2
    have := hdata i (by omega)
    rw [file_block_direct _ _ i (by omega)] at this
    have hd := (is_data_block_iff _).1 this.1
    rw [BLOCK_NUM_eq]
    exact ⟨by omega, by omega, this.2⟩
  have hu2 := used_free_loop ino.blocks cnt 0 d1 hP
  have hf2 := free_loop_frame ino.blocks cnt 0 d1
  generalize for_loop (fun i d => block_manager.free_block d (ino.blocks i)) cnt 0 d1 = d2
    at hu2 hf2
  by_cases hbig : block_num_of ino.size > 32
  · have hbigN : block_num_of ino.size > NDIRECT := hbig
    rw [if_pos hbigN]
    have hpd := (is_data_block_iff _).1 (hind hbig)
    have hpv := is_data_block_valid _ (hind hbig)
    have htbl : ∀ i, read_table d2 (ino.blocks NDIRECT) g.table i =
        file_block im.bm ino (i + 32) := by
      intro i
      rw [read_table_valid _ _ _ hpv, file_block_indirect _ _ _ (by omega),
        hf2 _ (Or.inr (by omega)), hd1b _ (by omega)]
      simp
    have hP3 : ∀ i, 0 ≤ i → i < 0 + (block_num_of ino.size - NDIRECT) →
        1 ≤ read_table d2 (ino.blocks NDIRECT) g.table i ∧
        read_table d2 (ino.blocks NDIRECT) g.table i ≤ BLOCK_NUM ∧
        read_table d2 (ino.blocks NDIRECT) g.table i % BPB ≠ 0 := by
      intro i _ h2
      rw [NDIRECT_eq] at h2
      rw [htbl i]
      have := hdata (i + 32) (by omega)
      have hd := (is_data_block_iff _).1 this.1
      rw [BLOCK_NUM_eq]
      exact ⟨by omega, by omega, this.2⟩
    have hu3 := used_free_loop (read_table d2 (ino.blocks NDIRECT) g.table)
      (block_num_of ino.size - NDIRECT) 0 d2 hP3
    have hf3 := free_loop_frame (read_table d2 (ino.blocks NDIRECT) g.table)
      (block_num_of ino.size - NDIRECT) 0 d2
    refine ⟨?_, fun b h1 h2 => ?_, fun k h1 h2 => ?_⟩
    · rw [get_inode_congr _ d1 inum (by rw [hf3 _ (Or.inr (by omega)), hf2 _ (Or.inr (by omega))])]
      exact hnone
    · rw [hu3 b h1, hu2 b h1, hd1u b h2]
      have hN := NDIRECT_eq
      constructor
      · rintro ⟨⟨g1, g2⟩, g3⟩
        refine ⟨g1, fun j hj => ?_⟩
        by_cases hj32 : j < 32
        · rw [file_block_direct _ _ j hj32]
          exact g2 j (by omega) (by omega)
        · have := g3 (j - 32) (by omega) (by omega)
          rw [htbl] at this
          have e : j - 32 + 32 = j := by omega
          rw [e] at this
          exact this
      · rintro ⟨g1, g2⟩
        refine ⟨⟨g1, fun i _ hi => ?_⟩, fun i _ hi => ?_⟩
        · have := g2 i (by omega)
          rwa [file_block_direct _ _ i (by omega)] at this
        · rw [htbl]
          exact g2 (i + 32) (by omega)
    · rw [hf3 k h1, hf2 k h1]
      exact hd1b k h2
  · have hbigN : ¬ block_num_of ino.size > NDIRECT := hbig
    rw [if_neg hbigN]
    refine ⟨?_, fun b h1 h2 => ?_, fun k h1 h2 => ?_⟩
    · rw [get_inode_congr _ d1 inum (by rw [hf2 _ (Or.inr (by omega))])]
      exact hnone
    · rw [hu2 b h1, hd1u b h2]
      constructor
      · rintro ⟨g1, g2⟩
        refine ⟨g1, fun j hj => ?_⟩
        rw [file_block_direct _ _ j (by omega)]
        exact g2 j (by omega) (by omega)
      · rintro ⟨g1, g2⟩
        refine ⟨g1, fun i _ hi => ?_⟩
        have := g2 i (by omega)
        rwa [file_block_direct _ _ i (by omega)] at this
    · rw [hf2 k h1]
      exact hd1b k h2

end inode_manager
/-! ## The state after 33 blocks were written to inode 1 of the fresh file system -/

namespace inode_manager

open block_manager

/-- The state `im_big`: inode 1 has 33 blocks, the direct blocks 1036 to 1067, the indirect
block 1068 and the pointee 1069; exactly the ids up to 1069 are marked used; every other
inode slot is free. -/
theorem im_big_spec :
    ∃ ino, get_inode im_big.bm 1 = some ino ∧ ino.type = T_DIR ∧ ino.size = 16896 ∧
      (∀ j, j < 32 → ino.blocks j = 1036 + j) ∧ ino.blocks NDIRECT = 1068 ∧
      bytes_table (im_big.bm.blocks 1067) 0 = 1069 ∧
      (∀ b, 1 ≤ b → b ≤ 36864 → (used im_big.bm b = true ↔ b ≤ 1069)) ∧
      (∀ i, 2 ≤ i → i ≤ 1024 → (inode.decode (im_big.bm.blocks (i + 10))).type = 0) := by
  obtain ⟨⟨ino0, a1, a2, a3⟩, a4, a5, a6⟩ := init_spec 0
  have hfree : ∀ b, 1035 < b → b ≤ 1035 + blocks_total ((16896 + 511) / 512) →
      used (init 0).bm b = false := by
    intro b h1 h2
    have e : blocks_total ((16896 + 511) / 512) = 34 := rfl
    rw [e] at h2
    cases hc : used (init 0).bm b
    · rfl
    · have := (a5 b (by omega) (by omega)).1 hc
      omega
  obtain ⟨ino, w1, w2, w3, w4, w5, w6, w7, w8⟩ := write_file_fresh (init 0) 1 ino0 zero_block
    16896 0 1035 garbage_zero a1 a3 (by decide) (by decide) (le_refl _) (by decide)
    (fun b h1 h2 => (a5 b h1 (by omega)).2 h2) hfree
  have e33 : (16896 + 511) / 512 = 33 := rfl
  have e34 : blocks_total 33 = 34 := rfl
  rw [e33] at w4 w5 w6 w7 w8
  rw [e34] at w7 w8
  have him : write_file (init 0) 1 zero_block ((16896 : Nat) : Int) 0 garbage_zero = im_big := rfl
  rw [him] at w1 w5 w6 w7 w8
  obtain ⟨w51, w52⟩ := w5 (by decide)
  have w520 := w52 0 (by decide)
  have e67 : 1035 + 32 = 1067 := rfl
  have e69 : 1035 + 34 + 0 = 1069 := rfl
  have e68 : 1035 + 33 = 1068 := rfl
  rw [e67, e69] at w520
  rw [e68] at w51
  refine ⟨ino, w1, by rw [w2, a2], w3, fun j hj => ?_, w51, w520, fun b h1 h2 => ?_,
    fun i h1 h2 => ?_⟩
  · rw [w4 j (by omega) hj]
  · rw [w7 b h1 h2, a5 b h1 h2]
    omega
  · rw [w8 (i + 10) (Or.inr (by omega)) (by omega) (Or.inl (by omega))]
    exact init_slot_free 0 i h1

/-- The block ids of the file of `im_big`. -/
theorem im_big_file_block (ino : inode) (h : get_inode im_big.bm 1 = some ino) (j : Nat)
    (hj : j < 33) : file_block im_big.bm ino j = if j < 32 then 1036 + j else 1069 := by
  obtain ⟨ino1, s1, s2, s3, s4, s5, s6, s7, s8⟩ := im_big_spec
  rw [h] at s1
  cases Option.some.inj s1
  by_cases hj32 : j < 32
  · rw [file_block_direct _ _ j hj32, if_pos hj32]
    exact s4 j hj32
  · rw [file_block_indirect _ _ j (by omega), if_neg hj32, s5]
    have e : j - 32 = 0 := by omega
    have e1 : (1068 : Nat) - 1 = 1067 := rfl
    rw [e, e1]
    exact s6

end inode_manager
/-! ## The state after the big file was removed -/

namespace inode_manager

open block_manager

/-- For an id that is no multiple of `BPB`, the bit that `free_block` addresses is the bit
that `alloc_block` tests. -/
theorem bitmap_bit_eq_used (d : disk) (b : Nat) (h1 : 1 ≤ b) (hb : b % BPB ≠ 0) :
    bitmap_bit d (BBLOCK b) ((b - 1) % BPB) = used d b := by
  unfold used
  have : BBLOCK b = (b - 1) / BPB + 2 := by
    rw [BBLOCK_eq]
    simp only [BPB_eq] at *
    omega
  rw [this]

theorem get_inode_of_type_zero (d : disk) (inum : Nat)
    (h : (inode.decode (d.blocks (inum + 10))).type = 0) : get_inode d inum = none := by
  by_cases hv : valid_inum inum = true
  · rw [get_inode_eq _ _ hv, if_pos h]
  · unfold get_inode
    rw [if_neg hv]

/-- The state `im_removed`: no inode is left, and exactly the ids up to 1035 and the id
1068, the indirect block of the removed file, are marked used. -/
theorem im_removed_spec :
    get_inode im_removed.bm 1 = none ∧
    (∀ b, 1 ≤ b → b ≤ 36864 → (used im_removed.bm b = true ↔ (b ≤ 1035 ∨ b = 1068))) ∧
    (∀ i, 2 ≤ i → i ≤ 1024 → (inode.decode (im_removed.bm.blocks (i + 10))).type = 0) := by
  obtain ⟨ino, s1, s2, s3, s4, s5, s6, s7, s8⟩ := im_big_spec
  have hfb := im_big_file_block ino s1
  have hbn : block_num_of ino.size = 33 := by rw [s3]; rfl
  obtain ⟨r1, r2, r3⟩ := remove_file_spec im_big 1 0 garbage_zero ino s1
    (fun j hj => by
      rw [hbn] at hj
      rw [hfb j hj, is_data_block_iff, BPB_eq]
      split <;> omega)
    (fun _ => by rw [s5, is_data_block_iff]; omega)
  rw [hbn] at r2
  have hrem : remove_file im_big 1 0 garbage_zero = im_removed := rfl
  rw [hrem] at r1 r2 r3
  refine ⟨r1, fun b h1 h2 => ?_, fun i h1 h2 => ?_⟩
  · rw [r2 b h1 h2, s7 b h1 h2]
    constructor
    · rintro ⟨g1, g2⟩
      have c1 := g2 (b - 1036)
      have c2 := g2 32 (by omega)
      rw [hfb 32 (by omega)] at c2
      simp only [lt_irrefl, if_false] at c2
      by_cases hb : b ≤ 1035
      · exact Or.inl hb
      · right
        by_contra hne
        have hlt : b - 1036 < 33 := by omega
        have c3 := c1 hlt
        rw [hfb _ hlt] at c3
        have : b - 1036 < 32 := by omega
        simp only [this, if_true] at c3
        omega
    · intro h
      refine ⟨by omega, fun j hj => ?_⟩
      rw [hfb j hj]
      split <;> omega
  · rw [r3 (i + 10) (Or.inr (by omega)) (by omega)]
    exact s8 i h1 h2

end inode_manager
/-! ## Shrinking a file to at most `NDIRECT` blocks -/

namespace inode_manager

open block_manager

/-- A loop of `write_block` over blocks that are no bitmap blocks changes no bit. -/
theorem used_write_loop (P : Nat → Nat) (D : Nat → Block) (n lo : Nat) (d : disk) (b : Nat)
    (hP : ∀ i, lo ≤ i → i < lo + n → 11 ≤ P i) (hb : b ≤ 36864) :
    used (for_loop (fun i d => block_manager.write_block d (P i) (D i)) n lo d) b = used d b :=
  used_of_frame _ _ (fun k h1 h2 => write_loop_frame P D n lo d k (fun i g1 g2 => by
    have := hP i g1 g2
    omega)) b hb

theorem rewrite_old_small (d : disk) (ino : inode) (tbl0 : Nat → Nat) (buf : Block)
    (size new : Nat) (h : new ≤ 32) :
    rewrite_old d ino tbl0 buf size new =
      (for_loop (fun i d => block_manager.write_block d (ino.blocks i)
        (data_block buf size (new - 1) i)) new 0 d, tbl0) := by
  have hN : ¬ new > NDIRECT := by rw [NDIRECT_eq]; omega
  unfold rewrite_old
  simp only [hN, if_false]

theorem free_unused_small (d : disk) (ino : inode) (tbl : Nat → Nat) (old new : Nat)
    (h : new ≤ 32) :
    free_unused d ino tbl old new =
      if old > 32 then
        block_manager.free_block
          (for_loop (fun i d => block_manager.free_block d (tbl i)) (old - 32) 0
            (for_loop (fun i d => block_manager.free_block d (ino.blocks i)) (32 - new) new d))
          (ino.blocks NDIRECT)
      else for_loop (fun i d => block_manager.free_block d (ino.blocks i)) (old - new) new d := by
  have hN : ¬ new > NDIRECT := by rw [NDIRECT_eq]; omega
  have hN2 : new ≤ NDIRECT := by rw [NDIRECT_eq]; omega
  unfold free_unused
  by_cases ho : old > 32
  · have hoN : old > NDIRECT := ho
    have hn32 : ¬ new > 32 := by omega
    simp only [hoN, ho, hN, hN2, h, hn32, if_true, if_false, NDIRECT_eq, Nat.sub_zero]
  · have hoN : ¬ old > NDIRECT := ho
    simp only [hoN, ho, if_false]

/-- The function `_write_file` when the new content has at most `NDIRECT` blocks and no
more blocks than the old one.  The table `indirect_block_buf` is not loaded on this path,
so the ids freed as indirect pointees are those of the uninitialised table `g.table`.  The
ids freed are taken to be valid and no multiples of `BPB`. -/
theorem _write_file_shrink (d : disk) (inum : Nat) (ino : inode) (buf : Block) (n now : Nat)
    (g : garbage) (hi : get_inode d inum = some ino) (hn : n ≤ MAXFILESIZE)
    (hle : (n + 511) / 512 ≤ block_num_of ino.size) (h32 : (n + 511) / 512 ≤ 32)
    (hwr : ∀ j, j < (n + 511) / 512 → 11 ≤ ino.blocks j)
    (hfr : ∀ j, (n + 511) / 512 ≤ j → j < min (block_num_of ino.size) 32 →
      1 ≤ ino.blocks j ∧ ino.blocks j ≤ BLOCK_NUM ∧ ino.blocks j % BPB ≠ 0)
    (hfi : block_num_of ino.size > 32 →
      (∀ i, i < block_num_of ino.size - 32 →
        1 ≤ g.table i ∧ g.table i ≤ BLOCK_NUM ∧ g.table i % BPB ≠ 0) ∧
      1 ≤ ino.blocks NDIRECT ∧ ino.blocks NDIRECT ≤ BLOCK_NUM ∧ ino.blocks NDIRECT % BPB ≠ 0) :
    (∃ ino1, get_inode (_write_file d inum buf (n : Int) now g).2 inum = some ino1 ∧
      ino1.type = ino.type ∧ ino1.size = n ∧ ∀ i, i ≤ NDIRECT → ino1.blocks i = ino.blocks i) ∧
    (∀ b, 1 ≤ b → b ≤ 36864 →
      (used (_write_file d inum buf (n : Int) now g).2 b = true ↔
        (used d b = true ∧
          (∀ j, (n + 511) / 512 ≤ j → j < min (block_num_of ino.size) 32 → b ≠ ino.blocks j) ∧
          (block_num_of ino.size > 32 →
            (∀ i, i < block_num_of ino.size - 32 → b ≠ g.table i) ∧ b ≠ ino.blocks NDIRECT)))) ∧
    (∀ k, (k = 0 ∨ 10 ≤ k) → k ≠ inum + 10 → (∀ j, j < (n + 511) / 512 → k ≠ ino.blocks j - 1) →
      (_write_file d inum buf (n : Int) now g).2.blocks k = d.blocks k) := by
  obtain ⟨hv, _, ht⟩ := get_inode_some d inum ino hi
  obtain ⟨l1, l2, l3⟩ := get_inode_lt d inum ino hi
  rw [_write_file_eq _ inum buf n now g ino hi hn, if_pos hle]
  simp only
  unfold write_smaller
  rw [rewrite_old_small _ _ _ _ _ _ h32]
  simp only
  rw [free_unused_small _ _ _ _ _ h32]
  have hu1 := fun b hb => used_write_loop ino.blocks (data_block buf n ((n + 511) / 512 - 1))
    ((n + 511) / 512) 0 d b (fun i _ g2 => hwr i (by omega)) hb
  have hf1 := write_loop_frame ino.blocks (data_block buf n ((n + 511) / 512 - 1))
    ((n + 511) / 512) 0 d
  generalize for_loop (fun i d => block_manager.write_block d (ino.blocks i)
    (data_block buf n ((n + 511) / 512 - 1) i)) ((n + 511) / 512) 0 d = d1 at hu1 hf1
  obtain ⟨ino1, g1, g2, g3, g4⟩ := get_inode_put_inode
    (if block_num_of ino.size > 32 then
        block_manager.free_block
          (for_loop (fun i d => block_manager.free_block d (g.table i))
            (block_num_of ino.size - 32) 0
            (for_loop (fun i d => block_manager.free_block d (ino.blocks i))
              (32 - (n + 511) / 512) ((n + 511) / 512) d1))
          (ino.blocks NDIRECT)
      else for_loop (fun i d => block_manager.free_block d (ino.blocks i))
        (block_num_of ino.size - (n + 511) / 512) ((n + 511) / 512) d1) inum
    { ino with size := n, mtime := now, ctime := now, blocks := ino.blocks } now hv
    (by
      show ino.type % 4294967296 ≠ 0
      rw [Nat.mod_eq_of_lt l1]
      exact ht)
  rw [MAXFILESIZE_eq] at hn
  refine ⟨⟨ino1, g1, ?_, ?_, fun i hi => ?_⟩, fun b h1 h2 => ?_, fun k h1 h2 h3 => ?_⟩
  · rw [g2]
    exact Nat.mod_eq_of_lt l1
  · rw [g3]
    exact Nat.mod_eq_of_lt (by show n < 4294967296; omega)
  · rw [g4 i hi]
    exact Nat.mod_eq_of_lt (l3 i)
  · rw [used_put_inode _ _ _ _ _ h2]
    by_cases ho : block_num_of ino.size > 32
    · have hm : min (block_num_of ino.size) 32 = 32 := by omega
      rw [if_pos ho]
      obtain ⟨f1, f2, f3, f4⟩ := hfi ho
      rw [used_free_block _ _ _ f2 f3 f4 h1,
        used_free_loop g.table (block_num_of ino.size - 32) 0 _
          (fun i _ hi => f1 i (by omega)) b h1,
        used_free_loop ino.blocks (32 - (n + 511) / 512) ((n + 511) / 512) d1
          (fun j g1 g2 => hfr j g1 (by omega)) b h1, hu1 b h2, hm]
      constructor
      · rintro ⟨⟨⟨c1, c2⟩, c3⟩, c4⟩
        exact ⟨c1, fun j g1 g2 => c2 j g1 (by omega), fun _ =>
          ⟨fun i hi => c3 i (Nat.zero_le _) (by omega), c4⟩⟩
      · rintro ⟨c1, c2, c3⟩
        exact ⟨⟨⟨c1, fun j g1 g2 => c2 j g1 (by omega)⟩,
          fun i _ hi => (c3 ho).1 i (by omega)⟩, (c3 ho).2⟩
    · have hm : min (block_num_of ino.size) 32 = block_num_of ino.size := by omega
      rw [if_neg ho]
      rw [used_free_loop ino.blocks (block_num_of ino.size - (n + 511) / 512) ((n + 511) / 512) d1
          (fun j g1 g2 => hfr j g1 (by omega)) b h1, hu1 b h2, hm]
      constructor
      · rintro ⟨c1, c2⟩
        exact ⟨c1, fun j g1 g2 => c2 j g1 (by omega), fun h => absurd h ho⟩
      · rintro ⟨c1, c2, _⟩
        exact ⟨c1, fun j g1 g2 => c2 j g1 (by omega)⟩
  · rw [put_inode_other _ _ _ _ _ h2]
    have hd1 : d1.blocks k = d.blocks k := hf1 k (fun i _ g2 => h3 i (by omega))
    by_cases ho : block_num_of ino.size > 32
    · rw [if_pos ho, free_block_frame_blocks _ _ _ h1, free_loop_frame _ _ _ _ _ h1,
        free_loop_frame _ _ _ _ _ h1]
      exact hd1
    · rw [if_neg ho, free_loop_frame _ _ _ _ _ h1]
      exact hd1

/-- The same for `write_file`. -/
theorem write_file_shrink (im : inode_manager) (inum : Nat) (ino : inode) (buf : Block)
    (n now : Nat) (g : garbage) (hi : get_inode im.bm inum = some ino) (hn : n ≤ MAXFILESIZE)
    (hle : (n + 511) / 512 ≤ block_num_of ino.size) (h32 : (n + 511) / 512 ≤ 32)
    (hwr : ∀ j, j < (n + 511) / 512 → 11 ≤ ino.blocks j)
    (hfr : ∀ j, (n + 511) / 512 ≤ j → j < min (block_num_of ino.size) 32 →
      1 ≤ ino.blocks j ∧ ino.blocks j ≤ BLOCK_NUM ∧ ino.blocks j % BPB ≠ 0)
    (hfi : block_num_of ino.size > 32 →
      (∀ i, i < block_num_of ino.size - 32 →
        1 ≤ g.table i ∧ g.table i ≤ BLOCK_NUM ∧ g.table i % BPB ≠ 0) ∧
      1 ≤ ino.blocks NDIRECT ∧ ino.blocks NDIRECT ≤ BLOCK_NUM ∧ ino.blocks NDIRECT % BPB ≠ 0) :
    (∃ ino1, get_inode (write_file im inum buf (n : Int) now g).bm inum = some ino1 ∧
      ino1.type = ino.type ∧ ino1.size = n ∧ ∀ i, i ≤ NDIRECT → ino1.blocks i = ino.blocks i) ∧
    (∀ b, 1 ≤ b → b ≤ 36864 →
      (used (write_file im inum buf (n : Int) now g).bm b = true ↔
        (used im.bm b = true ∧
          (∀ j, (n + 511) / 512 ≤ j → j < min (block_num_of ino.size) 32 → b ≠ ino.blocks j) ∧
          (block_num_of ino.size > 32 →
            (∀ i, i < block_num_of ino.size - 32 → b ≠ g.table i) ∧ b ≠ ino.blocks NDIRECT)))) ∧
    (∀ k, (k = 0 ∨ 10 ≤ k) → k ≠ inum + 10 → (∀ j, j < (n + 511) / 512 → k ≠ ino.blocks j - 1) →
      (write_file im inum buf (n : Int) now g).bm.blocks k = im.bm.blocks k) := by
  obtain ⟨ino_r, r1, r2, r3, r4, r5, r6⟩ := read_file_inode im.bm inum now g ino hi
  rw [write_file_bm]
  generalize (read_file im.bm inum now g).2 = d_r at r1 r5 r6
  have hN := NDIRECT_eq
  obtain ⟨⟨ino1, w1, w2, w3, w4⟩, w5, w6⟩ := _write_file_shrink d_r inum ino_r buf n now g r1 hn
    (by rw [r3]; exact hle) h32
    (fun j hj => by rw [r4 j (by omega)]; exact hwr j hj)
    (fun j g1 g2 => by rw [r3] at g2; rw [r4 j (by omega)]; exact hfr j g1 g2)
    (fun h => by rw [r3] at h ⊢; rw [r4 _ (le_refl _)]; exact hfi h)
  rw [r3] at w5
  refine ⟨⟨ino1, w1, by rw [w2, r2], w3, fun i hi => by rw [w4 i hi, r4 i hi]⟩,
    fun b h1 h2 => ?_, fun k h1 h2 h3 => ?_⟩
  · rw [w5 b h1 h2, r6 b h2, r4 _ (le_refl _)]
    constructor
    · rintro ⟨c1, c2, c3⟩
      exact ⟨c1, fun j g1 g2 => by rw [← r4 j (by omega)]; exact c2 j g1 g2, c3⟩
    · rintro ⟨c1, c2, c3⟩
      exact ⟨c1, fun j g1 g2 => by rw [r4 j (by omega)]; exact c2 j g1 g2, c3⟩
  · rw [w6 k h1 h2 (fun j hj => by rw [r4 j (by omega)]; exact h3 j hj)]
    exact r5 k h2

end inode_manager
/-! ## The big file shrunk while the uninitialised table held the id of a block in use -/

namespace inode_manager

open block_manager

/-- The state `im_shrunk`: inode 1 has 32 blocks, the first of them block 1036, and the
bits of the ids 1036 and 1068 are 0. -/
theorem im_shrunk_spec :
    (∃ ino, get_inode im_shrunk.bm 1 = some ino ∧ ino.type = T_DIR ∧ ino.size = 16384 ∧
      ino.blocks 0 = 1036) ∧
    (∀ b, 1 ≤ b → b ≤ 36864 →
      (used im_shrunk.bm b = true ↔ (b ≤ 1069 ∧ b ≠ 1036 ∧ b ≠ 1068))) ∧
    (∀ i, 2 ≤ i → i ≤ 1024 → (inode.decode (im_shrunk.bm.blocks (i + 10))).type = 0) := by
  obtain ⟨ino, s1, s2, s3, s4, s5, s6, s7, s8⟩ := im_big_spec
  have hbn : block_num_of ino.size = 33 := by rw [s3]; rfl
  have e32 : (16384 + 511) / 512 = 32 := rfl
  have hg : ∀ i, garbage_1036.table i = 1036 := fun _ => rfl
  obtain ⟨⟨ino1, w1, w2, w3, w4⟩, w5, w6⟩ := write_file_shrink im_big 1 ino zero_block 16384 0
    garbage_1036 s1 (by decide) (by rw [hbn, e32]; decide) (by rw [e32])
    (fun j hj => by rw [e32] at hj; rw [s4 j hj]; omega)
    (fun j g1 g2 => by rw [hbn] at g2; rw [e32] at g1; omega)
    (fun _ => ⟨fun i _ => by rw [hg, BLOCK_NUM_eq, BPB_eq]; omega,
      by rw [s5, BLOCK_NUM_eq, BPB_eq]; omega⟩)
  have him : write_file im_big 1 zero_block ((16384 : Nat) : Int) 0 garbage_1036 = im_shrunk := rfl
  rw [him] at w1 w5 w6
  rw [hbn, e32] at w5
  rw [e32] at w6
  refine ⟨⟨ino1, w1, by rw [w2, s2], w3, ?_⟩, fun b h1 h2 => ?_, fun i h1 h2 => ?_⟩
  · rw [w4 0 (Nat.zero_le _), s4 0 (by decide)]
  · rw [w5 b h1 h2, s7 b h1 h2, s5]
    constructor
    · rintro ⟨c1, _, c3⟩
      obtain ⟨c4, c5⟩ := c3 (by decide)
      have := c4 0 (by decide)
      rw [hg] at this
      exact ⟨c1, this, c5⟩
    · rintro ⟨c1, c2, c3⟩
      exact ⟨c1, fun j g1 g2 => by omega, fun _ => ⟨fun i _ => by rw [hg]; exact c2, c3⟩⟩
  · rw [w6 (i + 10) (Or.inr (by omega)) (by omega) (fun j hj => by rw [s4 j hj]; omega)]
    exact s8 i h1 h2

/-- The state `im_shared`: inode 1 and inode 2 both hold block 1036 as their first direct
block. -/
theorem im_shared_spec :
    ∃ ino1 ino2, get_inode im_shared.bm 1 = some ino1 ∧ get_inode im_shared.bm 2 = some ino2 ∧
      ino1.type = T_DIR ∧ ino1.size = 16384 ∧ ino1.blocks 0 = 1036 ∧
      ino2.type = 2 ∧ ino2.size = 1 ∧ ino2.blocks 0 = 1036 := by
  obtain ⟨⟨ino1, s1, s2, s3, s4⟩, s5, s6⟩ := im_shrunk_spec
  obtain ⟨_, hd1, ht1⟩ := get_inode_some _ _ _ s1
  obtain ⟨a1, ⟨ino2, a2, a3, a4⟩, a5, a6⟩ := alloc_inode_spec im_shrunk 2 0 2 (by decide)
    (by decide) (by decide) (by decide)
    (fun i h1 h2 => by
      have : i = 1 := by omega
      rw [this, ← hd1]
      exact ht1)
    (s6 2 (by decide) (by decide))
  have hu : ∀ b, b ≤ 36864 → used (alloc_inode im_shrunk 2 0).2.bm b = used im_shrunk.bm b :=
    fun b hb => used_of_frame _ _ (fun k g1 g2 => a5 k (by omega)) b hb
  have e1 : ((1 : Nat) + 511) / 512 = 1 := rfl
  have et : blocks_total 1 = 1 := rfl
  obtain ⟨ino3, w1, w2, w3, w4, w5, w6, w7, w8⟩ := write_file_fresh (alloc_inode im_shrunk 2 0).2
    2 ino2 (list_buf [7]) 1 0 1035 garbage_zero a2 a4 (by decide) (by decide) (le_refl _)
    (by decide)
    (fun b h1 h2 => by rw [hu b (by omega)]; exact (s5 b h1 (by omega)).2 (by omega))
    (fun b h1 h2 => by
      rw [e1, et] at h2
      rw [hu b (by omega)]
      cases hc : used im_shrunk.bm b
      · rfl
      · have := (s5 b (by omega) (by omega)).1 hc
        omega)
  have him : write_file (alloc_inode im_shrunk 2 0).2 2 (list_buf [7]) ((1 : Nat) : Int) 0
      garbage_zero = im_shared := rfl
  rw [him] at w1 w8
  rw [e1] at w4
  rw [e1, et] at w8
  refine ⟨ino1, ino3, ?_, w1, s2, s3, s4, by rw [w2, a3], w3, ?_⟩
  · have e11 : (1 : Nat) + 10 = 11 := rfl
    rw [get_inode_congr im_shared.bm im_shrunk.bm 1
      (by rw [e11, w8 11 (Or.inr (by decide)) (by decide) (Or.inl (by decide)),
        a5 11 (by decide)])]
    exact s1
  · rw [w4 0 (by decide) (by decide)]

end inode_manager
/-! ## The text of the log: what is written is what is read -/

namespace log_manager

theorem digits_spec (fuel v : Nat) (h : v < fuel) :
    digits fuel v ≠ [] ∧ (∀ c ∈ digits fuel v, 48 ≤ c ∧ c ≤ 57) ∧
    (digits fuel v).foldl (fun acc c => 10 * acc + (c - 48)) 0 = v := by
  induction fuel generalizing v with
  | zero => omega
  | succ fuel ih =>
    unfold digits
    by_cases hv : v < 10
    · simp only [hv, if_true]
      refine ⟨by simp, fun c hc => ?_, ?_⟩
      · simp only [List.mem_singleton] at hc
        omega
      · simp
    · simp only [hv, if_false]
      obtain ⟨i1, i2, i3⟩ := ih (v / 10) (by omega)
      refine ⟨by simp, fun c hc => ?_, ?_⟩
      · rcases List.mem_append.1 hc with h1 | h1
        · exact i2 c h1
        · simp only [List.mem_singleton] at h1
          omega
      · rw [List.foldl_append, i3]
        simp only [List.foldl_cons, List.foldl_nil]
        omega

theorem decimal_spec (n : Nat) :
    decimal n ≠ [] ∧ (∀ c ∈ decimal n, 48 ≤ c ∧ c ≤ 57) ∧
    (decimal n).foldl (fun acc c => 10 * acc + (c - 48)) 0 = n :=
  digits_spec (n + 1) n (Nat.lt_succ_self n)

theorem takeWhile_append_stop (p : Nat → Bool) (l : List Nat) (c : Nat) (rest : List Nat)
    (hl : ∀ x ∈ l, p x = true) (hc : p c = false) : (l ++ c :: rest).takeWhile p = l := by
  induction l with
  | nil => simp [List.takeWhile, hc]
  | cons a l ih =>
    have ha := hl a (List.mem_cons_self a l)
    rw [List.cons_append, List.takeWhile_cons, ha, ih (fun x hx => hl x (List.mem_cons_of_mem a hx))]
    rfl

theorem dropWhile_append_stop (p : Nat → Bool) (l : List Nat) (c : Nat) (rest : List Nat)
    (hl : ∀ x ∈ l, p x = true) (hc : p c = false) : (l ++ c :: rest).dropWhile p = c :: rest := by
  induction l with
  | nil => simp [List.dropWhile, hc]
  | cons a l ih =>
    have ha := hl a (List.mem_cons_self a l)
    rw [List.cons_append, List.dropWhile_cons, ha]
    exact ih (fun x hx => hl x (List.mem_cons_of_mem a hx))

/-- The extraction of a number reads back the text of a number that follows one space and
is followed by a character that is no digit. -/
theorem read_num_decimal (n c : Nat) (rest : List Nat) (hc : (decide (48 ≤ c) && decide (c ≤ 57)) = false) :
    read_num (32 :: (decimal n ++ c :: rest)) = some (n, c :: rest) := by
  obtain ⟨d1, d2, d3⟩ := decimal_spec n
  have hdig : ∀ x ∈ decimal n, (fun c => decide (48 ≤ c) && decide (c ≤ 57)) x = true := by
    intro x hx
    have := d2 x hx
    simp [this.1, this.2]
  have hdrop : (32 :: (decimal n ++ c :: rest)).dropWhile is_space = decimal n ++ c :: rest := by
    have h32 : is_space 32 = true := by decide
    rw [List.dropWhile_cons, h32]
    cases hd : decimal n with
    | nil => exact absurd hd d1
    | cons a l =>
      have ha := d2 a (by rw [hd]; exact List.mem_cons_self a l)
      have : is_space a = false := by
        simp only [is_space, Bool.or_eq_false_iff, Bool.and_eq_false_iff, decide_eq_false_iff_not]
        omega
      rw [List.cons_append, List.dropWhile_cons, this]
      rfl
  unfold read_num
  simp only [hdrop]
  rw [takeWhile_append_stop _ _ _ _ hdig hc, dropWhile_append_stop _ _ _ _ hdig hc, if_neg d1, d3]

end log_manager
namespace log_manager

theorem read_word_create (rest : List Nat) :
    read_word (str_create ++ 32 :: rest) = (str_create, 32 :: rest) := rfl

theorem read_word_update (rest : List Nat) :
    read_word (str_update ++ 32 :: rest) = (str_update, 32 :: rest) := rfl

theorem read_word_delete (rest : List Nat) :
    read_word (str_delete ++ 32 :: rest) = (str_delete, 32 :: rest) := rfl

theorem read_word_commit (rest : List Nat) :
    read_word (str_commit ++ 10 :: rest) = (str_commit, 10 :: rest) := rfl

theorem parse_log_create (inum type : Nat) (rest : List Nat) :
    parse_log ((log_entry.create inum type).bytes ++ rest) =
      some (log_entry.create inum type, rest) := by
  have e : (log_entry.create inum type).bytes ++ rest =
      str_create ++ 32 :: (decimal inum ++ 32 :: (decimal type ++ 10 :: rest)) := by
    simp [log_entry.bytes]
  rw [e]
  unfold parse_log
  rw [read_word_create]
  simp only [if_true]
  rw [read_num_decimal inum 32 _ (by decide)]
  simp only
  rw [read_num_decimal type 10 _ (by decide)]
  simp

theorem parse_log_delete (inum type : Nat) (rest : List Nat) :
    parse_log ((log_entry.deletee inum type).bytes ++ rest) =
      some (log_entry.deletee inum type, rest) := by
  have e : (log_entry.deletee inum type).bytes ++ rest =
      str_delete ++ 32 :: (decimal inum ++ 32 :: (decimal type ++ 10 :: rest)) := by
    simp [log_entry.bytes]
  rw [e]
  unfold parse_log
  rw [read_word_delete]
  have h1 : ¬ str_delete = str_create := by decide
  have h2 : ¬ str_delete = str_update := by decide
  simp only [h1, h2, if_false, if_true]
  rw [read_num_decimal inum 32 _ (by decide)]
  simp only
  rw [read_num_decimal type 10 _ (by decide)]
  simp

theorem parse_log_commit (rest : List Nat) :
    parse_log (log_entry.commit.bytes ++ rest) = some (log_entry.commit, rest) := by
  have e : log_entry.commit.bytes ++ rest = str_commit ++ 10 :: rest := by
    simp [log_entry.bytes]
  rw [e]
  unfold parse_log
  rw [read_word_commit]
  have h1 : ¬ str_commit = str_create := by decide
  have h2 : ¬ str_commit = str_update := by decide
  have h3 : ¬ str_commit = str_delete := by decide
  simp [h1, h2, h3]

theorem parse_log_update (inum old_size new_size : Nat) (old_buf new_buf rest : List Nat)
    (h1 : old_buf.length = old_size) (h2 : new_buf.length = new_size) :
    parse_log ((log_entry.update inum old_size new_size old_buf new_buf).bytes ++ rest) =
      some (log_entry.update inum old_size new_size old_buf new_buf, rest) := by
  have e : (log_entry.update inum old_size new_size old_buf new_buf).bytes ++ rest =
      str_update ++ 32 :: (decimal inum ++ 32 :: (decimal old_size ++ 32 ::
        (decimal new_size ++ 32 :: (old_buf ++ (new_buf ++ 10 :: rest))))) := by
    simp [log_entry.bytes]
  rw [e]
  unfold parse_log
  rw [read_word_update]
  have c1 : ¬ str_update = str_create := by decide
  simp only [c1, if_false, if_true]
  rw [read_num_decimal inum 32 _ (by decide)]
  simp only
  rw [read_num_decimal old_size 32 _ (by decide)]
  simp only
  rw [read_num_decimal new_size 32 _ (by decide)]
  simp only [List.drop_succ_cons, List.drop_zero]
  have t1 : (old_buf ++ (new_buf ++ 10 :: rest)).take old_size = old_buf := by
    rw [← h1]; exact List.take_left _ _
  have t2 : (old_buf ++ (new_buf ++ 10 :: rest)).drop old_size = new_buf ++ 10 :: rest := by
    rw [← h1]; exact List.drop_left _ _
  have t3 : (new_buf ++ 10 :: rest).take new_size = new_buf := by
    rw [← h2]; exact List.take_left _ _
  have t4 : (new_buf ++ 10 :: rest).drop new_size = 10 :: rest := by
    rw [← h2]; exact List.drop_left _ _
  rw [t1, t2, t3, t4]
  rfl

/-- What `next_log` parses from the text of a well-formed record is that record, and what
it leaves is what follows the record. -/
theorem parse_log_bytes (e : log_entry) (rest : List Nat) (h : e.wf) :
    parse_log (e.bytes ++ rest) = some (e, rest) := by
  cases e with
  | create inum type => exact parse_log_create inum type rest
  | update inum old_size new_size old_buf new_buf =>
    exact parse_log_update inum old_size new_size old_buf new_buf rest h.1 h.2
  | deletee inum type => exact parse_log_delete inum type rest
  | commit => exact parse_log_commit rest

theorem bytes_length_pos (e : log_entry) : 0 < e.bytes.length := by
  cases e <;> simp [log_entry.bytes]

end log_manager
/-! ## Reading records back from the log -/

namespace log_manager

theorem next_log_spec (lm : log_manager) (e : log_entry) (rest : List Nat) (hwf : e.wf)
    (h : lm.logfile.drop lm.pos = e.bytes ++ rest) :
    lm.next_log = some (e, { lm with pos := lm.pos + e.bytes.length }) := by
  have hl := congrArg List.length h
  rw [List.length_drop, List.length_append] at hl
  have hp := bytes_length_pos e
  have : lm.logfile.length - rest.length = lm.pos + e.bytes.length := by omega
  unfold next_log
  rw [h, parse_log_bytes e rest hwf]
  simp only [this]

theorem log_text_length (todo : List log_entry) : todo.length ≤ (log_text todo).length := by
  induction todo with
  | nil => simp [log_text]
  | cons e todo ih =>
    have := bytes_length_pos e
    simp only [log_text, List.length_cons, List.length_append]
    omega

/-- The loop of `rollback` reads the records that lie between the position and `curr`. -/
theorem read_until_spec (curr : Nat) (todo : List log_entry) (hwf : ∀ e ∈ todo, e.wf) :
    ∀ (fuel : Nat) (lm : log_manager) (acc : List log_entry) (tail : List Nat),
      todo.length ≤ fuel →
      lm.logfile.drop lm.pos = log_text todo ++ tail →
      lm.pos + (log_text todo).length = curr →
      read_until curr fuel lm acc = some (acc ++ todo, { lm with pos := curr }) := by
  induction todo with
  | nil =>
    intro fuel lm acc tail _ _ hpos
    simp only [log_text, List.length_nil, Nat.add_zero] at hpos
    subst hpos
    cases fuel <;> simp [read_until]
  | cons e todo ih =>
    intro fuel lm acc tail hfuel htext hpos
    have hp := bytes_length_pos e
    simp only [log_text, List.length_append] at hpos
    simp only [log_text, List.append_assoc] at htext
    cases fuel with
    | zero => simp at hfuel
    | succ fuel =>
      have hlt : lm.pos < curr := by omega
      unfold read_until
      rw [if_pos hlt, next_log_spec lm e _ (hwf e (List.mem_cons_self e todo)) htext]
      simp only
      rw [ih (fun x hx => hwf x (List.mem_cons_of_mem e hx)) fuel
        { lm with pos := lm.pos + e.bytes.length } (acc ++ [e]) tail
        (by simpa using hfuel)
        (by
          show lm.logfile.drop (lm.pos + e.bytes.length) = _
          rw [← List.drop_drop, htext, List.drop_left])
        (by show lm.pos + e.bytes.length + _ = curr; omega)]
      simp

/-- The method `rollback` when the position is above the last checkpoint: the records
written since the checkpoint are returned and the position is the checkpoint. -/
theorem rollback_spec (lm : log_manager) (ckp : Nat) (cks : List Nat) (todo : List log_entry)
    (hwf : ∀ e ∈ todo, e.wf) (hck : lm.previous_checkpoints = ckp :: cks) (hne : todo ≠ [])
    (htext : lm.logfile.drop ckp = log_text todo ++ lm.logfile.drop lm.pos)
    (hpos : ckp + (log_text todo).length = lm.pos) :
    lm.rollback = some (todo, { lm with pos := ckp }) := by
  have hlen := log_text_length todo
  have hpos1 : 0 < todo.length := List.length_pos.2 hne
  have hgt : lm.pos > ckp := by omega
  unfold rollback
  rw [hck]
  simp only [hgt, if_true]
  unfold rollback_read
  simp only
  rw [read_until_spec lm.pos todo hwf (lm.pos - ckp) { lm with pos := ckp } []
    (lm.logfile.drop lm.pos) (by omega) htext hpos]
  simp [hck]

/-- The method `forward` when one record that is no commit lies between the position and
the end of the log. -/
theorem forward_one (lm : log_manager) (e : log_entry) (hwf : e.wf) (hc : e ≠ log_entry.commit)
    (htext : lm.logfile.drop lm.pos = e.bytes) :
    lm.forward = some ([e], { lm with pos := lm.logfile.length }) := by
  have hp := bytes_length_pos e
  have hl := congrArg List.length htext
  rw [List.length_drop] at hl
  have hlt : lm.pos < lm.logfile.length := by omega
  have hfuel : lm.logfile.length - lm.pos = (lm.logfile.length - lm.pos - 1) + 1 := by omega
  have hn := next_log_spec lm e [] hwf (by rw [htext, List.append_nil])
  have hend : lm.pos + e.bytes.length = lm.logfile.length := by omega
  rw [hend] at hn
  unfold forward
  rw [if_pos hlt, hfuel]
  unfold forward_loop
  rw [hn]
  cases e with
  | commit => exact absurd rfl hc
  | create inum type => simp
  | update inum old_size new_size old_buf new_buf => simp
  | deletee inum type => simp

theorem log_at_end (lm : log_manager) (x : List Nat) (h : lm.pos = lm.logfile.length) :
    lm.log x = ⟨lm.logfile ++ x, (lm.logfile ++ x).length, lm.previous_checkpoints⟩ := by
  unfold log
  rw [if_neg (by omega)]

theorem create_log_eq (lm : log_manager) (inum type : Nat) :
    lm.create_log inum type = lm.log (log_entry.create inum type).bytes := rfl

theorem update_log_eq (lm : log_manager) (inum old_size : Nat) (old_buf : Block) (new_size : Nat)
    (new_buf : Block) :
    lm.update_log inum old_size old_buf new_size new_buf =
      lm.log (log_entry.update inum old_size new_size (bytes_of old_buf old_size)
        (bytes_of new_buf new_size)).bytes := rfl

theorem bytes_of_length (buf : Block) (n : Nat) : (bytes_of buf n).length = n := by
  simp [bytes_of]

end log_manager
/-! ## The log of the inode manager, and what a reader sees of a one-block file -/

namespace inode_manager

open block_manager

/-- The record that `write_file` logs: the old size and content as `read_file` returns
them, then the new size and content. -/
theorem write_file_lm (im : inode_manager) (inum : Nat) (buf : Block) (n now : Nat)
    (g : garbage) (ino : inode) (hi : get_inode im.bm inum = some ino) (hn : n ≤ MAXFILESIZE) :
    ∃ out, (read_file im.bm inum now g).1 = some (out, ino.size) ∧
      (write_file im inum buf (n : Int) now g).lm = im.lm.update_log inum ino.size out n buf := by
  obtain ⟨ino_r, r1, _⟩ := read_file_inode im.bm inum now g ino hi
  have hw := _write_file_eq (read_file im.bm inum now g).2 inum buf n now g ino_r r1 hn
  have hr1 : (_write_file (read_file im.bm inum now g).2 inum buf (n : Int) now g).1 = 1 := by
    rw [hw]
  have hold : ∃ out, (read_file im.bm inum now g).1 = some (out, ino.size) :=
    ⟨_, by rw [read_file_eq _ _ _ _ _ hi]⟩
  obtain ⟨out, ho⟩ := hold
  refine ⟨out, ho, ?_⟩
  unfold write_file
  simp only [hr1, ho]
  simp

/-- What `getattr` and `read_file` show of a file of one byte. -/
theorem snapshot_one_byte (d : disk) (inum : Nat) (ino : inode) (g : garbage)
    (hi : get_inode d inum = some ino) (hs : ino.size = 1) (hb : is_data_block (ino.blocks 0)) :
    snapshot d inum g = some (ino.type, 1, [d.blocks (ino.blocks 0 - 1) 0]) := by
  have hv := (get_inode_some d inum ino hi).1
  have hbn : block_num_of ino.size = 1 := by rw [hs]; rfl
  obtain ⟨out, ho, hk⟩ := read_file_spec d inum 0 g ino hi (by rw [hs]; decide)
    (fun j hj => by
      rw [hbn] at hj
      have : j = 0 := by omega
      rw [this, file_block_direct _ _ 0 (by decide)]
      exact is_data_block_valid _ hb)
    (fun h => by rw [hbn] at h; exact absurd h (by decide))
  have h0 := hk 0 (by rw [hs]; decide)
  rw [Nat.zero_div, Nat.zero_mod, file_block_direct _ _ 0 (by decide)] at h0
  unfold snapshot getattr
  simp only [hv, if_true, hi, ho, hs]
  show some (ino.type, 1, [out 0]) = _
  rw [h0]

end inode_manager

namespace log_manager

theorem commit_at_end (lm : log_manager) (h : lm.pos = lm.logfile.length) :
    lm.commit = ⟨lm.logfile ++ log_entry.commit.bytes,
      (lm.logfile ++ log_entry.commit.bytes).length,
      (lm.logfile ++ log_entry.commit.bytes).length :: lm.previous_checkpoints⟩ := by
  unfold commit
  have : str_commit ++ [10] = log_entry.commit.bytes := rfl
  rw [this, log_at_end lm _ h]

end log_manager
/-! ## The states of the examples with two files -/

namespace log_manager

theorem log_end (lm : log_manager) (x : List Nat) (h : lm.pos = lm.logfile.length) :
    (lm.log x).pos = (lm.log x).logfile.length ∧
    (lm.log x).previous_checkpoints = lm.previous_checkpoints ∧
    (lm.log x).logfile = lm.logfile ++ x := by
  rw [log_at_end lm x h]
  exact ⟨rfl, rfl, rfl⟩

end log_manager

namespace inode_manager

open block_manager

/-- The state `im_slot2`: the empty root directory, the empty file 2, and the bitmap of the
fresh file system. -/
theorem im_slot2_spec :
    (∃ ino1, get_inode im_slot2.bm 1 = some ino1 ∧ ino1.type = T_DIR ∧ ino1.size = 0) ∧
    (∃ ino2, get_inode im_slot2.bm 2 = some ino2 ∧ ino2.type = 2 ∧ ino2.size = 0) ∧
    (∀ b, 1 ≤ b → b ≤ 36864 → (used im_slot2.bm b = true ↔ b ≤ 1035)) ∧
    (∀ i, 3 ≤ i → i ≤ 1024 → (inode.decode (im_slot2.bm.blocks (i + 10))).type = 0) ∧
    im_slot2.lm.pos = im_slot2.lm.logfile.length ∧ im_slot2.lm.previous_checkpoints = [] := by
  obtain ⟨⟨ino0, a1, a2, a3⟩, a4, a5, a6⟩ := init_spec 0
  obtain ⟨_, hd0, ht0⟩ := get_inode_some _ _ _ a1
  obtain ⟨_, ⟨ino2, b2, b3, b4⟩, b5, b6⟩ := alloc_inode_spec (init 0) 2 0 2 (by decide)
    (by decide) (by decide) (by decide)
    (fun i h1 h2 => by
      have : i = 1 := by omega
      rw [this, ← hd0]
      exact ht0)
    (init_slot_free 0 2 (le_refl _))
  have him : (alloc_inode (init 0) 2 0).2 = im_slot2 := rfl
  rw [him] at b2 b5 b6
  have e11 : (1 : Nat) + 10 = 11 := rfl
  have hl0 := log_manager.log_end log_manager.init (log_entry.create 1 T_DIR).bytes rfl
  rw [← log_manager.create_log_eq, ← a6] at hl0
  have hl1 := log_manager.log_end (init 0).lm (log_entry.create 2 2).bytes hl0.1
  rw [← log_manager.create_log_eq, ← b6] at hl1
  refine ⟨⟨ino0, ?_, a2, a3⟩, ⟨ino2, b2, b3, b4⟩, fun b h1 h2 => ?_, fun i h1 h2 => ?_,
    hl1.1, ?_⟩
  · rw [get_inode_congr im_slot2.bm (init 0).bm 1 (by rw [e11, b5 11 (by decide)])]
    exact a1
  · rw [used_of_frame im_slot2.bm (init 0).bm (fun k g1 g2 => b5 k (by omega)) b h2]
    exact a5 b h1 h2
  · rw [b5 (i + 10) (by omega)]
    exact init_slot_free 0 i (by omega)
  · rw [hl1.2.1, hl0.2.1]
    rfl

/-- The state `im_two`: inode 2 holds one byte, the byte 7, in block 1036. -/
theorem im_two_spec :
    (∃ ino1, get_inode im_two.bm 1 = some ino1 ∧ ino1.type = T_DIR ∧ ino1.size = 0) ∧
    (∃ ino2, get_inode im_two.bm 2 = some ino2 ∧ ino2.type = 2 ∧ ino2.size = 1 ∧
      ino2.blocks 0 = 1036) ∧
    im_two.bm.blocks 1035 0 = 7 ∧
    (∀ b, 1 ≤ b → b ≤ 36864 → (used im_two.bm b = true ↔ b ≤ 1036)) ∧
    (∀ i, 3 ≤ i → i ≤ 1024 → (inode.decode (im_two.bm.blocks (i + 10))).type = 0) ∧
    im_two.lm.pos = im_two.lm.logfile.length ∧ im_two.lm.previous_checkpoints = [] := by
  obtain ⟨⟨ino1, a1, a2, a3⟩, ⟨ino2, b1, b2, b3⟩, hu, hs, hl, hc⟩ := im_slot2_spec
  have e1 : ((1 : Nat) + 511) / 512 = 1 := rfl
  have et : blocks_total 1 = 1 := rfl
  obtain ⟨ino3, w1, w2, w3, w4, w5, w6, w7, w8⟩ := write_file_fresh im_slot2 2 ino2
    (list_buf [7]) 1 0 1035 garbage_zero b1 b3 (by decide) (by decide) (le_refl _) (by decide)
    (fun b h1 h2 => (hu b h1 (by omega)).2 h2)
    (fun b h1 h2 => by
      rw [e1, et] at h2
      cases hc : used im_slot2.bm b
      · rfl
      · have := (hu b (by omega) (by omega)).1 hc
        omega)
  obtain ⟨out, _, hlm⟩ := write_file_lm im_slot2 2 (list_buf [7]) 1 0 garbage_zero ino2 b1
    (by decide)
  have him : write_file im_slot2 2 (list_buf [7]) ((1 : Nat) : Int) 0 garbage_zero = im_two := rfl
  rw [him] at w1 w6 w7 w8 hlm
  rw [e1] at w4 w6
  rw [e1, et] at w7 w8
  have e11 : (1 : Nat) + 10 = 11 := rfl
  have hle := log_manager.log_end im_slot2.lm
    (log_entry.update 2 ino2.size 1 (log_manager.bytes_of out ino2.size)
      (log_manager.bytes_of (list_buf [7]) 1)).bytes hl
  rw [← log_manager.update_log_eq, ← hlm] at hle
  refine ⟨⟨ino1, ?_, a2, a3⟩, ⟨ino3, w1, by rw [w2, b2], w3, ?_⟩, ?_, fun b h1 h2 => ?_,
    fun i h1 h2 => ?_, hle.1, by rw [hle.2.1, hc]⟩
  · rw [get_inode_congr im_two.bm im_slot2.bm 1
      (by rw [e11, w8 11 (Or.inr (by decide)) (by decide) (Or.inl (by decide))])]
    exact a1
  · rw [w4 0 (by decide) (by decide)]
  · have := w6 0 (by decide)
    simp only [Nat.lt_irrefl, Nat.zero_lt_succ, if_true, Nat.add_zero] at this
    rw [this]
    show data_block (list_buf [7]) 1 ((1 + 511) / 512 - 1) 0 0 % 256 = 7
    rw [data_block_apply _ _ _ _ (by decide) (by decide)]
    rfl
  · rw [w7 b h1 h2, hu b h1 h2]
    omega
  · rw [w8 (i + 10) (Or.inr (by omega)) (by omega) (Or.inl (by omega))]
    exact hs i h1 h2

end inode_manager
/-! ## A committed file, a big write, a rollback and a forward -/

namespace inode_manager

open block_manager

theorem commit_bm (im : inode_manager) : im.commit.bm = im.bm := rfl

theorem commit_lm (im : inode_manager) : im.commit.lm = im.lm.commit := rfl

/-- The record logged by the write of 33 blocks of zeros to the empty inode 1. -/
theorem big_update_wf :
    (log_entry.update 1 0 16896 [] (log_manager.bytes_of zero_block 16896)).wf :=
  ⟨rfl, log_manager.bytes_of_length _ _⟩

/-- The state `im_two_ops`: inode 1 has 33 blocks (direct blocks 1037 to 1068, indirect block
1069, pointee 1070), inode 2 still holds the byte 7 in block 1036, and the log ends with
the record of the big write, after the checkpoint. -/
theorem im_two_ops_spec :
    (∃ ino1, get_inode im_two_ops.bm 1 = some ino1 ∧ ino1.type = T_DIR ∧ ino1.size = 16896 ∧
      (∀ j, j < 32 → ino1.blocks j = 1037 + j) ∧ ino1.blocks NDIRECT = 1069) ∧
    (∃ ino2, get_inode im_two_ops.bm 2 = some ino2 ∧ ino2.type = 2 ∧ ino2.size = 1 ∧
      ino2.blocks 0 = 1036) ∧
    im_two_ops.bm.blocks 1035 0 = 7 ∧
    (∀ b, 1 ≤ b → b ≤ 36864 → (used im_two_ops.bm b = true ↔ b ≤ 1070)) ∧
    ∃ L, im_two_ops.lm =
      ⟨L ++ (log_entry.update 1 0 16896 [] (log_manager.bytes_of zero_block 16896)).bytes,
        (L ++ (log_entry.update 1 0 16896 []
          (log_manager.bytes_of zero_block 16896)).bytes).length, [L.length]⟩ := by
  obtain ⟨⟨ino1, a1, a2, a3⟩, ⟨ino2, b1, b2, b3, b4⟩, hb, hu, hs, hl, hc⟩ := im_two_spec
  have hbm : im_two.commit.bm = im_two.bm := commit_bm im_two
  have e33 : (16896 + 511) / 512 = 33 := rfl
  have e34 : blocks_total 33 = 34 := rfl
  obtain ⟨ino3, w1, w2, w3, w4, w5, w6, w7, w8⟩ := write_file_fresh im_two.commit 1 ino1
    zero_block 16896 0 1036 garbage_zero (by rw [hbm]; exact a1) a3 (by decide) (by decide)
    (by decide) (by decide)
    (fun b h1 h2 => by rw [hbm]; exact (hu b h1 (by omega)).2 h2)
    (fun b h1 h2 => by
      rw [e33, e34] at h2
      rw [hbm]
      cases hc : used im_two.bm b
      · rfl
      · have := (hu b (by omega) (by omega)).1 hc
        omega)
  obtain ⟨out, _, hlm⟩ := write_file_lm im_two.commit 1 zero_block 16896 0 garbage_zero ino1
    (by rw [hbm]; exact a1) (by decide)
  have him : write_file im_two.commit 1 zero_block ((16896 : Nat) : Int) 0 garbage_zero =
      im_two_ops := rfl
  rw [him] at w1 w5 w6 w7 w8 hlm
  rw [e33] at w4 w5 w6 w7 w8
  rw [e34, hbm] at w7 w8
  obtain ⟨w51, _⟩ := w5 (by decide)
  have e69 : 1036 + 33 = 1069 := rfl
  rw [e69] at w51
  have hcm : im_two.commit.lm = im_two.lm.commit := commit_lm im_two
  rw [hcm, log_manager.commit_at_end _ hl, hc, a3, log_manager.update_log_eq,
    log_manager.log_at_end _ _ rfl] at hlm
  have e11 : (2 : Nat) + 10 = 12 := rfl
  refine ⟨⟨ino3, w1, by rw [w2, a2], w3, fun j hj => ?_, w51⟩, ⟨ino2, ?_, b2, b3, b4⟩, ?_,
    fun b h1 h2 => ?_, ⟨_, hlm⟩⟩
  · rw [w4 j (by omega) hj]
  · rw [get_inode_congr im_two_ops.bm im_two.bm 2
      (by rw [e11, w8 12 (Or.inr (by decide)) (by decide) (Or.inl (by decide))])]
    exact b1
  · rw [w8 1035 (Or.inr (by decide)) (by decide) (Or.inl (by decide))]
    exact hb
  · rw [w7 b h1 h2, hu b h1 h2]
    omega

end inode_manager
namespace inode_manager

open block_manager

theorem rollback_eq (im : inode_manager) (now : Nat) (g : Nat → garbage)
    (entries : List log_entry) (lm1 : log_manager) (h : im.lm.rollback = some (entries, lm1)) :
    rollback im now g = some ⟨undo_all im.bm now g entries, lm1⟩ := by
  unfold rollback
  rw [h]

theorem forward_eq (im : inode_manager) (now : Nat) (g : Nat → garbage)
    (entries : List log_entry) (lm1 : log_manager) (h : im.lm.forward = some (entries, lm1)) :
    forward im now g = some ⟨redo_all now g entries 0 im.bm, lm1⟩ := by
  unfold forward
  rw [h]

/-- What a reader sees of inode `inum` after a rollback. -/
theorem rollback_snapshot (im : inode_manager) (now : Nat) (g : Nat → garbage)
    (entries : List log_entry) (lm1 : log_manager) (inum : Nat) (g1 : garbage)
    (h : im.lm.rollback = some (entries, lm1)) :
    (rollback im now g).map (fun s => snapshot s.bm inum g1) =
      some (snapshot (undo_all im.bm now g entries) inum g1) := by
  rw [rollback_eq im now g entries lm1 h]
  rfl

/-- What a reader sees of inode `inum` after a rollback and a forward. -/
theorem rollback_forward_snapshot (im : inode_manager) (now : Nat) (g g2 : Nat → garbage)
    (entries entries2 : List log_entry) (lm1 lm2 : log_manager) (inum : Nat) (g1 : garbage)
    (h : im.lm.rollback = some (entries, lm1)) (h2 : lm1.forward = some (entries2, lm2)) :
    ((rollback im now g).bind (fun s => forward s now g2)).map
        (fun s => snapshot s.bm inum g1) =
      some (snapshot (redo_all now g2 entries2 0 (undo_all im.bm now g entries)) inum g1) := by
  rw [rollback_eq im now g entries lm1 h, Option.some_bind,
    forward_eq ⟨undo_all im.bm now g entries, lm1⟩ now g2 entries2 lm2 h2]
  rfl

theorem list_buf_zeros (n k : Nat) : list_buf (log_manager.bytes_of zero_block n) k = 0 := by
  unfold list_buf log_manager.bytes_of
  rw [List.getD_eq_getElem?_getD, List.getElem?_map]
  cases h : (List.range n)[k]? with
  | none => rfl
  | some x => rfl

/-- The log of a state whose last record, written after the only checkpoint, is `e`:
`rollback` returns `e` and goes back to the checkpoint, and `forward` then returns `e`
again. -/
theorem rollback_forward_one (L : List Nat) (e : log_entry) (hwf : e.wf)
    (hc : e ≠ log_entry.commit) :
    (⟨L ++ e.bytes, (L ++ e.bytes).length, [L.length]⟩ : log_manager).rollback =
      some ([e], ⟨L ++ e.bytes, L.length, [L.length]⟩) ∧
    (⟨L ++ e.bytes, L.length, [L.length]⟩ : log_manager).forward =
      some ([e], ⟨L ++ e.bytes, (L ++ e.bytes).length, [L.length]⟩) := by
  constructor
  · rw [log_manager.rollback_spec ⟨L ++ e.bytes, (L ++ e.bytes).length, [L.length]⟩ L.length []
      [e] (fun x hx => by rw [List.mem_singleton.1 hx]; exact hwf) rfl (by simp)
      (by simp [log_text]) (by simp [log_text])]
  · rw [log_manager.forward_one ⟨L ++ e.bytes, L.length, [L.length]⟩ e hwf hc (by simp)]

/-- The log of a state whose last two records, written after the only checkpoint, are `e1`
and `e2`: `rollback` returns them in log order. -/
theorem rollback_two (L : List Nat) (e1 e2 : log_entry) (h1 : e1.wf) (h2 : e2.wf) :
    (⟨L ++ e1.bytes ++ e2.bytes, (L ++ e1.bytes ++ e2.bytes).length, [L.length]⟩ :
      log_manager).rollback =
      some ([e1, e2], ⟨L ++ e1.bytes ++ e2.bytes, L.length, [L.length]⟩) := by
  rw [log_manager.rollback_spec
    ⟨L ++ e1.bytes ++ e2.bytes, (L ++ e1.bytes ++ e2.bytes).length, [L.length]⟩ L.length []
    [e1, e2]
    (fun x hx => by
      rcases List.mem_cons.1 hx with h | h
      · rw [h]; exact h1
      · rw [List.mem_singleton.1 h]; exact h2)
    rfl (by simp) (by simp [log_text, List.append_assoc])
    (by simp [log_text, List.append_assoc])]

end inode_manager

namespace inode_manager

open block_manager

theorem undo_all_one (d : disk) (now : Nat) (g : garbage) (e : log_entry) :
    undo_all d now (fun _ => g) [e] = undo d e now g := rfl

theorem undo_all_two (d : disk) (now : Nat) (g : garbage) (e1 e2 : log_entry) :
    undo_all d now (fun _ => g) [e1, e2] = undo (undo d e2 now g) e1 now g := rfl

theorem redo_all_one (d : disk) (now : Nat) (g : garbage) (e : log_entry) :
    redo_all now (fun _ => g) [e] 0 d = redo d e now g := rfl

theorem undo_update (d : disk) (now : Nat) (g : garbage) (inum old_size new_size : Nat)
    (old_buf new_buf : List Nat) :
    undo d (log_entry.update inum old_size new_size old_buf new_buf) now g =
      (_write_file d inum (list_buf old_buf) (old_size : Int) now g).2 := rfl

theorem redo_update (d : disk) (now : Nat) (g : garbage) (inum old_size new_size : Nat)
    (old_buf new_buf : List Nat) :
    redo d (log_entry.update inum old_size new_size old_buf new_buf) now g =
      (_write_file d inum (list_buf new_buf) (new_size : Int) now g).2 := rfl

end inode_manager
/-! ## The states of the example with three files -/

namespace inode_manager

open block_manager

theorem live_of_get_inode (d : disk) (i : Nat) (ino : inode) (h : get_inode d i = some ino) :
    (inode.decode (d.blocks (i + 10))).type ≠ 0 := by
  obtain ⟨_, hd, ht⟩ := get_inode_some d i ino h
  rw [← hd]
  exact ht

/-- The state `im_slot3`: the state `im_two` with the empty file 3. -/
theorem im_slot3_spec :
    (∃ ino1, get_inode im_slot3.bm 1 = some ino1 ∧ ino1.type = T_DIR ∧ ino1.size = 0) ∧
    (∃ ino2, get_inode im_slot3.bm 2 = some ino2 ∧ ino2.type = 2 ∧ ino2.size = 1 ∧
      ino2.blocks 0 = 1036) ∧
    (∃ ino3, get_inode im_slot3.bm 3 = some ino3 ∧ ino3.type = 2 ∧ ino3.size = 0) ∧
    im_slot3.bm.blocks 1035 0 = 7 ∧
    (∀ b, 1 ≤ b → b ≤ 36864 → (used im_slot3.bm b = true ↔ b ≤ 1036)) ∧
    im_slot3.lm.pos = im_slot3.lm.logfile.length ∧ im_slot3.lm.previous_checkpoints = [] := by
  obtain ⟨⟨ino1, a1, a2, a3⟩, ⟨ino2, b1, b2, b3, b4⟩, hb, hu, hs, hl, hc⟩ := im_two_spec
  obtain ⟨_, ⟨ino3, c1, c2, c3⟩, c4, c5⟩ := alloc_inode_spec im_two 2 0 3 (by decide)
    (by decide) (by decide) (by decide)
    (fun i h1 h2 => by
      by_cases e : i = 1
      · rw [e]; exact live_of_get_inode _ _ _ a1
      · have : i = 2 := by omega
        rw [this]; exact live_of_get_inode _ _ _ b1)
    (hs 3 (le_refl _) (by decide))
  have him : (alloc_inode im_two 2 0).2 = im_slot3 := rfl
  rw [him] at c1 c4 c5
  have e11 : (1 : Nat) + 10 = 11 := rfl
  have e12 : (2 : Nat) + 10 = 12 := rfl
  have hle := log_manager.log_end im_two.lm (log_entry.create 3 2).bytes hl
  rw [← log_manager.create_log_eq, ← c5] at hle
  refine ⟨⟨ino1, ?_, a2, a3⟩, ⟨ino2, ?_, b2, b3, b4⟩, ⟨ino3, c1, c2, c3⟩, ?_, fun b h1 h2 => ?_,
    hle.1, by rw [hle.2.1, hc]⟩
  · rw [get_inode_congr im_slot3.bm im_two.bm 1 (by rw [e11, c4 11 (by decide)])]
    exact a1
  · rw [get_inode_congr im_slot3.bm im_two.bm 2 (by rw [e12, c4 12 (by decide)])]
    exact b1
  · rw [c4 1035 (by decide)]
    exact hb
  · rw [used_of_frame im_slot3.bm im_two.bm (fun k g1 g2 => c4 k (by omega)) b h2]
    exact hu b h1 h2

/-- The state `im_three`: inode 2 holds the byte 7 in block 1036, inode 3 the byte 9 in
block 1037, and the log ends with the checkpoint. -/
theorem im_three_spec :
    (∃ ino1, get_inode im_three.bm 1 = some ino1 ∧ ino1.type = T_DIR ∧ ino1.size = 0) ∧
    (∃ ino2, get_inode im_three.bm 2 = some ino2 ∧ ino2.type = 2 ∧ ino2.size = 1 ∧
      ino2.blocks 0 = 1036) ∧
    (∃ ino3, get_inode im_three.bm 3 = some ino3 ∧ ino3.type = 2 ∧ ino3.size = 1 ∧
      ino3.blocks 0 = 1037) ∧
    im_three.bm.blocks 1035 0 = 7 ∧ im_three.bm.blocks 1036 0 = 9 ∧
    (∀ b, 1 ≤ b → b ≤ 36864 → (used im_three.bm b = true ↔ b ≤ 1037)) ∧
    ∃ L, im_three.lm = ⟨L, L.length, [L.length]⟩ := by
  obtain ⟨⟨ino1, a1, a2, a3⟩, ⟨ino2, b1, b2, b3, b4⟩, ⟨ino3, c1, c2, c3⟩, hb, hu, hl, hc⟩ :=
    im_slot3_spec
  have e1 : ((1 : Nat) + 511) / 512 = 1 := rfl
  have et : blocks_total 1 = 1 := rfl
  obtain ⟨ino4, w1, w2, w3, w4, w5, w6, w7, w8⟩ := write_file_fresh im_slot3 3 ino3
    (list_buf [9]) 1 0 1036 garbage_zero c1 c3 (by decide) (by decide) (by decide) (by decide)
    (fun b h1 h2 => (hu b h1 (by omega)).2 h2)
    (fun b h1 h2 => by
      rw [e1, et] at h2
      cases hc : used im_slot3.bm b
      · rfl
      · have := (hu b (by omega) (by omega)).1 hc
        omega)
  obtain ⟨out, _, hlm⟩ := write_file_lm im_slot3 3 (list_buf [9]) 1 0 garbage_zero ino3 c1
    (by decide)
  have hle := log_manager.log_end im_slot3.lm
    (log_entry.update 3 ino3.size 1 (log_manager.bytes_of out ino3.size)
      (log_manager.bytes_of (list_buf [9]) 1)).bytes hl
  rw [← log_manager.update_log_eq, ← hlm] at hle
  have hcm := log_manager.commit_at_end _ hle.1
  rw [hle.2.1, hc] at hcm
  have h3 : im_three =
      (write_file im_slot3 3 (list_buf [9]) ((1 : Nat) : Int) 0 garbage_zero).commit := rfl
  have hbm : (write_file im_slot3 3 (list_buf [9]) ((1 : Nat) : Int) 0 garbage_zero).bm =
      im_three.bm := by rw [h3, commit_bm]
  have hlmc : (write_file im_slot3 3 (list_buf [9]) ((1 : Nat) : Int) 0 garbage_zero).lm.commit =
      im_three.lm := by rw [h3, commit_lm]
  rw [hbm] at w1 w6 w7 w8
  rw [hlmc] at hcm
  rw [e1] at w4 w6
  rw [e1, et] at w7 w8
  have e11 : (1 : Nat) + 10 = 11 := rfl
  have e12 : (2 : Nat) + 10 = 12 := rfl
  refine ⟨⟨ino1, ?_, a2, a3⟩, ⟨ino2, ?_, b2, b3, b4⟩, ⟨ino4, w1, by rw [w2, c2], w3, ?_⟩, ?_, ?_,
    fun b h1 h2 => ?_, ⟨_, hcm⟩⟩
  · rw [get_inode_congr im_three.bm im_slot3.bm 1
      (by rw [e11, w8 11 (Or.inr (by decide)) (by decide) (Or.inl (by decide))])]
    exact a1
  · rw [get_inode_congr im_three.bm im_slot3.bm 2
      (by rw [e12, w8 12 (Or.inr (by decide)) (by decide) (Or.inl (by decide))])]
    exact b1
  · rw [w4 0 (by decide) (by decide)]
  · rw [w8 1035 (Or.inr (by decide)) (by decide) (Or.inl (by decide))]
    exact hb
  · have := w6 0 (by decide)
    simp only [Nat.zero_lt_succ, if_true, Nat.add_zero] at this
    rw [this]
    simp only
    rw [data_block_apply _ _ _ _ (by decide) (by decide)]
    rfl
  · rw [w7 b h1 h2, hu b h1 h2]
    omega

end inode_manager
namespace inode_manager

open block_manager

/-- The state `im_three_emptied`: inode 3 is empty, its block 1037 is free, and the log
ends with the record of that write, which holds the old content, the byte 9. -/
theorem im_three_emptied_spec :
    (∃ ino1, get_inode im_three_emptied.bm 1 = some ino1 ∧ ino1.type = T_DIR ∧ ino1.size = 0) ∧
    (∃ ino2, get_inode im_three_emptied.bm 2 = some ino2 ∧ ino2.type = 2 ∧ ino2.size = 1 ∧
      ino2.blocks 0 = 1036) ∧
    (∃ ino3, get_inode im_three_emptied.bm 3 = some ino3 ∧ ino3.type = 2 ∧ ino3.size = 0) ∧
    im_three_emptied.bm.blocks 1035 0 = 7 ∧
    (∀ b, 1 ≤ b → b ≤ 36864 → (used im_three_emptied.bm b = true ↔ b ≤ 1036)) ∧
    ∃ L, im_three_emptied.lm =
      ⟨L ++ (log_entry.update 3 1 0 [9] []).bytes,
        (L ++ (log_entry.update 3 1 0 [9] []).bytes).length, [L.length]⟩ := by
  obtain ⟨⟨ino1, a1, a2, a3⟩, ⟨ino2, b1, b2, b3, b4⟩, ⟨ino3, c1, c2, c3, c4⟩, hb, hb9, hu, L, hl⟩ :=
    im_three_spec
  have hbn : block_num_of ino3.size = 1 := by rw [c3]; rfl
  have e0 : ((0 : Nat) + 511) / 512 = 0 := rfl
  obtain ⟨⟨ino4, w1, w2, w3, w4⟩, w5, w6⟩ := write_file_shrink im_three 3 ino3 zero_block 0 0
    garbage_zero c1 (by decide) (by rw [hbn, e0]; decide) (by rw [e0]; decide)
    (fun j hj => by rw [e0] at hj; omega)
    (fun j g1 g2 => by
      rw [hbn] at g2
      have : j = 0 := by omega
      rw [this, c4, BLOCK_NUM_eq, BPB_eq]
      omega)
    (fun h => by rw [hbn] at h; omega)
  obtain ⟨out, ho, hlm⟩ := write_file_lm im_three 3 zero_block 0 0 garbage_zero ino3 c1
    (by decide)
  obtain ⟨out1, ho1, hk⟩ := read_file_spec im_three.bm 3 0 garbage_zero ino3 c1
    (by rw [c3]; decide)
    (fun j hj => by
      rw [hbn] at hj
      have : j = 0 := by omega
      rw [this, file_block_direct _ _ 0 (by decide), c4]
      decide)
    (fun h => by rw [hbn] at h; exact absurd h (by decide))
  rw [ho] at ho1
  have hout : out = out1 := (Prod.mk.inj (Option.some.inj ho1)).1
  have h0 := hk 0 (by rw [c3]; decide)
  rw [Nat.zero_div, Nat.zero_mod, file_block_direct _ _ 0 (by decide), c4] at h0
  have e36 : (1037 : Nat) - 1 = 1036 := rfl
  rw [e36, hb9, ← hout] at h0
  have hbytes : log_manager.bytes_of out 1 = [9] := by
    show [out 0] = [9]
    rw [h0]
  have him : write_file im_three 3 zero_block ((0 : Nat) : Int) 0 garbage_zero =
      im_three_emptied := rfl
  rw [him] at w1 w5 w6 hlm
  rw [hbn, e0] at w5
  rw [e0] at w6
  rw [hl, c3, log_manager.update_log_eq, hbytes, log_manager.log_at_end _ _ rfl] at hlm
  have e11 : (1 : Nat) + 10 = 11 := rfl
  have e12 : (2 : Nat) + 10 = 12 := rfl
  refine ⟨⟨ino1, ?_, a2, a3⟩, ⟨ino2, ?_, b2, b3, b4⟩, ⟨ino4, w1, by rw [w2, c2], w3⟩, ?_,
    fun b h1 h2 => ?_, ⟨L, hlm⟩⟩
  · rw [get_inode_congr im_three_emptied.bm im_three.bm 1
      (by rw [e11, w6 11 (Or.inr (by decide)) (by decide) (fun j hj => by omega)])]
    exact a1
  · rw [get_inode_congr im_three_emptied.bm im_three.bm 2
      (by rw [e12, w6 12 (Or.inr (by decide)) (by decide) (fun j hj => by omega)])]
    exact b1
  · rw [w6 1035 (Or.inr (by decide)) (by decide) (fun j hj => by omega)]
    exact hb
  · rw [w5 b h1 h2, hu b h1 h2]
    constructor
    · rintro ⟨d1, d2, _⟩
      have := d2 0 (le_refl _) (by decide)
      rw [c4] at this
      omega
    · intro h
      refine ⟨by omega, fun j g1 g2 => ?_, fun h => by omega⟩
      have : j = 0 := by omega
      rw [this, c4]
      omega

/-- The state `im_three_ops`: inode 1 has 33 blocks (direct blocks 1037 to 1068, indirect
block 1069, pointee 1070), inode 2 still holds the byte 7 in block 1036, inode 3 is empty,
and the log holds the two records after the checkpoint. -/
theorem im_three_ops_spec :
    (∃ ino1, get_inode im_three_ops.bm 1 = some ino1 ∧ ino1.type = T_DIR ∧ ino1.size = 16896 ∧
      (∀ j, j < 32 → ino1.blocks j = 1037 + j) ∧ ino1.blocks NDIRECT = 1069) ∧
    (∃ ino2, get_inode im_three_ops.bm 2 = some ino2 ∧ ino2.type = 2 ∧ ino2.size = 1 ∧
      ino2.blocks 0 = 1036) ∧
    (∃ ino3, get_inode im_three_ops.bm 3 = some ino3 ∧ ino3.type = 2 ∧ ino3.size = 0) ∧
    im_three_ops.bm.blocks 1035 0 = 7 ∧
    (∀ b, 1 ≤ b → b ≤ 36864 → (used im_three_ops.bm b = true ↔ b ≤ 1070)) ∧
    ∃ L, im_three_ops.lm =
      ⟨L ++ (log_entry.update 3 1 0 [9] []).bytes ++
          (log_entry.update 1 0 16896 [] (log_manager.bytes_of zero_block 16896)).bytes,
        (L ++ (log_entry.update 3 1 0 [9] []).bytes ++
          (log_entry.update 1 0 16896 [] (log_manager.bytes_of zero_block 16896)).bytes).length,
        [L.length]⟩ := by
  obtain ⟨⟨ino1, a1, a2, a3⟩, ⟨ino2, b1, b2, b3, b4⟩, ⟨ino3, c1, c2, c3⟩, hb, hu, L, hl⟩ :=
    im_three_emptied_spec
  have e33 : (16896 + 511) / 512 = 33 := rfl
  have e34 : blocks_total 33 = 34 := rfl
  obtain ⟨ino4, w1, w2, w3, w4, w5, w6, w7, w8⟩ := write_file_fresh im_three_emptied 1 ino1
    zero_block 16896 0 1036 garbage_zero a1 a3 (by decide) (by decide)
    (by decide) (by decide)
    (fun b h1 h2 => (hu b h1 (by omega)).2 h2)
    (fun b h1 h2 => by
      rw [e33, e34] at h2
      cases hc : used im_three_emptied.bm b
      · rfl
      · have := (hu b (by omega) (by omega)).1 hc
        omega)
  obtain ⟨out, _, hlm⟩ := write_file_lm im_three_emptied 1 zero_block 16896 0 garbage_zero ino1
    a1 (by decide)
  have him : write_file im_three_emptied 1 zero_block ((16896 : Nat) : Int) 0 garbage_zero =
      im_three_ops := rfl
  rw [him] at w1 w5 w6 w7 w8 hlm
  rw [e33] at w4 w5 w7 w8
  rw [e34] at w7 w8
  obtain ⟨w51, _⟩ := w5 (by decide)
  have e69 : 1036 + 33 = 1069 := rfl
  rw [e69] at w51
  rw [hl, a3, log_manager.update_log_eq, log_manager.log_at_end _ _ rfl] at hlm
  have e12 : (2 : Nat) + 10 = 12 := rfl
  have e13 : (3 : Nat) + 10 = 13 := rfl
  refine ⟨⟨ino4, w1, by rw [w2, a2], w3, fun j hj => ?_, w51⟩, ⟨ino2, ?_, b2, b3, b4⟩,
    ⟨ino3, ?_, c2, c3⟩, ?_, fun b h1 h2 => ?_, ⟨L, hlm⟩⟩
  · rw [w4 j (by omega) hj]
  · rw [get_inode_congr im_three_ops.bm im_three_emptied.bm 2
      (by rw [e12, w8 12 (Or.inr (by decide)) (by decide) (Or.inl (by decide))])]
    exact b1
  · rw [get_inode_congr im_three_ops.bm im_three_emptied.bm 3
      (by rw [e13, w8 13 (Or.inr (by decide)) (by decide) (Or.inl (by decide))])]
    exact c1
  · rw [w8 1035 (Or.inr (by decide)) (by decide) (Or.inl (by decide))]
    exact hb
  · rw [w7 b h1 h2, hu b h1 h2]
    omega

end inode_manager
/-! ## Freeing an arbitrary id, seen from a bit that is no multiple of `BPB` -/

namespace block_manager

/-- For an id `b` that is no multiple of `BPB`, `free_block` of any id `q`, valid or not,
clears the bit of `b` exactly when `q = b`. -/
theorem used_free_block_any (d : disk) (q b : Nat) (hb1 : 1 ≤ b) (hb2 : b ≤ BLOCK_NUM)
    (hb : b % BPB ≠ 0) :
    (used (free_block d q) b = true ↔ (used d b = true ∧ q ≠ b)) := by
  by_cases hv : valid_bnum q = true
  · unfold used
    rw [bitmap_bit_free_block _ _ _ _ hv (Nat.succ_le_succ (Nat.zero_le _))]
    have hq := (valid_bnum_iff q).1 hv
    by_cases e : q = b
    · subst e
      have : (q - 1) / BPB + 2 = BBLOCK q := by
        rw [BBLOCK_eq]
        simp only [BPB_eq] at *
        omega
      simp [this]
    · have : ¬ ((b - 1) / BPB + 2 = BBLOCK q ∧ (b - 1) % BPB = (q - 1) % BPB) := by
        rw [BBLOCK_eq]
        simp only [BPB_eq, BLOCK_NUM_eq] at *
        omega
      simp [this, e]
  · have hv2 : valid_bnum q = false := by simpa using hv
    rw [free_block_invalid d q hv2]
    have : q ≠ b := by
      intro e
      subst e
      exact hv ((valid_bnum_iff q).2 ⟨hb1, hb2⟩)
    simp [this]

/-- A loop of `free_block` over arbitrary ids, seen from a bit that is no multiple of
`BPB`. -/
theorem used_free_loop_any (P : Nat → Nat) (n lo : Nat) (d : disk) (b : Nat) (hb1 : 1 ≤ b)
    (hb2 : b ≤ BLOCK_NUM) (hb : b % BPB ≠ 0) :
    (used (for_loop (fun i d => free_block d (P i)) n lo d) b = true ↔
      (used d b = true ∧ ∀ i, lo ≤ i → i < lo + n → P i ≠ b)) := by
  have := for_loop_inv (fun i d => free_block d (P i))
    (fun m d1 => m ≤ lo + n →
      (used d1 b = true ↔ (used d b = true ∧ ∀ i, lo ≤ i → i < m → P i ≠ b)))
    n lo d (fun _ => ⟨fun h => ⟨h, fun i g1 g2 => by omega⟩, fun h => h.1⟩)
    (fun m d1 g1 g2 ih _ => by
      show (used (free_block d1 (P m)) b = true ↔ _)
      rw [used_free_block_any _ _ _ hb1 hb2 hb, ih (by omega)]
      constructor
      · rintro ⟨⟨h1, h2⟩, h3⟩
        refine ⟨h1, fun i g3 g4 => ?_⟩
        by_cases e : i = m
        · subst e; exact h3
        · exact h2 i g3 (by omega)
      · rintro ⟨h1, h2⟩
        exact ⟨⟨h1, fun i g3 g4 => h2 i g3 (by omega)⟩, h2 m g1 (by omega)⟩)
  exact this (le_refl _)

end block_manager
/-! ## Growing a file of exactly `NDIRECT` blocks on a bitmap that is filled up to an id -/

namespace inode_manager

open block_manager

theorem grow_direct_full (d : disk) (ino : inode) (buf : Block) (size new : Nat)
    (hnew : 32 < new) :
    grow_direct d ino buf size 32 new =
      (for_loop (fun i d => block_manager.write_block d (ino.blocks i)
        (chunk buf (i * BLOCK_SIZE))) 32 0 d, ino.blocks) := by
  unfold grow_direct
  have hN : new > NDIRECT := hnew
  have e1 : (if 32 > NDIRECT then NDIRECT else 32) = 32 := rfl
  have e2 : (if new > NDIRECT then NDIRECT else new) - 32 = 0 := by
    rw [if_pos hN]
    rfl
  simp only [e1, e2]
  rfl

theorem grow_indirect_full (d : disk) (ind : Nat) (tbl : Nat → Nat) (buf : Block)
    (size new : Nat) :
    grow_indirect d ind tbl buf size 32 new =
      write_block (for_loop (alloc_write_step (indirect_data_block buf size new)) (new - 32) 0
        (d, tbl)).1 ind (table_bytes (for_loop (alloc_write_step
          (indirect_data_block buf size new)) (new - 32) 0 (d, tbl)).2) := by
  unfold grow_indirect
  have e1 : (if 32 > NDIRECT then 32 - NDIRECT else 0) = 0 := rfl
  simp only [e1, NDIRECT_eq, Nat.sub_zero]
  rfl

/-- The growing branch on a file of exactly `NDIRECT` blocks, on a bitmap where every id up
to `m` is used and the ids after `m` are free: the direct entries stay, the indirect block
gets the id `m + 1` and its pointees the ids from `m + 2` on. -/
theorem write_bigger_full (d : disk) (ino : inode) (tbl0 : Nat → Nat) (buf : Block)
    (size new m : Nat) (hnew : 32 < new) (hnew2 : new ≤ 159) (hm : 1035 ≤ m)
    (hmn : m + 1 + (new - 32) ≤ 32768)
    (hold : ∀ j, j < 32 → 11 ≤ ino.blocks j)
    (hlow : ∀ b, 1 ≤ b → b ≤ m → used d b = true)
    (hfree : ∀ b, m < b → b ≤ m + 1 + (new - 32) → used d b = false) :
    (∀ j, j < 32 → (write_bigger d ino tbl0 buf size 32 new).2 j = ino.blocks j) ∧
    (write_bigger d ino tbl0 buf size 32 new).2 NDIRECT = m + 1 ∧
    (∀ i, i < new - 32 →
      bytes_table ((write_bigger d ino tbl0 buf size 32 new).1.blocks m) i = m + 2 + i) ∧
    (∀ b, 1 ≤ b → b ≤ 36864 →
      (used (write_bigger d ino tbl0 buf size 32 new).1 b = true ↔
        (used d b = true ∨ (m < b ∧ b ≤ m + 1 + (new - 32))))) ∧
    (∀ k, (k = 0 ∨ 10 ≤ k) → (k < m ∨ m + 1 + (new - 32) ≤ k) →
      (∀ j, j < 32 → k ≠ ino.blocks j - 1) →
      (write_bigger d ino tbl0 buf size 32 new).1.blocks k = d.blocks k) := by
  have hbigN : new > NDIRECT := hnew
  have hr2 := grow_direct_full d ino buf size new hnew
  have hu1 := fun b hb => used_write_loop ino.blocks (fun i => chunk buf (i * BLOCK_SIZE))
    32 0 d b (fun i _ g2 => hold i (by omega)) hb
  have hf1 := write_loop_frame ino.blocks (fun i => chunk buf (i * BLOCK_SIZE)) 32 0 d
  generalize for_loop (fun i d => block_manager.write_block d (ino.blocks i)
    (chunk buf (i * BLOCK_SIZE))) 32 0 d = d1 at hr2 hu1 hf1
  have hlow1 : ∀ b, 1 ≤ b → b ≤ m → used d1 b = true := fun b h1 h2 => by
    rw [hu1 b (by omega)]; exact hlow b h1 h2
  have hfree1 : ∀ b, m < b → b ≤ m + 1 + (new - 32) → used d1 b = false := fun b h1 h2 => by
    rw [hu1 b (by omega)]; exact hfree b h1 h2
  obtain ⟨a1, a2, a3⟩ := alloc_block_next d1 m (by omega) hlow1 (hfree1 _ (by omega) (by omega))
  have hbm : 1 ≤ m / BPB + 1 ∧ m / BPB + 1 ≤ 9 := by
    simp only [BPB_eq]; omega
  have hwb : write_bigger d ino tbl0 buf size 32 new =
      (grow_indirect (alloc_block d1).2 (alloc_block d1).1 tbl0 buf size 32 new,
        fun j => if j = NDIRECT then (alloc_block d1).1 else ino.blocks j) := by
    unfold write_bigger
    have h0 : (32 : Nat) ≤ NDIRECT := le_refl _
    simp only [hbigN, if_true, hr2, indirect_entry, h0]
  rw [a1] at hwb
  generalize (alloc_block d1).2 = d3 at hwb a2 a3
  have hlow3 : ∀ b, 1 ≤ b → b ≤ m + 1 → used d3 b = true := by
    intro b h1 h2
    apply (a2 b h1).2
    by_cases hb : b ≤ m
    · exact Or.inl (hlow1 b h1 hb)
    · exact Or.inr (by omega)
  have hfree3 : ∀ b, m + 1 < b → b ≤ m + 1 + (new - 32) → used d3 b = false := by
    intro b h1 h2
    cases hc : used d3 b
    · rfl
    · rcases (a2 b (by omega)).1 hc with h | h
      · rw [hfree1 b (by omega) (by omega)] at h
        exact absurd h (by simp)
      · omega
  obtain ⟨q1, q2, q3, q4, q5⟩ := alloc_write_loop_exact (indirect_data_block buf size new)
    (new - 32) 0 (m + 1) d3 tbl0 (by omega) (by omega) hlow3 hfree3
  rw [grow_indirect_full] at hwb
  generalize for_loop (alloc_write_step (indirect_data_block buf size new)) (new - 32) 0
    (d3, tbl0) = r5 at hwb q1 q2 q3 q4 q5
  rw [hwb]
  simp only
  have hv : valid_bnum (m + 1) = true := by rw [valid_bnum_iff, BLOCK_NUM_eq]; omega
  refine ⟨fun j hj => ?_, ?_, fun i hi => ?_, fun b h1 h2 => ?_, fun k h1 h2 h3 => ?_⟩
  · have : j ≠ NDIRECT := by rw [NDIRECT_eq]; omega
    simp only [this, if_false]
  · simp
  · have := write_block_blocks_eq r5.1 (m + 1) (table_bytes r5.2) hv
    have e : m + 1 - 1 = m := by omega
    rw [e] at this
    rw [this, bytes_table_table_bytes _ _ (by rw [NINDIRECT_eq]; omega),
      q1 i (by omega) (by omega)]
    omega
  · rw [used_write_block _ _ _ _ (by omega) h2, q4 b h1 h2, a2 b h1, hu1 b h2]
    constructor
    · rintro ((h | h) | h)
      · exact Or.inl h
      · exact Or.inr ⟨by omega, by omega⟩
      · exact Or.inr ⟨by omega, by omega⟩
    · rintro (h | h)
      · exact Or.inl (Or.inl h)
      · by_cases e2 : b = m + 1
        · exact Or.inl (Or.inr e2)
        · exact Or.inr ⟨by omega, by omega⟩
  · rw [write_block_blocks_ne _ _ _ _ (by omega), q5 k h1 (by omega), a3 k (by omega)]
    exact hf1 k (fun i _ g2 => h3 i (by omega))

/-- The function `_write_file` growing a file of exactly `NDIRECT` blocks, on a bitmap where
every id up to `m` is used and the ids after `m` are free. -/
theorem _write_file_full (d : disk) (inum : Nat) (ino : inode) (buf : Block)
    (n now m : Nat) (g : garbage)
    (hi : get_inode d inum = some ino) (hsz : block_num_of ino.size = 32)
    (hn0 : 32 < (n + 511) / 512) (hn : n ≤ MAXFILESIZE) (hm : 1035 ≤ m)
    (hmn : m + 1 + ((n + 511) / 512 - 32) ≤ 32768)
    (hold : ∀ j, j < 32 → 11 ≤ ino.blocks j)
    (hlow : ∀ b, 1 ≤ b → b ≤ m → used d b = true)
    (hfree : ∀ b, m < b → b ≤ m + 1 + ((n + 511) / 512 - 32) → used d b = false) :
    ∃ ino1, get_inode (_write_file d inum buf (n : Int) now g).2 inum = some ino1 ∧
      ino1.type = ino.type ∧ ino1.size = n ∧
      (∀ j, j < 32 → ino1.blocks j = ino.blocks j) ∧ ino1.blocks NDIRECT = m + 1 ∧
      (∀ i, i < (n + 511) / 512 - 32 →
        bytes_table ((_write_file d inum buf (n : Int) now g).2.blocks m) i = m + 2 + i) ∧
      (∀ b, 1 ≤ b → b ≤ 36864 →
        (used (_write_file d inum buf (n : Int) now g).2 b = true ↔
          (used d b = true ∨ (m < b ∧ b ≤ m + 1 + ((n + 511) / 512 - 32))))) ∧
      (∀ k, (k = 0 ∨ 10 ≤ k) → k ≠ inum + 10 →
        (k < m ∨ m + 1 + ((n + 511) / 512 - 32) ≤ k) → (∀ j, j < 32 → k ≠ ino.blocks j - 1) →
        (_write_file d inum buf (n : Int) now g).2.blocks k = d.blocks k) := by
  obtain ⟨hv, _, ht⟩ := get_inode_some d inum ino hi
  obtain ⟨hb1, hb2⟩ := get_inode_bounds d inum ino hi
  obtain ⟨l1, l2, l3⟩ := get_inode_lt d inum ino hi
  rw [MAXFILESIZE_eq] at hn
  have hnew : (n + 511) / 512 ≤ 159 := by omega
  rw [_write_file_eq _ inum buf n now g ino hi (by rw [MAXFILESIZE_eq]; exact hn),
    hsz, if_neg (by omega)]
  obtain ⟨w1, w2, w3, w4, w5⟩ := write_bigger_full d ino g.table buf n
    ((n + 511) / 512) m hn0 hnew hm hmn hold hlow hfree
  generalize write_bigger d ino g.table buf n 32 ((n + 511) / 512) = W at w1 w2 w3 w4 w5
  obtain ⟨ino1, g1, g2, g3, g4⟩ := get_inode_put_inode W.1 inum
    { ino with size := n, mtime := now, ctime := now, blocks := W.2 } now hv
    (by
      show ino.type % 4294967296 ≠ 0
      rw [Nat.mod_eq_of_lt l1]
      exact ht)
  refine ⟨ino1, g1, ?_, ?_, fun j hj => ?_, ?_, fun i hi => ?_, fun b h1 h2 => ?_,
    fun k h1 h2 h3 h4 => ?_⟩
  · rw [g2]
    show ino.type % 4294967296 = ino.type
    exact Nat.mod_eq_of_lt l1
  · rw [g3]
    show n % 4294967296 = n
    exact Nat.mod_eq_of_lt (by omega)
  · rw [g4 j (by rw [NDIRECT_eq]; omega)]
    show W.2 j % 4294967296 = ino.blocks j
    rw [w1 j hj]
    exact Nat.mod_eq_of_lt (l3 j)
  · rw [g4 _ (le_refl _)]
    show W.2 NDIRECT % 4294967296 = m + 1
    rw [w2]
    exact Nat.mod_eq_of_lt (by omega)
  · rw [put_inode_other _ _ _ _ _ (by omega)]
    exact w3 i hi
  · rw [used_put_inode _ _ _ _ _ h2, w4 b h1 h2]
  · rw [put_inode_other _ _ _ _ _ h2, w5 k h1 h3 h4]

/-- The same for `write_file`. -/
theorem write_file_full (im : inode_manager) (inum : Nat) (ino : inode) (buf : Block)
    (n now m : Nat) (g : garbage)
    (hi : get_inode im.bm inum = some ino) (hsz : block_num_of ino.size = 32)
    (hn0 : 32 < (n + 511) / 512) (hn : n ≤ MAXFILESIZE) (hm : 1035 ≤ m)
    (hmn : m + 1 + ((n + 511) / 512 - 32) ≤ 32768)
    (hold : ∀ j, j < 32 → 11 ≤ ino.blocks j)
    (hlow : ∀ b, 1 ≤ b → b ≤ m → used im.bm b = true)
    (hfree : ∀ b, m < b → b ≤ m + 1 + ((n + 511) / 512 - 32) → used im.bm b = false) :
    ∃ ino1, get_inode (write_file im inum buf (n : Int) now g).bm inum = some ino1 ∧
      ino1.type = ino.type ∧ ino1.size = n ∧
      (∀ j, j < 32 → ino1.blocks j = ino.blocks j) ∧ ino1.blocks NDIRECT = m + 1 ∧
      (∀ i, i < (n + 511) / 512 - 32 →
        bytes_table ((write_file im inum buf (n : Int) now g).bm.blocks m) i = m + 2 + i) ∧
      (∀ b, 1 ≤ b → b ≤ 36864 →
        (used (write_file im inum buf (n : Int) now g).bm b = true ↔
          (used im.bm b = true ∨ (m < b ∧ b ≤ m + 1 + ((n + 511) / 512 - 32))))) ∧
      (∀ k, (k = 0 ∨ 10 ≤ k) → k ≠ inum + 10 →
        (k < m ∨ m + 1 + ((n + 511) / 512 - 32) ≤ k) → (∀ j, j < 32 → k ≠ ino.blocks j - 1) →
        (write_file im inum buf (n : Int) now g).bm.blocks k = im.bm.blocks k) := by
  obtain ⟨ino_r, r1, r2, r3, r4, r5, r6⟩ := read_file_inode im.bm inum now g ino hi
  rw [write_file_bm]
  generalize (read_file im.bm inum now g).2 = d_r at r1 r5 r6
  have hN := NDIRECT_eq
  obtain ⟨ino1, w1, w2, w3, w4, w5, w6, w7, w8⟩ := _write_file_full d_r inum ino_r buf n now m g
    r1 (by rw [r3]; exact hsz) hn0 hn hm hmn
    (fun j hj => by rw [r4 j (by omega)]; exact hold j hj)
    (fun b h1 h2 => by rw [r6 b (by omega)]; exact hlow b h1 h2)
    (fun b h1 h2 => by rw [r6 b (by omega)]; exact hfree b h1 h2)
  refine ⟨ino1, w1, by rw [w2, r2], w3, fun j hj => by rw [w4 j hj, r4 j (by omega)], w5, w6,
    fun b h1 h2 => ?_, fun k h1 h2 h3 h4 => ?_⟩
  · rw [w7 b h1 h2, r6 b h2]
  · rw [w8 k h1 h2 h3 (fun j hj => by rw [r4 j (by omega)]; exact h4 j hj)]
    exact r5 k h2

end inode_manager
/-! ## Shrinking to at most `NDIRECT` blocks with an arbitrary uninitialised table -/

namespace inode_manager

open block_manager

/-- The bit of an id `b` that is no multiple of `BPB` after `_write_file` has written a
content of at most `NDIRECT` blocks and no more blocks than the old one: the bit stays
unless `b` is one of the ids freed, which are the unused direct entries, the first entries
of the uninitialised table `g.table` (the table is not loaded on this path) and the
indirect entry. -/
theorem _write_file_shrink_bit (d : disk) (inum : Nat) (ino : inode) (buf : Block) (n now : Nat)
    (g : garbage) (hi : get_inode d inum = some ino) (hn : n ≤ MAXFILESIZE)
    (hle : (n + 511) / 512 ≤ block_num_of ino.size) (h32 : (n + 511) / 512 ≤ 32)
    (hwr : ∀ j, j < (n + 511) / 512 → 11 ≤ ino.blocks j)
    (b : Nat) (hb1 : 1 ≤ b) (hb2 : b ≤ BLOCK_NUM) (hb : b % BPB ≠ 0) :
    (used (_write_file d inum buf (n : Int) now g).2 b = true ↔
      (used d b = true ∧
        (∀ j, (n + 511) / 512 ≤ j → j < min (block_num_of ino.size) 32 → ino.blocks j ≠ b) ∧
        (block_num_of ino.size > 32 →
          (∀ i, i < block_num_of ino.size - 32 → g.table i ≠ b) ∧ ino.blocks NDIRECT ≠ b))) := by
  have hb3 : b ≤ 36864 := by rw [BLOCK_NUM_eq] at hb2; omega
  rw [_write_file_eq _ inum buf n now g ino hi hn, if_pos hle]
  simp only
  unfold write_smaller
  rw [rewrite_old_small _ _ _ _ _ _ h32]
  simp only
  rw [free_unused_small _ _ _ _ _ h32]
  have hu1 := used_write_loop ino.blocks (data_block buf n ((n + 511) / 512 - 1))
    ((n + 511) / 512) 0 d b (fun i _ g2 => hwr i (by omega)) hb3
  generalize for_loop (fun i d => block_manager.write_block d (ino.blocks i)
    (data_block buf n ((n + 511) / 512 - 1) i)) ((n + 511) / 512) 0 d = d1 at hu1
  rw [used_put_inode _ _ _ _ _ hb3]
  by_cases ho : block_num_of ino.size > 32
  · have hm : min (block_num_of ino.size) 32 = 32 := by omega
    rw [if_pos ho, used_free_block_any _ _ _ hb1 hb2 hb,
      used_free_loop_any g.table (block_num_of ino.size - 32) 0 _ b hb1 hb2 hb,
      used_free_loop_any ino.blocks (32 - (n + 511) / 512) ((n + 511) / 512) d1 b hb1 hb2 hb,
      hu1, hm]
    constructor
    · rintro ⟨⟨⟨c1, c2⟩, c3⟩, c4⟩
      exact ⟨c1, fun j g1 g2 => c2 j g1 (by omega), fun _ =>
        ⟨fun i hi => c3 i (Nat.zero_le _) (by omega), c4⟩⟩
    · rintro ⟨c1, c2, c3⟩
      exact ⟨⟨⟨c1, fun j g1 g2 => c2 j g1 (by omega)⟩,
        fun i _ hi => (c3 ho).1 i (by omega)⟩, (c3 ho).2⟩
  · have hm : min (block_num_of ino.size) 32 = block_num_of ino.size := by omega
    rw [if_neg ho,
      used_free_loop_any ino.blocks (block_num_of ino.size - (n + 511) / 512)
        ((n + 511) / 512) d1 b hb1 hb2 hb, hu1, hm]
    constructor
    · rintro ⟨c1, c2⟩
      exact ⟨c1, fun j g1 g2 => c2 j g1 (by omega), fun h => absurd h ho⟩
    · rintro ⟨c1, c2, _⟩
      exact ⟨c1, fun j g1 g2 => c2 j g1 (by omega)⟩

/-- The same for `write_file`. -/
theorem write_file_shrink_bit (im : inode_manager) (inum : Nat) (ino : inode) (buf : Block)
    (n now : Nat) (g : garbage) (hi : get_inode im.bm inum = some ino) (hn : n ≤ MAXFILESIZE)
    (hle : (n + 511) / 512 ≤ block_num_of ino.size) (h32 : (n + 511) / 512 ≤ 32)
    (hwr : ∀ j, j < (n + 511) / 512 → 11 ≤ ino.blocks j)
    (b : Nat) (hb1 : 1 ≤ b) (hb2 : b ≤ BLOCK_NUM) (hb : b % BPB ≠ 0) :
    (used (write_file im inum buf (n : Int) now g).bm b = true ↔
      (used im.bm b = true ∧
        (∀ j, (n + 511) / 512 ≤ j → j < min (block_num_of ino.size) 32 → ino.blocks j ≠ b) ∧
        (block_num_of ino.size > 32 →
          (∀ i, i < block_num_of ino.size - 32 → g.table i ≠ b) ∧ ino.blocks NDIRECT ≠ b))) := by
  have hb3 : b ≤ 36864 := by rw [BLOCK_NUM_eq] at hb2; omega
  obtain ⟨ino_r, r1, r2, r3, r4, r5, r6⟩ := read_file_inode im.bm inum now g ino hi
  rw [write_file_bm]
  generalize (read_file im.bm inum now g).2 = d_r at r1 r5 r6
  have hN := NDIRECT_eq
  rw [_write_file_shrink_bit d_r inum ino_r buf n now g r1 hn (by rw [r3]; exact hle) h32
    (fun j hj => by rw [r4 j (by omega)]; exact hwr j hj) b hb1 hb2 hb, r3, r6 b hb3,
    r4 _ (le_refl _)]
  constructor
  · rintro ⟨c1, c2, c3⟩
    exact ⟨c1, fun j g1 g2 => by rw [← r4 j (by omega)]; exact c2 j g1 g2, c3⟩
  · rintro ⟨c1, c2, c3⟩
    exact ⟨c1, fun j g1 g2 => by rw [r4 j (by omega)]; exact c2 j g1 g2, c3⟩

end inode_manager
/-! ## The states on the direct/indirect boundary -/

namespace inode_manager

open block_manager

/-- The state `im_direct`: inode 1 has the 32 direct blocks 1036 to 1067 and exactly the ids
up to 1067 are marked used. -/
theorem im_direct_spec :
    ∃ ino, get_inode im_direct.bm 1 = some ino ∧ ino.type = T_DIR ∧ ino.size = 16384 ∧
      (∀ j, j < 32 → ino.blocks j = 1036 + j) ∧
      (∀ b, 1 ≤ b → b ≤ 36864 → (used im_direct.bm b = true ↔ b ≤ 1067)) := by
  obtain ⟨⟨ino0, a1, a2, a3⟩, a4, a5, a6⟩ := init_spec 0
  have e32 : (16384 + 511) / 512 = 32 := rfl
  have et : blocks_total 32 = 32 := rfl
  obtain ⟨ino, w1, w2, w3, w4, -, -, w7, -⟩ := write_file_fresh (init 0) 1 ino0 zero_block
    16384 0 1035 garbage_zero a1 a3 (by decide) (by decide) (le_refl _) (by decide)
    (fun b h1 h2 => (a5 b h1 (by omega)).2 h2)
    (fun b h1 h2 => by
      rw [e32, et] at h2
      cases hc : used (init 0).bm b
      · rfl
      · have := (a5 b (by omega) (by omega)).1 hc
        omega)
  rw [e32] at w4 w7
  rw [et] at w7
  have him : write_file (init 0) 1 zero_block ((16384 : Nat) : Int) 0 garbage_zero = im_direct :=
    rfl
  rw [him] at w1 w7
  refine ⟨ino, w1, by rw [w2, a2], w3, fun j hj => ?_, fun b h1 h2 => ?_⟩
  · rw [w4 j hj hj]
  · rw [w7 b h1 h2, a5 b h1 h2]
    omega

/-- The state `im_over`: inode 1 keeps its direct blocks and has the indirect block 1068
with the pointee 1069; exactly the ids up to 1069 are marked used. -/
theorem im_over_spec :
    ∃ ino, get_inode im_over.bm 1 = some ino ∧ ino.type = T_DIR ∧ ino.size = 16385 ∧
      (∀ j, j < 32 → ino.blocks j = 1036 + j) ∧ ino.blocks NDIRECT = 1068 ∧
      bytes_table (im_over.bm.blocks 1067) 0 = 1069 ∧
      (∀ b, 1 ≤ b → b ≤ 36864 → (used im_over.bm b = true ↔ b ≤ 1069)) := by
  obtain ⟨ino0, s1, s2, s3, s4, s5⟩ := im_direct_spec
  have hbn : block_num_of ino0.size = 32 := by rw [s3]; rfl
  have e33 : (16385 + 511) / 512 = 33 := rfl
  obtain ⟨ino, w1, w2, w3, w4, w5, w6, w7, -⟩ := write_file_full im_direct 1 ino0 zero_block
    16385 0 1067 garbage_zero s1 hbn (by decide) (by decide) (by decide) (by decide)
    (fun j hj => by rw [s4 j hj]; omega)
    (fun b h1 h2 => (s5 b h1 (by omega)).2 h2)
    (fun b h1 h2 => by
      rw [e33] at h2
      cases hc : used im_direct.bm b
      · rfl
      · have := (s5 b (by omega) (by omega)).1 hc
        omega)
  rw [e33] at w6 w7
  have him : write_file im_direct 1 zero_block ((16385 : Nat) : Int) 0 garbage_zero = im_over :=
    rfl
  rw [him] at w1 w6 w7
  have w60 := w6 0 (by decide)
  have e68 : 1067 + 1 = 1068 := rfl
  have e69 : 1067 + 2 + 0 = 1069 := rfl
  rw [e68] at w5
  rw [e69] at w60
  refine ⟨ino, w1, by rw [w2, s2], w3, fun j hj => ?_, w5, w60, fun b h1 h2 => ?_⟩
  · rw [w4 j hj, s4 j hj]
  · rw [w7 b h1 h2, s5 b h1 h2]
    omega

end inode_manager
/-! ## Reading a file on two devices that agree on its blocks -/

namespace inode_manager

open block_manager

end inode_manager
/-! ## The inode table without a free slot, and the text added to the log -/

namespace inode_manager

open block_manager

/-- The scan of `alloc_inode` runs through when no slot has type 0. -/
theorem find_free_inode_full (d : disk) (fuel start : Nat) (h0 : 1 ≤ start)
    (h1 : start + fuel ≤ 1025)
    (hlive : ∀ i, start ≤ i → i < start + fuel → (inode.decode (d.blocks (i + 10))).type ≠ 0) :
    find_free_inode d fuel start = start + fuel := by
  induction fuel generalizing start with
  | zero => rfl
  | succ fuel ih =>
    unfold find_free_inode
    simp only
    rw [inode_block_read d start h0 (by omega), if_neg (hlive start (le_refl _) (by omega)),
      ih (start + 1) (by omega) (by omega) (fun i g1 g2 => hlive i (by omega) (by omega))]
    omega

end inode_manager

namespace log_manager

/-- The method `log` cuts the file at the position and puts the text there; the position
is then the end of the file and the checkpoints stay. -/
theorem log_cut (lm : log_manager) (entry : List Nat) :
    (lm.log entry).logfile = lm.logfile.take lm.pos ++ entry ∧
    (lm.log entry).pos = (lm.log entry).logfile.length ∧
    (lm.log entry).previous_checkpoints = lm.previous_checkpoints := by
  unfold log
  by_cases h : lm.pos < lm.logfile.length
  · rw [if_pos h]
    exact ⟨rfl, rfl, rfl⟩
  · rw [if_neg h, List.take_of_length_le (by omega)]
    exact ⟨rfl, rfl, rfl⟩

end log_manager
/-! ## The text of a directory: what `_writedir` writes and what `_readdir` reads -/

namespace yfs_client

theorem takeWhile_all (p : Nat → Bool) (l : List Nat) (hl : ∀ x ∈ l, p x = true) :
    l.takeWhile p = l := by
  induction l with
  | nil => rfl
  | cons a l ih =>
    rw [List.takeWhile_cons, hl a (List.mem_cons_self a l),
      ih (fun x hx => hl x (List.mem_cons_of_mem a hx))]
    rfl

theorem dropWhile_all (p : Nat → Bool) (l : List Nat) (hl : ∀ x ∈ l, p x = true) :
    l.dropWhile p = [] := by
  induction l with
  | nil => rfl
  | cons a l ih =>
    rw [List.dropWhile_cons, hl a (List.mem_cons_self a l)]
    exact ih (fun x hx => hl x (List.mem_cons_of_mem a hx))

/-- The call `getline` on a good stream that holds a name without 0 byte, a 0 byte and
more: the name is read and the stream is at the character after the 0 byte. -/
theorem getline_name (name t str : List Nat) (h0 : 0 ∉ name) :
    getline ⟨name ++ 0 :: t, false, false⟩ str = (⟨t, false, false⟩, name) := by
  have hp : ∀ x ∈ name, (fun c : Nat => c != 0) x = true := by
    intro x hx
    have : x ≠ 0 := fun e => h0 (e ▸ hx)
    simp [this]
  have hc : (fun c : Nat => c != 0) 0 = false := by simp
  unfold getline
  simp only [istream.good]
  rw [log_manager.dropWhile_append_stop _ _ _ _ hp hc,
    log_manager.takeWhile_append_stop _ _ _ _ hp hc]
  rfl

/-- The extraction of an inum on a good stream that holds the decimal text of a number
below 2^64 and then the end or a character that is no digit: the number is read, and
`eofbit` is set when the end was reached. -/
theorem read_inum_decimal (n : Nat) (t : List Nat) (i0 : Nat) (hn : n < 18446744073709551616)
    (ht : ∀ c t1, t = c :: t1 → is_digit c = false) :
    read_inum ⟨log_manager.decimal n ++ t, false, false⟩ i0 = (⟨t, t.isEmpty, false⟩, n) := by
  obtain ⟨d1, d2, d3⟩ := log_manager.decimal_spec n
  have hdig : ∀ x ∈ log_manager.decimal n, is_digit x = true := by
    intro x hx
    have := d2 x hx
    simp [is_digit, this.1, this.2]
  have htake : (log_manager.decimal n ++ t).takeWhile is_digit = log_manager.decimal n := by
    cases t with
    | nil => rw [List.append_nil]; exact takeWhile_all _ _ hdig
    | cons c t1 => exact log_manager.takeWhile_append_stop _ _ _ _ hdig (ht c t1 rfl)
  have hdrop : (log_manager.decimal n ++ t).dropWhile is_digit = t := by
    cases t with
    | nil => rw [List.append_nil]; exact dropWhile_all _ _ hdig
    | cons c t1 => exact log_manager.dropWhile_append_stop _ _ _ _ hdig (ht c t1 rfl)
  cases hd : log_manager.decimal n with
  | nil => exact absurd hd d1
  | cons a l =>
    have ha := d2 a (by rw [hd]; exact List.mem_cons_self a l)
    have hsp : log_manager.is_space a = false := by
      simp only [log_manager.is_space, Bool.or_eq_false_iff, Bool.and_eq_false_iff,
        decide_eq_false_iff_not]
      omega
    have hsign : ¬ (a = 43 ∨ a = 45) := by omega
    have h45 : ¬ a = 45 := by omega
    rw [hd] at htake hdrop d3
    have hsk : List.dropWhile log_manager.is_space (a :: l ++ t) = a :: (l ++ t) := by
      rw [List.cons_append, List.dropWhile_cons, hsp]
      rfl
    have htake1 : List.takeWhile is_digit (a :: (l ++ t)) = a :: l := htake
    have hdrop1 : List.dropWhile is_digit (a :: (l ++ t)) = t := hdrop
    have hv : digits_value (a :: l) = n := d3
    have hgood : istream.good ⟨a :: l ++ t, false, false⟩ = true := rfl
    unfold read_inum
    rw [if_pos hgood]
    have h43 : ¬ a = 43 := by omega
    simp only [hsk, h43, h45, or_self, if_false, htake1, hdrop1, hv]
    rw [if_neg (by simp), if_neg (by omega)]

/-- The text of a list of entries is empty only for the empty list. -/
theorem encode_eq_nil (L : List dirent) (h : encode L = []) : L = [] := by
  cases L with
  | nil => rfl
  | cons e es =>
    have : encode (e :: es) = e.name ++ [0] ++ log_manager.decimal e.inum ++ encode es := rfl
    rw [this] at h
    simp at h

/-- The text of entries whose names do not begin with a digit does not begin with a
digit. -/
theorem encode_head (L : List dirent) (h : ∀ e ∈ L, starts_with_digit e.name = false)
    (c : Nat) (t1 : List Nat) (ht : encode L = c :: t1) : is_digit c = false := by
  cases L with
  | nil => cases ht
  | cons e es =>
    have he := h e (List.mem_cons_self e es)
    unfold encode at ht
    cases hn : e.name with
    | nil =>
      rw [hn] at ht
      simp only [List.nil_append, List.cons_append, List.cons.injEq] at ht
      rw [← ht.1]
      rfl
    | cons a l =>
      rw [hn] at ht he
      simp only [List.cons_append, List.cons.injEq] at ht
      rw [← ht.1]
      exact he

/-- The loop of `_readdir` on the text of a list of entries whose names hold no 0 byte and,
after the first entry, do not begin with a digit, and whose inums are below 2^64: the
entries are appended to the list, in order. -/
theorem readdir_loop_encode (L : List dirent) (fuel : Nat) (eof : Bool) (entry : dirent)
    (acc : List dirent) (hfuel : L.length < fuel) (heof : eof = true → L = [])
    (h0 : ∀ e ∈ L, 0 ∉ e.name) (h64 : ∀ e ∈ L, e.inum < 18446744073709551616)
    (hd : ∀ e ∈ L.tail, starts_with_digit e.name = false) :
    readdir_loop fuel ⟨encode L, eof, false⟩ entry acc = acc ++ L := by
  induction L generalizing fuel eof entry acc with
  | nil =>
    cases fuel with
    | zero => omega
    | succ fuel =>
      unfold readdir_loop
      have : (getline ⟨encode [], eof, false⟩ entry.name).1.failbit = true := by
        cases eof <;> rfl
      rw [if_pos this, List.append_nil]
  | cons e es ih =>
    cases fuel with
    | zero => omega
    | succ fuel =>
      have he : eof = false := by
        cases eof
        · rfl
        · exact absurd (heof rfl) (by simp)
      subst he
      have hg := getline_name e.name (log_manager.decimal e.inum ++ encode es) entry.name
        (h0 e (List.mem_cons_self e es))
      have hr := read_inum_decimal e.inum (encode es) entry.inum
        (h64 e (List.mem_cons_self e es))
        (fun c t1 ht => encode_head es hd c t1 ht)
      have henc : encode (e :: es) = e.name ++ 0 :: (log_manager.decimal e.inum ++ encode es) := by
        show e.name ++ [0] ++ log_manager.decimal e.inum ++ encode es = _
        simp
      unfold readdir_loop
      rw [henc, hg]
      simp only [Bool.false_eq_true, if_false]
      rw [hr]
      simp only
      rw [ih fuel (encode es).isEmpty (dirent.mk e.name e.inum) (acc ++ [dirent.mk e.name e.inum])
        (by simp only [List.length_cons] at hfuel; omega)
        (fun h => encode_eq_nil es (List.isEmpty_iff.1 h))
        (fun x hx => h0 x (List.mem_cons_of_mem e hx))
        (fun x hx => h64 x (List.mem_cons_of_mem e hx))
        (fun x hx => hd x (List.mem_of_mem_tail hx))]
      simp

/-- The text of a list of entries has more characters than the list has entries. -/
theorem length_le_encode (L : List dirent) : L.length ≤ (encode L).length := by
  induction L with
  | nil => exact Nat.le_refl _
  | cons e es ih =>
    unfold encode
    simp only [List.length_cons, List.length_append, List.length_nil]
    omega

/-- The entries read from the text of a list of entries are the list, when the names hold
no 0 byte, the names after the first do not begin with a digit and the inums are below
2^64. -/
theorem readdir_writedir_round_trip_aux (L : List dirent) (junk : Nat)
    (h0 : ∀ e ∈ L, 0 ∉ e.name) (h64 : ∀ e ∈ L, e.inum < 18446744073709551616)
    (hd : ∀ e ∈ L.tail, starts_with_digit e.name = false) :
    decode (encode L) junk = L := by
  unfold decode
  rw [readdir_loop_encode L _ false _ [] (by have := length_le_encode L; omega)
    (fun h => by cases h) h0 h64 hd]
  rfl

end yfs_client
/-! ## The content that `_write` puts together -/

namespace yfs_client

/-- For an offset below 2^32 the content that `_write` puts together is the content of the
spec; `data` holds `size` bytes. -/
theorem write_content_spec (c : List Nat) (size off : Nat) (data : List Nat)
    (hoff : off < 4294967296) (hd : data.length = size) :
    write_content c size (off : Int) data = some (write_spec c off data) := by
  have htake : data.take size = data := by rw [← hd]; exact List.take_length data
  unfold write_content write_spec
  rw [Int.toNat_ofNat, Nat.mod_eq_of_lt hoff, htake]
  by_cases h : off ≥ c.length
  · rw [if_pos h, if_pos h]
    unfold string_resize
    rw [List.take_of_length_le h]
  · rw [if_neg h, if_neg h]
    unfold string_replace
    rw [if_neg (by omega)]
    have e : off + min (if (off + size) % 18446744073709551616 ≤ c.length then size
        else c.length - off) (c.length - off) = min (off + data.length) c.length := by
      rw [hd]
      by_cases h1 : size ≤ c.length - off
      · have : (off + size) % 18446744073709551616 ≤ c.length :=
          Nat.le_trans (Nat.mod_le _ _) (by omega)
        rw [if_pos this]
        omega
      · split <;> omega
    rw [e]

/-- The length of the content of the spec. -/
theorem write_spec_length (c : List Nat) (off : Nat) (data : List Nat) :
    (write_spec c off data).length = max c.length (off + data.length) := by
  unfold write_spec
  split
  · simp only [List.length_append, List.length_replicate]
    omega
  · simp only [List.length_append, List.length_take, List.length_drop]
    omega

/-- The bytes from `off` on in the content of the spec are the data. -/
theorem write_spec_data (c : List Nat) (off : Nat) (data : List Nat) (k : Nat)
    (hk : k < data.length) : (write_spec c off data)[off + k]? = data[k]? := by
  unfold write_spec
  split
  · rename_i h
    rw [List.getElem?_append_right (by simp only [List.length_append, List.length_replicate]; omega)]
    congr 1
    simp only [List.length_append, List.length_replicate]
    omega
  · rename_i h
    have hl : (List.take off c).length = off := by rw [List.length_take]; omega
    rw [List.append_assoc, List.getElem?_append_right (by omega), hl,
      List.getElem?_append_left (by omega)]
    congr 1
    omega

/-- The bytes of the old content outside the range written stay. -/
theorem write_spec_keeps (old : List Nat) (off : Nat) (data : List Nat) (k : Nat)
    (hk : k < old.length) (hout : k < off ∨ off + data.length ≤ k) :
    (write_spec old off data)[k]? = old[k]? := by
  unfold write_spec
  split
  · rename_i h
    rw [List.append_assoc, List.getElem?_append_left hk]
  · rename_i h
    have hl : (List.take off old).length = off := by rw [List.length_take]; omega
    rcases hout with h1 | h1
    · rw [List.append_assoc, List.getElem?_append_left (by omega), List.getElem?_take_of_lt h1]
    · rw [List.getElem?_append_right (by simp only [List.length_append]; omega),
        List.getElem?_drop]
      congr 1
      simp only [List.length_append, hl]
      omega

end yfs_client
/-! ## The example service keeps what is put into it -/

namespace mem_extent

theorem getD_set (s : state) (k j : Nat) (v : Nat × List Nat) (hk : k < s.length) :
    (s.set k v).getD j (0, []) = if j = k then v else s.getD j (0, []) := by
  rw [List.getD_eq_getElem?_getD, List.getD_eq_getElem?_getD, List.getElem?_set]
  by_cases h : k = j
  · subst h
    simp [hk]
  · have h2 : ¬ j = k := fun e => h e.symm
    simp [h, h2]

theorem kind_lt (s : state) (i : Nat) (h : kind s i ≠ 0) : 1 ≤ i ∧ i - 1 < s.length := by
  unfold kind at h
  by_cases hi : i = 0
  · simp [hi] at h
  · rw [if_neg hi] at h
    refine ⟨by omega, ?_⟩
    by_contra hlt
    rw [List.getD_eq_default _ _ (by omega)] at h
    exact h rfl

/-- The example service is a service in the sense of `extent_client.stores`. -/
theorem client_stores : client.stores holds kind where
  get_content := by
    intro i s h
    unfold client at h ⊢
    by_cases hk : kind s i = 0
    · simp [hk] at h
    · simp [hk]
  get_holds := by
    intro i s j
    unfold client
    by_cases hk : kind s i = 0 <;> simp [hk]
  get_kind := by
    intro i s j
    unfold client
    by_cases hk : kind s i = 0 <;> simp [hk]
  getattr_type := by
    intro i s h
    unfold client at h ⊢
    by_cases hk : kind s i = 0
    · simp [hk] at h
    · simp [hk]
  getattr_holds := by
    intro i s j
    unfold client
    by_cases hk : kind s i = 0 <;> simp [hk]
  getattr_kind := by
    intro i s j
    unfold client
    by_cases hk : kind s i = 0 <;> simp [hk]
  put_holds := by
    intro i c s h j
    unfold client at h ⊢
    by_cases hk : kind s i = 0
    · simp [hk] at h
    · obtain ⟨h1, h2⟩ := kind_lt s i hk
      simp only [hk, if_false]
      unfold holds
      by_cases hj : j = 0
      · have : ¬ j = i := by omega
        rw [if_pos hj, if_pos hj, if_neg this]
      · rw [if_neg hj, if_neg hj, getD_set _ _ _ _ h2]
        by_cases e : j = i
        · subst e
          simp
        · have : ¬ j - 1 = i - 1 := by omega
          simp [e, this]
  put_kind := by
    intro i c s h j
    unfold client at h ⊢
    by_cases hk : kind s i = 0
    · simp [hk] at h
    · obtain ⟨h1, h2⟩ := kind_lt s i hk
      simp only [hk, if_false]
      unfold kind
      by_cases hj : j = 0
      · simp [hj]
      · rw [if_neg hj, if_neg hj, getD_set _ _ _ _ h2]
        by_cases e : j - 1 = i - 1
        · have : j = i := by omega
          subst this
          simp [kind, hj]
        · simp [e]
  create_new := by
    intro t s _
    show kind s (s.length + 1) = 0
    unfold kind
    simp
  create_kind := by
    intro t s _ j
    show kind (s ++ [(t, [])]) j = if j = s.length + 1 then t else kind s j
    unfold kind
    by_cases hj : j = 0
    · simp [hj]
    · rw [if_neg hj, if_neg hj]
      by_cases e : j = s.length + 1
      · subst e
        simp
      · rw [if_neg e]
        by_cases hlt : j - 1 < s.length
        · rw [List.getD_append _ _ _ _ hlt]
        · rw [List.getD_eq_default _ _ (by simp; omega), List.getD_eq_default _ _ (by omega)]
  create_holds := by
    intro t s _ j
    show holds (s ++ [(t, [])]) j = if j = s.length + 1 then [] else holds s j
    unfold holds
    by_cases hj : j = 0
    · simp [hj]
    · rw [if_neg hj, if_neg hj]
      by_cases e : j = s.length + 1
      · subst e
        simp
      · rw [if_neg e]
        by_cases hlt : j - 1 < s.length
        · rw [List.getD_append _ _ _ _ hlt]
        · rw [List.getD_eq_default _ _ (by simp; omega), List.getD_eq_default _ _ (by omega)]

end mem_extent
/-! ## The reading operations on a service that keeps what is put into it -/

namespace yfs_client

variable {σ : Type}

/-- The loop of `_lookup` finds a name exactly when an entry has it. -/
theorem lookup_loop_fold (name : List Nat) (L : List dirent) (acc : Bool × Nat) :
    (L.foldl (fun acc e => if e.name = name then (true, e.inum) else acc) acc).1 = true ↔
      (acc.1 = true ∨ ∃ e ∈ L, e.name = name) := by
  induction L generalizing acc with
  | nil => simp
  | cons a L ih =>
    rw [List.foldl_cons, ih]
    by_cases h : a.name = name
    · simp [h]
    · simp [h]

theorem lookup_loop_found (name : List Nat) (L : List dirent) (i0 : Nat) :
    (lookup_loop name L i0).1 = true ↔ ∃ e ∈ L, e.name = name := by
  unfold lookup_loop
  rw [lookup_loop_fold]
  simp

theorem find_entry_some (name : List Nat) (L : List dirent) (it : dirent)
    (h : find_entry name L = some it) : it ∈ L ∧ it.name = name := by
  unfold find_entry at h
  have h1 := List.find?_some h
  exact ⟨List.mem_of_find?_eq_some h, by simpa using h1⟩

theorem find_entry_none (name : List Nat) (L : List dirent) (h : find_entry name L = none) :
    ∀ e ∈ L, e.name ≠ name := by
  unfold find_entry at h
  intro e he
  have := List.find?_eq_none.1 h e he
  simpa using this

/-- The method `_readdir` makes one call of `get`, changes no type and no content, and
succeeds exactly when the call does, with the entries read from the content of the
directory. -/
theorem _readdir_stores (ec : extent_client σ) (holds : σ → Nat → List Nat)
    (kind : σ → Nat → Nat) (hl : ec.stores holds kind) (dir : Nat) (l : List dirent)
    (junk : Nat) (w : world σ) :
    (_readdir ec dir l junk w).2.2.trace = w.trace ++ [event.get dir] ∧
    (∀ j, holds (_readdir ec dir l junk w).2.2.ext j = holds w.ext j) ∧
    (∀ j, kind (_readdir ec dir l junk w).2.2.ext j = kind w.ext j) ∧
    ((_readdir ec dir l junk w).1 = xxstatus.OK ∨ (_readdir ec dir l junk w).1 = xxstatus.IOERR) ∧
    ((_readdir ec dir l junk w).1 = xxstatus.OK →
      (_readdir ec dir l junk w).2.1 = decode (holds w.ext dir) junk) ∧
    ((ec.get dir w.ext).1 = extent_protocol.status.OK →
      (_readdir ec dir l junk w).1 = xxstatus.OK) := by
  unfold _readdir world.get
  simp only
  by_cases h : (ec.get dir w.ext).1 = extent_protocol.status.OK
  · simp only [h, ne_eq, not_true_eq_false, if_false]
    exact ⟨trivial, hl.get_holds dir w.ext, hl.get_kind dir w.ext, Or.inl trivial,
      fun _ => by rw [hl.get_content dir w.ext h], fun _ => trivial⟩
  · simp only [h, ne_eq, not_false_eq_true, if_true]
    exact ⟨trivial, hl.get_holds dir w.ext, hl.get_kind dir w.ext, Or.inr trivial,
      (fun e => by cases e), (fun e => e.elim)⟩

/-- The method `_isdir` makes one call of `getattr` and changes no type and no content. -/
theorem _isdir_stores (ec : extent_client σ) (holds : σ → Nat → List Nat)
    (kind : σ → Nat → Nat) (hl : ec.stores holds kind) (inum : Nat) (w : world σ) :
    (_isdir ec inum w).2.trace = w.trace ++ [event.getattr inum] ∧
    (∀ j, holds (_isdir ec inum w).2.ext j = holds w.ext j) ∧
    (∀ j, kind (_isdir ec inum w).2.ext j = kind w.ext j) := by
  unfold _isdir world.getattr
  simp only
  split_ifs <;> exact ⟨rfl, hl.getattr_holds inum w.ext, hl.getattr_kind inum w.ext⟩

/-- The method `_lookup` makes one call of `get`, changes no type and no content, and
succeeds exactly when the call does, with the outcome of its loop over the entries read
from the content of the directory. -/
theorem _lookup_stores (ec : extent_client σ) (holds : σ → Nat → List Nat)
    (kind : σ → Nat → Nat) (hl : ec.stores holds kind) (parent : Nat) (name : List Nat)
    (found : Bool) (ino_out junk : Nat) (w : world σ) :
    (_lookup ec parent name found ino_out junk w).2.2.2.trace = w.trace ++ [event.get parent] ∧
    (∀ j, holds (_lookup ec parent name found ino_out junk w).2.2.2.ext j = holds w.ext j) ∧
    (∀ j, kind (_lookup ec parent name found ino_out junk w).2.2.2.ext j = kind w.ext j) ∧
    ((_lookup ec parent name found ino_out junk w).1 = xxstatus.OK →
      (_lookup ec parent name found ino_out junk w).2.1 =
        (lookup_loop name (decode (holds w.ext parent) junk) ino_out).1 ∧
      (_lookup ec parent name found ino_out junk w).2.2.1 =
        (lookup_loop name (decode (holds w.ext parent) junk) ino_out).2) ∧
    ((ec.get parent w.ext).1 = extent_protocol.status.OK →
      (_lookup ec parent name found ino_out junk w).1 = xxstatus.OK) := by
  obtain ⟨r1, r2, r3, r4, r5, r6⟩ := _readdir_stores ec holds kind hl parent [] junk w
  unfold _lookup
  simp only
  generalize _readdir ec parent [] junk w = R at r1 r2 r3 r4 r5 r6
  by_cases h : R.1 = xxstatus.OK
  · simp only [h, ne_eq, not_true_eq_false, if_false]
    exact ⟨r1, r2, r3, fun _ => by rw [r5 h]; exact ⟨rfl, rfl⟩, fun _ => trivial⟩
  · simp only [h, ne_eq, not_false_eq_true, if_true]
    exact ⟨r1, r2, r3, (fun e => by cases e), (fun e => absurd (r6 e) h)⟩

end yfs_client
/-! ## What the loop of `_readdir` reads from any content -/

namespace yfs_client

/-- The characters ahead do not begin with a digit. -/
theorem dropWhile_head (p : Nat → Bool) (l : List Nat) (c : Nat) (t : List Nat)
    (h : l.dropWhile p = c :: t) : p c = false := by
  induction l with
  | nil => cases h
  | cons a l ih =>
    rw [List.dropWhile_cons] at h
    by_cases ha : p a = true
    · rw [if_pos ha] at h
      exact ih h
    · rw [if_neg ha] at h
      cases h
      simpa using ha

theorem takeWhile_head (p : Nat → Bool) (l : List Nat) (c : Nat) (t : List Nat)
    (h : l.takeWhile p = c :: t) : ∃ t1, l = c :: t1 := by
  cases l with
  | nil => cases h
  | cons a l =>
    rw [List.takeWhile_cons] at h
    by_cases ha : p a = true
    · rw [if_pos ha] at h
      cases h
      exact ⟨l, rfl⟩
    · rw [if_neg ha] at h
      cases h

/-- A name that `getline` reads holds no 0 byte, and begins with a digit only if the
characters ahead did. -/
theorem getline_wf (ist : istream) (str : List Nat)
    (h : (getline ist str).1.failbit = false) :
    0 ∉ (getline ist str).2 ∧
    ((∀ c t, ist.rest = c :: t → is_digit c = false) →
      starts_with_digit (getline ist str).2 = false) := by
  unfold getline at h ⊢
  by_cases hg : ist.good = true
  · rw [if_pos hg] at h ⊢
    have hname : ∀ x, (match ist.rest.dropWhile (fun c => c != 0) with
        | [] => ((⟨[], true, (ist.rest.takeWhile (fun c => c != 0)).isEmpty⟩ : istream),
            ist.rest.takeWhile (fun c => c != 0))
        | _ :: rest1 => (⟨rest1, false, false⟩, ist.rest.takeWhile (fun c => c != 0))) = x →
        x.2 = ist.rest.takeWhile (fun c => c != 0) := by
      intro x hx
      split at hx <;> rw [← hx]
    rw [hname _ rfl]
    refine ⟨fun hm => ?_, fun hd => ?_⟩
    · have := List.mem_takeWhile_imp hm
      simp at this
    · cases hn : ist.rest.takeWhile (fun c => c != 0) with
      | nil => rfl
      | cons c t =>
        obtain ⟨t1, ht1⟩ := takeWhile_head _ _ _ _ hn
        exact hd c t1 ht1
  · rw [if_neg hg] at h
    cases h

/-- The number that the extraction of an inum gives is below 2^64 when the number before
was, and a stream that is good afterwards does not go on with a digit. -/
theorem read_inum_wf (ist : istream) (i0 : Nat) (hi : i0 < 18446744073709551616) :
    (read_inum ist i0).2 < 18446744073709551616 ∧
    ((read_inum ist i0).1.good = true →
      ∀ c t, (read_inum ist i0).1.rest = c :: t → is_digit c = false) := by
  unfold read_inum
  by_cases hg : ist.good = true
  swap
  · rw [if_neg hg]
    exact ⟨hi, fun h => by simp [istream.good] at h⟩
  rw [if_pos hg]
  cases hs : ist.rest.dropWhile log_manager.is_space with
  | nil => exact ⟨hi, fun h => by simp [istream.good] at h⟩
  | cons c s2 =>
    simp only
    by_cases h1 : List.takeWhile is_digit (if c = 43 ∨ c = 45 then s2 else c :: s2) = []
    · rw [if_pos h1]
      exact ⟨Nat.zero_lt_succ _, fun h => by simp [istream.good] at h⟩
    rw [if_neg h1]
    by_cases h2 : digits_value (List.takeWhile is_digit (if c = 43 ∨ c = 45 then s2 else c :: s2))
        > 18446744073709551615
    · rw [if_pos h2]
      exact ⟨Nat.lt_succ_self _, fun h => by simp [istream.good] at h⟩
    rw [if_neg h2]
    refine ⟨?_, fun _ c1 t1 ht => dropWhile_head _ _ _ _ ht⟩
    simp only
    split
    · exact Nat.mod_lt _ (by decide)
    · omega

/-- The entries that the loop of `_readdir` reads: no name holds a 0 byte, every inum is
below 2^64, and no name after the first begins with a digit. -/
theorem readdir_loop_wf (fuel : Nat) (ist : istream) (entry : dirent) (acc : List dirent)
    (hi : entry.inum < 18446744073709551616)
    (hacc : ∀ e ∈ acc, 0 ∉ e.name ∧ e.inum < 18446744073709551616)
    (htail : ∀ e ∈ acc.tail, starts_with_digit e.name = false)
    (hist : acc ≠ [] → ist.good = true → ∀ c t, ist.rest = c :: t → is_digit c = false) :
    (∀ e ∈ readdir_loop fuel ist entry acc, 0 ∉ e.name ∧ e.inum < 18446744073709551616) ∧
    (∀ e ∈ (readdir_loop fuel ist entry acc).tail, starts_with_digit e.name = false) := by
  induction fuel generalizing ist entry acc with
  | zero => exact ⟨hacc, htail⟩
  | succ fuel ih =>
    unfold readdir_loop
    by_cases hf : (getline ist entry.name).1.failbit = true
    · rw [if_pos hf]
      exact ⟨hacc, htail⟩
    rw [if_neg hf]
    have hf2 : (getline ist entry.name).1.failbit = false := by simpa using hf
    obtain ⟨g1, g2⟩ := getline_wf ist entry.name hf2
    obtain ⟨n1, n2⟩ := read_inum_wf (getline ist entry.name).1 entry.inum hi
    have hgood : ist.good = true := by
      by_contra hg
      unfold getline at hf2
      rw [if_neg hg] at hf2
      cases hf2
    apply ih
    · exact n1
    · intro e he
      rcases List.mem_append.1 he with h | h
      · exact hacc e h
      · rw [List.mem_singleton.1 h]
        exact ⟨g1, n1⟩
    · intro e he
      cases hacc0 : acc with
      | nil =>
        rw [hacc0] at he
        simp at he
      | cons a acc1 =>
        rw [hacc0] at he htail
        simp only [List.cons_append, List.tail_cons, List.mem_append, List.mem_singleton] at he
        rcases he with h | h
        · exact htail e h
        · rw [h]
          exact g2 (hist (by rw [hacc0]; simp) hgood)
    · intro _ hg2
      exact n2 hg2

theorem decode_wf (content : List Nat) (junk : Nat) (hj : junk < 18446744073709551616) :
    (∀ e ∈ decode content junk, 0 ∉ e.name ∧ e.inum < 18446744073709551616) ∧
    (∀ e ∈ (decode content junk).tail, starts_with_digit e.name = false) := by
  unfold decode
  exact readdir_loop_wf _ _ _ [] hj (fun e he => by cases he) (fun e he => by cases he)
    (fun h => absurd rfl h)

/-- After an entry is added to the entries read from a directory and the list is written
and read again, the list is read as it was written, when the name added holds no 0 byte and
does not begin with a digit (or is the only entry) and its inum is below 2^64. -/
theorem decode_encode_added (content : List Nat) (junk junk1 : Nat)
    (hj : junk < 18446744073709551616) (name : List Nat) (inum : Nat) (hn0 : 0 ∉ name)
    (hi : inum < 18446744073709551616)
    (hdig : decode content junk = [] ∨ starts_with_digit name = false) :
    decode (encode (decode content junk ++ [⟨name, inum⟩])) junk1 =
      decode content junk ++ [⟨name, inum⟩] := by
  obtain ⟨w1, w2⟩ := decode_wf content junk hj
  apply readdir_writedir_round_trip_aux
  · intro e he
    rcases List.mem_append.1 he with h | h
    · exact (w1 e h).1
    · rw [List.mem_singleton.1 h]
      exact hn0
  · intro e he
    rcases List.mem_append.1 he with h | h
    · exact (w1 e h).2
    · rw [List.mem_singleton.1 h]
      exact hi
  · intro e he
    cases hL : decode content junk with
    | nil =>
      rw [hL] at he
      simp at he
    | cons a L1 =>
      rw [hL] at he w2
      simp only [List.cons_append, List.tail_cons, List.mem_append, List.mem_singleton] at he
      rcases he with h | h
      · exact w2 e h
      · rw [h]
        rcases hdig with h1 | h1
        · rw [hL] at h1
          cases h1
        · exact h1

end yfs_client

/-! ## The calls that write the log, read back -/

namespace log_manager

/-- The record of a call is well formed. -/
theorem call.record_wf (c : call) : c.record.wf := by
  cases c with
  | create_log inum type => trivial
  | update_log inum old_size old_buf new_size new_buf =>
    exact ⟨bytes_of_length _ _, bytes_of_length _ _⟩
  | delete_log inum type => trivial
  | commit => trivial

/-- A call cuts the file at the position and puts the text of its record there; the
position is then the end of the file. -/
theorem run_file (lm : log_manager) (c : call) :
    (lm.run c).logfile = lm.logfile.take lm.pos ++ c.record.bytes ∧
    (lm.run c).pos = (lm.run c).logfile.length := by
  cases c with
  | create_log inum type =>
    exact ⟨(log_cut lm (log_entry.create inum type).bytes).1,
      (log_cut lm (log_entry.create inum type).bytes).2.1⟩
  | update_log inum old_size old_buf new_size new_buf =>
    exact ⟨(log_cut lm (call.update_log inum old_size old_buf new_size new_buf).record.bytes).1,
      (log_cut lm (call.update_log inum old_size old_buf new_size new_buf).record.bytes).2.1⟩
  | delete_log inum type =>
    exact ⟨(log_cut lm (log_entry.deletee inum type).bytes).1,
      (log_cut lm (log_entry.deletee inum type).bytes).2.1⟩
  | commit =>
    exact ⟨(log_cut lm log_entry.commit.bytes).1, (log_cut lm log_entry.commit.bytes).2.1⟩

/-- The method `next_log`, at the place where a call has put its record, reads that record
and arrives at the state that the call has left. -/
theorem run_next_log (lm : log_manager) (c : call) :
    next_log ⟨(lm.run c).logfile, (lm.logfile.take lm.pos).length,
      (lm.run c).previous_checkpoints⟩ = some (c.record, lm.run c) := by
  obtain ⟨h1, h2⟩ := run_file lm c
  rw [next_log_spec ⟨(lm.run c).logfile, (lm.logfile.take lm.pos).length,
    (lm.run c).previous_checkpoints⟩ c.record [] (call.record_wf c)
    (by
      show (lm.run c).logfile.drop (lm.logfile.take lm.pos).length = _
      rw [h1, List.append_nil]
      exact List.drop_left' rfl)]
  have hp : (lm.logfile.take lm.pos).length + c.record.bytes.length = (lm.run c).pos := by
    rw [h2, h1, List.length_append]
  show some (c.record, (⟨(lm.run c).logfile,
    (lm.logfile.take lm.pos).length + c.record.bytes.length,
    (lm.run c).previous_checkpoints⟩ : log_manager)) = _
  rw [hp]

/-- The text of records and one more. -/
theorem log_text_concat (records : List log_entry) (e : log_entry) :
    log_text (records ++ [e]) = log_text records ++ e.bytes := by
  induction records with
  | nil =>
    show e.bytes ++ [] = [] ++ e.bytes
    rw [List.append_nil, List.nil_append]
  | cons x t ih =>
    show x.bytes ++ log_text (t ++ [e]) = (x.bytes ++ log_text t) ++ e.bytes
    rw [ih, List.append_assoc]

/-- Calls made with the position at the end of the text of records leave the text of these
records and of their own, and the position at its end. -/
theorem run_all_file (calls : List call) :
    ∀ (lm : log_manager) (records : List log_entry),
      lm.logfile = log_text records → lm.pos = lm.logfile.length →
      (lm.run_all calls).logfile = log_text (records ++ calls.map call.record) ∧
      (lm.run_all calls).pos = (lm.run_all calls).logfile.length := by
  induction calls with
  | nil =>
    intro lm records h1 h2
    simp only [List.map_nil, List.append_nil]
    exact ⟨h1, h2⟩
  | cons c cs ih =>
    intro lm records h1 h2
    obtain ⟨g1, g2⟩ := run_file lm c
    have h3 : (lm.run c).logfile = log_text (records ++ [c.record]) := by
      rw [g1, List.take_of_length_le (by omega), h1, log_text_concat]
    have := ih (lm.run c) (records ++ [c.record]) h3 g2
    simp only [List.map_cons, List.append_assoc, List.singleton_append] at this ⊢
    exact this

end log_manager
/-! ## The lock and extent events of the operations -/

namespace yfs_client

variable {σ : Type}

/-- Calls on inodes that are locked or made pass the check of `calls_locked_or_own`. -/
theorem calls_locked_or_own_calls (S held made : List Nat) (q rest : List event)
    (hq : ∀ e ∈ q, e.calls_on S = true) (hon : ∀ i ∈ S, i ∈ held ∨ i ∈ made) :
    calls_locked_or_own held made (q ++ rest) = calls_locked_or_own held made rest := by
  induction q with
  | nil => rfl
  | cons e t ih =>
    have he := hq e (List.mem_cons_self _ _)
    have ht := ih (fun x hx => hq x (List.mem_cons_of_mem _ hx))
    cases e with
    | acquire i => simp [event.calls_on] at he
    | release i => simp [event.calls_on] at he
    | create t0 st i => simp [event.calls_on] at he
    | get i =>
      simp only [event.calls_on, decide_eq_true_eq] at he
      simp only [List.cons_append, calls_locked_or_own, ht]
      rcases hon _ he with h | h <;> simp [h, ht]
    | getattr i =>
      simp only [event.calls_on, decide_eq_true_eq] at he
      simp only [List.cons_append, calls_locked_or_own, ht]
      rcases hon _ he with h | h <;> simp [h, ht]
    | put i c0 =>
      simp only [event.calls_on, decide_eq_true_eq] at he
      simp only [List.cons_append, calls_locked_or_own, ht]
      rcases hon _ he with h | h <;> simp [h, ht]
    | remove i =>
      simp only [event.calls_on, decide_eq_true_eq] at he
      simp only [List.cons_append, calls_locked_or_own, ht]
      rcases hon _ he with h | h <;> simp [h, ht]

/-- Calls of the extent service change nothing for `released_once`. -/
theorem released_once_calls (S held : List Nat) (q rest : List event)
    (hq : ∀ e ∈ q, e.calls_on S = true) :
    released_once held (q ++ rest) = released_once held rest := by
  induction q with
  | nil => rfl
  | cons e t ih =>
    have he := hq e (List.mem_cons_self _ _)
    have ht := ih (fun x hx => hq x (List.mem_cons_of_mem _ hx))
    cases e with
    | acquire i => simp [event.calls_on] at he
    | release i => simp [event.calls_on] at he
    | create t0 st i => simp [event.calls_on] at he
    | get i => exact ht
    | getattr i => exact ht
    | put i c0 => exact ht
    | remove i => exact ht

/-- Calls of the extent service acquire no lock. -/
theorem acquired_calls (S : List Nat) (q rest : List event)
    (hq : ∀ e ∈ q, e.calls_on S = true) :
    acquired (q ++ rest) = acquired rest := by
  induction q with
  | nil => rfl
  | cons e t ih =>
    have he := hq e (List.mem_cons_self _ _)
    have ht := ih (fun x hx => hq x (List.mem_cons_of_mem _ hx))
    cases e with
    | acquire i => simp [event.calls_on] at he
    | release i => simp [event.calls_on] at he
    | create t0 st i => simp [event.calls_on] at he
    | get i => exact ht
    | getattr i => exact ht
    | put i c0 => exact ht
    | remove i => exact ht

theorem _isfile_calls (ec : extent_client σ) (inum : Nat) (w : world σ) (S : List Nat)
    (h : inum ∈ S) :
    ∃ q, (_isfile ec inum w).2.trace = w.trace ++ q ∧ ∀ e ∈ q, e.calls_on S = true := by
  unfold _isfile world.getattr
  simp only
  split_ifs <;> exact ⟨_, rfl, by simp [event.calls_on, h]⟩

theorem _isdir_calls (ec : extent_client σ) (inum : Nat) (w : world σ) (S : List Nat)
    (h : inum ∈ S) :
    ∃ q, (_isdir ec inum w).2.trace = w.trace ++ q ∧ ∀ e ∈ q, e.calls_on S = true := by
  unfold _isdir world.getattr
  simp only
  split_ifs <;> exact ⟨_, rfl, by simp [event.calls_on, h]⟩

theorem _getfile_calls (ec : extent_client σ) (inum : Nat) (fin : fileinfo) (w : world σ)
    (S : List Nat) (h : inum ∈ S) :
    ∃ q, (_getfile ec inum fin w).2.2.trace = w.trace ++ q ∧
      ∀ e ∈ q, e.calls_on S = true := by
  unfold _getfile world.getattr
  simp only
  split_ifs <;> exact ⟨_, rfl, by simp [event.calls_on, h]⟩

theorem _getdir_calls (ec : extent_client σ) (inum : Nat) (din : dirinfo) (w : world σ)
    (S : List Nat) (h : inum ∈ S) :
    ∃ q, (_getdir ec inum din w).2.2.trace = w.trace ++ q ∧
      ∀ e ∈ q, e.calls_on S = true := by
  unfold _getdir world.getattr
  simp only
  split_ifs <;> exact ⟨_, rfl, by simp [event.calls_on, h]⟩

theorem _getslink_calls (ec : extent_client σ) (inum : Nat) (sin : fileinfo) (w : world σ)
    (S : List Nat) (h : inum ∈ S) :
    ∃ q, (_getslink ec inum sin w).2.2.trace = w.trace ++ q ∧
      ∀ e ∈ q, e.calls_on S = true := by
  unfold _getslink world.getattr
  simp only
  split_ifs <;> exact ⟨_, rfl, by simp [event.calls_on, h]⟩

theorem _readdir_calls (ec : extent_client σ) (dir : Nat) (l : List dirent) (junk : Nat)
    (w : world σ) (S : List Nat) (h : dir ∈ S) :
    ∃ q, (_readdir ec dir l junk w).2.2.trace = w.trace ++ q ∧
      ∀ e ∈ q, e.calls_on S = true := by
  unfold _readdir world.get
  simp only
  split_ifs <;> exact ⟨_, rfl, by simp [event.calls_on, h]⟩

theorem _writedir_calls (ec : extent_client σ) (dir : Nat) (entries : List dirent)
    (w : world σ) (S : List Nat) (h : dir ∈ S) :
    ∃ q, (_writedir ec dir entries w).2.trace = w.trace ++ q ∧
      ∀ e ∈ q, e.calls_on S = true := by
  unfold _writedir world.put
  simp only
  split_ifs <;> exact ⟨_, rfl, by simp [event.calls_on, h]⟩

theorem _lookup_calls (ec : extent_client σ) (parent : Nat) (name : List Nat) (found : Bool)
    (ino_out junk : Nat) (w : world σ) (S : List Nat) (h : parent ∈ S) :
    ∃ q, (_lookup ec parent name found ino_out junk w).2.2.2.trace = w.trace ++ q ∧
      ∀ e ∈ q, e.calls_on S = true := by
  unfold _lookup
  simp only
  split_ifs <;> exact _readdir_calls ec parent [] junk w S h

theorem _has_duplicate_calls (ec : extent_client σ) (parent : Nat) (name : List Nat)
    (junk : Nat) (w : world σ) (S : List Nat) (h : parent ∈ S) :
    ∃ q, (_has_duplicate ec parent name junk w).2.trace = w.trace ++ q ∧
      ∀ e ∈ q, e.calls_on S = true := by
  unfold _has_duplicate
  simp only
  split_ifs <;> exact _lookup_calls ec parent name false junk junk w S h

/-- Two runs of calls, one after the other. -/
theorem calls_append {w0 w1 w2 : List event} {S : List Nat}
    (h1 : ∃ q, w1 = w0 ++ q ∧ ∀ e ∈ q, e.calls_on S = true)
    (h2 : ∃ q, w2 = w1 ++ q ∧ ∀ e ∈ q, e.calls_on S = true) :
    ∃ q, w2 = w0 ++ q ∧ ∀ e ∈ q, e.calls_on S = true := by
  obtain ⟨q1, e1, c1⟩ := h1
  obtain ⟨q2, e2, c2⟩ := h2
  refine ⟨q1 ++ q2, by rw [e2, e1, List.append_assoc], fun e he => ?_⟩
  rcases List.mem_append.1 he with h | h
  · exact c1 e h
  · exact c2 e h

theorem calls_none (w0 : List event) (S : List Nat) :
    ∃ q, w0 = w0 ++ q ∧ ∀ e ∈ q, e.calls_on S = true :=
  ⟨[], (List.append_nil _).symm, fun e he => by cases he⟩

theorem calls_one (w0 : List event) (S : List Nat) (e0 : event) (h : e0.calls_on S = true) :
    ∃ q, w0 ++ [e0] = w0 ++ q ∧ ∀ e ∈ q, e.calls_on S = true :=
  ⟨[e0], rfl, fun e he => by rw [List.mem_singleton.1 he]; exact h⟩

theorem _add_entry_and_save_calls (ec : extent_client σ) (parent : Nat) (name : List Nat)
    (inum junk : Nat) (w : world σ) (S : List Nat) (h : parent ∈ S) :
    ∃ q, (_add_entry_and_save ec parent name inum junk w).2.trace = w.trace ++ q ∧
      ∀ e ∈ q, e.calls_on S = true := by
  unfold _add_entry_and_save
  simp only
  split_ifs
  · exact _readdir_calls ec parent [] junk w S h
  · exact calls_append (_readdir_calls ec parent [] junk w S h) (_writedir_calls ec parent _ _ S h)
  · exact calls_append (_readdir_calls ec parent [] junk w S h) (_writedir_calls ec parent _ _ S h)

theorem _setattr_calls (ec : extent_client σ) (ino size : Nat) (w : world σ) (S : List Nat)
    (h : ino ∈ S) :
    ∃ q, (_setattr ec ino size w).2.trace = w.trace ++ q ∧ ∀ e ∈ q, e.calls_on S = true := by
  unfold _setattr world.get world.put
  simp only [List.append_assoc]
  split_ifs <;>
    first
    | exact calls_none _ _
    | exact ⟨_, rfl, by simp [event.calls_on, h]⟩

theorem _read_calls (ec : extent_client σ) (ino size : Nat) (off : Int) (data : List Nat)
    (w : world σ) (S : List Nat) (h : ino ∈ S) :
    ∃ q, (_read ec ino size off data w).2.trace = w.trace ++ q ∧
      ∀ e ∈ q, e.calls_on S = true := by
  unfold _read world.get world.getattr
  simp only [List.append_assoc]
  split_ifs <;>
    first
    | exact calls_none _ _
    | exact ⟨_, rfl, by simp [event.calls_on, h]⟩
    | (split <;> exact ⟨_, rfl, by simp [event.calls_on, h]⟩)

theorem _write_calls (ec : extent_client σ) (ino size : Nat) (off : Int) (data : List Nat)
    (w : world σ) (S : List Nat) (h : ino ∈ S) :
    ∃ q, (_write ec ino size off data w).2.trace = w.trace ++ q ∧
      ∀ e ∈ q, e.calls_on S = true := by
  unfold _write world.get world.put
  simp only [List.append_assoc]
  split_ifs <;>
    first
    | exact calls_none _ _
    | exact ⟨_, rfl, by simp [event.calls_on, h]⟩
    | (split
       · exact ⟨_, rfl, by simp [event.calls_on, h]⟩
       · split_ifs <;> exact ⟨_, rfl, by simp [event.calls_on, h]⟩)

theorem _readslink_calls (ec : extent_client σ) (ino : Nat) (path : List Nat) (w : world σ)
    (S : List Nat) (h : ino ∈ S) :
    ∃ q, (_readslink ec ino path w).2.2.trace = w.trace ++ q ∧
      ∀ e ∈ q, e.calls_on S = true := by
  unfold _readslink world.get
  simp only
  split_ifs <;>
    first
    | exact calls_none _ _
    | exact ⟨_, rfl, by simp [event.calls_on, h]⟩

theorem remove_calls (ec : extent_client σ) (inum : Nat) (w : world σ) (S : List Nat)
    (h : inum ∈ S) :
    ∃ q, (w.remove ec inum).2.trace = w.trace ++ q ∧ ∀ e ∈ q, e.calls_on S = true :=
  ⟨[event.remove inum], rfl, fun e he => by
    rw [List.mem_singleton.1 he]
    simp [event.calls_on, h]⟩

theorem put_calls (ec : extent_client σ) (inum : Nat) (c : List Nat) (w : world σ)
    (S : List Nat) (h : inum ∈ S) :
    ∃ q, (w.put ec inum c).2.trace = w.trace ++ q ∧ ∀ e ∈ q, e.calls_on S = true :=
  ⟨[event.put inum c], rfl, fun e he => by
    rw [List.mem_singleton.1 he]
    simp [event.calls_on, h]⟩

/-- What `_readdir` reads when it succeeds, and the state of the service after it. -/
theorem _readdir_value (ec : extent_client σ) (dir : Nat) (l : List dirent) (junk : Nat)
    (w : world σ) :
    (_readdir ec dir l junk w).2.2.ext = (ec.get dir w.ext).2.2 ∧
    ((_readdir ec dir l junk w).1 = xxstatus.OK →
      (_readdir ec dir l junk w).2.1 = decode (ec.get dir w.ext).2.1 junk) := by
  unfold _readdir world.get
  simp only
  split_ifs
  · exact ⟨rfl, fun e => by cases e⟩
  · exact ⟨rfl, fun _ => rfl⟩

/-- What `_lookup` gives when it succeeds, and the state of the service after it. -/
theorem _lookup_value (ec : extent_client σ) (parent : Nat) (name : List Nat) (found : Bool)
    (ino_out junk : Nat) (w : world σ) :
    (_lookup ec parent name found ino_out junk w).2.2.2.ext = (ec.get parent w.ext).2.2 ∧
    ((_lookup ec parent name found ino_out junk w).1 = xxstatus.OK →
      (_lookup ec parent name found ino_out junk w).2.2.1 =
        (lookup_loop name (decode (ec.get parent w.ext).2.1 junk) ino_out).2) := by
  obtain ⟨a1, a2⟩ := _readdir_value ec parent [] junk w
  unfold _lookup
  simp only
  generalize _readdir ec parent [] junk w = R at a1 a2
  by_cases h : R.1 = xxstatus.OK
  · simp only [h, ne_eq, not_true_eq_false, if_false]
    exact ⟨a1, fun _ => by rw [a2 h]⟩
  · simp only [h, ne_eq, not_false_eq_true, if_true]
    exact ⟨a1, fun e => by cases e⟩

theorem _unlink_calls (ec : extent_client σ) (parent : Nat) (name : List Nat) (junk : Nat)
    (w : world σ) (S : List Nat) (hp : parent ∈ S)
    (hc : ∀ it, find_entry name (decode (ec.get parent w.ext).2.1 junk) = some it →
      it.inum ∈ S) :
    ∃ q, (_unlink ec parent name junk w).2.trace = w.trace ++ q ∧
      ∀ e ∈ q, e.calls_on S = true := by
  have hr := _readdir_calls ec parent [] junk w S hp
  obtain ⟨-, a2⟩ := _readdir_value ec parent [] junk w
  unfold _unlink
  simp only
  generalize _readdir ec parent [] junk w = R at hr a2
  by_cases hp0 : parent ≤ 0
  · rw [if_pos hp0]
    exact calls_none _ _
  rw [if_neg hp0]
  by_cases h : R.1 = xxstatus.OK
  swap
  · rw [if_pos h]
    exact hr
  rw [if_neg (not_not.2 h), a2 h]
  cases hf : find_entry name (decode (ec.get parent w.ext).2.1 junk) with
  | none => exact hr
  | some it =>
    have hi := hc it hf
    have h1 := calls_append hr (_isfile_calls ec it.inum R.2.2 S hi)
    simp only
    generalize _isfile ec it.inum R.2.2 = R1 at h1
    split_ifs
    · exact h1
    · exact calls_append h1 (remove_calls ec it.inum R1.2 S hi)
    · exact calls_append (calls_append h1 (remove_calls ec it.inum R1.2 S hi))
        (_writedir_calls ec parent _ _ S hp)

theorem _rmdir_calls (ec : extent_client σ) (parent : Nat) (name : List Nat) (junk : Nat)
    (w : world σ) (S : List Nat) (hp : parent ∈ S)
    (hc : ∀ it, find_entry name (decode (ec.get parent w.ext).2.1 junk) = some it →
      it.inum ∈ S) :
    ∃ q, (_rmdir ec parent name junk w).2.trace = w.trace ++ q ∧
      ∀ e ∈ q, e.calls_on S = true := by
  have hr := _readdir_calls ec parent [] junk w S hp
  obtain ⟨-, a2⟩ := _readdir_value ec parent [] junk w
  unfold _rmdir
  simp only
  generalize _readdir ec parent [] junk w = R at hr a2
  by_cases hp0 : parent ≤ 0
  · rw [if_pos hp0]
    exact calls_none _ _
  rw [if_neg hp0]
  by_cases h : R.1 = xxstatus.OK
  swap
  · rw [if_pos h]
    exact hr
  rw [if_neg (not_not.2 h), a2 h]
  cases hf : find_entry name (decode (ec.get parent w.ext).2.1 junk) with
  | none => exact hr
  | some it =>
    have hi := hc it hf
    have h1 := calls_append hr (_isdir_calls ec it.inum R.2.2 S hi)
    simp only
    generalize _isdir ec it.inum R.2.2 = R1 at h1
    have h2 := calls_append h1 (_readdir_calls ec it.inum [] junk R1.2 S hi)
    generalize _readdir ec it.inum [] junk R1.2 = R2 at h2
    split_ifs
    · exact h1
    · exact h2
    · exact h2
    · exact calls_append h2 (remove_calls ec it.inum R2.2.2 S hi)
    · exact calls_append (calls_append h2 (remove_calls ec it.inum R2.2.2 S hi))
        (_writedir_calls ec parent _ _ S hp)

/-- The events of `_mkdir`: calls on the parent, or calls on the parent, then one call of
`create`, then, when it succeeded, calls on the parent and on the inode made. -/
theorem _mkdir_events (ec : extent_client σ) (parent : Nat) (name : List Nat)
    (ino_out junk : Nat) (w : world σ) :
    (∃ q, (_mkdir ec parent name ino_out junk w).2.2.trace = w.trace ++ q ∧
      ∀ e ∈ q, e.calls_on [parent] = true) ∨
    ∃ q1 q2 t st i, (_mkdir ec parent name ino_out junk w).2.2.trace =
        w.trace ++ q1 ++ event.create t st i :: q2 ∧
      (∀ e ∈ q1, e.calls_on [parent] = true) ∧ (∀ e ∈ q2, e.calls_on [i, parent] = true) ∧
      (st ≠ extent_protocol.status.OK → q2 = []) := by
  obtain ⟨q1, e1, c1⟩ :=
    _has_duplicate_calls ec parent name junk w [parent] (List.mem_singleton_self _)
  unfold _mkdir
  simp only
  generalize _has_duplicate ec parent name junk w = R at e1
  split_ifs with hdup hcr hadd
  · exact Or.inl ⟨q1, e1, c1⟩
  · refine Or.inr ⟨q1, [], T_DIR, (R.2.create ec T_DIR).1, (R.2.create ec T_DIR).2.1, ?_, c1,
      (fun e he => by cases he), fun _ => rfl⟩
    unfold world.create
    simp only [e1]
  · obtain ⟨q2, e2, c2⟩ := _add_entry_and_save_calls ec parent name (R.2.create ec T_DIR).2.1
      junk (R.2.create ec T_DIR).2.2 [(R.2.create ec T_DIR).2.1, parent] (by simp)
    refine Or.inr ⟨q1, q2, T_DIR, (R.2.create ec T_DIR).1, (R.2.create ec T_DIR).2.1, ?_, c1,
      c2, fun h => absurd h hcr⟩
    rw [e2]
    unfold world.create
    simp [e1]
  · obtain ⟨q2, e2, c2⟩ := _add_entry_and_save_calls ec parent name (R.2.create ec T_DIR).2.1
      junk (R.2.create ec T_DIR).2.2 [(R.2.create ec T_DIR).2.1, parent] (by simp)
    refine Or.inr ⟨q1, q2, T_DIR, (R.2.create ec T_DIR).1, (R.2.create ec T_DIR).2.1, ?_, c1,
      c2, fun h => absurd h hcr⟩
    rw [e2]
    unfold world.create
    simp [e1]

/-- The events of `_create`, as those of `_mkdir`. -/
theorem _create_events (ec : extent_client σ) (parent : Nat) (name : List Nat)
    (ino_out junk : Nat) (w : world σ) :
    (∃ q, (_create ec parent name ino_out junk w).2.2.trace = w.trace ++ q ∧
      ∀ e ∈ q, e.calls_on [parent] = true) ∨
    ∃ q1 q2 t st i, (_create ec parent name ino_out junk w).2.2.trace =
        w.trace ++ q1 ++ event.create t st i :: q2 ∧
      (∀ e ∈ q1, e.calls_on [parent] = true) ∧ (∀ e ∈ q2, e.calls_on [i, parent] = true) ∧
      (st ≠ extent_protocol.status.OK → q2 = []) := by
  obtain ⟨q1, e1, c1⟩ :=
    _has_duplicate_calls ec parent name junk w [parent] (List.mem_singleton_self _)
  unfold _create
  simp only
  generalize _has_duplicate ec parent name junk w = R at e1
  split_ifs with hdup hcr hadd
  · exact Or.inl ⟨q1, e1, c1⟩
  · refine Or.inr ⟨q1, [], T_FILE, (R.2.create ec T_FILE).1, (R.2.create ec T_FILE).2.1, ?_, c1,
      (fun e he => by cases he), fun _ => rfl⟩
    unfold world.create
    simp only [e1]
  · obtain ⟨q2, e2, c2⟩ := _add_entry_and_save_calls ec parent name (R.2.create ec T_FILE).2.1
      junk (R.2.create ec T_FILE).2.2 [(R.2.create ec T_FILE).2.1, parent] (by simp)
    refine Or.inr ⟨q1, q2, T_FILE, (R.2.create ec T_FILE).1, (R.2.create ec T_FILE).2.1, ?_,
      c1, c2, fun h => absurd h hcr⟩
    rw [e2]
    unfold world.create
    simp [e1]
  · obtain ⟨q2, e2, c2⟩ := _add_entry_and_save_calls ec parent name (R.2.create ec T_FILE).2.1
      junk (R.2.create ec T_FILE).2.2 [(R.2.create ec T_FILE).2.1, parent] (by simp)
    refine Or.inr ⟨q1, q2, T_FILE, (R.2.create ec T_FILE).1, (R.2.create ec T_FILE).2.1, ?_,
      c1, c2, fun h => absurd h hcr⟩
    rw [e2]
    unfold world.create
    simp [e1]

/-- The events of `_symlink`: none, or one call of `create` and then, when it succeeded,
the call of `put` on the inode made and calls on the parent. -/
theorem _symlink_events (ec : extent_client σ) (parent : Nat) (link name : List Nat)
    (ino_out junk : Nat) (w : world σ) :
    (∃ q, (_symlink ec parent link name ino_out junk w).2.2.trace = w.trace ++ q ∧
      ∀ e ∈ q, e.calls_on [parent] = true) ∨
    ∃ q1 q2 t st i, (_symlink ec parent link name ino_out junk w).2.2.trace =
        w.trace ++ q1 ++ event.create t st i :: q2 ∧
      (∀ e ∈ q1, e.calls_on [parent] = true) ∧ (∀ e ∈ q2, e.calls_on [i, parent] = true) ∧
      (st ≠ extent_protocol.status.OK → q2 = []) := by
  unfold _symlink
  simp only
  split_ifs with hp0 hcr hput hadd
  · exact Or.inl (calls_none _ _)
  · refine Or.inr ⟨[], [], T_SLINK, (w.create ec T_SLINK).1, (w.create ec T_SLINK).2.1, ?_,
      (fun e he => by cases he), (fun e he => by cases he), fun _ => rfl⟩
    unfold world.create
    simp
  · have h1 := put_calls ec (w.create ec T_SLINK).2.1 link (w.create ec T_SLINK).2.2
      [(w.create ec T_SLINK).2.1, parent] (by simp)
    obtain ⟨q2, e2, c2⟩ := h1
    refine Or.inr ⟨[], q2, T_SLINK, (w.create ec T_SLINK).1, (w.create ec T_SLINK).2.1, ?_,
      (fun e he => by cases he), c2, fun h => absurd h hcr⟩
    rw [e2]
    unfold world.create
    simp
  · have h1 := calls_append
      (put_calls ec (w.create ec T_SLINK).2.1 link (w.create ec T_SLINK).2.2
        [(w.create ec T_SLINK).2.1, parent] (by simp))
      (_add_entry_and_save_calls ec parent name (w.create ec T_SLINK).2.1 junk
        ((w.create ec T_SLINK).2.2.put ec (w.create ec T_SLINK).2.1 link).2
        [(w.create ec T_SLINK).2.1, parent] (by simp))
    obtain ⟨q2, e2, c2⟩ := h1
    refine Or.inr ⟨[], q2, T_SLINK, (w.create ec T_SLINK).1, (w.create ec T_SLINK).2.1, ?_,
      (fun e he => by cases he), c2, fun h => absurd h hcr⟩
    rw [e2]
    unfold world.create
    simp
  · have h1 := calls_append
      (put_calls ec (w.create ec T_SLINK).2.1 link (w.create ec T_SLINK).2.2
        [(w.create ec T_SLINK).2.1, parent] (by simp))
      (_add_entry_and_save_calls ec parent name (w.create ec T_SLINK).2.1 junk
        ((w.create ec T_SLINK).2.2.put ec (w.create ec T_SLINK).2.1 link).2
        [(w.create ec T_SLINK).2.1, parent] (by simp))
    obtain ⟨q2, e2, c2⟩ := h1
    refine Or.inr ⟨[], q2, T_SLINK, (w.create ec T_SLINK).1, (w.create ec T_SLINK).2.1, ?_,
      (fun e he => by cases he), c2, fun h => absurd h hcr⟩
    rw [e2]
    unfold world.create
    simp

/-- An operation that takes the lock of `p`, makes calls on `p` and releases the lock
passes the checks. -/
theorem single_lock (p : Nat) (t : List event)
    (h : ∃ q, t = ([] ++ [event.acquire p]) ++ q ∧ ∀ e ∈ q, e.calls_on [p] = true) :
    calls_locked_or_own [] [] t = true ∧
    calls_locked_or_own [] [] (t ++ [event.release p]) = true ∧
    released_once [] (t ++ [event.release p]) = true ∧
    acquired (t ++ [event.release p]) = [p] := by
  obtain ⟨q, e, c⟩ := h
  have hon : ∀ i ∈ [p], i ∈ [p] ∨ i ∈ ([] : List Nat) := fun i hi => Or.inl hi
  have a1 := calls_locked_or_own_calls [p] [p] [] q [] c hon
  have a2 := calls_locked_or_own_calls [p] [p] [] q [event.release p] c hon
  have a3 := released_once_calls [p] [p] q [event.release p] c
  have a4 := acquired_calls [p] q [event.release p] c
  rw [List.append_nil] at a1
  subst e
  have e1 : ([] ++ [event.acquire p]) ++ q = event.acquire p :: q := rfl
  have e2 : (([] ++ [event.acquire p]) ++ q) ++ [event.release p] =
      event.acquire p :: (q ++ [event.release p]) := rfl
  rw [e2, e1]
  refine ⟨?_, ?_, ?_, ?_⟩
  · show calls_locked_or_own [p] [] q = true
    rw [a1]
    rfl
  · show calls_locked_or_own [p] [] (q ++ [event.release p]) = true
    rw [a2]
    rfl
  · show released_once [p] (q ++ [event.release p]) = true
    rw [a3]
    simp [released_once]
  · show p :: acquired (q ++ [event.release p]) = [p]
    rw [a4]
    rfl

/-- An operation that takes the lock of `p`, makes calls on `p`, and after a call of
`create` that succeeded on the inode made too, and releases the lock passes the checks. -/
theorem single_lock_makes (p : Nat) (t : List event)
    (h : (∃ q, t = ([] ++ [event.acquire p]) ++ q ∧ ∀ e ∈ q, e.calls_on [p] = true) ∨
      ∃ q1 q2 ty st i, t = ([] ++ [event.acquire p]) ++ q1 ++ event.create ty st i :: q2 ∧
        (∀ e ∈ q1, e.calls_on [p] = true) ∧ (∀ e ∈ q2, e.calls_on [i, p] = true) ∧
        (st ≠ extent_protocol.status.OK → q2 = [])) :
    calls_locked_or_own [] [] (t ++ [event.release p]) = true ∧
    released_once [] (t ++ [event.release p]) = true := by
  rcases h with h | ⟨q1, q2, ty, st, i, e, c1, c2, c3⟩
  · exact ⟨(single_lock p t h).2.1, (single_lock p t h).2.2.1⟩
  · have hon : ∀ j ∈ [p], j ∈ [p] ∨ j ∈ ([] : List Nat) := fun j hj => Or.inl hj
    have a1 := calls_locked_or_own_calls [p] [p] [] q1
      (event.create ty st i :: (q2 ++ [event.release p])) c1 hon
    have a3 := released_once_calls [p] [p] q1
      (event.create ty st i :: (q2 ++ [event.release p])) c1
    have b3 := released_once_calls [i, p] [p] q2 [event.release p] c2
    subst e
    have e2 : ((([] ++ [event.acquire p]) ++ q1) ++ event.create ty st i :: q2) ++
        [event.release p] =
        event.acquire p :: (q1 ++ event.create ty st i :: (q2 ++ [event.release p])) := by
      simp
    rw [e2]
    constructor
    · show calls_locked_or_own [p] []
        (q1 ++ event.create ty st i :: (q2 ++ [event.release p])) = true
      rw [a1]
      show calls_locked_or_own [p] (if st = extent_protocol.status.OK then [i] else [])
        (q2 ++ [event.release p]) = true
      by_cases hst : st = extent_protocol.status.OK
      · rw [if_pos hst]
        have hon2 : ∀ j ∈ [i, p], j ∈ [p] ∨ j ∈ [i] := fun j hj => by
          simp only [List.mem_cons, List.mem_singleton, List.not_mem_nil, or_false] at hj ⊢
          exact hj.symm
        rw [calls_locked_or_own_calls [i, p] [p] [i] q2 [event.release p] c2 hon2]
        rfl
      · rw [if_neg hst, c3 hst]
        rfl
    · show released_once [p] (q1 ++ event.create ty st i :: (q2 ++ [event.release p])) = true
      rw [a3]
      show released_once [p] (q2 ++ [event.release p]) = true
      rw [b3]
      simp [released_once]

/-- An operation that takes the lock of `p`, makes calls on `p`, takes the lock of `c`,
makes calls, and releases the lock of `c` and then that of `p`. -/
theorem two_locks (p c : Nat) (S : List Nat) (t1 t2 : List event)
    (h1 : ∃ q, t1 = ([] ++ [event.acquire p]) ++ q ∧ ∀ e ∈ q, e.calls_on [p] = true)
    (h2 : ∃ q, t2 = (t1 ++ [event.acquire c]) ++ q ∧ ∀ e ∈ q, e.calls_on S = true) :
    ((∀ i ∈ S, i = p ∨ i = c) →
      calls_locked_or_own [] [] ((t2 ++ [event.release c]) ++ [event.release p]) = true) ∧
    released_once [] ((t2 ++ [event.release c]) ++ [event.release p]) = true ∧
    acquired ((t2 ++ [event.release c]) ++ [event.release p]) = [p, c] := by
  obtain ⟨q1, e1, c1⟩ := h1
  obtain ⟨q2, e2, c2⟩ := h2
  subst e1
  subst e2
  have e : ((((([] ++ [event.acquire p]) ++ q1) ++ [event.acquire c]) ++ q2) ++
      [event.release c]) ++ [event.release p] =
      event.acquire p :: (q1 ++ event.acquire c ::
        (q2 ++ [event.release c, event.release p])) := by
    simp
  rw [e]
  refine ⟨fun hS => ?_, ?_, ?_⟩
  · show calls_locked_or_own [p] []
      (q1 ++ event.acquire c :: (q2 ++ [event.release c, event.release p])) = true
    rw [calls_locked_or_own_calls [p] [p] [] q1 _ c1 (fun i hi => Or.inl hi)]
    show calls_locked_or_own [c, p] [] (q2 ++ [event.release c, event.release p]) = true
    rw [calls_locked_or_own_calls S [c, p] [] q2 _ c2 (fun i hi => by
      rcases hS i hi with h | h <;> simp [h])]
    rfl
  · show released_once [p]
      (q1 ++ event.acquire c :: (q2 ++ [event.release c, event.release p])) = true
    rw [released_once_calls [p] [p] q1 _ c1]
    show released_once [c, p] (q2 ++ [event.release c, event.release p]) = true
    rw [released_once_calls S [c, p] q2 _ c2]
    simp [released_once]
  · show p :: acquired
      (q1 ++ event.acquire c :: (q2 ++ [event.release c, event.release p])) = [p, c]
    rw [acquired_calls [p] q1 _ c1]
    show p :: c :: acquired (q2 ++ [event.release c, event.release p]) = [p, c]
    rw [acquired_calls S q2 _ c2]
    rfl

/-- The events of `unlink` and `rmdir`, which differ in the method `f` that they call with
the two locks held. -/
theorem parent_then_child (ec : extent_client σ) (parent : Nat) (name : List Nat) (junk : Nat)
    (s : σ) (f : world σ → xxstatus × world σ)
    (hf : ∀ w S, parent ∈ S →
      (∀ it, find_entry name (decode (ec.get parent w.ext).2.1 junk) = some it →
        it.inum ∈ S) →
      ∃ q, (f w).2.trace = w.trace ++ q ∧ ∀ e ∈ q, e.calls_on S = true)
    (t : List event)
    (ht : t = (if (_lookup ec parent name false junk junk (_acquire parent ⟨s, []⟩)).1
          ≠ xxstatus.OK then
        (xxstatus.IOERR, _release parent
          (_lookup ec parent name false junk junk (_acquire parent ⟨s, []⟩)).2.2.2)
      else if (_lookup ec parent name false junk junk (_acquire parent ⟨s, []⟩)).2.1
          = false then
        (xxstatus.IOERR, _release parent
          (_lookup ec parent name false junk junk (_acquire parent ⟨s, []⟩)).2.2.2)
      else
        ((f (_acquire (_lookup ec parent name false junk junk
            (_acquire parent ⟨s, []⟩)).2.2.1
          (_lookup ec parent name false junk junk (_acquire parent ⟨s, []⟩)).2.2.2)).1,
        _release parent (_release
          (_lookup ec parent name false junk junk (_acquire parent ⟨s, []⟩)).2.2.1
          (f (_acquire (_lookup ec parent name false junk junk
              (_acquire parent ⟨s, []⟩)).2.2.1
            (_lookup ec parent name false junk junk
              (_acquire parent ⟨s, []⟩)).2.2.2)).2))).2.trace) :
    ((∀ it, find_entry name (decode (ec.get parent (ec.get parent s).2.2).2.1 junk) = some it →
        it.inum = (lookup_loop name (decode (ec.get parent s).2.1 junk) junk).2) →
      calls_locked_or_own [] [] t = true) ∧
    released_once [] t = true ∧
    (acquired t = [parent] ∨
      acquired t = [parent, (lookup_loop name (decode (ec.get parent s).2.1 junk) junk).2]) := by
  have hl := _lookup_calls ec parent name false junk junk (_acquire parent ⟨s, []⟩) [parent]
    (List.mem_singleton_self _)
  obtain ⟨v1, v2⟩ := _lookup_value ec parent name false junk junk (_acquire parent ⟨s, []⟩)
  generalize _lookup ec parent name false junk junk (_acquire parent ⟨s, []⟩) = R
    at hl v1 v2 ht
  have hs : (_acquire parent (⟨s, []⟩ : world σ)).ext = s := rfl
  have h0 : (_acquire parent (⟨s, []⟩ : world σ)).trace = [] ++ [event.acquire parent] := rfl
  rw [hs] at v1 v2
  rw [h0] at hl
  by_cases h1 : R.1 = xxstatus.OK
  swap
  · rw [if_pos h1] at ht
    subst ht
    obtain ⟨-, a2, a3, a4⟩ := single_lock parent R.2.2.2.trace hl
    exact ⟨fun _ => a2, a3, Or.inl a4⟩
  rw [if_neg (not_not.2 h1)] at ht
  by_cases h2 : R.2.1 = false
  · rw [if_pos h2] at ht
    subst ht
    obtain ⟨-, a2, a3, a4⟩ := single_lock parent R.2.2.2.trace hl
    exact ⟨fun _ => a2, a3, Or.inl a4⟩
  rw [if_neg h2] at ht
  subst ht
  have hc := v2 h1
  have hcalls : ∀ S, parent ∈ S →
      (∀ it, find_entry name (decode (ec.get parent (ec.get parent s).2.2).2.1 junk) = some it →
        it.inum ∈ S) →
      ∃ q, (f (_acquire R.2.2.1 R.2.2.2)).2.trace =
        (R.2.2.2.trace ++ [event.acquire R.2.2.1]) ++ q ∧ ∀ e ∈ q, e.calls_on S = true :=
    fun S hp hS => hf (_acquire R.2.2.1 R.2.2.2) S hp (by
      have : (_acquire R.2.2.1 R.2.2.2).ext = R.2.2.2.ext := rfl
      rw [this, v1]
      exact hS)
  refine ⟨fun hsame => ?_, ?_, ?_⟩
  · have h := hcalls [parent, R.2.2.1] (by simp) (fun it hit => by
      rw [hsame it hit, hc]
      simp)
    exact (two_locks parent R.2.2.1 [parent, R.2.2.1] R.2.2.2.trace _ hl h).1
      (fun i hi => by simpa using hi)
  · have h := hcalls (parent ::
        (decode (ec.get parent (ec.get parent s).2.2).2.1 junk).map dirent.inum) (by simp)
      (fun it hit => List.mem_cons_of_mem _
        (List.mem_map_of_mem _ (List.mem_of_find?_eq_some hit)))
    exact (two_locks parent R.2.2.1 _ R.2.2.2.trace _ hl h).2.1
  · have h := hcalls (parent ::
        (decode (ec.get parent (ec.get parent s).2.2).2.1 junk).map dirent.inum) (by simp)
      (fun it hit => List.mem_cons_of_mem _
        (List.mem_map_of_mem _ (List.mem_of_find?_eq_some hit)))
    rw [← hc]
    exact Or.inr (two_locks parent R.2.2.1 _ R.2.2.2.trace _ hl h).2.2

end yfs_client
/-! ## Worked examples on the fresh file system -/

namespace inode_manager

open block_manager

theorem im_removed_reachable : reachable im_removed := by
  unfold im_removed im_big
  exact reachable.remove_file _ _ _ _ (reachable.write_file _ _ _ _ _ _ (reachable.init 0))

/-- C10, on the fresh file system after 33 blocks were written to inode 1: the inode has
33 > `NDIRECT` blocks and its indirect block is block 1068. After `remove_file` the inode
is gone and the bits of the last direct block (1067) and of the indirect pointee (1069)
are 0, but the bit of the indirect block 1068 is still 1. -/
theorem remove_file_keeps_indirect_bit :
    (get_inode im_big.bm 1).map (fun ino => (block_num_of ino.size, ino.blocks NDIRECT)) =
      some (33, 1068) ∧
    (get_inode (remove_file im_big 1 0 garbage_zero).bm 1).isNone = true ∧
    bitmap_bit im_big.bm (BBLOCK 1068) ((1068 - 1) % BPB) = true ∧
    bitmap_bit (remove_file im_big 1 0 garbage_zero).bm (BBLOCK 1067) ((1067 - 1) % BPB) = false ∧
    bitmap_bit (remove_file im_big 1 0 garbage_zero).bm (BBLOCK 1069) ((1069 - 1) % BPB) = false ∧
    bitmap_bit (remove_file im_big 1 0 garbage_zero).bm (BBLOCK 1068) ((1068 - 1) % BPB) = true := by
  obtain ⟨ino, s1, s2, s3, s4, s5, s6, s7, s8⟩ := im_big_spec
  obtain ⟨r1, r2, r3⟩ := im_removed_spec
  have hrem : remove_file im_big 1 0 garbage_zero = im_removed := rfl
  rw [hrem]
  have hfalse : ∀ b, 1 ≤ b → b ≤ 36864 → ¬ (b ≤ 1035 ∨ b = 1068) →
      used im_removed.bm b = false := by
    intro b h1 h2 h3
    cases hc : used im_removed.bm b
    · rfl
    · exact absurd ((r2 b h1 h2).1 hc) h3
  refine ⟨?_, ?_, ?_, ?_, ?_, ?_⟩
  · rw [s1, Option.map_some', s3, s5]
    rfl
  · rw [r1]
    rfl
  · rw [bitmap_bit_eq_used _ _ (by decide) (by decide)]
    exact (s7 1068 (by decide) (by decide)).2 (by decide)
  · rw [bitmap_bit_eq_used _ _ (by decide) (by decide)]
    exact hfalse 1067 (by decide) (by decide) (by decide)
  · rw [bitmap_bit_eq_used _ _ (by decide) (by decide)]
    exact hfalse 1069 (by decide) (by decide) (by decide)
  · rw [bitmap_bit_eq_used _ _ (by decide) (by decide)]
    exact (r2 1068 (by decide) (by decide)).2 (Or.inr rfl)

/-- C5, in the state reached from the constructor by writing 33 blocks to inode 1 and
removing inode 1: the bit of block 1068 is 1, block 1068 is no block of the superblock,
the bitmap or the inode table, and no inode with type ≠ 0 refers to it (no inode has
type ≠ 0 at all). -/
theorem indirect_block_leaked :
    reachable im_removed ∧ (1 ≤ 1068 ∧ 1068 ≤ BLOCK_NUM) ∧
    bitmap_bit im_removed.bm (BBLOCK 1068) ((1068 - 1) % BPB) = true ∧
    used im_removed.bm 1068 = true ∧
    ¬ (1068 ≤ IBLOCK INODE_NUM BLOCK_NUM) ∧
    ¬ referenced im_removed.bm 1068 := by
  obtain ⟨r1, r2, r3⟩ := im_removed_spec
  have hu : used im_removed.bm 1068 = true := (r2 1068 (by decide) (by decide)).2 (Or.inr rfl)
  have h1 : 1 ≤ 1068 ∧ 1068 ≤ BLOCK_NUM := by decide
  have h2 : ¬ (1068 ≤ IBLOCK INODE_NUM BLOCK_NUM) := by decide
  have h3 : ¬ referenced im_removed.bm 1068 := by
    rintro ⟨inum, ino, hi, _⟩
    obtain ⟨b1, b2⟩ := get_inode_bounds _ _ _ hi
    by_cases e : inum = 1
    · rw [e, r1] at hi
      exact absurd hi (by simp)
    · rw [get_inode_of_type_zero _ _ (r3 inum (by omega) b2)] at hi
      exact absurd hi (by simp)
  refine ⟨im_removed_reachable, h1, ?_, hu, h2, h3⟩
  rw [bitmap_bit_eq_used _ _ (by decide) (by decide)]
  exact hu

end inode_manager
namespace inode_manager

open block_manager

theorem im_shared_reachable : reachable im_shared := by
  unfold im_shared im_shrunk im_big
  exact reachable.write_file _ _ _ _ _ _ (reachable.alloc_inode _ _ _
    (reachable.write_file _ _ _ _ _ _ (reachable.write_file _ _ _ _ _ _ (reachable.init 0))))

/-- C4, in the state `im_shared`, reached from the constructor: inode 1 (32 blocks) and
inode 2 (1 block) both have type ≠ 0 and both have block 1036 as their first direct
block. -/
theorem block_shared_after_shrink :
    reachable im_shared ∧
    ∃ ino1 ino2, get_inode im_shared.bm 1 = some ino1 ∧ get_inode im_shared.bm 2 = some ino2 ∧
      ino1.type ≠ 0 ∧ ino2.type ≠ 0 ∧
      block_num_of ino1.size = 32 ∧ block_num_of ino2.size = 1 ∧
      ino1.blocks 0 = 1036 ∧ ino2.blocks 0 = 1036 ∧
      1036 ∈ file_blocks im_shared.bm ino1 ∧ 1036 ∈ file_blocks im_shared.bm ino2 := by
  obtain ⟨ino1, ino2, h1, h2, t1, z1, b1, t2, z2, b2⟩ := im_shared_spec
  have n1 : block_num_of ino1.size = 32 := by rw [z1]; rfl
  have n2 : block_num_of ino2.size = 1 := by rw [z2]; rfl
  refine ⟨im_shared_reachable, ino1, ino2, h1, h2, by rw [t1]; decide, by rw [t2]; decide,
    n1, n2, b1, b2, ?_, ?_⟩
  · unfold file_blocks
    rw [List.mem_append]
    left
    refine List.mem_map.2 ⟨0, List.mem_range.2 (by rw [n1]; decide), ?_⟩
    rw [file_block_direct _ _ 0 (by decide)]
    exact b1
  · unfold file_blocks
    rw [List.mem_append]
    left
    refine List.mem_map.2 ⟨0, List.mem_range.2 (by rw [n2]; decide), ?_⟩
    rw [file_block_direct _ _ 0 (by decide)]
    exact b2

end inode_manager
namespace inode_manager

open block_manager

/-- C3, on a run from the constructor: inode 2 holds the byte 7 when `commit` is called;
then 33 blocks are written to inode 1. `rollback` runs while the uninitialised
`indirect_block_buf` of `_write_file` holds 1036, and `forward` follows at once. Inode 2
held the byte 7 before the rollback and holds the byte 0 after the forward. -/
theorem forward_changes_other_inode :
    snapshot im_two_ops.bm 2 garbage_zero = some (2, 1, [7]) ∧
    ((rollback im_two_ops 0 (fun _ => garbage_1036)).bind
      (fun s => forward s 0 (fun _ => garbage_zero))).map
      (fun s => snapshot s.bm 2 garbage_zero) = some (some (2, 1, [0])) := by
  obtain ⟨⟨ino1, a1, a2, a3, a4, a5⟩, ⟨ino2, b1, b2, b3, b4⟩, hb, hu, L, hlm⟩ := im_two_ops_spec
  obtain ⟨hrb, hfw⟩ := rollback_forward_one L _ big_update_wf (fun h => by cases h)
  have hd2 : is_data_block (ino2.blocks 0) := by rw [b4, is_data_block_iff]; omega
  have e35 : (1036 : Nat) - 1 = 1035 := rfl
  have e12 : (2 : Nat) + 10 = 12 := rfl
  have hbn : block_num_of ino1.size = 33 := by rw [a3]; rfl
  have e0 : ((0 : Nat) + 511) / 512 = 0 := rfl
  have hg : ∀ i, garbage_1036.table i = 1036 := fun _ => rfl
  -- the rollback: the big write is undone while the table holds 1036
  obtain ⟨⟨ino3, s1, s2, s3, s4⟩, s5, s6⟩ := _write_file_shrink im_two_ops.bm 1 ino1
    (list_buf []) 0 0 garbage_1036 a1 (by decide) (by rw [hbn, e0]; decide) (by rw [e0]; decide)
    (fun j hj => by rw [e0] at hj; omega)
    (fun j g1 g2 => by
      rw [hbn] at g2
      rw [a4 j (by omega), BLOCK_NUM_eq, BPB_eq]
      omega)
    (fun _ => ⟨fun i _ => by rw [hg, BLOCK_NUM_eq, BPB_eq]; omega,
      by rw [a5, BLOCK_NUM_eq, BPB_eq]; omega⟩)
  rw [hbn, e0] at s5
  rw [e0] at s6
  generalize hd4 : (_write_file im_two_ops.bm 1 (list_buf []) ((0 : Nat) : Int) 0
    garbage_1036).2 = d4 at s1 s5 s6
  have hu4 : ∀ b, 1 ≤ b → b ≤ 36864 → (used d4 b = true ↔ (b ≤ 1035 ∨ b = 1070)) := by
    intro b h1 h2
    rw [s5 b h1 h2, hu b h1 h2, a5]
    constructor
    · rintro ⟨c1, c2, c3⟩
      obtain ⟨c4, c5⟩ := c3 (by decide)
      have c6 := c4 0 (by decide)
      rw [hg] at c6
      by_cases hb : b ≤ 1035
      · exact Or.inl hb
      · right
        by_contra hne
        have c7 := c2 (b - 1037) (Nat.zero_le _) (by omega)
        rw [a4 _ (by omega)] at c7
        omega
    · intro h
      refine ⟨by omega, fun j _ g2 => ?_, fun _ => ⟨fun i _ => by rw [hg]; omega, by omega⟩⟩
      rw [a4 j (by omega)]
      omega
  -- the forward: the big write is redone
  have e33 : (16896 + 511) / 512 = 33 := rfl
  have e34 : blocks_total 33 = 34 := rfl
  obtain ⟨ino5, w1, w2, w3, w4, w5, w6, w7, w8⟩ := _write_file_fresh d4 1 ino3
    (list_buf (log_manager.bytes_of zero_block 16896)) 16896 0 1035 garbage_zero s1 s3
    (by decide) (by decide) (le_refl _) (by decide)
    (fun b h1 h2 => (hu4 b h1 (by omega)).2 (Or.inl h2))
    (fun b h1 h2 => by
      rw [e33, e34] at h2
      cases hc : used d4 b
      · rfl
      · have := (hu4 b (by omega) (by omega)).1 hc
        omega)
  rw [e33, e34] at w8
  generalize hd5 : (_write_file d4 1 (list_buf (log_manager.bytes_of zero_block 16896))
    ((16896 : Nat) : Int) 0 garbage_zero).2 = d5 at w1 w6 w8
  have hi5 : get_inode d5 2 = some ino2 := by
    rw [get_inode_congr d5 im_two_ops.bm 2
      (by rw [e12, w8 12 (Or.inr (by decide)) (by decide) (Or.inl (by decide)),
        s6 12 (Or.inr (by decide)) (by decide) (fun j hj => by omega)])]
    exact b1
  have hb5 : d5.blocks 1035 0 = 0 := by
    have := w6 0 (by decide)
    simp only [Nat.zero_lt_succ, if_true, Nat.add_zero] at this
    rw [this]
    simp only
    rw [data_block_apply _ _ _ _ (by decide) (by decide), list_buf_zeros]
  constructor
  · rw [snapshot_one_byte _ _ ino2 _ b1 b3 hd2, b2, b4, e35, hb]
  · rw [rollback_forward_snapshot im_two_ops 0 _ _ _ _ _ _ 2 garbage_zero
      (by rw [hlm]; exact hrb) hfw, undo_all_one, undo_update, redo_all_one, redo_update, hd4,
      hd5, snapshot_one_byte _ _ ino2 _ hi5 b3 hd2, b2, b4, e35, hb5]

end inode_manager
namespace inode_manager

open block_manager

/-- C2, on a run from the constructor: inode 2 holds the byte 7 and inode 3 the byte 9 when
`commit` is called; then inode 3 is emptied and 33 blocks are written to inode 1.
`rollback` undoes the two logged records, the later one first; it runs while the
uninitialised `indirect_block_buf` of `_write_file` holds 1036. Afterwards inode 2, which
no operation touched, holds the byte 9. -/
theorem rollback_changes_other_inode :
    snapshot im_three.bm 2 garbage_zero = some (2, 1, [7]) ∧
    im_three_ops.lm.rollback.map (fun r => r.1) =
      some [log_entry.update 3 1 0 [9] [],
        log_entry.update 1 0 16896 [] (log_manager.bytes_of zero_block 16896)] ∧
    (rollback im_three_ops 0 (fun _ => garbage_1036)).map
      (fun s => snapshot s.bm 2 garbage_zero) = some (some (2, 1, [9])) := by
  have hsnap : snapshot im_three.bm 2 garbage_zero = some (2, 1, [7]) := by
    obtain ⟨-, ⟨ino2c, q1, q2, q3, q4⟩, -, qb, -, -, -⟩ := im_three_spec
    have hd2c : is_data_block (ino2c.blocks 0) := by rw [q4, is_data_block_iff]; omega
    have e35 : (1036 : Nat) - 1 = 1035 := rfl
    rw [snapshot_one_byte _ _ ino2c _ q1 q3 hd2c, q2, q4, e35, qb]
  obtain ⟨⟨ino1, a1, a2, a3, a4, a5⟩, ⟨ino2, b1, b2, b3, b4⟩, ⟨ino3, c1, c2, c3⟩, hb, hu, L, hlm⟩ :=
    im_three_ops_spec
  have hrb := rollback_two L (log_entry.update 3 1 0 [9] [])
    (log_entry.update 1 0 16896 [] (log_manager.bytes_of zero_block 16896)) ⟨rfl, rfl⟩
    big_update_wf
  rw [← hlm] at hrb
  have hd2 : is_data_block (ino2.blocks 0) := by rw [b4, is_data_block_iff]; omega
  have e35 : (1036 : Nat) - 1 = 1035 := rfl
  have e12 : (2 : Nat) + 10 = 12 := rfl
  have e13 : (3 : Nat) + 10 = 13 := rfl
  have hbn : block_num_of ino1.size = 33 := by rw [a3]; rfl
  have e0 : ((0 : Nat) + 511) / 512 = 0 := rfl
  have hg : ∀ i, garbage_1036.table i = 1036 := fun _ => rfl
  -- the big write is undone first, while the table holds 1036
  obtain ⟨⟨ino4, s1, s2, s3, s4⟩, s5, s6⟩ := _write_file_shrink im_three_ops.bm 1 ino1
    (list_buf []) 0 0 garbage_1036 a1 (by decide) (by rw [hbn, e0]; decide) (by rw [e0]; decide)
    (fun j hj => by rw [e0] at hj; omega)
    (fun j g1 g2 => by
      rw [hbn] at g2
      rw [a4 j (by omega), BLOCK_NUM_eq, BPB_eq]
      omega)
    (fun _ => ⟨fun i _ => by rw [hg, BLOCK_NUM_eq, BPB_eq]; omega,
      by rw [a5, BLOCK_NUM_eq, BPB_eq]; omega⟩)
  rw [hbn, e0] at s5
  rw [e0] at s6
  generalize hd4 : (_write_file im_three_ops.bm 1 (list_buf []) ((0 : Nat) : Int) 0
    garbage_1036).2 = d4 at s1 s5 s6
  have hu4 : ∀ b, 1 ≤ b → b ≤ 36864 → (used d4 b = true ↔ (b ≤ 1035 ∨ b = 1070)) := by
    intro b h1 h2
    rw [s5 b h1 h2, hu b h1 h2, a5]
    constructor
    · rintro ⟨c1, c2, c3⟩
      obtain ⟨c4, c5⟩ := c3 (by decide)
      have c6 := c4 0 (by decide)
      rw [hg] at c6
      by_cases hb : b ≤ 1035
      · exact Or.inl hb
      · right
        by_contra hne
        have c7 := c2 (b - 1037) (Nat.zero_le _) (by omega)
        rw [a4 _ (by omega)] at c7
        omega
    · intro h
      refine ⟨by omega, fun j _ g2 => ?_, fun _ => ⟨fun i _ => by rw [hg]; omega, by omega⟩⟩
      rw [a4 j (by omega)]
      omega
  have hi3 : get_inode d4 3 = some ino3 := by
    rw [get_inode_congr d4 im_three_ops.bm 3
      (by rw [e13, s6 13 (Or.inr (by decide)) (by decide) (fun j hj => by omega)])]
    exact c1
  -- then the emptying of inode 3 is undone: its byte is written to a fresh block
  have e1 : ((1 : Nat) + 511) / 512 = 1 := rfl
  have et : blocks_total 1 = 1 := rfl
  obtain ⟨ino5, w1, w2, w3, w4, w5, w6, w7, w8⟩ := _write_file_fresh d4 3 ino3
    (list_buf [9]) 1 0 1035 garbage_1036 hi3 c3
    (by decide) (by decide) (le_refl _) (by decide)
    (fun b h1 h2 => (hu4 b h1 (by omega)).2 (Or.inl h2))
    (fun b h1 h2 => by
      rw [e1, et] at h2
      cases hc : used d4 b
      · rfl
      · have := (hu4 b (by omega) (by omega)).1 hc
        omega)
  rw [e1, et] at w8
  generalize hd5 : (_write_file d4 3 (list_buf [9]) ((1 : Nat) : Int) 0 garbage_1036).2 = d5
    at w1 w6 w8
  have hi5 : get_inode d5 2 = some ino2 := by
    rw [get_inode_congr d5 im_three_ops.bm 2
      (by rw [e12, w8 12 (Or.inr (by decide)) (by decide) (Or.inl (by decide)),
        s6 12 (Or.inr (by decide)) (by decide) (fun j hj => by omega)])]
    exact b1
  have hb5 : d5.blocks 1035 0 = 9 := by
    have := w6 0 (by decide)
    simp only [Nat.zero_lt_succ, if_true, Nat.add_zero] at this
    rw [this]
    simp only
    rw [data_block_apply _ _ _ _ (by decide) (by decide)]
    rfl
  refine ⟨?_, ?_, ?_⟩
  · exact hsnap
  · rw [hrb, Option.map_some']
  · rw [rollback_snapshot im_three_ops 0 _ _ _ 2 garbage_zero hrb, undo_all_two, undo_update,
      undo_update, hd4, hd5, snapshot_one_byte _ _ ino2 _ hi5 b3 hd2, b2, b4, e35, hb5]

end inode_manager
/-! ## C11: the direct/indirect boundary -/

namespace inode_manager

open block_manager

/-- C11 (defect of the code): from the fresh file system, writing `NDIRECT * BLOCK_SIZE`
bytes to the empty inode 1 marks exactly the 32 blocks 1036 to 1067, and writing one byte
more marks exactly the indirect block 1068 and its pointee 1069.  Writing
`NDIRECT * BLOCK_SIZE` bytes again frees the indirect block, but the pointee is freed
through the table `indirect_block_buf`, which this path does not load: block 1069 is freed,
and the bitmap is that after the first write, exactly when the uninitialised table holds
1069 in its first entry.  With zeros there block 1069 stays marked. -/
theorem shrink_to_direct_keeps_pointee :
    (∀ b, 1 ≤ b → b ≤ BLOCK_NUM →
      (used im_direct.bm b = true ↔ (used (init 0).bm b = true ∨ (1036 ≤ b ∧ b ≤ 1067)))) ∧
    (∀ b, 1 ≤ b → b ≤ BLOCK_NUM →
      (used im_over.bm b = true ↔ (used im_direct.bm b = true ∨ b = 1068 ∨ b = 1069))) ∧
    (∃ ino, get_inode im_over.bm 1 = some ino ∧ block_num_of ino.size = 33 ∧
      ino.blocks NDIRECT = 1068 ∧ file_block im_over.bm ino 32 = 1069) ∧
    (∀ g, used (im_back g).bm 1068 = false ∧
      (used (im_back g).bm 1069 = false ↔ g.table 0 = 1069)) ∧
    (∀ g, (∀ b, 1 ≤ b → b ≤ BLOCK_NUM → used (im_back g).bm b = used im_direct.bm b) ↔
      g.table 0 = 1069) ∧
    used im_direct.bm 1069 = false ∧ used (im_back garbage_zero).bm 1069 = true := by
  obtain ⟨⟨_, -, -, -⟩, -, a5, -⟩ := init_spec 0
  obtain ⟨ino1, s1, -, s3, s4, s5⟩ := im_direct_spec
  obtain ⟨ino2, t1, -, t3, t4, t5, t6, t7⟩ := im_over_spec
  have hbn : block_num_of ino2.size = 33 := by rw [t3]; rfl
  have e32 : (16384 + 511) / 512 = 32 := rfl
  have hN := NDIRECT_eq
  have hbit : ∀ (g : garbage) (b : Nat), 1 ≤ b → b ≤ BLOCK_NUM → b % BPB ≠ 0 →
      (used (im_back g).bm b = true ↔ (b ≤ 1069 ∧ g.table 0 ≠ b ∧ 1068 ≠ b)) := by
    intro g b hb1 hb2 hb
    have hb3 : b ≤ 36864 := by rw [BLOCK_NUM_eq] at hb2; omega
    have := write_file_shrink_bit im_over 1 ino2 zero_block 16384 0 g t1 (by decide)
      (by rw [hbn, e32]; decide) (by rw [e32])
      (fun j hj => by rw [e32] at hj; rw [t4 j hj]; omega) b hb1 hb2 hb
    have him : write_file im_over 1 zero_block ((16384 : Nat) : Int) 0 g = im_back g := rfl
    rw [him, hbn, e32, t7 b hb1 hb3, t5] at this
    rw [this]
    constructor
    · rintro ⟨c1, -, c3⟩
      obtain ⟨c4, c5⟩ := c3 (by decide)
      exact ⟨c1, c4 0 (by decide), c5⟩
    · rintro ⟨c1, c2, c3⟩
      exact ⟨c1, fun j g1 g2 => by omega, fun _ => ⟨fun i hi => by
        have : i = 0 := by omega
        rw [this]
        exact c2, c3⟩⟩
  have h1069 : ∀ g : garbage, (used (im_back g).bm 1069 = false ↔ g.table 0 = 1069) := by
    intro g
    have := hbit g 1069 (by decide) (by decide) (by decide)
    constructor
    · intro h
      by_contra hne
      rw [this.2 ⟨le_refl _, hne, by decide⟩] at h
      exact absurd h (by simp)
    · intro h
      cases hc : used (im_back g).bm 1069
      · rfl
      · exact absurd h (this.1 hc).2.1
  have hd1069 : used im_direct.bm 1069 = false := by
    cases hc : used im_direct.bm 1069
    · rfl
    · have := (s5 1069 (by decide) (by decide)).1 hc
      omega
  refine ⟨fun b h1 h2 => ?_, fun b h1 h2 => ?_, ⟨ino2, t1, hbn, t5, ?_⟩, fun g => ⟨?_, h1069 g⟩,
    fun g => ⟨fun h => ?_, fun h => ?_⟩, hd1069, ?_⟩
  · rw [BLOCK_NUM_eq] at h2
    rw [s5 b h1 (by omega), a5 b h1 (by omega)]
    omega
  · rw [BLOCK_NUM_eq] at h2
    rw [t7 b h1 (by omega), s5 b h1 (by omega)]
    omega
  · rw [file_block_indirect _ _ 32 (le_refl _), t5]
    have e : (1068 : Nat) - 1 = 1067 := rfl
    have e0 : 32 - 32 = 0 := rfl
    rw [e, e0]
    exact t6
  · cases hc : used (im_back g).bm 1068
    · rfl
    · have := ((hbit g 1068 (by decide) (by decide) (by decide)).1 hc).2.2
      exact absurd rfl this
  · rw [← h1069 g, h 1069 (by decide) (by decide)]
    exact hd1069
  · intro b hb1 hb2
    have hb3 : b ≤ 36864 := by rw [BLOCK_NUM_eq] at hb2; omega
    obtain ⟨-, w5, -⟩ := write_file_shrink im_over 1 ino2 zero_block 16384 0 g t1 (by decide)
      (by rw [hbn, e32]; decide) (by rw [e32])
      (fun j hj => by rw [e32] at hj; rw [t4 j hj]; omega)
      (fun j g1 g2 => by rw [hbn] at g2; rw [e32] at g1; omega)
      (fun _ => ⟨fun i hi => by
        rw [hbn] at hi
        have : i = 0 := by omega
        rw [this, h, BLOCK_NUM_eq, BPB_eq]
        omega, by rw [t5, BLOCK_NUM_eq, BPB_eq]; omega⟩)
    have him : write_file im_over 1 zero_block ((16384 : Nat) : Int) 0 g = im_back g := rfl
    rw [him, hbn, e32] at w5
    have w := w5 b hb1 hb3
    rw [t7 b hb1 hb3, t5] at w
    have s := s5 b hb1 hb3
    rw [Bool.eq_iff_iff, w, s]
    constructor
    · rintro ⟨c1, -, c3⟩
      obtain ⟨c4, c5⟩ := c3 (by decide)
      have := c4 0 (by decide)
      rw [h] at this
      omega
    · intro c
      exact ⟨by omega, fun j g1 g2 => by omega, fun _ => ⟨fun i hi => by rw [show i = 0 by omega, h]; omega,
        by omega⟩⟩
  · cases hc : used (im_back garbage_zero).bm 1069
    · have := (h1069 garbage_zero).1 hc
      exact absurd this (by decide)
    · rfl

end inode_manager
/-! ## C12: a write that is refused -/

namespace inode_manager

open block_manager

end inode_manager
/-! ## C13: allocating an inode -/

namespace inode_manager

open block_manager

/-- C13: for a type that is not 0, `alloc_inode(type)` returns the smallest inum in
1..`INODE_NUM` whose slot has type 0; that slot then holds an inode of the type asked for
with size 0, no other block changes (so every other slot and every bit of the bitmap stay),
and the text of one record `create inum type` is put into the log at the position.  With
type 0, or when no slot has type 0, it returns 0 and the state stays as it is.  In the
constructor the first allocation returns inode 1, of type `T_DIR` and size 0. -/
theorem alloc_inode_contract (im : inode_manager) (type now : Nat) (ht : type < 4294967296) :
    (∀ k, type ≠ 0 → 1 ≤ k → k ≤ INODE_NUM →
      (inode.decode (block_manager.read_block im.bm (IBLOCK k BLOCK_NUM) zero_block)).type = 0 →
      (∀ i, 1 ≤ i → i < k →
        (inode.decode (block_manager.read_block im.bm (IBLOCK i BLOCK_NUM) zero_block)).type
          ≠ 0) →
      (alloc_inode im type now).1 = k ∧
      (∃ ino, get_inode (alloc_inode im type now).2.bm k = some ino ∧ ino.type = type ∧
        ino.size = 0) ∧
      (∀ j, j ≠ IBLOCK k BLOCK_NUM - 1 →
        (alloc_inode im type now).2.bm.blocks j = im.bm.blocks j) ∧
      (∀ i, i ≠ k → get_inode (alloc_inode im type now).2.bm i = get_inode im.bm i) ∧
      (∀ bb pos, 1 ≤ bb → bb ≤ BBLOCK BLOCK_NUM →
        bitmap_bit (alloc_inode im type now).2.bm bb pos = bitmap_bit im.bm bb pos) ∧
      (alloc_inode im type now).2.lm = im.lm.create_log k type ∧
      (alloc_inode im type now).2.lm.logfile =
        im.lm.logfile.take im.lm.pos ++ (log_entry.create k type).bytes ∧
      (alloc_inode im type now).2.lm.pos = (alloc_inode im type now).2.lm.logfile.length ∧
      (alloc_inode im type now).2.lm.previous_checkpoints = im.lm.previous_checkpoints) ∧
    ((type = 0 ∨ ∀ i, 1 ≤ i → i ≤ INODE_NUM →
        (inode.decode (block_manager.read_block im.bm (IBLOCK i BLOCK_NUM) zero_block)).type
          ≠ 0) →
      alloc_inode im type now = (0, im)) ∧
    (alloc_inode ⟨block_manager.init, log_manager.init⟩ T_DIR now).1 = 1 ∧
    (init now = (alloc_inode ⟨block_manager.init, log_manager.init⟩ T_DIR now).2 ∧
      ∃ ino, get_inode (init now).bm 1 = some ino ∧ ino.type = T_DIR ∧ ino.size = 0) := by
  refine ⟨fun k ht0 hk1 hk2 hfree hlive => ?_, fun h => ?_, ?_, rfl, (init_spec now).1⟩
  · rw [INODE_NUM_eq] at hk2
    rw [inode_block_read _ k hk1 hk2] at hfree
    obtain ⟨a1, a2, a3, a4⟩ := alloc_inode_spec im type now k ht0 ht hk1 hk2
      (fun i h1 h2 => by
        have := hlive i h1 h2
        rw [inode_block_read _ i h1 (by omega)] at this
        exact this) hfree
    have e : IBLOCK k BLOCK_NUM - 1 = k + 10 := by rw [IBLOCK_eq]; omega
    obtain ⟨c1, c2, c3⟩ := log_manager.log_cut im.lm (log_entry.create k type).bytes
    refine ⟨a1, a2, fun j hj => a3 j (by rw [← e]; exact hj),
      fun i hi => get_inode_congr _ _ _ (a3 _ (by omega)), fun bb pos h1 h2 => ?_, a4, ?_, ?_, ?_⟩
    · unfold bitmap_bit disk.read_block
      rw [scan_last] at h2
      rw [a3 _ (by omega)]
    · rw [a4]
      exact c1
    · rw [a4]
      exact c2
    · rw [a4]
      exact c3
  · rcases h with h | h
    · unfold alloc_inode
      simp [valid_type, h]
    · have hf := find_free_inode_full im.bm INODE_NUM 1 (le_refl _) (by rw [INODE_NUM_eq])
        (fun i h1 h2 => by
          rw [INODE_NUM_eq] at h2
          have := h i h1 (by rw [INODE_NUM_eq]; omega)
          rw [inode_block_read _ i h1 (by omega)] at this
          exact this)
      unfold alloc_inode
      simp only [hf]
      split
      · have : 1 + INODE_NUM > INODE_NUM := by omega
        simp only [this, if_true]
      · rfl
  · exact (alloc_inode_spec ⟨block_manager.init, log_manager.init⟩ T_DIR now 1 (by decide)
      (by decide) (le_refl _) (by decide) (fun i h1 h2 => by omega)
      (by
        show (inode.decode (block_manager.init.blocks 11)).type = 0
        rw [init_blocks_ne 11 (by decide)]
        rfl)).1

/-- The theorem `alloc_inode_contract` at the allocation of a file (type 2) in the fresh
file system: inode 1 is the root directory, so the file becomes inode 2. -/
theorem alloc_inode_contract_witness :
    (2 : Nat) < 4294967296 ∧ (alloc_inode (init 0) 2 0).1 = 2 ∧
    (alloc_inode (init 0) 0 0) = (0, init 0) :=
  ⟨by decide,
    ((alloc_inode_contract (init 0) 2 0 (by decide)).1 2 (by decide) (by decide) (by decide)
      (by
        rw [inode_block_read _ 2 (by decide) (by decide)]
        exact init_slot_free 0 2 (le_refl _))
      (fun i h1 h2 => by
        have hi : i = 1 := by omega
        obtain ⟨⟨ino, a1, a2, a3⟩, _⟩ := init_spec 0
        obtain ⟨_, b2, b3⟩ := get_inode_some _ _ _ a1
        rw [hi, inode_block_read _ 1 (by decide) (by decide), ← b2]
        exact b3)).1,
    (alloc_inode_contract (init 0) 0 0 (by decide)).2.1 (Or.inl rfl)⟩

end inode_manager
/-! ## C14: the text of a directory read back -/

namespace yfs_client

/-- Where the round trip holds: for every list of entries whose names contain no 0 byte,
whose names after the first do not begin with a decimal digit and whose inums are below 2^64
(they are `unsigned long long`), the loop of `_readdir` reads from the text that the loop of
`_writedir` writes exactly that list, in order. -/
theorem readdir_writedir_round_trip (L : List dirent) (junk : Nat)
    (h0 : ∀ e ∈ L, 0 ∉ e.name) (h64 : ∀ e ∈ L, e.inum < 18446744073709551616)
    (hd : ∀ e ∈ L.tail, starts_with_digit e.name = false) :
    decode (encode L) junk = L :=
  readdir_writedir_round_trip_aux L junk h0 h64 hd

/-- The theorem `readdir_writedir_round_trip` at a list of three entries, the first of which
has a name that begins with a digit and the second the empty name. -/
theorem readdir_writedir_round_trip_witness :
    (∀ e ∈ [dirent.mk [49, 97] 7, dirent.mk [] 0, dirent.mk [32, 98] 18446744073709551615],
      0 ∉ e.name) ∧
    decode (encode [dirent.mk [49, 97] 7, dirent.mk [] 0,
      dirent.mk [32, 98] 18446744073709551615]) 0 =
      [dirent.mk [49, 97] 7, dirent.mk [] 0, dirent.mk [32, 98] 18446744073709551615] :=
  ⟨by decide,
    readdir_writedir_round_trip
      [dirent.mk [49, 97] 7, dirent.mk [] 0, dirent.mk [32, 98] 18446744073709551615] 0
      (by decide) (by decide) (by decide)⟩

/-- C14 (defect of the code): the entries `("a", 1), ("2b", 3)` hold no 0 byte; their text
is `a\0` `1` `2b\0` `3`, and the loop of `_readdir` reads from it the entries
`("a", 12), ("b", 3)`, not the list that was written: nothing is written between an inum and
the name that follows, and the extraction of the first inum takes the digit with which the
second name begins. -/
theorem round_trip_fails_on_digit_name :
    (∀ e ∈ [dirent.mk [97] 1, dirent.mk [50, 98] 3], 0 ∉ e.name) ∧
    encode [dirent.mk [97] 1, dirent.mk [50, 98] 3] = [97, 0, 49, 50, 98, 0, 51] ∧
    decode (encode [dirent.mk [97] 1, dirent.mk [50, 98] 3]) 0 =
      [dirent.mk [97] 12, dirent.mk [98] 3] ∧
    decode (encode [dirent.mk [97] 1, dirent.mk [50, 98] 3]) 0 ≠
      [dirent.mk [97] 1, dirent.mk [50, 98] 3] := by
  decide

end yfs_client
/-! ## C16: writing at an offset -/

namespace yfs_client

/-- C16: for a file with content `c` (the call of `get` succeeds and yields `c`), an offset
`off` below 2^32 and `size` bytes of data, `write(ino, size, off, data)` hands to `put` the
content `c'` of the spec: `c`, zero bytes up to `off` and the data when `off >= |c|`, and
otherwise the bytes of `c` before `off`, the data and the bytes of `c` from
`min(off + size, |c|)` on; it returns `OK` exactly when that `put` succeeds.  The length of
`c'` is `max(|c|, off + size)`, its bytes from `off` on are the data, and the bytes of `c`
outside the range written are kept. -/
theorem write_stores {σ : Type} (ec : extent_client σ) (w : world σ) (ino size off : Nat)
    (data old : List Nat) (s1 : σ) (hino : 0 < ino) (hoff : off < 4294967296)
    (hd : data.length = size)
    (hget : ec.get ino w.ext = (extent_protocol.status.OK, old, s1)) :
    write ec ino size (off : Int) data w =
      (some (if (ec.put ino (write_spec old off data) s1).1 = extent_protocol.status.OK
          then xxstatus.OK else xxstatus.IOERR),
        ⟨(ec.put ino (write_spec old off data) s1).2,
          w.trace ++ [event.acquire ino, event.get ino,
            event.put ino (write_spec old off data), event.release ino]⟩) ∧
    (write_spec old off data).length = max old.length (off + size) ∧
    (∀ k, k < size → (write_spec old off data)[off + k]? = data[k]?) ∧
    (∀ k, k < old.length → (k < off ∨ off + size ≤ k) →
      (write_spec old off data)[k]? = old[k]?) := by
  refine ⟨?_, by rw [write_spec_length, hd], fun k hk => write_spec_data old off data k (by omega),
    fun k hk hout => write_spec_keeps old off data k hk (by rw [hd]; exact hout)⟩
  have h0 : ¬ ino ≤ 0 := by omega
  have h1 : ¬ ((off : Int) < 0) := by omega
  have hg : (_acquire ino w).get ec ino =
      (extent_protocol.status.OK, old, ⟨s1, w.trace ++ [event.acquire ino, event.get ino]⟩) := by
    unfold world.get _acquire
    simp [hget]
  have hw : _write ec ino size (off : Int) data (_acquire ino w) =
      (some (if (ec.put ino (write_spec old off data) s1).1 = extent_protocol.status.OK
          then xxstatus.OK else xxstatus.IOERR),
        ⟨(ec.put ino (write_spec old off data) s1).2,
          w.trace ++ [event.acquire ino, event.get ino,
            event.put ino (write_spec old off data)]⟩) := by
    unfold _write
    simp only [h0, h1, if_false, hg, write_content_spec old size off data hoff hd]
    unfold world.put
    by_cases hp : (ec.put ino (write_spec old off data) s1).1 = extent_protocol.status.OK
    · simp [hp]
    · simp [hp]
  unfold write
  simp only [hw]
  unfold _release
  simp

/-- The theorem `write_stores` at the write of the three bytes of `end` at offset 5 of the
file 2 of the example service, whose content is the two bytes of `hi`. -/
theorem write_stores_witness :
    (0 : Nat) < 2 ∧ (5 : Nat) < 4294967296 ∧ ([101, 110, 100] : List Nat).length = 3 ∧
    mem_extent.client.get 2 [(T_DIR, []), (T_FILE, [104, 105])] =
      (extent_protocol.status.OK, [104, 105], [(T_DIR, []), (T_FILE, [104, 105])]) ∧
    write_spec [104, 105] 5 [101, 110, 100] = [104, 105, 0, 0, 0, 101, 110, 100] ∧
    (write mem_extent.client 2 3 5 [101, 110, 100]
      ⟨[(T_DIR, []), (T_FILE, [104, 105])], []⟩).1 = some xxstatus.OK :=
  ⟨by decide, by decide, rfl, rfl, by decide,
    (congrArg Prod.fst (write_stores mem_extent.client ⟨[(T_DIR, []), (T_FILE, [104, 105])], []⟩
      2 3 5 [101, 110, 100] [104, 105] [(T_DIR, []), (T_FILE, [104, 105])]
      (by decide) (by decide) rfl rfl).1).trans (by decide)⟩

end yfs_client
/-! ## C17: reading at an offset -/

namespace yfs_client

/-- C17: for an inode (inum above 0) whose attributes `getattr` yields with the size `s`,
`read(ino, size, off)` returns `IOERR` and leaves the output `data` as it is when
`off >= s`, in particular on every read of an empty file, without a call of `get`.  When
`off < s` and `get` yields the content `c`, of which `off` is a position (as it is when `s`
is the length of `c`), it returns `OK` with the bytes of `c` from `off` to
`min(off + size, |c|)`. -/
theorem read_contract {σ : Type} (ec : extent_client σ) (w : world σ) (ino size off : Nat)
    (data : List Nat) (a : extent_protocol.attr) (s1 : σ) (hino : 0 < ino)
    (hattr : ec.getattr ino w.ext = (extent_protocol.status.OK, a, s1)) :
    (a.size ≤ off →
      read ec ino size (off : Int) data w =
        (some (xxstatus.IOERR, data),
          ⟨s1, w.trace ++ [event.acquire ino, event.getattr ino, event.release ino]⟩)) ∧
    (a.size = 0 → (read ec ino size (off : Int) data w).1 = some (xxstatus.IOERR, data)) ∧
    (∀ (content : List Nat) (s2 : σ), off < a.size →
      ec.get ino s1 = (extent_protocol.status.OK, content, s2) → off ≤ content.length →
      read ec ino size (off : Int) data w =
        (some (xxstatus.OK, (content.take (min (off + size) content.length)).drop off),
          ⟨s2, w.trace ++ [event.acquire ino, event.getattr ino, event.get ino,
            event.release ino]⟩)) := by
  have h0 : ¬ ino ≤ 0 := by omega
  have h1 : ¬ ((off : Int) < 0) := by omega
  have hg : (_acquire ino w).getattr ec ino =
      (extent_protocol.status.OK, a,
        ⟨s1, w.trace ++ [event.acquire ino, event.getattr ino]⟩) := by
    unfold world.getattr _acquire
    simp [hattr]
  have hfail : a.size ≤ off →
      read ec ino size (off : Int) data w =
        (some (xxstatus.IOERR, data),
          ⟨s1, w.trace ++ [event.acquire ino, event.getattr ino, event.release ino]⟩) := by
    intro h
    have h2 : (off : Int) ≥ (a.size : Int) := by omega
    have hr : _read ec ino size (off : Int) data (_acquire ino w) =
        (some (xxstatus.IOERR, data),
          ⟨s1, w.trace ++ [event.acquire ino, event.getattr ino]⟩) := by
      unfold _read
      simp only [h0, h1, if_false, hg, h2, if_true]
      simp
    unfold read
    simp only [hr]
    unfold _release
    simp
  refine ⟨hfail, fun h => by rw [hfail (by omega)], fun content s2 hlt hget hle => ?_⟩
  have h2 : ¬ ((off : Int) ≥ (a.size : Int)) := by omega
  have hg2 : (⟨s1, w.trace ++ [event.acquire ino, event.getattr ino]⟩ : world σ).get ec ino =
      (extent_protocol.status.OK, content,
        ⟨s2, w.trace ++ [event.acquire ino, event.getattr ino, event.get ino]⟩) := by
    unfold world.get
    simp [hget]
  have hsub : string_substr content off size =
      some ((content.take (min (off + size) content.length)).drop off) := by
    unfold string_substr
    rw [if_neg (by omega)]
    congr 1
    rw [List.drop_take]
    have e : min (off + size) content.length - off = min size (content.length - off) := by omega
    rw [e, List.take_eq_take, List.length_drop]
    omega
  have hr : _read ec ino size (off : Int) data (_acquire ino w) =
      (some (xxstatus.OK, (content.take (min (off + size) content.length)).drop off),
        ⟨s2, w.trace ++ [event.acquire ino, event.getattr ino, event.get ino]⟩) := by
    unfold _read
    simp only [h0, h1, if_false, hg, h2, hg2, Int.toNat_ofNat, hsub]
    simp
  unfold read
  simp only [hr]
  unfold _release
  simp

/-- The theorem `read_contract` at the file 2 of the example service, whose content is the
five bytes of `hello`: the read of 3 bytes at offset 2 yields `llo`, and the read at
offset 5 returns `IOERR`. -/
theorem read_contract_witness :
    (0 : Nat) < 2 ∧
    mem_extent.client.getattr 2 [(T_DIR, []), (T_FILE, [104, 101, 108, 108, 111])] =
      (extent_protocol.status.OK, ⟨T_FILE, 0, 0, 0, 5⟩,
        [(T_DIR, []), (T_FILE, [104, 101, 108, 108, 111])]) ∧
    (read mem_extent.client 2 3 2 [7]
      ⟨[(T_DIR, []), (T_FILE, [104, 101, 108, 108, 111])], []⟩).1 =
        some (xxstatus.OK, [108, 108, 111]) ∧
    (read mem_extent.client 2 1 5 [7]
      ⟨[(T_DIR, []), (T_FILE, [104, 101, 108, 108, 111])], []⟩).1 =
        some (xxstatus.IOERR, [7]) :=
  ⟨by decide, rfl,
    (congrArg Prod.fst ((read_contract mem_extent.client
      ⟨[(T_DIR, []), (T_FILE, [104, 101, 108, 108, 111])], []⟩ 2 3 2 [7] ⟨T_FILE, 0, 0, 0, 5⟩
      [(T_DIR, []), (T_FILE, [104, 101, 108, 108, 111])] (by decide) rfl).2.2
      [104, 101, 108, 108, 111] [(T_DIR, []), (T_FILE, [104, 101, 108, 108, 111])]
      (by decide) rfl (by decide))).trans (by decide),
    congrArg Prod.fst ((read_contract mem_extent.client
      ⟨[(T_DIR, []), (T_FILE, [104, 101, 108, 108, 111])], []⟩ 2 1 5 [7] ⟨T_FILE, 0, 0, 0, 5⟩
      [(T_DIR, []), (T_FILE, [104, 101, 108, 108, 111])] (by decide) rfl).1 (by decide))⟩

end yfs_client
/-! ## C18: removing a directory that is not empty -/

namespace yfs_client

variable {σ : Type}

/-- The method `_rmdir` on a name whose first entry in the directory is an inode whose
content holds entries: it returns `IOERR` after calls of `get` and `getattr` only. -/
theorem _rmdir_refuses (ec : extent_client σ) (holds : σ → Nat → List Nat)
    (kind : σ → Nat → Nat) (hl : ec.stores holds kind) (w : world σ) (parent : Nat)
    (name : List Nat) (junk : Nat) (it : dirent)
    (hfind : find_entry name (decode (holds w.ext parent) junk) = some it)
    (hne : decode (holds w.ext it.inum) junk ≠ []) :
    (_rmdir ec parent name junk w).1 = xxstatus.IOERR ∧
    (∃ evs, (_rmdir ec parent name junk w).2.trace = w.trace ++ evs ∧
      ∀ e ∈ evs, e.writes = false) ∧
    (∀ j, holds (_rmdir ec parent name junk w).2.ext j = holds w.ext j) ∧
    (∀ j, kind (_rmdir ec parent name junk w).2.ext j = kind w.ext j) := by
  unfold _rmdir
  by_cases hp : parent ≤ 0
  · rw [if_pos hp]
    exact ⟨rfl, ⟨[], by simp, by simp⟩, fun _ => rfl, fun _ => rfl⟩
  rw [if_neg hp]
  simp only
  obtain ⟨a1, a2, a3, a4, a5, -⟩ := _readdir_stores ec holds kind hl parent [] junk w
  generalize _readdir ec parent [] junk w = R1 at a1 a2 a3 a4 a5
  by_cases h1 : R1.1 = xxstatus.OK
  swap
  · rw [if_pos h1]
    exact ⟨rfl, ⟨[event.get parent], a1, by simp [event.writes]⟩, a2, a3⟩
  rw [if_neg (not_not.2 h1), a5 h1, hfind]
  simp only
  obtain ⟨b1, b2, b3⟩ := _isdir_stores ec holds kind hl it.inum R1.2.2
  generalize _isdir ec it.inum R1.2.2 = R2 at b1 b2 b3
  by_cases h2 : R2.1 = false
  · rw [if_pos h2]
    refine ⟨rfl, ⟨[event.get parent, event.getattr it.inum], ?_, by simp [event.writes]⟩,
      fun j => by rw [b2, a2], fun j => by rw [b3, a3]⟩
    rw [b1, a1]
    simp
  rw [if_neg h2]
  obtain ⟨c1, c2, c3, c4, c5, -⟩ := _readdir_stores ec holds kind hl it.inum [] junk R2.2
  generalize _readdir ec it.inum [] junk R2.2 = R3 at c1 c2 c3 c4 c5
  have htr : R3.2.2.trace =
      w.trace ++ [event.get parent, event.getattr it.inum, event.get it.inum] := by
    rw [c1, b1, a1]
    simp
  by_cases h3 : R3.1 = xxstatus.OK
  swap
  · rw [if_pos h3]
    exact ⟨rfl, ⟨_, htr, by simp [event.writes]⟩, fun j => by rw [c2, b2, a2],
      fun j => by rw [c3, b3, a3]⟩
  rw [if_neg (not_not.2 h3)]
  have hlen : R3.2.1.length ≠ 0 := by
    rw [c5 h3, b2, a2]
    intro e
    exact hne (List.length_eq_zero.1 e)
  rw [if_pos hlen]
  exact ⟨rfl, ⟨_, htr, by simp [event.writes]⟩, fun j => by rw [c2, b2, a2],
    fun j => by rw [c3, b3, a3]⟩

/-- C18: on an extent service that keeps what is put into it, for every directory
`parent` and every name whose entry in it (the first with the name, the one that `_rmdir`
locates) is an inode whose content holds entries, `rmdir(parent, name)` returns `IOERR`;
the calls it makes on the extent service are calls of `get` and `getattr`, none of `put`,
`remove` or `create`, and the type and the content of every inode are as before. -/
theorem rmdir_not_empty (ec : extent_client σ) (holds : σ → Nat → List Nat)
    (kind : σ → Nat → Nat) (hl : ec.stores holds kind) (w : world σ) (parent : Nat)
    (name : List Nat) (junk : Nat) (it : dirent)
    (hfind : find_entry name (decode (holds w.ext parent) junk) = some it)
    (hne : decode (holds w.ext it.inum) junk ≠ []) :
    (rmdir ec parent name junk w).1 = xxstatus.IOERR ∧
    (∃ evs, (rmdir ec parent name junk w).2.trace = w.trace ++ evs ∧
      ∀ e ∈ evs, e.writes = false) ∧
    (∀ j, holds (rmdir ec parent name junk w).2.ext j = holds w.ext j) ∧
    (∀ j, kind (rmdir ec parent name junk w).2.ext j = kind w.ext j) := by
  unfold rmdir
  simp only
  obtain ⟨a1, a2, a3, a4, -⟩ := _lookup_stores ec holds kind hl parent name false junk junk
    (_acquire parent w)
  have e0 : (_acquire parent w).ext = w.ext := rfl
  have t0 : (_acquire parent w).trace = w.trace ++ [event.acquire parent] := rfl
  rw [e0] at a2 a3 a4
  rw [t0] at a1
  generalize _lookup ec parent name false junk junk (_acquire parent w) = R at a1 a2 a3 a4
  by_cases h1 : R.1 = xxstatus.OK
  swap
  · rw [if_pos h1]
    refine ⟨rfl, ⟨[event.acquire parent, event.get parent, event.release parent], ?_,
      by simp [event.writes]⟩, a2, a3⟩
    show R.2.2.2.trace ++ [event.release parent] = _
    rw [a1]
    simp
  rw [if_neg (not_not.2 h1)]
  have hfound : R.2.1 = true := by
    rw [(a4 h1).1, lookup_loop_found]
    exact ⟨it, (find_entry_some _ _ _ hfind).1, (find_entry_some _ _ _ hfind).2⟩
  rw [if_neg (by rw [hfound]; simp)]
  have hh : ∀ j, holds (_acquire R.2.2.1 R.2.2.2).ext j = holds w.ext j := a2
  have hk : ∀ j, kind (_acquire R.2.2.1 R.2.2.2).ext j = kind w.ext j := a3
  obtain ⟨b1, ⟨evs, b2, b3⟩, b4, b5⟩ := _rmdir_refuses ec holds kind hl
    (_acquire R.2.2.1 R.2.2.2) parent name junk it (by rw [hh]; exact hfind)
    (by rw [hh]; exact hne)
  generalize _rmdir ec parent name junk (_acquire R.2.2.1 R.2.2.2) = R1 at b1 b2 b4 b5
  refine ⟨b1, ⟨[event.acquire parent, event.get parent, event.acquire R.2.2.1] ++ evs ++
    [event.release R.2.2.1, event.release parent], ?_, ?_⟩,
    fun j => by
      show holds R1.2.ext j = _
      rw [b4, hh], fun j => by
      show kind R1.2.ext j = _
      rw [b5, hk]⟩
  · show (R1.2.trace ++ [event.release R.2.2.1]) ++ [event.release parent] = _
    rw [b2]
    show ((R.2.2.2.trace ++ [event.acquire R.2.2.1]) ++ evs ++ [event.release R.2.2.1]) ++
      [event.release parent] = _
    rw [a1]
    simp
  · intro e he
    simp only [List.mem_append, List.mem_cons, List.mem_singleton, List.not_mem_nil,
      or_false] at he
    rcases he with ((h | h | h) | h) | (h | h)
    · rw [h]; rfl
    · rw [h]; rfl
    · rw [h]; rfl
    · exact b3 e h
    · rw [h]; rfl
    · rw [h]; rfl

/-- The theorem `rmdir_not_empty` on the example service: the root directory 1 holds the
entry `d` for the directory 2, which holds the entry `f` for the file 3. -/
theorem rmdir_not_empty_witness :
    find_entry [100] (decode (mem_extent.holds
      [(T_DIR, [100, 0, 50]), (T_DIR, [102, 0, 51]), (T_FILE, [])] 1) 0) = some ⟨[100], 2⟩ ∧
    decode (mem_extent.holds
      [(T_DIR, [100, 0, 50]), (T_DIR, [102, 0, 51]), (T_FILE, [])] 2) 0 ≠ [] ∧
    (rmdir mem_extent.client 1 [100] 0
      ⟨[(T_DIR, [100, 0, 50]), (T_DIR, [102, 0, 51]), (T_FILE, [])], []⟩).1 = xxstatus.IOERR :=
  ⟨by decide, by decide,
    (rmdir_not_empty mem_extent.client mem_extent.holds mem_extent.kind mem_extent.client_stores
      ⟨[(T_DIR, [100, 0, 50]), (T_DIR, [102, 0, 51]), (T_FILE, [])], []⟩ 1 [100] 0 ⟨[100], 2⟩
      (by decide) (by decide)).1⟩

end yfs_client
/-! ## C15: an entry made and looked up -/

namespace yfs_client

/-- C15 (defect of the code): a name that begins with a digit, on the example service, all
of whose calls succeed here.  The directory 1 holds the entry ("a", 2) and "2b" is not in
it.  `mkdir(1, "2b")` returns OK with the new
inum 3 and writes "a", 0, "2", "2b", 0, "3"; the directory then reads as ("a", 22), ("b", 3),
so the following `lookup(1, "2b")` returns OK with found = false, and the second
`mkdir(1, "2b")` returns OK with another new inum, 4, not EXIST. -/
theorem mkdir_digit_name_not_found :
    decode (mem_extent.holds [(T_DIR, [97, 0, 50]), (T_FILE, [])] 1) 0 = [⟨[97], 2⟩] ∧
    (mkdir mem_extent.client 1 [50, 98] 0 0 ⟨[(T_DIR, [97, 0, 50]), (T_FILE, [])], []⟩).1
      = xxstatus.OK ∧
    (mkdir mem_extent.client 1 [50, 98] 0 0 ⟨[(T_DIR, [97, 0, 50]), (T_FILE, [])], []⟩).2.1
      = 3 ∧
    (mkdir mem_extent.client 1 [50, 98] 0 0 ⟨[(T_DIR, [97, 0, 50]), (T_FILE, [])], []⟩).2.2.ext
      = [(T_DIR, [97, 0, 50, 50, 98, 0, 51]), (T_FILE, []), (T_DIR, [])] ∧
    decode [97, 0, 50, 50, 98, 0, 51] 0 = [⟨[97], 22⟩, ⟨[98], 3⟩] ∧
    (lookup mem_extent.client 1 [50, 98] false 0 0
      ⟨[(T_DIR, [97, 0, 50, 50, 98, 0, 51]), (T_FILE, []), (T_DIR, [])], []⟩).1 = xxstatus.OK ∧
    (lookup mem_extent.client 1 [50, 98] false 0 0
      ⟨[(T_DIR, [97, 0, 50, 50, 98, 0, 51]), (T_FILE, []), (T_DIR, [])], []⟩).2.1 = false ∧
    (mkdir mem_extent.client 1 [50, 98] 0 0
      ⟨[(T_DIR, [97, 0, 50, 50, 98, 0, 51]), (T_FILE, []), (T_DIR, [])], []⟩).1 = xxstatus.OK ∧
    (mkdir mem_extent.client 1 [50, 98] 0 0
      ⟨[(T_DIR, [97, 0, 50, 50, 98, 0, 51]), (T_FILE, []), (T_DIR, [])], []⟩).2.1 = 4 := by
  decide

end yfs_client
/-! ## C19: the locks around the extent calls -/

namespace yfs_client

/-- C19 (as amended): for every public operation `o`, every extent service `ec` (so every
outcome of the calls), every state `s` of it and every value `junk` of the variables that are
not initialised, the events of the run from the empty trace are such that
(a) every call of `get`, `getattr`, `put` and `remove` is on an inode whose lock the
operation holds then, or on the inode that a call of `create` of the operation has yielded
with status OK, for `unlink` and `rmdir` when the first entry with the name in the second
reading of the directory is the inode that `_lookup` gave (`same_child`);
(b) when the operation returns, every release was of a lock that was held and no lock is
held at the end;
(c) `unlink` and `rmdir` acquire the lock of the parent alone, or the lock of the parent and
then the lock of the inode that `_lookup` gave. -/
theorem lock_discipline {σ : Type} (ec : extent_client σ) (junk : Nat) (s : σ) (o : op) :
    (same_child ec junk s o →
      calls_locked_or_own [] [] (run ec junk o ⟨s, []⟩).2.trace = true) ∧
    ((run ec junk o ⟨s, []⟩).1 = true →
      released_once [] (run ec junk o ⟨s, []⟩).2.trace = true) ∧
    (∀ p n, o = op.unlink p n ∨ o = op.rmdir p n →
      acquired (run ec junk o ⟨s, []⟩).2.trace = [p] ∨
      acquired (run ec junk o ⟨s, []⟩).2.trace =
        [p, (lookup_loop n (decode (ec.get p s).2.1 junk) junk).2]) := by
  cases o with
  | isfile inum =>
    have h := single_lock inum _
      (_isfile_calls ec inum (_acquire inum ⟨s, []⟩) [inum] (List.mem_singleton_self _))
    exact ⟨fun _ => h.2.1, fun _ => h.2.2.1, fun p n e => by rcases e with e | e <;> cases e⟩
  | isdir inum =>
    have h := single_lock inum _
      (_isdir_calls ec inum (_acquire inum ⟨s, []⟩) [inum] (List.mem_singleton_self _))
    exact ⟨fun _ => h.2.1, fun _ => h.2.2.1, fun p n e => by rcases e with e | e <;> cases e⟩
  | getfile inum =>
    have h := single_lock inum _
      (_getfile_calls ec inum ⟨0, 0, 0, 0⟩ (_acquire inum ⟨s, []⟩) [inum]
        (List.mem_singleton_self _))
    exact ⟨fun _ => h.2.1, fun _ => h.2.2.1, fun p n e => by rcases e with e | e <;> cases e⟩
  | getdir inum =>
    have h := single_lock inum _
      (_getdir_calls ec inum ⟨0, 0, 0⟩ (_acquire inum ⟨s, []⟩) [inum]
        (List.mem_singleton_self _))
    exact ⟨fun _ => h.2.1, fun _ => h.2.2.1, fun p n e => by rcases e with e | e <;> cases e⟩
  | getslink inum =>
    have h := single_lock inum _
      (_getslink_calls ec inum ⟨0, 0, 0, 0⟩ (_acquire inum ⟨s, []⟩) [inum]
        (List.mem_singleton_self _))
    exact ⟨fun _ => h.2.1, fun _ => h.2.2.1, fun p n e => by rcases e with e | e <;> cases e⟩
  | mkdir parent name =>
    have h := single_lock_makes parent _
      (_mkdir_events ec parent name junk junk (_acquire parent ⟨s, []⟩))
    exact ⟨fun _ => h.1, fun _ => h.2, fun p n e => by rcases e with e | e <;> cases e⟩
  | lookup parent name =>
    have h := single_lock parent _
      (_lookup_calls ec parent name false junk junk (_acquire parent ⟨s, []⟩) [parent]
        (List.mem_singleton_self _))
    exact ⟨fun _ => h.2.1, fun _ => h.2.2.1, fun p n e => by rcases e with e | e <;> cases e⟩
  | readdir dir =>
    have h := single_lock dir _
      (_readdir_calls ec dir [] junk (_acquire dir ⟨s, []⟩) [dir] (List.mem_singleton_self _))
    exact ⟨fun _ => h.2.1, fun _ => h.2.2.1, fun p n e => by rcases e with e | e <;> cases e⟩
  | setattr ino size =>
    have h := single_lock ino _
      (_setattr_calls ec ino size (_acquire ino ⟨s, []⟩) [ino] (List.mem_singleton_self _))
    exact ⟨fun _ => h.2.1, fun _ => h.2.2.1, fun p n e => by rcases e with e | e <;> cases e⟩
  | create parent name =>
    have h := single_lock_makes parent _
      (_create_events ec parent name junk junk (_acquire parent ⟨s, []⟩))
    exact ⟨fun _ => h.1, fun _ => h.2, fun p n e => by rcases e with e | e <;> cases e⟩
  | read ino size off =>
    have h := single_lock ino _
      (_read_calls ec ino size off [] (_acquire ino ⟨s, []⟩) [ino] (List.mem_singleton_self _))
    refine ⟨fun _ => ?_, fun hr => ?_, fun p n e => by rcases e with e | e <;> cases e⟩
    · show calls_locked_or_own [] [] (read ec ino size off [] ⟨s, []⟩).2.trace = true
      unfold read
      simp only
      cases (_read ec ino size off [] (_acquire ino ⟨s, []⟩)).1 with
      | none => exact h.1
      | some x => exact h.2.1
    · revert hr
      show (read ec ino size off [] ⟨s, []⟩).1.isSome = true →
        released_once [] (read ec ino size off [] ⟨s, []⟩).2.trace = true
      unfold read
      simp only
      cases (_read ec ino size off [] (_acquire ino ⟨s, []⟩)).1 with
      | none => exact fun e => absurd e (by simp)
      | some x => exact fun _ => h.2.2.1
  | write ino size off data =>
    have h := single_lock ino _
      (_write_calls ec ino size off data (_acquire ino ⟨s, []⟩) [ino]
        (List.mem_singleton_self _))
    refine ⟨fun _ => ?_, fun hr => ?_, fun p n e => by rcases e with e | e <;> cases e⟩
    · show calls_locked_or_own [] [] (write ec ino size off data ⟨s, []⟩).2.trace = true
      unfold write
      simp only
      cases (_write ec ino size off data (_acquire ino ⟨s, []⟩)).1 with
      | none => exact h.1
      | some x => exact h.2.1
    · revert hr
      show (write ec ino size off data ⟨s, []⟩).1.isSome = true →
        released_once [] (write ec ino size off data ⟨s, []⟩).2.trace = true
      unfold write
      simp only
      cases (_write ec ino size off data (_acquire ino ⟨s, []⟩)).1 with
      | none => exact fun e => absurd e (by simp)
      | some x => exact fun _ => h.2.2.1
  | unlink parent name =>
    have h := parent_then_child ec parent name junk s (_unlink ec parent name junk)
      (fun w S hp hS => _unlink_calls ec parent name junk w S hp hS)
      (unlink ec parent name junk ⟨s, []⟩).2.trace rfl
    refine ⟨h.1, fun _ => h.2.1, fun p n e => ?_⟩
    rcases e with e | e
    · cases e
      exact h.2.2
    · cases e
  | symlink parent link name =>
    have h := single_lock_makes parent _
      (_symlink_events ec parent link name junk junk (_acquire parent ⟨s, []⟩))
    exact ⟨fun _ => h.1, fun _ => h.2, fun p n e => by rcases e with e | e <;> cases e⟩
  | readslink ino =>
    have h := single_lock ino _
      (_readslink_calls ec ino [] (_acquire ino ⟨s, []⟩) [ino] (List.mem_singleton_self _))
    exact ⟨fun _ => h.2.1, fun _ => h.2.2.1, fun p n e => by rcases e with e | e <;> cases e⟩
  | rmdir parent name =>
    have h := parent_then_child ec parent name junk s (_rmdir ec parent name junk)
      (fun w S hp hS => _rmdir_calls ec parent name junk w S hp hS)
      (rmdir ec parent name junk ⟨s, []⟩).2.trace rfl
    refine ⟨h.1, fun _ => h.2.1, fun p n e => ?_⟩
    rcases e with e | e
    · cases e
    · cases e
      exact h.2.2

/-- The theorem `lock_discipline` at `unlink(1, "a")` on the example service, where the
directory 1 holds the entry ("a", 2) and the inode 2 is a file. -/
theorem lock_discipline_witness :
    same_child mem_extent.client 0 [(T_DIR, [97, 0, 50]), (T_FILE, [])] (op.unlink 1 [97]) ∧
    (run mem_extent.client 0 (op.unlink 1 [97])
      ⟨[(T_DIR, [97, 0, 50]), (T_FILE, [])], []⟩).1 = true ∧
    calls_locked_or_own [] [] (run mem_extent.client 0 (op.unlink 1 [97])
      ⟨[(T_DIR, [97, 0, 50]), (T_FILE, [])], []⟩).2.trace = true ∧
    released_once [] (run mem_extent.client 0 (op.unlink 1 [97])
      ⟨[(T_DIR, [97, 0, 50]), (T_FILE, [])], []⟩).2.trace = true ∧
    (acquired (run mem_extent.client 0 (op.unlink 1 [97])
        ⟨[(T_DIR, [97, 0, 50]), (T_FILE, [])], []⟩).2.trace = [1] ∨
      acquired (run mem_extent.client 0 (op.unlink 1 [97])
        ⟨[(T_DIR, [97, 0, 50]), (T_FILE, [])], []⟩).2.trace =
        [1, (lookup_loop [97] (decode (mem_extent.client.get 1
          [(T_DIR, [97, 0, 50]), (T_FILE, [])]).2.1 0) 0).2]) :=
  have hsame : same_child mem_extent.client 0 [(T_DIR, [97, 0, 50]), (T_FILE, [])]
      (op.unlink 1 [97]) := fun it hit => by
    have e : find_entry [97] (decode (mem_extent.client.get 1 (mem_extent.client.get 1
        [(T_DIR, [97, 0, 50]), (T_FILE, [])]).2.2).2.1 0) = some ⟨[97], 2⟩ := by decide
    rw [e] at hit
    cases hit
    decide
  ⟨hsame, rfl,
    (lock_discipline mem_extent.client 0 [(T_DIR, [97, 0, 50]), (T_FILE, [])]
      (op.unlink 1 [97])).1 hsame,
    (lock_discipline mem_extent.client 0 [(T_DIR, [97, 0, 50]), (T_FILE, [])]
      (op.unlink 1 [97])).2.1 rfl,
    (lock_discipline mem_extent.client 0 [(T_DIR, [97, 0, 50]), (T_FILE, [])]
      (op.unlink 1 [97])).2.2 1 [97] (Or.inl rfl)⟩

/-- C19 (counterexample): `symlink(1, "x", "l")` on the example service with the empty
directory 1.  The operation acquires the lock of inode 1 only; after `create` has yielded
the inode 2 it calls `put` on inode 2, whose lock it does not hold. -/
theorem symlink_put_without_lock :
    (run mem_extent.client 0 (op.symlink 1 [120] [108]) ⟨[(T_DIR, [])], []⟩).2.trace =
      [event.acquire 1, event.create T_SLINK extent_protocol.status.OK 2, event.put 2 [120],
        event.get 1, event.put 1 [108, 0, 50], event.release 1] ∧
    calls_locked []
      (run mem_extent.client 0 (op.symlink 1 [120] [108]) ⟨[(T_DIR, [])], []⟩).2.trace =
      false := by
  decide

/-- A `write` at an offset of 2^32 + 1 on a file of five bytes: the test of the offset is
made on `(unsigned)off` = 1, `replace` is called with the position 2^32 + 1 beyond the end
of the string and throws; the operation does not return, and the lock of the inode, which
it has acquired, is not released. -/
theorem write_far_offset_keeps_lock :
    (run mem_extent.client 0 (op.write 2 1 4294967297 [7])
      ⟨[(T_DIR, []), (T_FILE, [1, 2, 3, 4, 5])], []⟩).1 = false ∧
    (run mem_extent.client 0 (op.write 2 1 4294967297 [7])
      ⟨[(T_DIR, []), (T_FILE, [1, 2, 3, 4, 5])], []⟩).2.trace =
      [event.acquire 2, event.get 2] ∧
    released_once [] (run mem_extent.client 0 (op.write 2 1 4294967297 [7])
      ⟨[(T_DIR, []), (T_FILE, [1, 2, 3, 4, 5])], []⟩).2.trace = false := by
  decide

/-- An `unlink` of a name that two entries of the directory have: `_lookup` gives the inode
of the last entry, 3, whose lock is acquired, and `_unlink` works on the first entry: the
calls `getattr` and `remove` are made on the inode 2, whose lock is not held. -/
theorem unlink_duplicate_name_unlocked :
    (run mem_extent.client 0 (op.unlink 1 [97])
      ⟨[(T_DIR, [97, 0, 50, 97, 0, 51]), (T_FILE, []), (T_SLINK, [120])], []⟩).2.trace =
      [event.acquire 1, event.get 1, event.acquire 3, event.get 1, event.getattr 2,
        event.remove 2, event.put 1 [97, 0, 51], event.release 3, event.release 1] ∧
    calls_locked_or_own [] [] (run mem_extent.client 0 (op.unlink 1 [97])
      ⟨[(T_DIR, [97, 0, 50, 97, 0, 51]), (T_FILE, []), (T_SLINK, [120])], []⟩).2.trace =
      false := by
  decide

end yfs_client
/-! ## C20: the lock server -/

namespace lock_server

/-- Removing a grant removes its lock id from the lock ids granted, when no lock id is
granted twice. -/
theorem granted_erase (g : List (Int × Nat)) (clt : Int) (lid : Nat)
    (hn : (g.map Prod.snd).Nodup) (hm : (clt, lid) ∈ g) :
    (g.erase (clt, lid)).map Prod.snd = (g.map Prod.snd).erase lid := by
  induction g with
  | nil => cases hm
  | cons a t ih =>
    rw [List.map_cons, List.nodup_cons] at hn
    by_cases ha : a = (clt, lid)
    · subst ha
      simp
    · have hmt : (clt, lid) ∈ t := by
        rcases List.mem_cons.1 hm with h | h
        · exact absurd h.symm ha
        · exact h
      have hl : a.2 ≠ lid := fun e =>
        hn.1 (e ▸ List.mem_map_of_mem Prod.snd hmt)
      rw [List.erase_cons_tail (by simpa using ha), List.map_cons, List.map_cons,
        List.erase_cons_tail (by simpa using hl), ih hn.2 hmt]

/-- When no lock id is granted twice, at most one grant is of a given lock id. -/
theorem granted_filter (g : List (Int × Nat)) (lid : Nat) (hn : (g.map Prod.snd).Nodup) :
    (g.filter (fun x => x.2 = lid)).length ≤ 1 := by
  induction g with
  | nil => simp
  | cons a t ih =>
    rw [List.map_cons, List.nodup_cons] at hn
    by_cases ha : a.2 = lid
    · have : t.filter (fun x => x.2 = lid) = [] := by
        rw [List.filter_eq_nil_iff]
        intro x hx e
        have e2 : x.2 = lid := by simpa using e
        exact hn.1 (ha ▸ e2 ▸ List.mem_map_of_mem Prod.snd hx)
      rw [List.filter_cons_of_pos (by simpa using ha), this]
      simp
    · rw [List.filter_cons_of_neg (by simpa using ha)]
      exact ih hn.2

/-- The invariant of the steps: no lock id is granted twice, and the lock ids in `locks`
are the lock ids granted. -/
theorem step_invariant (s t : system) (ht : step s t)
    (hn : (s.granted.map Prod.snd).Nodup)
    (hl : ∀ l, l ∈ s.server.locks ↔ l ∈ s.granted.map Prod.snd) :
    (t.granted.map Prod.snd).Nodup ∧ ∀ l, l ∈ t.server.locks ↔ l ∈ t.granted.map Prod.snd := by
  cases ht with
  | acquire clt lid h =>
    unfold lock_server.acquire at h ⊢
    by_cases hm : lid ∈ s.server.locks
    · rw [if_pos hm] at h
      cases h
    · rw [if_neg hm]
      refine ⟨?_, fun l => ?_⟩
      · rw [List.map_cons, List.nodup_cons]
        exact ⟨fun e => hm ((hl lid).2 e), hn⟩
      · simp only [List.mem_insert_iff, List.map_cons, List.mem_cons, hl l]
  | wait clt lid h =>
    unfold lock_server.acquire at h ⊢
    by_cases hm : lid ∈ s.server.locks
    · rw [if_pos hm]
      exact ⟨hn, hl⟩
    · rw [if_neg hm] at h
      cases h
  | release clt lid h =>
    have hm : lid ∈ s.server.locks := (hl lid).2 (List.mem_map_of_mem Prod.snd h)
    unfold lock_server.release
    rw [if_neg (not_not.2 hm)]
    simp only
    rw [granted_erase s.granted clt lid hn h]
    refine ⟨hn.erase lid, fun l => ?_⟩
    rw [hn.mem_erase_iff, List.mem_filter, hl l]
    simp [and_comm]
  | stat clt lid => exact ⟨hn, hl⟩

/-- The invariant holds in every state that is reached. -/
theorem reachable_invariant (s : system) (h : reachable s) :
    (s.granted.map Prod.snd).Nodup ∧ ∀ l, l ∈ s.server.locks ↔ l ∈ s.granted.map Prod.snd := by
  induction h with
  | init => exact ⟨List.nodup_nil, fun l => by simp [init]⟩
  | step s t _ ht ih => exact step_invariant s t ht ih.1 ih.2

/-- C20: in every state that the lock server reaches by calls of `acquire` (which return only
when the lock id is not in `locks`, and insert it), of `stat`, and of `release` by a client
that has been granted the lock and has not released it, each lock id is held by at most
one client: two grants of a lock id are to the same client, at most one grant of it is
outstanding, and the lock ids in `locks` are those that are granted to a client. -/
theorem one_holder (s : system) (h : reachable s) :
    (∀ lid c1 c2, (c1, lid) ∈ s.granted → (c2, lid) ∈ s.granted → c1 = c2) ∧
    (∀ lid, (s.granted.filter (fun x => x.2 = lid)).length ≤ 1) ∧
    (∀ lid, lid ∈ s.server.locks ↔ ∃ c, (c, lid) ∈ s.granted) := by
  obtain ⟨hn, hl⟩ := reachable_invariant s h
  refine ⟨fun lid c1 c2 h1 h2 => ?_, fun lid => granted_filter s.granted lid hn, fun lid => ?_⟩
  · have := List.inj_on_of_nodup_map hn h1 h2 rfl
    exact congrArg Prod.fst this
  · rw [hl lid, List.mem_map]
    constructor
    · rintro ⟨⟨c, l⟩, hm, e⟩
      exact ⟨c, by cases e; exact hm⟩
    · rintro ⟨c, hm⟩
      exact ⟨(c, lid), hm, rfl⟩

/-- The theorem `one_holder` at the state after client 1 has acquired lock 5, client 2 has
acquired lock 6, client 2 has asked for lock 5 and waits, and client 1 has released
lock 5. -/
theorem one_holder_witness :
    reachable ⟨⟨0, [6], [6, 5]⟩, [(2, 6)]⟩ ∧
    (∀ lid c1 c2, (c1, lid) ∈ [((2 : Int), 6)] → (c2, lid) ∈ [((2 : Int), 6)] → c1 = c2) ∧
    (∀ lid, (([((2 : Int), 6)] : List (Int × Nat)).filter (fun x => x.2 = lid)).length ≤ 1) ∧
    (∀ lid, lid ∈ [6] ↔ ∃ c, (c, lid) ∈ [((2 : Int), 6)]) :=
  have hr : reachable ⟨⟨0, [6], [6, 5]⟩, [(2, 6)]⟩ :=
    reachable.step _ _
      (reachable.step _ _
        (reachable.step _ _
          (reachable.step _ _ reachable.init (step.acquire ⟨init, []⟩ 1 5 rfl))
          (step.acquire ⟨⟨0, [5], [5]⟩, [(1, 5)]⟩ 2 6 rfl))
        (step.wait ⟨⟨0, [6, 5], [6, 5]⟩, [(2, 6), (1, 5)]⟩ 2 5 rfl))
      (step.release ⟨⟨0, [6, 5], [6, 5]⟩, [(2, 6), (1, 5)]⟩ 1 5 (by decide))
  ⟨hr, one_holder ⟨⟨0, [6], [6, 5]⟩, [(2, 6)]⟩ hr⟩

end lock_server
/-! ## C21: releasing a lock -/

namespace lock_server

/-- C21: `release(clt, lid)` returns `NOENT` and leaves the server as it is when `lid` is not
in `locks`; when `lid` is in `locks` it returns `OK`, and afterwards `locks` holds exactly
the ids it held other than `lid` and the counter is as before.  The client id plays no
part: the outcome is the same for every client, whoever acquired the lock. -/
theorem release_contract (ls : lock_server) (clt : Int) (lid : Nat) :
    (lid ∉ ls.locks → ls.release clt lid = (lock_protocol.status.NOENT, ls)) ∧
    (lid ∈ ls.locks →
      (ls.release clt lid).1 = lock_protocol.status.OK ∧
      lid ∉ (ls.release clt lid).2.locks ∧
      (∀ l, l ≠ lid → (l ∈ (ls.release clt lid).2.locks ↔ l ∈ ls.locks)) ∧
      (∀ l, l ≠ lid → (ls.release clt lid).2.locks.count l = ls.locks.count l) ∧
      (ls.release clt lid).2.nacquire = ls.nacquire) ∧
    (∀ clt1, ls.release clt1 lid = ls.release clt lid) := by
  refine ⟨fun h => ?_, fun h => ?_, fun clt1 => rfl⟩
  · unfold release
    rw [if_pos h]
  · unfold release
    rw [if_neg (not_not.2 h)]
    refine ⟨rfl, ?_, fun l hl => ?_, fun l hl => ?_, rfl⟩
    · simp [List.mem_filter]
    · simp [List.mem_filter, hl]
    · show List.count l (ls.locks.filter (fun l => decide (l ≠ lid))) = _
      rw [List.count_filter]
      simpa using hl

/-- The theorem `release_contract` at the server where client 1 holds the locks 5 and 6:
client 2 releases lock 7, which is not held, and lock 5, which client 1 acquired. -/
theorem release_contract_witness :
    (7 ∉ (⟨0, [6, 5], [6, 5]⟩ : lock_server).locks) ∧
    (5 ∈ (⟨0, [6, 5], [6, 5]⟩ : lock_server).locks) ∧
    (⟨0, [6, 5], [6, 5]⟩ : lock_server).release 2 7 =
      (lock_protocol.status.NOENT, ⟨0, [6, 5], [6, 5]⟩) ∧
    ((⟨0, [6, 5], [6, 5]⟩ : lock_server).release 2 5).1 = lock_protocol.status.OK ∧
    5 ∉ ((⟨0, [6, 5], [6, 5]⟩ : lock_server).release 2 5).2.locks :=
  ⟨by decide, by decide,
    (release_contract ⟨0, [6, 5], [6, 5]⟩ 2 7).1 (by decide),
    ((release_contract ⟨0, [6, 5], [6, 5]⟩ 2 5).2.1 (by decide)).1,
    ((release_contract ⟨0, [6, 5], [6, 5]⟩ 2 5).2.1 (by decide)).2.1⟩

end lock_server
/-! ## C30: the order of proposal numbers -/

theorem string_compare_eq_iff (s t : List Nat) : string_compare s t = Ordering.eq ↔ s = t := by
  induction s generalizing t with
  | nil => cases t <;> simp [string_compare]
  | cons a s ih =>
    cases t with
    | nil => simp [string_compare]
    | cons b t =>
      unfold string_compare
      by_cases h1 : a < b
      · simp [h1]
        omega
      · by_cases h2 : b < a
        · simp [h1, h2]
          omega
        · have e : a = b := by omega
          simp [h1, e, ih]

theorem string_compare_swap (s t : List Nat) :
    string_compare s t = Ordering.gt ↔ string_compare t s = Ordering.lt := by
  induction s generalizing t with
  | nil => cases t <;> simp [string_compare]
  | cons a s ih =>
    cases t with
    | nil => simp [string_compare]
    | cons b t =>
      unfold string_compare
      by_cases h1 : a < b
      · have h2 : ¬ b < a := by omega
        simp [h1, h2]
      · by_cases h2 : b < a
        · simp [h1, h2]
        · simp [h1, h2, ih]

theorem string_compare_trans (s t u : List Nat) (h1 : string_compare s t = Ordering.gt)
    (h2 : string_compare t u = Ordering.gt) : string_compare s u = Ordering.gt := by
  induction s generalizing t u with
  | nil => cases t <;> simp [string_compare] at h1
  | cons a s ih =>
    cases t with
    | nil => cases u <;> simp [string_compare] at h2
    | cons b t =>
      cases u with
      | nil => simp [string_compare]
      | cons c u =>
        unfold string_compare at h1 h2 ⊢
        by_cases ab : a < b
        · simp [ab] at h1
        · by_cases bc : b < c
          · simp [bc] at h2
          · by_cases ba : b < a
            · have : ¬ a < c := by omega
              have : c < a := by omega
              simp [*]
            · have e : a = b := by omega
              subst e
              by_cases cb : c < a
              · simp [bc, cb]
              · simp only [ab, bc, ba, cb, if_false] at h1 h2 ⊢
                exact ih t u h1 h2

namespace prop_t

/-- C30: on proposal numbers `operator>` is the strict lexicographic order of the number and
the name (`a > b` exactly when `a.n > b.n`, or `a.n = b.n` and `a.m > b.m` as strings): no
proposal number is above itself, the relation is transitive, and of two different proposal
numbers one is above the other.  And `operator>=` is its reflexive closure: `a >= b`
exactly when `a > b` or `a = b`. -/
theorem gt_strict_order :
    (∀ a b : prop_t, gt a b = true ↔
      (a.n > b.n ∨ (a.n = b.n ∧ string_compare a.m b.m = Ordering.gt))) ∧
    (∀ a : prop_t, gt a a = false) ∧
    (∀ a b c : prop_t, gt a b = true → gt b c = true → gt a c = true) ∧
    (∀ a b : prop_t, a ≠ b → (gt a b = true ∨ gt b a = true)) ∧
    (∀ a b : prop_t, gt a b = true → gt b a = false) ∧
    (∀ a b : prop_t, ge a b = true ↔ (gt a b = true ∨ a = b)) := by
  have hdef : ∀ a b : prop_t, gt a b = true ↔
      (a.n > b.n ∨ (a.n = b.n ∧ string_compare a.m b.m = Ordering.gt)) := fun a b => by
    simp [gt]
  have hirr : ∀ s : List Nat, string_compare s s ≠ Ordering.gt := fun s h => by
    rw [(string_compare_eq_iff s s).2 rfl] at h
    cases h
  refine ⟨hdef, fun a => ?_, fun a b c h1 h2 => ?_, fun a b hne => ?_, fun a b h => ?_,
    fun a b => ?_⟩
  · cases hg : gt a a
    · rfl
    · rcases (hdef a a).1 hg with h | ⟨-, h⟩
      · omega
      · exact absurd h (hirr a.m)
  · rw [hdef] at h1 h2 ⊢
    rcases h1 with h1 | ⟨e1, h1⟩ <;> rcases h2 with h2 | ⟨e2, h2⟩
    · exact Or.inl (by omega)
    · exact Or.inl (by omega)
    · exact Or.inl (by omega)
    · exact Or.inr ⟨by omega, string_compare_trans _ _ _ h1 h2⟩
  · rw [hdef, hdef]
    rcases Nat.lt_trichotomy a.n b.n with h | h | h
    · exact Or.inr (Or.inl h)
    · cases hc : string_compare a.m b.m with
      | lt => exact Or.inr (Or.inr ⟨h.symm, (string_compare_swap _ _).2 hc⟩)
      | eq =>
        have hm := (string_compare_eq_iff _ _).1 hc
        exact absurd (by cases a; cases b; simp_all) hne
      | gt => exact Or.inl (Or.inr ⟨h, rfl⟩)
    · exact Or.inl (Or.inl h)
  · cases hg : gt b a
    · rfl
    · rw [hdef] at h hg
      rcases h with h | ⟨e1, h⟩ <;> rcases hg with g | ⟨e2, g⟩
      · omega
      · omega
      · omega
      · rw [string_compare_swap] at h
        rw [h] at g
        cases g
  · rw [hdef]
    constructor
    · intro h
      simp only [ge, Bool.or_eq_true, Bool.and_eq_true, decide_eq_true_eq] at h
      rcases h with h | ⟨e, h⟩
      · exact Or.inl (Or.inl h)
      · cases hc : string_compare a.m b.m with
        | lt => exact absurd hc h
        | eq =>
          have hm := (string_compare_eq_iff _ _).1 hc
          exact Or.inr (by cases a; cases b; simp_all)
        | gt => exact Or.inl (Or.inr ⟨e, rfl⟩)
    · intro h
      simp only [ge, Bool.or_eq_true, Bool.and_eq_true, decide_eq_true_eq]
      rcases h with (h | ⟨e, h⟩) | h
      · exact Or.inl h
      · exact Or.inr ⟨e, by rw [h]; simp⟩
      · subst h
        exact Or.inr ⟨rfl, by rw [(string_compare_eq_iff _ _).2 rfl]; simp⟩

end prop_t
/-! ## C25: the bitmap after the format -/

namespace block_manager

/-- C25: after the constructor of `block_manager`, the first bitmap block, block 2, holds 129
bytes 0xFF followed by the byte 0xE0, whose top 1035 mod 8 = 3 bits are set, and zeros
after; every other block of the device, so every other bitmap block, is zero.  Hence the
bits of the block ids 1 to `IBLOCK(INODE_NUM)` = 1035 are 1 and every other bit of the
bitmap blocks is 0, and the first call of `alloc_block` returns 1036. -/
theorem format_bitmap :
    IBLOCK INODE_NUM BLOCK_NUM = 1035 ∧ 1035 / 8 = 129 ∧ 1035 % 8 = 3 ∧
    (∀ off, off < 129 → init.blocks 1 off = 255) ∧
    init.blocks 1 129 = 224 ∧
    (∀ off, 129 < off → init.blocks 1 off = 0) ∧
    (∀ k, k ≠ 1 → init.blocks k = zero_block) ∧
    (∀ b, 1 ≤ b → b ≤ BLOCK_NUM → (used init b = true ↔ b ≤ IBLOCK INODE_NUM BLOCK_NUM)) ∧
    (∀ bb pos, BBLOCK 1 ≤ bb → bb ≤ BBLOCK BLOCK_NUM → pos < BPB →
      (bitmap_bit init bb pos = true ↔ (bb = BBLOCK 1 ∧ pos < 1035))) ∧
    (alloc_block init).1 = 1036 := by
  have hI : IBLOCK INODE_NUM BLOCK_NUM = 1035 := by rw [IBLOCK_eq, INODE_NUM_eq]
  refine ⟨hI, rfl, rfl, fun off h => ?_, ?_, fun off h => ?_, init_blocks_ne, fun b h1 h2 => ?_,
    fun bb pos h1 h2 h3 => ?_, ?_⟩
  · rw [init_bitmap, if_pos h]
  · rw [init_bitmap]
    rfl
  · rw [init_bitmap, if_neg (by omega), if_neg (by omega)]
  · rw [hI]
    rw [BLOCK_NUM_eq] at h2
    exact init_used b h1 (by omega)
  · rw [scan_last] at h2
    have hB : BBLOCK 1 = 2 := rfl
    rw [hB] at h1 ⊢
    rw [BPB_eq] at h3
    have hu := init_used ((bb - 2) * 4096 + pos + 1) (by omega) (by omega)
    unfold used at hu
    have e1 : ((bb - 2) * 4096 + pos + 1 - 1) / BPB + 2 = bb := by rw [BPB_eq]; omega
    have e2 : ((bb - 2) * 4096 + pos + 1 - 1) % BPB = pos := by rw [BPB_eq]; omega
    rw [e1, e2] at hu
    rw [hu]
    omega
  · exact (alloc_block_next init 1035 (by decide)
      (fun b h1 h2 => (init_used b h1 (by omega)).2 h2)
      (by
        cases h : used init (1035 + 1)
        · rfl
        · exact absurd ((init_used _ (by decide) (by decide)).1 h) (by decide))).1

end block_manager
/-! ## The log as a sequence of records -/

theorem log_text_append (xs ys : List log_entry) :
    log_text (xs ++ ys) = log_text xs ++ log_text ys := by
  induction xs with
  | nil => rfl
  | cons e xs ih =>
    show e.bytes ++ log_text (xs ++ ys) = (e.bytes ++ log_text xs) ++ log_text ys
    rw [ih, List.append_assoc]

theorem commit_bytes_length : log_entry.commit.bytes.length = 7 := rfl

namespace log_manager

/-- The loop of `forward` over records that are no commit and that a commit follows: the
records are collected, and the position after the commit is pushed. -/
theorem forward_loop_commit (todo : List log_entry) (hwf : ∀ e ∈ todo, e.wf)
    (hnc : ∀ e ∈ todo, e ≠ log_entry.commit) :
    ∀ (fuel : Nat) (lm : log_manager) (acc : List log_entry) (rest : List Nat),
      todo.length + 1 ≤ fuel →
      lm.logfile.drop lm.pos = log_text todo ++ (log_entry.commit.bytes ++ rest) →
      forward_loop fuel lm acc = some (acc ++ todo,
        { lm with pos := lm.pos + (log_text todo).length + 7,
                  previous_checkpoints :=
                    (lm.pos + (log_text todo).length + 7) :: lm.previous_checkpoints }) := by
  induction todo with
  | nil =>
    intro fuel lm acc rest hfuel htext
    cases fuel with
    | zero => simp at hfuel
    | succ fuel =>
      simp only [log_text, List.nil_append] at htext
      unfold forward_loop
      rw [next_log_spec lm log_entry.commit rest trivial htext]
      simp [log_text, commit_bytes_length]
  | cons e todo ih =>
    intro fuel lm acc rest hfuel htext
    cases fuel with
    | zero => simp at hfuel
    | succ fuel =>
      have hp := bytes_length_pos e
      simp only [log_text, List.append_assoc] at htext
      have hl := congrArg List.length htext
      simp only [List.length_drop, List.length_append, commit_bytes_length] at hl
      have hdrop : lm.logfile.drop (lm.pos + e.bytes.length) =
          log_text todo ++ (log_entry.commit.bytes ++ rest) := by
        rw [← List.drop_drop, htext, List.drop_left]
      have hrec := ih (fun x hx => hwf x (List.mem_cons_of_mem e hx))
        (fun x hx => hnc x (List.mem_cons_of_mem e hx)) fuel
        { lm with pos := lm.pos + e.bytes.length } (acc ++ [e]) rest
        (by simpa using hfuel) hdrop
      have hlt : lm.pos + e.bytes.length < lm.logfile.length := by omega
      unfold forward_loop
      rw [next_log_spec lm e _ (hwf e (List.mem_cons_self e todo)) htext]
      have hne := hnc e (List.mem_cons_self e todo)
      have e1 : lm.pos + e.bytes.length + (log_text todo).length + 7 =
          lm.pos + (e.bytes.length + (log_text todo).length) + 7 := by omega
      cases e with
      | commit => exact absurd rfl hne
      | create inum type =>
        simp only [hlt, if_true]
        rw [hrec]
        simp only [log_text, List.length_append, List.append_assoc, List.singleton_append, e1]
      | update inum old_size new_size old_buf new_buf =>
        simp only [hlt, if_true]
        rw [hrec]
        simp only [log_text, List.length_append, List.append_assoc, List.singleton_append, e1]
      | deletee inum type =>
        simp only [hlt, if_true]
        rw [hrec]
        simp only [log_text, List.length_append, List.append_assoc, List.singleton_append, e1]

/-- The loop of `forward` over records that are no commit and that reach the end of the
log: the records are collected and the position is the end. -/
theorem forward_loop_end (todo : List log_entry) (hwf : ∀ e ∈ todo, e.wf)
    (hnc : ∀ e ∈ todo, e ≠ log_entry.commit) (hne : todo ≠ []) :
    ∀ (fuel : Nat) (lm : log_manager) (acc : List log_entry),
      todo.length ≤ fuel →
      lm.logfile.drop lm.pos = log_text todo →
      forward_loop fuel lm acc = some (acc ++ todo, { lm with pos := lm.logfile.length }) := by
  induction todo with
  | nil => exact absurd rfl hne
  | cons e todo ih =>
    intro fuel lm acc hfuel htext
    cases fuel with
    | zero => simp at hfuel
    | succ fuel =>
      have hp := bytes_length_pos e
      simp only [log_text] at htext
      have hl := congrArg List.length htext
      simp only [List.length_drop, List.length_append] at hl
      have hdrop : lm.logfile.drop (lm.pos + e.bytes.length) = log_text todo := by
        rw [← List.drop_drop, htext, List.drop_left]
      have hnce := hnc e (List.mem_cons_self e todo)
      unfold forward_loop
      rw [next_log_spec lm e _ (hwf e (List.mem_cons_self e todo)) htext]
      by_cases ht : todo = []
      · subst ht
        simp only [log_text, List.length_nil, Nat.add_zero] at hl
        have hend : lm.pos + e.bytes.length = lm.logfile.length := by omega
        cases e with
        | commit => exact absurd rfl hnce
        | create inum type => simp [hend]
        | update inum old_size new_size old_buf new_buf => simp [hend]
        | deletee inum type => simp [hend]
      · have hrec := ih (fun x hx => hwf x (List.mem_cons_of_mem e hx))
          (fun x hx => hnc x (List.mem_cons_of_mem e hx)) ht fuel
          { lm with pos := lm.pos + e.bytes.length } (acc ++ [e])
          (by simpa using hfuel) hdrop
        have hpos2 : 0 < (log_text todo).length :=
          Nat.lt_of_lt_of_le (List.length_pos.2 ht) (log_text_length todo)
        have hlt : lm.pos + e.bytes.length < lm.logfile.length := by omega
        cases e with
        | commit => exact absurd rfl hnce
        | create inum type =>
          simp only [hlt, if_true]
          rw [hrec]
          simp
        | update inum old_size new_size old_buf new_buf =>
          simp only [hlt, if_true]
          rw [hrec]
          simp
        | deletee inum type =>
          simp only [hlt, if_true]
          rw [hrec]
          simp

/-- The method `rollback` just after a commit, with a checkpoint before it: the checkpoint
is popped and the records between the checkpoint before and the commit are returned. -/
theorem rollback_pop_spec (lm : log_manager) (c1 c2 : Nat) (cks : List Nat)
    (todo : List log_entry) (hwf : ∀ e ∈ todo, e.wf)
    (hck : lm.previous_checkpoints = c1 :: c2 :: cks) (hpos : lm.pos = c1)
    (htext : lm.logfile.drop c2 =
      log_text todo ++ (log_entry.commit.bytes ++ lm.logfile.drop c1))
    (hc : c2 + (log_text todo).length + 7 = c1) :
    lm.rollback = some (todo, { lm with pos := c2, previous_checkpoints := c2 :: cks }) := by
  by_cases ht : todo = []
  · subst ht
    simp only [log_text, List.length_nil, Nat.add_zero] at hc
    unfold rollback
    rw [hck]
    simp only [hpos, gt_iff_lt, lt_irrefl, if_false, if_true]
    have : ¬ c2 < c1 - 7 := by omega
    rw [if_neg this]
    have e : c1 - 7 = c2 := by omega
    rw [e]
  · have hlen : 0 < (log_text todo).length :=
      Nat.lt_of_lt_of_le (List.length_pos.2 ht) (log_text_length todo)
    have hcut : lm.logfile.drop (c1 - 7) = log_entry.commit.bytes ++ lm.logfile.drop c1 := by
      have : c1 - 7 = c2 + (log_text todo).length := by omega
      rw [this, ← List.drop_drop, htext, List.drop_left]
    have h1 := rollback_spec
      { lm with pos := c1 - 7, previous_checkpoints := c2 :: cks } c2 cks todo hwf rfl ht
      (by
        show lm.logfile.drop c2 = log_text todo ++ lm.logfile.drop (c1 - 7)
        rw [hcut, htext])
      (by show c2 + _ = c1 - 7; omega)
    unfold rollback
    rw [hck]
    simp only [hpos, gt_iff_lt, lt_irrefl, if_false, if_true]
    have hgt : c2 < c1 - 7 := by omega
    rw [if_pos hgt]
    unfold rollback at h1
    simp only [gt_iff_lt, hgt, if_true] at h1
    exact h1

end log_manager
/-! ## C23: writing to the log after a rollback -/

namespace log_manager

/-- C23: in a log whose position lies at the end of the records `before`, strictly before
the end of the file (records `after` follow, as a rollback leaves them), writing the text of
a record `e` makes the log the records `before` followed by `e`: the records `after` are
gone, the position is the end of the file, the checkpoints stay, and a following
`forward()` returns no records and changes nothing.  The methods `create_log`, `update_log`
and `delete_log` write their record in this way, and `commit` writes the commit record in
this way and then pushes the position. -/
theorem log_truncates (lm : log_manager) (before after : List log_entry) (e : log_entry)
    (hfile : lm.logfile = log_text before ++ log_text after)
    (hpos : lm.pos = (log_text before).length) (hafter : after ≠ []) :
    lm.pos < lm.logfile.length ∧
    (lm.log e.bytes).logfile = log_text (before ++ [e]) ∧
    (lm.log e.bytes).pos = (lm.log e.bytes).logfile.length ∧
    (lm.log e.bytes).previous_checkpoints = lm.previous_checkpoints ∧
    (lm.log e.bytes).forward = some ([], lm.log e.bytes) ∧
    (∀ inum type, lm.create_log inum type = lm.log (log_entry.create inum type).bytes) ∧
    (∀ inum old_size old_buf new_size new_buf,
      lm.update_log inum old_size old_buf new_size new_buf =
        lm.log (log_entry.update inum old_size new_size (bytes_of old_buf old_size)
          (bytes_of new_buf new_size)).bytes) ∧
    (∀ inum type, lm.delete_log inum type = lm.log (log_entry.deletee inum type).bytes) ∧
    lm.commit.logfile = log_text (before ++ [log_entry.commit]) ∧
    lm.commit.pos = lm.commit.logfile.length ∧
    lm.commit.previous_checkpoints = lm.commit.logfile.length :: lm.previous_checkpoints ∧
    lm.commit.forward = some ([], lm.commit) := by
  have hlen : 0 < (log_text after).length :=
    Nat.lt_of_lt_of_le (List.length_pos.2 hafter) (log_text_length after)
  have hlt : lm.pos < lm.logfile.length := by
    rw [hfile, hpos, List.length_append]
    omega
  have htake : lm.logfile.take lm.pos = log_text before := by
    rw [hfile, hpos, List.take_left]
  have hcut : ∀ x : List Nat, (lm.log x).logfile = log_text before ++ x ∧
      (lm.log x).pos = (lm.log x).logfile.length ∧
      (lm.log x).previous_checkpoints = lm.previous_checkpoints := fun x => by
    obtain ⟨a1, a2, a3⟩ := log_cut lm x
    rw [htake] at a1
    exact ⟨a1, a2, a3⟩
  have hfwd : ∀ l : log_manager, l.pos = l.logfile.length → l.forward = some ([], l) :=
    fun l hl => by
      unfold forward
      rw [if_neg (by omega)]
  have htext : ∀ r : log_entry, log_text (before ++ [r]) = log_text before ++ r.bytes := fun r => by
    rw [log_text_append]
    simp [log_text]
  obtain ⟨b1, b2, b3⟩ := hcut e.bytes
  obtain ⟨c1, c2, c3⟩ := hcut log_entry.commit.bytes
  refine ⟨hlt, by rw [b1, htext], b2, b3, hfwd _ b2, fun _ _ => rfl, fun _ _ _ _ _ => rfl,
    fun _ _ => rfl, ?_, ?_, ?_, ?_⟩
  · show (lm.log log_entry.commit.bytes).logfile = _
    rw [c1, htext]
  · exact c2
  · show (lm.log log_entry.commit.bytes).pos :: (lm.log log_entry.commit.bytes).previous_checkpoints
      = (lm.log log_entry.commit.bytes).logfile.length :: lm.previous_checkpoints
    rw [c2, c3]
  · exact hfwd _ c2

/-- The theorem `log_truncates` at the log `create 1 1`, `commit`, `create 2 2` after a
rollback, which has returned the last record and left the position at the checkpoint 18:
`create_log(3, 2)` then makes the log `create 1 1`, `commit`, `create 3 2`. -/
theorem log_truncates_witness :
    rollback ⟨log_text [log_entry.create 1 1, log_entry.commit, log_entry.create 2 2], 29, [18]⟩
      = some ([log_entry.create 2 2],
        ⟨log_text [log_entry.create 1 1, log_entry.commit, log_entry.create 2 2], 18, [18]⟩) ∧
    ([log_entry.create 2 2] ≠ []) ∧
    (create_log
      ⟨log_text [log_entry.create 1 1, log_entry.commit, log_entry.create 2 2], 18, [18]⟩
      3 2).logfile = log_text [log_entry.create 1 1, log_entry.commit, log_entry.create 3 2] ∧
    forward (create_log
      ⟨log_text [log_entry.create 1 1, log_entry.commit, log_entry.create 2 2], 18, [18]⟩ 3 2)
      = some ([], create_log
      ⟨log_text [log_entry.create 1 1, log_entry.commit, log_entry.create 2 2], 18, [18]⟩ 3 2) :=
  ⟨by decide, by decide,
    (log_truncates
      ⟨log_text [log_entry.create 1 1, log_entry.commit, log_entry.create 2 2], 18, [18]⟩
      [log_entry.create 1 1, log_entry.commit] [log_entry.create 2 2] (log_entry.create 3 2)
      (by decide) (by decide) (by decide)).2.1,
    (log_truncates
      ⟨log_text [log_entry.create 1 1, log_entry.commit, log_entry.create 2 2], 18, [18]⟩
      [log_entry.create 1 1, log_entry.commit] [log_entry.create 2 2] (log_entry.create 3 2)
      (by decide) (by decide) (by decide)).2.2.2.2.1⟩

end log_manager
/-! ## C24: a rollback just after a commit -/

namespace log_manager

/-- C24: when `rollback()` is called with the position at the last checkpoint `c1`, just
after a commit record, and a checkpoint `c2` lies before it, the checkpoint `c1` is popped,
the records between `c2` and that commit record are returned in log order, and the
position is `c2`, the last checkpoint now.  With one checkpoint only, no record is returned
and the position and the checkpoints stay as they are. -/
theorem rollback_after_commit (lm : log_manager) (c1 : Nat) (hpos : lm.pos = c1) :
    (∀ (c2 : Nat) (cks : List Nat) (todo : List log_entry),
      (∀ e ∈ todo, e.wf) →
      lm.previous_checkpoints = c1 :: c2 :: cks →
      lm.logfile.drop c2 = log_text todo ++ (log_entry.commit.bytes ++ lm.logfile.drop c1) →
      c2 + (log_text todo).length + 7 = c1 →
      lm.rollback = some (todo, { lm with pos := c2, previous_checkpoints := c2 :: cks })) ∧
    (lm.previous_checkpoints = [c1] → lm.rollback = some ([], lm)) := by
  refine ⟨fun c2 cks todo hwf hck htext hc =>
    rollback_pop_spec lm c1 c2 cks todo hwf hck hpos htext hc, fun hck => ?_⟩
  unfold rollback
  rw [hck]
  simp [hpos]

/-- The theorem `rollback_after_commit` at the log `create 1 1`, `commit`, `create 2 2`,
`delete 2 2`, `commit` with the position at the end, the checkpoint 47, and the checkpoint
18 before it; and at the log `create 1 1`, `commit` with its one checkpoint. -/
theorem rollback_after_commit_witness :
    (∀ e ∈ [log_entry.create 2 2, log_entry.deletee 2 2], e.wf) ∧
    rollback ⟨log_text [log_entry.create 1 1, log_entry.commit, log_entry.create 2 2,
        log_entry.deletee 2 2, log_entry.commit], 47, [47, 18]⟩
      = some ([log_entry.create 2 2, log_entry.deletee 2 2],
        ⟨log_text [log_entry.create 1 1, log_entry.commit, log_entry.create 2 2,
          log_entry.deletee 2 2, log_entry.commit], 18, [18]⟩) ∧
    rollback ⟨log_text [log_entry.create 1 1, log_entry.commit], 18, [18]⟩
      = some ([], ⟨log_text [log_entry.create 1 1, log_entry.commit], 18, [18]⟩) :=
  ⟨fun e he => by
      rcases List.mem_cons.1 he with h | h
      · rw [h]
        trivial
      · rw [List.mem_singleton.1 h]
        trivial,
    (rollback_after_commit ⟨log_text [log_entry.create 1 1, log_entry.commit,
        log_entry.create 2 2, log_entry.deletee 2 2, log_entry.commit], 47, [47, 18]⟩ 47 rfl).1
      18 [] [log_entry.create 2 2, log_entry.deletee 2 2]
      (fun e he => by
        rcases List.mem_cons.1 he with h | h
        · rw [h]
          trivial
        · rw [List.mem_singleton.1 h]
          trivial)
      rfl (by decide) (by decide),
    (rollback_after_commit ⟨log_text [log_entry.create 1 1, log_entry.commit], 18, [18]⟩ 18
      rfl).2 rfl⟩

end log_manager
/-! ## C26: a rollback of the writes since the last checkpoint -/

namespace log_manager

/-- C26: with no checkpoint `rollback()` returns no record and leaves the log manager as it
is.  With the position above the last checkpoint `ckp` it returns the records that lie
between the checkpoint and the position, in log order, and leaves the position at the
checkpoint; the file and the checkpoints, the last one included, stay as they are. -/
theorem rollback_since_checkpoint (lm : log_manager) :
    (lm.previous_checkpoints = [] → lm.rollback = some ([], lm)) ∧
    (∀ (ckp : Nat) (cks : List Nat) (todo : List log_entry),
      (∀ e ∈ todo, e.wf) →
      lm.previous_checkpoints = ckp :: cks →
      ckp < lm.pos →
      lm.logfile.drop ckp = log_text todo ++ lm.logfile.drop lm.pos →
      ckp + (log_text todo).length = lm.pos →
      lm.rollback = some (todo, { lm with pos := ckp }) ∧
      ({ lm with pos := ckp } : log_manager).previous_checkpoints = ckp :: cks) := by
  refine ⟨fun h => ?_, fun ckp cks todo hwf hck hlt htext hpos => ?_⟩
  · unfold rollback
    rw [h]
  · have hne : todo ≠ [] := by
      intro e
      rw [e] at hpos
      simp only [log_text, List.length_nil, Nat.add_zero] at hpos
      omega
    exact ⟨rollback_spec lm ckp cks todo hwf hck hne htext hpos, hck⟩

/-- The theorem `rollback_since_checkpoint` at the log `create 1 1`, `commit`, `create 2 2`,
`delete 2 2` with the position at the end, 40, above the checkpoint 18, and at the same log
without a checkpoint. -/
theorem rollback_since_checkpoint_witness :
    (18 < (40 : Nat)) ∧
    rollback ⟨log_text [log_entry.create 1 1, log_entry.commit, log_entry.create 2 2,
        log_entry.deletee 2 2], 40, [18]⟩
      = some ([log_entry.create 2 2, log_entry.deletee 2 2],
        ⟨log_text [log_entry.create 1 1, log_entry.commit, log_entry.create 2 2,
          log_entry.deletee 2 2], 18, [18]⟩) ∧
    rollback ⟨log_text [log_entry.create 1 1, log_entry.commit, log_entry.create 2 2,
        log_entry.deletee 2 2], 40, []⟩
      = some ([], ⟨log_text [log_entry.create 1 1, log_entry.commit, log_entry.create 2 2,
        log_entry.deletee 2 2], 40, []⟩) :=
  ⟨by decide,
    ((rollback_since_checkpoint ⟨log_text [log_entry.create 1 1, log_entry.commit,
        log_entry.create 2 2, log_entry.deletee 2 2], 40, [18]⟩).2 18 []
      [log_entry.create 2 2, log_entry.deletee 2 2]
      (fun e he => by
        rcases List.mem_cons.1 he with h | h
        · rw [h]
          trivial
        · rw [List.mem_singleton.1 h]
          trivial)
      rfl (by decide) (by decide) (by decide)).1,
    (rollback_since_checkpoint ⟨log_text [log_entry.create 1 1, log_entry.commit,
        log_entry.create 2 2, log_entry.deletee 2 2], 40, []⟩).1 rfl⟩

end log_manager
/-! ## C27: going forward in the log -/

namespace log_manager

/-- C27: with the position at the end of the log `forward()` returns no record and changes
nothing.  When records that are no commit lie ahead and a commit record follows them, it
returns those records in log order, leaves the position just after the commit record and
pushes that position on the checkpoints.  When records that are no commit lie ahead up to
the end of the log, it returns them in log order, leaves the position at the end and the
checkpoints as they are. -/
theorem forward_contract (lm : log_manager) :
    (lm.logfile.length ≤ lm.pos → lm.forward = some ([], lm)) ∧
    (∀ (todo : List log_entry) (rest : List Nat),
      (∀ e ∈ todo, e.wf) → (∀ e ∈ todo, e ≠ log_entry.commit) →
      lm.logfile.drop lm.pos = log_text todo ++ (log_entry.commit.bytes ++ rest) →
      lm.forward = some (todo,
        { lm with pos := lm.pos + (log_text todo).length + 7,
                  previous_checkpoints :=
                    (lm.pos + (log_text todo).length + 7) :: lm.previous_checkpoints }) ∧
      lm.logfile.drop (lm.pos + (log_text todo).length + 7) = rest) ∧
    (∀ (todo : List log_entry),
      (∀ e ∈ todo, e.wf) → (∀ e ∈ todo, e ≠ log_entry.commit) → todo ≠ [] →
      lm.logfile.drop lm.pos = log_text todo →
      lm.forward = some (todo, { lm with pos := lm.logfile.length })) := by
  refine ⟨fun h => ?_, fun todo rest hwf hnc htext => ?_, fun todo hwf hnc hne htext => ?_⟩
  · unfold forward
    rw [if_neg (by omega)]
  · have hl := congrArg List.length htext
    simp only [List.length_drop, List.length_append, commit_bytes_length] at hl
    have hlen := log_text_length todo
    constructor
    · unfold forward
      rw [if_pos (by omega)]
      have := forward_loop_commit todo hwf hnc (lm.logfile.length - lm.pos) lm [] rest
        (by omega) htext
      rw [this]
      simp
    · have e : lm.pos + (log_text todo).length + 7 =
          lm.pos + ((log_text todo).length + 7) := by omega
      rw [e, ← List.drop_drop, htext, ← List.append_assoc]
      have : (log_text todo).length + 7 = (log_text todo ++ log_entry.commit.bytes).length := by
        rw [List.length_append, commit_bytes_length]
      rw [this, List.drop_left]
  · have hl := congrArg List.length htext
    simp only [List.length_drop] at hl
    have hlen := log_text_length todo
    have hpos : 0 < todo.length := List.length_pos.2 hne
    unfold forward
    rw [if_pos (by omega)]
    have := forward_loop_end todo hwf hnc hne (lm.logfile.length - lm.pos) lm []
      (by omega) htext
    rw [this]
    simp

/-- The theorem `forward_contract` at the log `create 1 1`, `commit`, `create 2 2`,
`delete 2 2`, `commit`, `create 3 2` with the position at 18 after rollbacks: the first
`forward()` returns the two records up to the second commit and pushes 47, the second
returns the last record, and the third returns nothing. -/
theorem forward_contract_witness :
    forward ⟨log_text [log_entry.create 1 1, log_entry.commit, log_entry.create 2 2,
        log_entry.deletee 2 2, log_entry.commit, log_entry.create 3 2], 18, [18]⟩
      = some ([log_entry.create 2 2, log_entry.deletee 2 2],
        ⟨log_text [log_entry.create 1 1, log_entry.commit, log_entry.create 2 2,
          log_entry.deletee 2 2, log_entry.commit, log_entry.create 3 2], 47, [47, 18]⟩) ∧
    forward ⟨log_text [log_entry.create 1 1, log_entry.commit, log_entry.create 2 2,
        log_entry.deletee 2 2, log_entry.commit, log_entry.create 3 2], 47, [47, 18]⟩
      = some ([log_entry.create 3 2],
        ⟨log_text [log_entry.create 1 1, log_entry.commit, log_entry.create 2 2,
          log_entry.deletee 2 2, log_entry.commit, log_entry.create 3 2], 58, [47, 18]⟩) ∧
    forward ⟨log_text [log_entry.create 1 1, log_entry.commit, log_entry.create 2 2,
        log_entry.deletee 2 2, log_entry.commit, log_entry.create 3 2], 58, [47, 18]⟩
      = some ([], ⟨log_text [log_entry.create 1 1, log_entry.commit, log_entry.create 2 2,
          log_entry.deletee 2 2, log_entry.commit, log_entry.create 3 2], 58, [47, 18]⟩) :=
  ⟨((forward_contract ⟨log_text [log_entry.create 1 1, log_entry.commit, log_entry.create 2 2,
        log_entry.deletee 2 2, log_entry.commit, log_entry.create 3 2], 18, [18]⟩).2.1
      [log_entry.create 2 2, log_entry.deletee 2 2] (log_entry.create 3 2).bytes
      (fun e he => by
        rcases List.mem_cons.1 he with h | h
        · rw [h]
          trivial
        · rw [List.mem_singleton.1 h]
          trivial)
      (by decide) (by decide)).1,
    (forward_contract ⟨log_text [log_entry.create 1 1, log_entry.commit, log_entry.create 2 2,
        log_entry.deletee 2 2, log_entry.commit, log_entry.create 3 2], 47, [47, 18]⟩).2.2
      [log_entry.create 3 2]
      (fun e he => by
        rw [List.mem_singleton.1 he]
        trivial)
      (by decide) (by decide) (by decide),
    (forward_contract ⟨log_text [log_entry.create 1 1, log_entry.commit, log_entry.create 2 2,
        log_entry.deletee 2 2, log_entry.commit, log_entry.create 3 2], 58, [47, 18]⟩).1
      (by decide)⟩

end log_manager
/-! ## C28: a second rollback -/

namespace log_manager

/-- C28 (as amended): a `rollback()` with the position above the last checkpoint `ckp`
returns the records since the checkpoint and leaves the position at `ckp`.  A second
`rollback()` right after it returns no record and changes nothing when `ckp` is the only
checkpoint.  When a checkpoint `c2` lies before `ckp`, the second `rollback()` pops `ckp`,
returns the records between `c2` and the commit record that ends at `ckp`, and leaves the
position at `c2`. -/
theorem rollback_twice (lm : log_manager) (ckp : Nat) (cks : List Nat) (todo : List log_entry)
    (hwf : ∀ e ∈ todo, e.wf) (hck : lm.previous_checkpoints = ckp :: cks)
    (hlt : ckp < lm.pos)
    (htext : lm.logfile.drop ckp = log_text todo ++ lm.logfile.drop lm.pos)
    (hpos : ckp + (log_text todo).length = lm.pos) :
    lm.rollback = some (todo, { lm with pos := ckp }) ∧
    (cks = [] →
      ({ lm with pos := ckp } : log_manager).rollback = some ([], { lm with pos := ckp })) ∧
    (∀ (c2 : Nat) (cks2 : List Nat) (prev : List log_entry),
      (∀ e ∈ prev, e.wf) → cks = c2 :: cks2 →
      lm.logfile.drop c2 = log_text prev ++ (log_entry.commit.bytes ++ lm.logfile.drop ckp) →
      c2 + (log_text prev).length + 7 = ckp →
      ({ lm with pos := ckp } : log_manager).rollback =
        some (prev, { lm with pos := c2, previous_checkpoints := c2 :: cks2 })) := by
  have hne : todo ≠ [] := by
    intro e
    rw [e] at hpos
    simp only [log_text, List.length_nil, Nat.add_zero] at hpos
    omega
  refine ⟨rollback_spec lm ckp cks todo hwf hck hne htext hpos, fun h => ?_,
    fun c2 cks2 prev hwf2 h htext2 hc => ?_⟩
  · unfold rollback
    simp [hck, h]
  · exact rollback_pop_spec { lm with pos := ckp } ckp c2 cks2 prev hwf2 (by rw [← h]; exact hck)
      rfl htext2 hc

/-- The theorem `rollback_twice` at the log `create 1 1`, `commit`, `create 2 2` with the
one checkpoint 18: the first rollback returns `create 2 2`, the second nothing. -/
theorem rollback_twice_witness :
    (18 < (29 : Nat)) ∧
    rollback ⟨log_text [log_entry.create 1 1, log_entry.commit, log_entry.create 2 2], 29, [18]⟩
      = some ([log_entry.create 2 2],
        ⟨log_text [log_entry.create 1 1, log_entry.commit, log_entry.create 2 2], 18, [18]⟩) ∧
    rollback ⟨log_text [log_entry.create 1 1, log_entry.commit, log_entry.create 2 2], 18, [18]⟩
      = some ([],
        ⟨log_text [log_entry.create 1 1, log_entry.commit, log_entry.create 2 2], 18, [18]⟩) :=
  ⟨by decide,
    (rollback_twice
      ⟨log_text [log_entry.create 1 1, log_entry.commit, log_entry.create 2 2], 29, [18]⟩ 18 []
      [log_entry.create 2 2] (fun e he => by rw [List.mem_singleton.1 he]; trivial) rfl
      (by decide) (by decide) (by decide)).1,
    (rollback_twice
      ⟨log_text [log_entry.create 1 1, log_entry.commit, log_entry.create 2 2], 29, [18]⟩ 18 []
      [log_entry.create 2 2] (fun e he => by rw [List.mem_singleton.1 he]; trivial) rfl
      (by decide) (by decide) (by decide)).2.1 rfl⟩

/-- C28 (counterexample): the log after `create_log(1, 1)`, `commit()`, `create_log(2, 2)`,
`commit()`, `create_log(3, 2)`, with the checkpoints 36 and 18.  The first `rollback()`
finds the position 47 above the checkpoint 36 and returns `create 3 2`.  The second
`rollback()`, with nothing written in between, is no no-op: it pops the checkpoint 36,
returns the record `create 2 2` of the committed transaction before, and leaves the
position at 18. -/
theorem second_rollback_returns_records :
    create_log (commit (create_log (commit (create_log init 1 1)) 2 2)) 3 2 =
      ⟨log_text [log_entry.create 1 1, log_entry.commit, log_entry.create 2 2,
        log_entry.commit, log_entry.create 3 2], 47, [36, 18]⟩ ∧
    rollback ⟨log_text [log_entry.create 1 1, log_entry.commit, log_entry.create 2 2,
        log_entry.commit, log_entry.create 3 2], 47, [36, 18]⟩ =
      some ([log_entry.create 3 2],
        ⟨log_text [log_entry.create 1 1, log_entry.commit, log_entry.create 2 2,
          log_entry.commit, log_entry.create 3 2], 36, [36, 18]⟩) ∧
    rollback ⟨log_text [log_entry.create 1 1, log_entry.commit, log_entry.create 2 2,
        log_entry.commit, log_entry.create 3 2], 36, [36, 18]⟩ =
      some ([log_entry.create 2 2],
        ⟨log_text [log_entry.create 1 1, log_entry.commit, log_entry.create 2 2,
          log_entry.commit, log_entry.create 3 2], 18, [18]⟩) ∧
    rollback ⟨log_text [log_entry.create 1 1, log_entry.commit, log_entry.create 2 2,
        log_entry.commit, log_entry.create 3 2], 36, [36, 18]⟩ ≠
      some ([], ⟨log_text [log_entry.create 1 1, log_entry.commit, log_entry.create 2 2,
          log_entry.commit, log_entry.create 3 2], 36, [36, 18]⟩) := by
  decide

end log_manager
/-! ## C29: the text of a record read back -/

namespace log_manager

/-- C29: every call of `create_log`, `update_log`, `delete_log` and `commit`, in every
state of the log manager, cuts the log file at the position and puts the text of its
record there, and `next_log`, set to the place where the text begins, reads that record and
arrives at the position that the call has left, the end of the file; so the reading loop,
set to the begin of a log that a sequence of calls has written after the constructor,
reads the records of these calls, one after the other, and arrives at the end.  Every
record (an update record with the sizes of its two payloads, whatever their bytes) is the
record of a call.  For every record `e` and whatever follows it, `next_log` reads from the
text of `e` the record `e` and consumes exactly that text. -/
theorem next_log_round_trip :
    (∀ (lm : log_manager) (c : call),
      (lm.run c).logfile = lm.logfile.take lm.pos ++ c.record.bytes ∧
      (lm.run c).pos = (lm.run c).logfile.length ∧
      next_log ⟨(lm.run c).logfile, (lm.logfile.take lm.pos).length,
        (lm.run c).previous_checkpoints⟩ = some (c.record, lm.run c)) ∧
    (∀ (calls : List call),
      (init.run_all calls).logfile = log_text (calls.map call.record) ∧
      read_until (init.run_all calls).logfile.length calls.length
        ⟨(init.run_all calls).logfile, 0, (init.run_all calls).previous_checkpoints⟩ [] =
        some (calls.map call.record, init.run_all calls)) ∧
    (∀ (e : log_entry), e.wf → ∃ c : call, c.record = e) ∧
    (∀ (e : log_entry) (rest : List Nat), e.wf →
      parse_log (e.bytes ++ rest) = some (e, rest)) ∧
    (∀ (lm : log_manager) (e : log_entry) (rest : List Nat), e.wf →
      lm.logfile.drop lm.pos = e.bytes ++ rest →
      lm.next_log = some (e, { lm with pos := lm.pos + e.bytes.length }) ∧
      lm.logfile.drop (lm.pos + e.bytes.length) = rest) ∧
    (∀ (records : List log_entry) (cks : List Nat), (∀ e ∈ records, e.wf) →
      read_until (log_text records).length records.length ⟨log_text records, 0, cks⟩ [] =
        some (records, ⟨log_text records, (log_text records).length, cks⟩)) := by
  refine ⟨fun lm c => ⟨(run_file lm c).1, (run_file lm c).2, run_next_log lm c⟩,
    fun calls => ?_, fun e h => ?_, fun e rest h => parse_log_bytes e rest h,
    fun lm e rest h htext => ?_, fun records cks h => ?_⟩
  · obtain ⟨h1, h2⟩ := run_all_file calls init [] rfl rfl
    rw [List.nil_append] at h1
    refine ⟨h1, ?_⟩
    have hwf : ∀ e ∈ calls.map call.record, e.wf := by
      intro e he
      obtain ⟨c, -, hc⟩ := List.mem_map.1 he
      rw [← hc]
      exact call.record_wf c
    rw [read_until_spec (init.run_all calls).logfile.length (calls.map call.record) hwf
      calls.length
      ⟨(init.run_all calls).logfile, 0, (init.run_all calls).previous_checkpoints⟩ [] []
      (by rw [List.length_map])
      (by
        show (init.run_all calls).logfile.drop 0 = _
        rw [List.drop_zero, List.append_nil, h1])
      (by
        show 0 + _ = _
        rw [h1, Nat.zero_add])]
    show some (_, (⟨(init.run_all calls).logfile, (init.run_all calls).logfile.length,
      (init.run_all calls).previous_checkpoints⟩ : log_manager)) = _
    rw [← h2, List.nil_append]
  · cases e with
    | create inum type => exact ⟨call.create_log inum type, rfl⟩
    | update inum old_size new_size old_buf new_buf =>
      refine ⟨call.update_log inum old_size (inode_manager.list_buf old_buf) new_size
        (inode_manager.list_buf new_buf), ?_⟩
      show log_entry.update inum old_size new_size
        (bytes_of (inode_manager.list_buf old_buf) old_size)
        (bytes_of (inode_manager.list_buf new_buf) new_size) = _
      have e1 : bytes_of (inode_manager.list_buf old_buf) old_buf.length = old_buf :=
        inode_manager.bytes_of_eq _ old_buf (fun _ _ => rfl)
      have e2 : bytes_of (inode_manager.list_buf new_buf) new_buf.length = new_buf :=
        inode_manager.bytes_of_eq _ new_buf (fun _ _ => rfl)
      rw [← h.1, ← h.2, e1, e2]
    | deletee inum type => exact ⟨call.delete_log inum type, rfl⟩
    | commit => exact ⟨call.commit, rfl⟩
  · refine ⟨next_log_spec lm e rest h htext, ?_⟩
    rw [← List.drop_drop, htext, List.drop_left]
  · have := read_until_spec (log_text records).length records h records.length
      ⟨log_text records, 0, cks⟩ [] [] (le_refl _)
      (by simp) (by simp)
    rw [this]
    simp

/-- The theorem `next_log_round_trip` at an update record whose payloads hold a space, a
line feed, digits and a 0 byte: it is the record of a call of `update_log`, and `next_log`
reads it from its text, which a commit record follows. -/
theorem next_log_round_trip_witness :
    (log_entry.update 3 4 5 [32, 10, 49, 0] [50, 32, 51, 10, 255]).wf ∧
    (∃ c : call, c.record = log_entry.update 3 4 5 [32, 10, 49, 0] [50, 32, 51, 10, 255]) ∧
    parse_log ((log_entry.update 3 4 5 [32, 10, 49, 0] [50, 32, 51, 10, 255]).bytes ++
      log_entry.commit.bytes) =
      some (log_entry.update 3 4 5 [32, 10, 49, 0] [50, 32, 51, 10, 255],
        log_entry.commit.bytes) ∧
    read_until
      (init.run_all [call.update_log 3 4 (inode_manager.list_buf [32, 10, 49, 0]) 5
        (inode_manager.list_buf [50, 32, 51, 10, 255]), call.commit]).logfile.length 2
      ⟨(init.run_all [call.update_log 3 4 (inode_manager.list_buf [32, 10, 49, 0]) 5
        (inode_manager.list_buf [50, 32, 51, 10, 255]), call.commit]).logfile, 0,
       (init.run_all [call.update_log 3 4 (inode_manager.list_buf [32, 10, 49, 0]) 5
        (inode_manager.list_buf [50, 32, 51, 10, 255]), call.commit]).previous_checkpoints⟩
      [] =
      some ([log_entry.update 3 4 5 [32, 10, 49, 0] [50, 32, 51, 10, 255], log_entry.commit],
        init.run_all [call.update_log 3 4 (inode_manager.list_buf [32, 10, 49, 0]) 5
          (inode_manager.list_buf [50, 32, 51, 10, 255]), call.commit]) :=
  ⟨⟨rfl, rfl⟩,
    next_log_round_trip.2.2.1 (log_entry.update 3 4 5 [32, 10, 49, 0] [50, 32, 51, 10, 255])
      ⟨rfl, rfl⟩,
    next_log_round_trip.2.2.2.1 (log_entry.update 3 4 5 [32, 10, 49, 0] [50, 32, 51, 10, 255])
      log_entry.commit.bytes ⟨rfl, rfl⟩,
    (next_log_round_trip.2.1
      [call.update_log 3 4 (inode_manager.list_buf [32, 10, 49, 0]) 5
        (inode_manager.list_buf [50, 32, 51, 10, 255]), call.commit]).2⟩

end log_manager
/-! ## C22: two nodes that decide an instance -/

namespace paxos

/-- C22 (defect of the code): three nodes from their constructors, calls that are answered
or lost, no restart.  After the first three runs of `lagging_steps` the nodes "1" and "3"
record "x" for instance 2, and node "2", which missed the decide call, is still at instance
1 with the accepted proposal (2, "3") and the accepted value "x".  After the fourth run node
"1" records "y" for instance 3, which the nodes "1" and "3" accepted, and node "3" holds the
accepted proposal (1, "1").  In the fifth run node "3" prepares instance 3; node "2" answers
with its accepted proposal of instance 2, which is above (1, "1"), so node "3" proposes "x",
the nodes "2" and "3" accept, and node "3" records "x" for instance 3: the nodes "1" and "3"
record different values for instance 3. -/
theorem lagging_acceptor_breaks_agreement :
    (runs [[49], [50], [51]] ⟨false, false, ⟨0, []⟩, []⟩ (lagging_steps.take 3) three_nodes).map
      (fun net => decided net [49] 2) = some (some [120]) ∧
    (runs [[49], [50], [51]] ⟨false, false, ⟨0, []⟩, []⟩ (lagging_steps.take 3) three_nodes).map
      (fun net => decided net [51] 2) = some (some [120]) ∧
    (runs [[49], [50], [51]] ⟨false, false, ⟨0, []⟩, []⟩ (lagging_steps.take 3) three_nodes).map
      (fun net => (find net [50]).map (fun nd => nd.acc.instance_h)) = some (some 1) ∧
    (runs [[49], [50], [51]] ⟨false, false, ⟨0, []⟩, []⟩ (lagging_steps.take 3) three_nodes).map
      (fun net => (find net [50]).map (fun nd => nd.acc.n_a)) = some (some ⟨2, [51]⟩) ∧
    (runs [[49], [50], [51]] ⟨false, false, ⟨0, []⟩, []⟩ (lagging_steps.take 3) three_nodes).map
      (fun net => (find net [50]).map (fun nd => nd.acc.v_a)) = some (some [120]) ∧
    (runs [[49], [50], [51]] ⟨false, false, ⟨0, []⟩, []⟩ (lagging_steps.take 4) three_nodes).map
      (fun net => decided net [49] 3) = some (some [121]) ∧
    (runs [[49], [50], [51]] ⟨false, false, ⟨0, []⟩, []⟩ (lagging_steps.take 4) three_nodes).map
      (fun net => decided net [51] 3) = some none ∧
    (runs [[49], [50], [51]] ⟨false, false, ⟨0, []⟩, []⟩ (lagging_steps.take 4) three_nodes).map
      (fun net => (find net [51]).map (fun nd => nd.acc.n_a)) = some (some ⟨1, [49]⟩) ∧
    (runs [[49], [50], [51]] ⟨false, false, ⟨0, []⟩, []⟩ lagging_steps three_nodes).map
      (fun net => decided net [49] 3) = some (some [121]) ∧
    (runs [[49], [50], [51]] ⟨false, false, ⟨0, []⟩, []⟩ lagging_steps three_nodes).map
      (fun net => decided net [51] 3) = some (some [120]) := by
  decide

end paxos

/-! ## C31: the handler `preparereq` -/

namespace paxos

/-- C31: `preparereq` for an instance that is not above `instance_h` replies with `accept`
false, `oldinstance` true and `v_a` the value `values[instance]`, and leaves `instance_h`,
`n_h`, `n_a` and `v_a` as they were.  For an instance above `instance_h` and a number `n`
above `n_h` it sets `n_h` to `n`, leaves `n_a`, `v_a`, `instance_h` and `values` as they
were, and replies with `accept` true, `oldinstance` false and the `n_a` and `v_a` of the
acceptor.  In the case that is left it replies with `accept` false and `oldinstance` false
and changes nothing. -/
theorem preparereq_contract (a : acceptor) (inst : Nat) (n : prop_t) (r0 : prepareres) :
    (inst ≤ a.instance_h →
      (a.preparereq inst n r0).1.accept = false ∧
      (a.preparereq inst n r0).1.oldinstance = true ∧
      (a.preparereq inst n r0).1.v_a = values_at a.values inst ∧
      (a.preparereq inst n r0).2.instance_h = a.instance_h ∧
      (a.preparereq inst n r0).2.n_h = a.n_h ∧
      (a.preparereq inst n r0).2.n_a = a.n_a ∧
      (a.preparereq inst n r0).2.v_a = a.v_a) ∧
    (a.instance_h < inst → n.gt a.n_h = true →
      (a.preparereq inst n r0).1.accept = true ∧
      (a.preparereq inst n r0).1.oldinstance = false ∧
      (a.preparereq inst n r0).1.n_a = a.n_a ∧
      (a.preparereq inst n r0).1.v_a = a.v_a ∧
      (a.preparereq inst n r0).2.n_h = n ∧
      (a.preparereq inst n r0).2.n_a = a.n_a ∧
      (a.preparereq inst n r0).2.v_a = a.v_a ∧
      (a.preparereq inst n r0).2.instance_h = a.instance_h ∧
      (a.preparereq inst n r0).2.values = a.values) ∧
    (a.instance_h < inst → n.gt a.n_h = false →
      (a.preparereq inst n r0).1.accept = false ∧
      (a.preparereq inst n r0).1.oldinstance = false ∧
      (a.preparereq inst n r0).2 = a) := by
  refine ⟨fun h => ?_, fun h hn => ?_, fun h hn => ?_⟩
  · unfold acceptor.preparereq
    rw [if_pos h]
    exact ⟨rfl, rfl, rfl, rfl, rfl, rfl, rfl⟩
  · unfold acceptor.preparereq
    rw [if_neg (Nat.not_le.2 h), if_pos hn]
    exact ⟨rfl, rfl, rfl, rfl, rfl, rfl, rfl, rfl, rfl⟩
  · unfold acceptor.preparereq
    rw [if_neg (Nat.not_le.2 h), if_neg (by rw [hn]; decide)]
    exact ⟨rfl, rfl, rfl⟩

/-- The theorem `preparereq_contract` at the acceptor "1" with instance 1 decided as "x",
`n_h` (2, "1") and the accepted proposal (1, "1") of value "y": a prepare for instance 1, a
prepare for instance 2 with the number (3, "2"), and one with the number (2, "1"). -/
theorem preparereq_contract_witness :
    ((⟨[49], 1, [(1, [120])], ⟨2, [49]⟩, ⟨1, [49]⟩, [121], []⟩ : acceptor).preparereq 1
        ⟨3, [50]⟩ ⟨false, true, ⟨0, []⟩, []⟩).1.v_a = [120] ∧
    ((⟨[49], 1, [(1, [120])], ⟨2, [49]⟩, ⟨1, [49]⟩, [121], []⟩ : acceptor).preparereq 2
        ⟨3, [50]⟩ ⟨true, false, ⟨0, []⟩, []⟩).1.v_a = [121] ∧
    ((⟨[49], 1, [(1, [120])], ⟨2, [49]⟩, ⟨1, [49]⟩, [121], []⟩ : acceptor).preparereq 2
        ⟨3, [50]⟩ ⟨true, false, ⟨0, []⟩, []⟩).2.n_h = ⟨3, [50]⟩ ∧
    ((⟨[49], 1, [(1, [120])], ⟨2, [49]⟩, ⟨1, [49]⟩, [121], []⟩ : acceptor).preparereq 2
        ⟨2, [49]⟩ ⟨true, true, ⟨0, []⟩, []⟩).1.accept = false :=
  ⟨((preparereq_contract ⟨[49], 1, [(1, [120])], ⟨2, [49]⟩, ⟨1, [49]⟩, [121], []⟩ 1
      ⟨3, [50]⟩ ⟨false, true, ⟨0, []⟩, []⟩).1 (by decide)).2.2.1,
    ((preparereq_contract ⟨[49], 1, [(1, [120])], ⟨2, [49]⟩, ⟨1, [49]⟩, [121], []⟩ 2
      ⟨3, [50]⟩ ⟨true, false, ⟨0, []⟩, []⟩).2.1 (by decide) (by decide)).2.2.2.1,
    ((preparereq_contract ⟨[49], 1, [(1, [120])], ⟨2, [49]⟩, ⟨1, [49]⟩, [121], []⟩ 2
      ⟨3, [50]⟩ ⟨true, false, ⟨0, []⟩, []⟩).2.1 (by decide) (by decide)).2.2.2.2.1,
    ((preparereq_contract ⟨[49], 1, [(1, [120])], ⟨2, [49]⟩, ⟨1, [49]⟩, [121], []⟩ 2
      ⟨2, [49]⟩ ⟨true, true, ⟨0, []⟩, []⟩).2.2 (by decide) (by decide)).1⟩

end paxos

/-! ## C32: the handler `acceptreq` -/

namespace paxos

/-- C32: `acceptreq` replies true exactly when `n >= n_h`; then it sets `n_a` to `n` and
`v_a` to `v` and leaves `n_h`, `instance_h` and `values` as they were; otherwise it replies
false and changes nothing. -/
theorem acceptreq_contract (a : acceptor) (inst : Nat) (n : prop_t) (v : List Nat) :
    ((a.acceptreq inst n v).1 = true ↔ n.ge a.n_h = true) ∧
    (n.ge a.n_h = true →
      (a.acceptreq inst n v).2.n_a = n ∧
      (a.acceptreq inst n v).2.v_a = v ∧
      (a.acceptreq inst n v).2.n_h = a.n_h ∧
      (a.acceptreq inst n v).2.instance_h = a.instance_h ∧
      (a.acceptreq inst n v).2.values = a.values) ∧
    (n.ge a.n_h = false → a.acceptreq inst n v = (false, a)) := by
  refine ⟨?_, fun h => ?_, fun h => ?_⟩
  · unfold acceptor.acceptreq
    by_cases h : n.ge a.n_h = true
    · rw [if_pos h]
      simp [h]
    · rw [if_neg h]
      simp [h]
  · unfold acceptor.acceptreq
    rw [if_pos h]
    exact ⟨rfl, rfl, rfl, rfl, rfl⟩
  · unfold acceptor.acceptreq
    rw [if_neg (by rw [h]; decide)]

/-- The theorem `acceptreq_contract` at the acceptor "1" with `n_h` (2, "1"): the proposal
(2, "1") of value "z" is accepted, the proposal (1, "2") is not. -/
theorem acceptreq_contract_witness :
    ((⟨[49], 1, [(1, [120])], ⟨2, [49]⟩, ⟨1, [49]⟩, [121], []⟩ : acceptor).acceptreq 2
        ⟨2, [49]⟩ [122]).2.v_a = [122] ∧
    (⟨[49], 1, [(1, [120])], ⟨2, [49]⟩, ⟨1, [49]⟩, [121], []⟩ : acceptor).acceptreq 2
        ⟨1, [50]⟩ [122] =
      (false, ⟨[49], 1, [(1, [120])], ⟨2, [49]⟩, ⟨1, [49]⟩, [121], []⟩) :=
  ⟨((acceptreq_contract ⟨[49], 1, [(1, [120])], ⟨2, [49]⟩, ⟨1, [49]⟩, [121], []⟩ 2
      ⟨2, [49]⟩ [122]).2.1 (by decide)).2.1,
    (acceptreq_contract ⟨[49], 1, [(1, [120])], ⟨2, [49]⟩, ⟨1, [49]⟩, [121], []⟩ 2
      ⟨1, [50]⟩ [122]).2.2 (by decide)⟩

end paxos

/-! ## C33: the handler `decidereq` -/

namespace paxos

/-- C33 (counterexample): the acceptor "1" after `commit(4294967295, "x")`, which sets
`instance_h` to 4294967295, and an accept request with the value "y".  For the request
(0, "z") the instance is not above `instance_h`, but `instance_h + 1` is 0 on `unsigned`
numbers, so `decidereq` compares "z" with `v_a` and fails on its assertion. -/
theorem decidereq_wraps :
    ((acceptor.init false [49] [118]).commit 4294967295 [120]).instance_h = 4294967295 ∧
    ((((acceptor.init false [49] [118]).commit 4294967295 [120]).acceptreq 0 ⟨1, [50]⟩
      [121]).2).instance_h = 4294967295 ∧
    ((((acceptor.init false [49] [118]).commit 4294967295 [120]).acceptreq 0 ⟨1, [50]⟩
      [121]).2).v_a = [121] ∧
    0 ≤ ((((acceptor.init false [49] [118]).commit 4294967295 [120]).acceptreq 0 ⟨1, [50]⟩
      [121]).2).instance_h ∧
    ((((acceptor.init false [49] [118]).commit 4294967295 [120]).acceptreq 0 ⟨1, [50]⟩
      [121]).2).decidereq 0 [122] = none := by
  decide

/-- C33 (as amended): for an acceptor with `instance_h` below 4294967295, where
`instance_h + 1` does not wrap: for `instance = instance_h + 1` and `v = v_a`, `decidereq`
sets `values[instance]` to `v` and `instance_h` to `instance`, and resets `n_h` and `n_a`
to (0, me) and `v_a` to the empty string; for `instance <= instance_h` it changes nothing;
it fails, on an assertion, exactly when `instance > instance_h + 1`, or
`instance = instance_h + 1` and `v` is not `v_a`. -/
theorem decidereq_contract (a : acceptor) (inst : Nat) (v : List Nat)
    (hh : a.instance_h < 4294967295) :
    (inst = a.instance_h + 1 → v = a.v_a →
      ∃ b, a.decidereq inst v = some b ∧
        values_at b.values inst = v ∧ b.values.lookup inst = some v ∧
        b.instance_h = inst ∧ b.n_h = ⟨0, a.me⟩ ∧ b.n_a = ⟨0, a.me⟩ ∧ b.v_a = []) ∧
    (inst ≤ a.instance_h → a.decidereq inst v = some a) ∧
    (a.decidereq inst v = none ↔
      (inst > a.instance_h + 1 ∨ (inst = a.instance_h + 1 ∧ v ≠ a.v_a))) := by
  have hw : (a.instance_h + 1) % 4294967296 = a.instance_h + 1 := Nat.mod_eq_of_lt (by omega)
  refine ⟨fun h hv => ?_, fun h => ?_, ?_⟩
  · subst hv
    subst h
    refine ⟨a.commit_wo (a.instance_h + 1) a.v_a, ?_, ?_⟩
    · unfold acceptor.decidereq
      rw [hw, if_pos rfl, if_pos rfl]
    · unfold acceptor.commit_wo
      rw [if_pos (Nat.lt_succ_self _)]
      refine ⟨?_, ?_, rfl, rfl, rfl, rfl⟩
      · simp [values_at, values_set, List.lookup]
      · simp [values_set, List.lookup]
  · unfold acceptor.decidereq
    rw [hw, if_neg (by omega), if_pos h]
  · unfold acceptor.decidereq
    rw [hw]
    by_cases h1 : inst = a.instance_h + 1
    · rw [if_pos h1]
      by_cases h2 : a.v_a = v
      · rw [if_pos h2]
        constructor
        · intro h
          cases h
        · rintro (h | ⟨_, h⟩)
          · omega
          · exact absurd h2.symm h
      · rw [if_neg h2]
        exact ⟨fun _ => Or.inr ⟨h1, fun h => h2 h.symm⟩, fun _ => rfl⟩
    · rw [if_neg h1]
      by_cases h2 : inst ≤ a.instance_h
      · rw [if_pos h2]
        constructor
        · intro h
          cases h
        · rintro (h | ⟨h, _⟩)
          · omega
          · exact absurd h h1
      · rw [if_neg h2]
        exact ⟨fun _ => Or.inl (by omega), fun _ => rfl⟩

/-- The theorem `decidereq_contract` at the acceptor "1" with instance 1 decided and the
accepted value "y": the decision of instance 2 with the value "y", the decision of
instance 1, and the decisions of instance 3 and of instance 2 with the value "z", which
fail. -/
theorem decidereq_contract_witness :
    (∃ b, (⟨[49], 1, [(1, [120])], ⟨2, [49]⟩, ⟨1, [49]⟩, [121], []⟩ : acceptor).decidereq 2
        [121] = some b ∧
      values_at b.values 2 = [121] ∧ b.values.lookup 2 = some [121] ∧
      b.instance_h = 2 ∧ b.n_h = ⟨0, [49]⟩ ∧ b.n_a = ⟨0, [49]⟩ ∧ b.v_a = []) ∧
    (⟨[49], 1, [(1, [120])], ⟨2, [49]⟩, ⟨1, [49]⟩, [121], []⟩ : acceptor).decidereq 1
        [122] = some ⟨[49], 1, [(1, [120])], ⟨2, [49]⟩, ⟨1, [49]⟩, [121], []⟩ ∧
    (⟨[49], 1, [(1, [120])], ⟨2, [49]⟩, ⟨1, [49]⟩, [121], []⟩ : acceptor).decidereq 3
        [121] = none ∧
    (⟨[49], 1, [(1, [120])], ⟨2, [49]⟩, ⟨1, [49]⟩, [121], []⟩ : acceptor).decidereq 2
        [122] = none :=
  ⟨(decidereq_contract ⟨[49], 1, [(1, [120])], ⟨2, [49]⟩, ⟨1, [49]⟩, [121], []⟩ 2
      [121] (by decide)).1 (by decide) (by decide),
    (decidereq_contract ⟨[49], 1, [(1, [120])], ⟨2, [49]⟩, ⟨1, [49]⟩, [121], []⟩ 1
      [122] (by decide)).2.1 (by decide),
    (decidereq_contract ⟨[49], 1, [(1, [120])], ⟨2, [49]⟩, ⟨1, [49]⟩, [121], []⟩ 3
      [121] (by decide)).2.2.2 (Or.inl (by decide)),
    (decidereq_contract ⟨[49], 1, [(1, [120])], ⟨2, [49]⟩, ⟨1, [49]⟩, [121], []⟩ 2
      [122] (by decide)).2.2.2 (Or.inr ⟨by decide, by decide⟩)⟩

end paxos

/-! ## C39: `acceptreq` and the instance of the request -/

namespace paxos

/-- C39: the reply of `acceptreq` and the acceptor after it are the same for every instance
in the request; so a request for an instance that is decided already (`inst <= instance_h`)
with `n >= n_h` is accepted, and `n_a` and `v_a` are overwritten with the `n` and `v` of
the request. -/
theorem acceptreq_ignores_instance (a : acceptor) (inst : Nat) (n : prop_t) (v : List Nat) :
    (∀ inst1, a.acceptreq inst1 n v = a.acceptreq inst n v) ∧
    (inst ≤ a.instance_h → n.ge a.n_h = true →
      (a.acceptreq inst n v).1 = true ∧
      (a.acceptreq inst n v).2.n_a = n ∧
      (a.acceptreq inst n v).2.v_a = v) := by
  refine ⟨fun _ => rfl, fun _ h => ?_⟩
  unfold acceptor.acceptreq
  rw [if_pos h]
  exact ⟨rfl, rfl, rfl⟩

/-- The theorem `acceptreq_ignores_instance` at the acceptor "1" with instance 1 decided,
`n_h` (2, "1") and the accepted value "y": a request for instance 1 with the number
(2, "1") and the value "z". -/
theorem acceptreq_ignores_instance_witness :
    ((⟨[49], 1, [(1, [120])], ⟨2, [49]⟩, ⟨1, [49]⟩, [121], []⟩ : acceptor).acceptreq 1
        ⟨2, [49]⟩ [122]).1 = true ∧
    ((⟨[49], 1, [(1, [120])], ⟨2, [49]⟩, ⟨1, [49]⟩, [121], []⟩ : acceptor).acceptreq 1
        ⟨2, [49]⟩ [122]).2.n_a = ⟨2, [49]⟩ ∧
    ((⟨[49], 1, [(1, [120])], ⟨2, [49]⟩, ⟨1, [49]⟩, [121], []⟩ : acceptor).acceptreq 1
        ⟨2, [49]⟩ [122]).2.v_a = [122] :=
  (acceptreq_ignores_instance ⟨[49], 1, [(1, [120])], ⟨2, [49]⟩, ⟨1, [49]⟩, [121], []⟩ 1
    ⟨2, [49]⟩ [122]).2 (by decide) (by decide)

end paxos

/-! ## C37: two majorities meet -/

namespace paxos

/-- The function `isamember` decides membership. -/
theorem isamember_iff (m : List Nat) (nodes : List (List Nat)) :
    isamember m nodes = true ↔ m ∈ nodes := by
  unfold isamember
  rw [List.any_eq_true]
  constructor
  · rintro ⟨x, hx, h⟩
    rw [decide_eq_true_eq] at h
    exact h ▸ hx
  · intro h
    exact ⟨m, h, by rw [decide_eq_true_eq]⟩

/-- Two selections of a list that together count more positions than the list has share an
element. -/
theorem filter_overlap {α : Type} (p q : α → Bool) (l : List α)
    (h : l.length < (l.filter p).length + (l.filter q).length) :
    ∃ x, x ∈ l ∧ p x = true ∧ q x = true := by
  induction l with
  | nil => simp at h
  | cons a t ih =>
    by_cases hp : p a = true
    · by_cases hq : q a = true
      · exact ⟨a, List.mem_cons_self _ _, hp, hq⟩
      · rw [List.filter_cons_of_pos hp, List.filter_cons_of_neg hq] at h
        simp only [List.length_cons] at h
        obtain ⟨x, hx, h1, h2⟩ := ih (by omega)
        exact ⟨x, List.mem_cons_of_mem _ hx, h1, h2⟩
    · rw [List.filter_cons_of_neg hp] at h
      have hle : ((a :: t).filter q).length ≤ (t.filter q).length + 1 := by
        by_cases hq : q a = true
        · rw [List.filter_cons_of_pos hq]
          simp
        · rw [List.filter_cons_of_neg hq]
          omega
      simp only [List.length_cons] at h
      obtain ⟨x, hx, h1, h2⟩ := ih (by omega)
      exact ⟨x, List.mem_cons_of_mem _ hx, h1, h2⟩

/-- C37: when `majority(l1, A)` and `majority(l1, B)` both hold, some element of `l1` is a
member of both `A` and `B`; and `majority(l1, A)` is false whenever `A` is empty, also for
an empty `l1`. -/
theorem majority_intersect (l1 A B : List (List Nat)) :
    (majority l1 A = true → majority l1 B = true → ∃ x, x ∈ l1 ∧ x ∈ A ∧ x ∈ B) ∧
    majority l1 [] = false := by
  constructor
  · intro hA hB
    unfold majority at hA hB
    rw [decide_eq_true_eq] at hA hB
    obtain ⟨x, hx, h1, h2⟩ := filter_overlap (fun x => isamember x A) (fun x => isamember x B)
      l1 (by omega)
    exact ⟨x, hx, (isamember_iff x A).1 h1, (isamember_iff x B).1 h2⟩
  · unfold majority
    rw [decide_eq_false_iff_not]
    have h : l1.filter (fun x => isamember x []) = [] := by
      rw [List.filter_eq_nil_iff]
      intro x _
      simp [isamember]
    rw [h]
    simp

/-- The theorem `majority_intersect` at the nodes "1", "2", "3" with the majorities
"1", "2" and "2", "3". -/
theorem majority_intersect_witness :
    ∃ x, x ∈ [[49], [50], [51]] ∧ x ∈ [[49], [50]] ∧ x ∈ [[50], [51]] :=
  (majority_intersect [[49], [50], [51]] [[49], [50]] [[50], [51]]).1 (by decide) (by decide)

end paxos

/-! ## C38: the decided instances of an acceptor -/

namespace paxos

/-- Looking up a key in a map from which another key was removed. -/
theorem lookup_filter_ne (values : List (Nat × List Nat)) (k j : Nat) (h : k ≠ j) :
    (values.filter (fun x => x.1 ≠ j)).lookup k = values.lookup k := by
  induction values with
  | nil => rfl
  | cons x t ih =>
    obtain ⟨i, w⟩ := x
    by_cases hi : i = j
    · subst hi
      have e : ((i, w) :: t).filter (fun x => decide (x.1 ≠ i)) =
          t.filter (fun x => decide (x.1 ≠ i)) := by
        apply List.filter_cons_of_neg
        simp
      rw [e, ih]
      have hb : (k == i) = false := by simp [h]
      simp only [List.lookup, hb]
    · have e : ((i, w) :: t).filter (fun x => decide (x.1 ≠ j)) =
          (i, w) :: t.filter (fun x => decide (x.1 ≠ j)) := by
        apply List.filter_cons_of_pos
        simp [hi]
      rw [e]
      by_cases hk : k = i
      · subst hk
        simp [List.lookup]
      · have hb : (k == i) = false := by simp [hk]
        simp only [List.lookup, hb]
        exact ih

/-- The value that `values[k] = v` stores is the one that a look-up of `k` finds. -/
theorem lookup_values_set (values : List (Nat × List Nat)) (k : Nat) (v : List Nat) :
    (values_set values k v).lookup k = some v := by
  simp [values_set, List.lookup]

/-- The assignment `values[j] = w` keeps the values of the other keys. -/
theorem lookup_values_set_ne (values : List (Nat × List Nat)) (k j : Nat) (w : List Nat)
    (h : k ≠ j) : (values_set values j w).lookup k = values.lookup k := by
  unfold values_set
  have hb : (k == j) = false := by simp [h]
  simp only [List.lookup, hb]
  exact lookup_filter_ne values k j h

/-- The access `values[j]` keeps the values that are stored. -/
theorem lookup_values_touch (values : List (Nat × List Nat)) (k j : Nat) (v : List Nat)
    (h : values.lookup k = some v) : (values_touch values j).lookup k = some v := by
  unfold values_touch
  cases hj : values.lookup j with
  | some w => exact h
  | none =>
    have hk : k ≠ j := by
      intro e
      rw [e, hj] at h
      cases h
    have hb : (k == j) = false := by simp [hk]
    simp only [List.lookup, hb]
    exact h

/-- The method `commit_wo` does not lower `instance_h` and keeps the values of the
instances up to `instance_h`. -/
theorem acceptor.commit_wo_keeps (a : acceptor) (inst : Nat) (value : List Nat) :
    a.instance_h ≤ (a.commit_wo inst value).instance_h ∧
    ∀ k v, k ≤ a.instance_h → a.values.lookup k = some v →
      (a.commit_wo inst value).values.lookup k = some v := by
  unfold acceptor.commit_wo
  by_cases h : inst > a.instance_h
  · rw [if_pos h]
    refine ⟨Nat.le_of_lt h, fun k v hk hv => ?_⟩
    show (values_set a.values inst value).lookup k = some v
    rw [lookup_values_set_ne a.values k inst value (by omega)]
    exact hv
  · rw [if_neg h]
    exact ⟨Nat.le_refl _, fun k v _ hv => hv⟩

/-- One operation does not lower `instance_h` and keeps the values of the instances up to
`instance_h`. -/
theorem acceptor.apply_keeps (a b : acceptor) (o : acceptor.op) (h : a.apply o = some b) :
    a.instance_h ≤ b.instance_h ∧
    ∀ k v, k ≤ a.instance_h → a.values.lookup k = some v → b.values.lookup k = some v := by
  cases o with
  | preparereq inst n r0 =>
    simp only [acceptor.apply, Option.some.injEq] at h
    subst h
    unfold acceptor.preparereq
    by_cases h1 : inst ≤ a.instance_h
    · rw [if_pos h1]
      exact ⟨Nat.le_refl _, fun k v _ hv => lookup_values_touch a.values k inst v hv⟩
    · rw [if_neg h1]
      by_cases h2 : n.gt a.n_h = true
      · rw [if_pos h2]
        exact ⟨Nat.le_refl _, fun k v _ hv => hv⟩
      · rw [if_neg h2]
        exact ⟨Nat.le_refl _, fun k v _ hv => hv⟩
  | acceptreq inst n v =>
    simp only [acceptor.apply, Option.some.injEq] at h
    subst h
    unfold acceptor.acceptreq
    by_cases h2 : n.ge a.n_h = true
    · rw [if_pos h2]
      exact ⟨Nat.le_refl _, fun k v _ hv => hv⟩
    · rw [if_neg h2]
      exact ⟨Nat.le_refl _, fun k v _ hv => hv⟩
  | decidereq inst v =>
    simp only [acceptor.apply] at h
    unfold acceptor.decidereq at h
    by_cases h1 : inst = (a.instance_h + 1) % 4294967296
    · rw [if_pos h1] at h
      by_cases h2 : a.v_a = v
      · rw [if_pos h2] at h
        cases h
        exact acceptor.commit_wo_keeps a inst a.v_a
      · rw [if_neg h2] at h
        cases h
    · rw [if_neg h1] at h
      by_cases h2 : inst ≤ a.instance_h
      · rw [if_pos h2] at h
        cases h
        exact ⟨Nat.le_refl _, fun k v _ hv => hv⟩
      · rw [if_neg h2] at h
        cases h
  | commit inst value =>
    simp only [acceptor.apply, Option.some.injEq] at h
    subst h
    exact acceptor.commit_wo_keeps a inst value

/-- A sequence of operations does not lower `instance_h` and keeps the values of the
instances up to `instance_h`. -/
theorem acceptor.apply_all_keeps (ops : List acceptor.op) :
    ∀ a b : acceptor, a.apply_all ops = some b →
      a.instance_h ≤ b.instance_h ∧
      ∀ k v, k ≤ a.instance_h → a.values.lookup k = some v → b.values.lookup k = some v := by
  induction ops with
  | nil =>
    intro a b h
    simp only [acceptor.apply_all, Option.some.injEq] at h
    subst h
    exact ⟨Nat.le_refl _, fun k v _ hv => hv⟩
  | cons o os ih =>
    intro a b h
    simp only [acceptor.apply_all] at h
    cases ho : a.apply o with
    | none =>
      rw [ho] at h
      cases h
    | some c =>
      rw [ho] at h
      obtain ⟨h1, h2⟩ := acceptor.apply_keeps a c o ho
      obtain ⟨h3, h4⟩ := ih c b h
      exact ⟨Nat.le_trans h1 h3, fun k v hk hv => h4 k v (Nat.le_trans hk h1) (h2 k v hk hv)⟩

/-- C38: under every sequence of operations of an acceptor (`preparereq`, `acceptreq`,
`decidereq`, `commit`) that return, `instance_h` does not decrease; and once `commit_wo`
has recorded `values[k]`, which it does for `k` above `instance_h`, the value that
`values[k]` holds after every later sequence of operations is the recorded one.  The same
holds of every value held for an instance up to `instance_h`. -/
theorem decided_values_stable (a b : acceptor) (ops : List acceptor.op) (k : Nat)
    (v : List Nat) :
    (a.apply_all ops = some b → a.instance_h ≤ b.instance_h) ∧
    (a.instance_h < k → (a.commit_wo k v).apply_all ops = some b →
      b.values.lookup k = some v ∧ values_at b.values k = v ∧ k ≤ b.instance_h) ∧
    (k ≤ a.instance_h → a.values.lookup k = some v → a.apply_all ops = some b →
      b.values.lookup k = some v) := by
  refine ⟨fun h => (acceptor.apply_all_keeps ops a b h).1, fun hk h => ?_, fun hk hv h =>
    (acceptor.apply_all_keeps ops a b h).2 k v hk hv⟩
  have e1 : (a.commit_wo k v).instance_h = k := by
    unfold acceptor.commit_wo
    rw [if_pos hk]
  have e2 : (a.commit_wo k v).values = values_set a.values k v := by
    unfold acceptor.commit_wo
    rw [if_pos hk]
  obtain ⟨h1, h2⟩ := acceptor.apply_all_keeps ops _ b h
  rw [e1] at h1 h2
  have h3 := h2 k v (Nat.le_refl _) (by rw [e2]; exact lookup_values_set a.values k v)
  refine ⟨h3, ?_, h1⟩
  unfold values_at
  rw [h3]

/-- The theorem `decided_values_stable` at the acceptor "1" with instance 1 decided as "x":
the commit of instance 2 with the value "y", followed by an accept request, a decision of
instance 3, a prepare for instance 2 and a commit of instance 2 with another value. -/
theorem decided_values_stable_witness :
    ((⟨[49], 1, [(1, [120])], ⟨0, [49]⟩, ⟨0, [49]⟩, [], []⟩ : acceptor).commit_wo 2
        [121]).apply_all
      [acceptor.op.acceptreq 3 ⟨1, [50]⟩ [122], acceptor.op.decidereq 3 [122],
        acceptor.op.preparereq 2 ⟨2, [50]⟩ ⟨false, false, ⟨0, []⟩, []⟩,
        acceptor.op.commit 2 [123]] =
      some ⟨[49], 3, [(3, [122]), (2, [121]), (1, [120])], ⟨0, [49]⟩, ⟨0, [49]⟩, [],
        [logged.loginstance 2 [121], logged.logaccept ⟨1, [50]⟩ [122],
          logged.loginstance 3 [122]]⟩ ∧
    (⟨[49], 3, [(3, [122]), (2, [121]), (1, [120])], ⟨0, [49]⟩, ⟨0, [49]⟩, [],
      [logged.loginstance 2 [121], logged.logaccept ⟨1, [50]⟩ [122],
        logged.loginstance 3 [122]]⟩ : acceptor).values.lookup 2 = some [121] ∧
    values_at (⟨[49], 3, [(3, [122]), (2, [121]), (1, [120])], ⟨0, [49]⟩, ⟨0, [49]⟩, [],
      [logged.loginstance 2 [121], logged.logaccept ⟨1, [50]⟩ [122],
        logged.loginstance 3 [122]]⟩ : acceptor).values 2 = [121] ∧
    2 ≤ (⟨[49], 3, [(3, [122]), (2, [121]), (1, [120])], ⟨0, [49]⟩, ⟨0, [49]⟩, [],
      [logged.loginstance 2 [121], logged.logaccept ⟨1, [50]⟩ [122],
        logged.loginstance 3 [122]]⟩ : acceptor).instance_h :=
  ⟨by decide,
    (decided_values_stable ⟨[49], 1, [(1, [120])], ⟨0, [49]⟩, ⟨0, [49]⟩, [], []⟩
      ⟨[49], 3, [(3, [122]), (2, [121]), (1, [120])], ⟨0, [49]⟩, ⟨0, [49]⟩, [],
        [logged.loginstance 2 [121], logged.logaccept ⟨1, [50]⟩ [122],
          logged.loginstance 3 [122]]⟩
      [acceptor.op.acceptreq 3 ⟨1, [50]⟩ [122], acceptor.op.decidereq 3 [122],
        acceptor.op.preparereq 2 ⟨2, [50]⟩ ⟨false, false, ⟨0, []⟩, []⟩,
        acceptor.op.commit 2 [123]] 2 [121]).2.1 (by decide) (by decide)⟩

end paxos

/-! ## Lemmas on the order of proposal numbers and on the replies to a prepare -/

/-- The comparison `>` of proposal numbers, spelled out. -/
theorem prop_t.gt_iff (a b : prop_t) :
    a.gt b = true ↔ (a.n > b.n ∨ (a.n = b.n ∧ string_compare a.m b.m = Ordering.gt)) := by
  simp [prop_t.gt]

/-- The comparison `>` of proposal numbers is transitive. -/
theorem prop_t.gt_trans (a b c : prop_t) (h1 : a.gt b = true) (h2 : b.gt c = true) :
    a.gt c = true := by
  rw [prop_t.gt_iff] at h1 h2 ⊢
  rcases h1 with h1 | ⟨e1, h1⟩ <;> rcases h2 with h2 | ⟨e2, h2⟩
  · exact Or.inl (by omega)
  · exact Or.inl (by omega)
  · exact Or.inl (by omega)
  · exact Or.inr ⟨by omega, string_compare_trans _ _ _ h1 h2⟩

/-- A proposal number above one that `r` is not above is above `r`. -/
theorem prop_t.gt_of_gt_of_not_gt (x h r : prop_t) (h1 : x.gt h = true)
    (h2 : r.gt h = false) : x.gt r = true := by
  have h3 : ¬ (r.n > h.n ∨ (r.n = h.n ∧ string_compare r.m h.m = Ordering.gt)) := by
    rw [← prop_t.gt_iff, h2]
    decide
  rw [prop_t.gt_iff] at h1 ⊢
  rw [not_or] at h3
  obtain ⟨h4, h5⟩ := h3
  rcases Nat.lt_or_ge r.n h.n with hlt | hge
  · rcases h1 with h1 | ⟨e1, -⟩
    · exact Or.inl (by omega)
    · exact Or.inl (by omega)
  · have e : r.n = h.n := by omega
    rcases h1 with h1 | ⟨e1, h1⟩
    · exact Or.inl (by omega)
    · refine Or.inr ⟨by omega, ?_⟩
      cases hc : string_compare r.m h.m with
      | lt => exact string_compare_trans _ _ _ h1 ((string_compare_swap _ _).2 hc)
      | eq =>
        rw [← (string_compare_eq_iff _ _).1 hc] at h1
        exact h1
      | gt => exact absurd ⟨e, hc⟩ h5

/-- No proposal number is above itself. -/
theorem prop_t.gt_irrefl (a : prop_t) : a.gt a = false := by
  cases hg : a.gt a
  · rfl
  · rcases (prop_t.gt_iff a a).1 hg with h | ⟨-, h⟩
    · omega
    · rw [(string_compare_eq_iff a.m a.m).2 rfl] at h
      cases h

namespace paxos

/-- The loop of `proposer::prepare` behaves on the nodes as `prepare_replies` does on the
replies that arrive: the same result and the same `v`. -/
theorem prepare_loop_replies (me : List Nat) (inst : Nat) (my_n : prop_t) (r0 : prepareres) :
    ∀ (nodes : List (List Nat)) (net : List node) (accepts : List (List Nat)) (v : List Nat)
      (highest : prop_t) (ds : List delivery),
      (prepare_loop me inst my_n r0 nodes net accepts v highest ds).1 =
        (prepare_replies (replies_received inst my_n r0 nodes net ds) v highest).1 ∧
      (prepare_loop me inst my_n r0 nodes net accepts v highest ds).2.2.1 =
        (prepare_replies (replies_received inst my_n r0 nodes net ds) v highest).2.1 := by
  intro nodes
  induction nodes with
  | nil =>
    intro net accepts v highest ds
    exact ⟨rfl, rfl⟩
  | cons a rest ih =>
    intro net accepts v highest ds
    cases ds with
    | nil =>
      simp only [prepare_loop, replies_received]
      exact ih net accepts v highest []
    | cons d ds1 =>
      cases hf : find net a with
      | none =>
        simp only [prepare_loop, replies_received, hf]
        exact ih net accepts v highest ds1
      | some nd =>
        cases d with
        | lost =>
          simp only [prepare_loop, replies_received, hf]
          exact ih net accepts v highest ds1
        | no_reply =>
          simp only [prepare_loop, replies_received, hf]
          exact ih _ accepts v highest ds1
        | ok =>
          simp only [prepare_loop, replies_received, hf]
          by_cases h1 : (nd.acc.preparereq inst my_n r0).1.oldinstance = true
          · rw [if_pos h1, if_pos h1]
            simp only [prepare_replies, if_pos h1]
            cases find (set_acc net a (nd.acc.preparereq inst my_n r0).2) me <;> exact ⟨rfl, rfl⟩
          · rw [if_neg h1, if_neg h1]
            simp only [prepare_replies, if_neg h1]
            by_cases h2 : (nd.acc.preparereq inst my_n r0).1.accept = true
            · rw [if_pos h2, if_pos h2]
              by_cases h3 : (nd.acc.preparereq inst my_n r0).1.n_a.gt highest = true
              · rw [if_pos h3, if_pos h3]
                exact ih _ _ _ _ ds1
              · rw [if_neg h3, if_neg h3]
                exact ih _ _ _ _ ds1
            · rw [if_neg h2, if_neg h2]
              exact ih _ _ _ _ ds1

/-- Replies that do not raise `highest_accepted_n` leave `v` and it as they are. -/
theorem prepare_replies_stay (l : List prepareres) (v : List Nat) (highest : prop_t)
    (hold : ∀ x ∈ l, x.oldinstance = false)
    (hle : ∀ x ∈ l, x.accept = true → x.n_a.gt highest = false) :
    prepare_replies l v highest = (true, v, highest) := by
  induction l with
  | nil => rfl
  | cons x t ih =>
    have h1 : ¬ x.oldinstance = true := by
      rw [hold x (List.mem_cons_self _ _)]
      decide
    have ht := ih (fun y hy => hold y (List.mem_cons_of_mem _ hy))
      (fun y hy => hle y (List.mem_cons_of_mem _ hy))
    unfold prepare_replies
    rw [if_neg h1]
    by_cases h2 : x.accept = true
    · rw [if_pos h2, if_neg (by rw [hle x (List.mem_cons_self _ _) h2]; decide)]
      exact ht
    · rw [if_neg h2]
      exact ht

/-- After replies without `oldinstance`, the loop goes on from some `v` and a number that
is `highest` or the `n_a` of an accepting reply. -/
theorem prepare_replies_append (l rest : List prepareres) :
    ∀ (v : List Nat) (highest : prop_t), (∀ x ∈ l, x.oldinstance = false) →
      ∃ v1 h1, prepare_replies (l ++ rest) v highest = prepare_replies rest v1 h1 ∧
        (h1 = highest ∧ v1 = v ∨ ∃ x ∈ l, x.accept = true ∧ h1 = x.n_a ∧
          x.n_a.gt highest = true) := by
  induction l with
  | nil =>
    intro v highest _
    exact ⟨v, highest, rfl, Or.inl ⟨rfl, rfl⟩⟩
  | cons x t ih =>
    intro v highest hold
    have h1 : ¬ x.oldinstance = true := by
      rw [hold x (List.mem_cons_self _ _)]
      decide
    have hold1 : ∀ y ∈ t, y.oldinstance = false :=
      fun y hy => hold y (List.mem_cons_of_mem _ hy)
    have keep : ∃ v1 h1, prepare_replies (t ++ rest) v highest = prepare_replies rest v1 h1 ∧
        (h1 = highest ∧ v1 = v ∨ ∃ y ∈ x :: t, y.accept = true ∧ h1 = y.n_a ∧
          y.n_a.gt highest = true) := by
      obtain ⟨v1, h1, e, hc⟩ := ih v highest hold1
      refine ⟨v1, h1, e, ?_⟩
      rcases hc with hc | ⟨y, hy, hc⟩
      · exact Or.inl hc
      · exact Or.inr ⟨y, List.mem_cons_of_mem _ hy, hc⟩
    have step : prepare_replies (x :: t ++ rest) v highest =
        if x.accept = true then
          if x.n_a.gt highest = true then prepare_replies (t ++ rest) x.v_a x.n_a
          else prepare_replies (t ++ rest) v highest
        else prepare_replies (t ++ rest) v highest := by
      show prepare_replies (x :: (t ++ rest)) v highest = _
      simp only [prepare_replies, if_neg h1]
    rw [step]
    by_cases h2 : x.accept = true
    · rw [if_pos h2]
      by_cases h3 : x.n_a.gt highest = true
      · rw [if_pos h3]
        obtain ⟨v1, h1, e, hc⟩ := ih x.v_a x.n_a hold1
        refine ⟨v1, h1, e, Or.inr ?_⟩
        rcases hc with ⟨hc, -⟩ | ⟨y, hy, ha, hc, hg⟩
        · exact ⟨x, List.mem_cons_self _ _, h2, hc, h3⟩
        · exact ⟨y, List.mem_cons_of_mem _ hy, ha, hc, prop_t.gt_trans _ _ _ hg h3⟩
      · rw [if_neg h3]
        exact keep
    · rw [if_neg h2]
      exact keep

end paxos

/-! ## C34: the value of the accept phase -/

namespace paxos

/-- Among replies of which one accepts there is a first accepting reply with the greatest
`n_a`. -/
theorem first_greatest_reply (l : List prepareres) (h : ∃ x ∈ l, x.accept = true) :
    ∃ pre r post, l = pre ++ r :: post ∧ r.accept = true ∧
      (∀ x ∈ pre, x.accept = true → r.n_a.gt x.n_a = true) ∧
      (∀ x ∈ post, x.accept = true → x.n_a.gt r.n_a = false) := by
  induction l with
  | nil =>
    obtain ⟨x, hx, -⟩ := h
    cases hx
  | cons x t ih =>
    by_cases ht : ∃ y ∈ t, y.accept = true
    · obtain ⟨pre, r, post, e, hr, hpre, hpost⟩ := ih ht
      by_cases hx : x.accept = true ∧ r.n_a.gt x.n_a = false
      · refine ⟨[], x, t, rfl, hx.1, (fun y hy => by cases hy), fun y hy hya => ?_⟩
        cases hg : y.n_a.gt x.n_a
        · rfl
        · have hyr : y.n_a.gt r.n_a = true := prop_t.gt_of_gt_of_not_gt _ _ _ hg hx.2
          rw [e, List.mem_append, List.mem_cons] at hy
          rcases hy with hy | hy | hy
          · have h1 := prop_t.gt_trans _ _ _ hyr (hpre y hy hya)
            rw [prop_t.gt_irrefl] at h1
            cases h1
          · rw [hy, prop_t.gt_irrefl] at hyr
            cases hyr
          · rw [hpost y hy hya] at hyr
            cases hyr
      · refine ⟨x :: pre, r, post, by rw [e]; rfl, hr, fun y hy hya => ?_, hpost⟩
        rcases List.mem_cons.1 hy with hy | hy
        · subst hy
          cases hg : r.n_a.gt y.n_a
          · exact absurd ⟨hya, hg⟩ hx
          · rfl
        · exact hpre y hy hya
    · obtain ⟨y, hy, hya⟩ := h
      rcases List.mem_cons.1 hy with hy | hy
      · subst hy
        refine ⟨[], y, t, rfl, hya, (fun z hz => by cases hz), fun z hz hza => ?_⟩
        exact absurd ⟨z, hz, hza⟩ ht
      · exact absurd ⟨y, hy, hya⟩ ht

/-- C34 (counterexample): the prepare of node "2" in a fifth run after
`empty_value_steps`, with the number (4, "2"), is answered by all three nodes with
`accept` and without `oldinstance`: node "1" with the accepted proposal (2, "2") of value
"x", node "2" with (0, "2") and no value, node "3" with (3, "3") and the empty value that
it accepted.  An accepting reply carries a non-empty `v_a`, and the accepting reply with the
greatest `n_a` is that of node "3", whose `v_a` is empty; the value of the accept phase is
not that `v_a` but `newv`, here "w", which the three nodes then record for instance 2. -/
theorem greatest_reply_empty_value :
    (runs [[49], [50], [51]] ⟨false, false, ⟨0, []⟩, []⟩ empty_value_steps three_nodes).map
      (fun net => replies_received 2 ⟨4, [50]⟩ ⟨false, false, ⟨0, []⟩, []⟩
        [[49], [50], [51]] net [delivery.ok, delivery.ok, delivery.ok]) =
      some [⟨false, true, ⟨2, [50]⟩, [120]⟩, ⟨false, true, ⟨0, [50]⟩, []⟩,
        ⟨false, true, ⟨3, [51]⟩, []⟩] ∧
    prop_t.gt ⟨3, [51]⟩ ⟨2, [50]⟩ = true ∧ prop_t.gt ⟨3, [51]⟩ ⟨0, [50]⟩ = true ∧
    accept_value [⟨false, true, ⟨2, [50]⟩, [120]⟩, ⟨false, true, ⟨0, [50]⟩, []⟩,
      ⟨false, true, ⟨3, [51]⟩, []⟩] [119] = some [119] ∧
    (runs [[49], [50], [51]] ⟨false, false, ⟨0, []⟩, []⟩
      (empty_value_steps ++ [([50], 2, [119], [delivery.ok, delivery.ok, delivery.ok,
        delivery.ok, delivery.ok, delivery.ok, delivery.ok, delivery.ok, delivery.ok])])
      three_nodes).map
      (fun net => (decided net [49] 2, decided net [50] 2, decided net [51] 2)) =
      some (some [119], some [119], some [119]) := by
  decide

/-- C34 (as amended): for every sequence of prepare replies none of which has `oldinstance`,
`prepare` returns true, and the value that the proposer sends in the accept phase is the
`v_a` of the first accepting reply whose `n_a` is the greatest of the accepting replies,
when that `n_a` is above (0, "") and that `v_a` is not empty, and `newv` otherwise, also when
no reply accepts.  Among replies of which one accepts there is such a first greatest one.
The loop of `prepare` over the nodes leaves the `v` that `prepare_replies` computes from
the replies that arrive. -/
theorem accept_value_first_greatest (replies : List prepareres) (newv : List Nat)
    (hold : ∀ r ∈ replies, r.oldinstance = false) :
    (∀ pre r post, replies = pre ++ r :: post → r.accept = true →
      (∀ x ∈ pre, x.accept = true → r.n_a.gt x.n_a = true) →
      (∀ x ∈ post, x.accept = true → x.n_a.gt r.n_a = false) →
      accept_value replies newv =
        some (if r.n_a.gt ⟨0, []⟩ = true ∧ r.v_a ≠ [] then r.v_a else newv)) ∧
    ((∃ x ∈ replies, x.accept = true) →
      ∃ pre r post, replies = pre ++ r :: post ∧ r.accept = true ∧
        (∀ x ∈ pre, x.accept = true → r.n_a.gt x.n_a = true) ∧
        (∀ x ∈ post, x.accept = true → x.n_a.gt r.n_a = false)) ∧
    ((∀ r ∈ replies, r.accept = false) → accept_value replies newv = some newv) ∧
    (∀ me inst my_n r0 nodes net ds, replies = replies_received inst my_n r0 nodes net ds →
      (prepare me inst my_n r0 [] nodes [] net ds).1 = true ∧
      accept_value replies newv =
        some (if (prepare me inst my_n r0 [] nodes [] net ds).2.2.1.length = 0 then newv
          else (prepare me inst my_n r0 [] nodes [] net ds).2.2.1)) := by
  refine ⟨fun pre r post e hr hpre hpost => ?_, first_greatest_reply replies, fun hno => ?_,
    fun me inst my_n r0 nodes net ds e => ?_⟩
  · subst e
    have hold1 : ∀ x ∈ pre, x.oldinstance = false :=
      fun x hx => hold x (List.mem_append_left _ hx)
    have hold2 : ∀ x ∈ post, x.oldinstance = false :=
      fun x hx => hold x (List.mem_append_right _ (List.mem_cons_of_mem _ hx))
    have hr0 : ¬ r.oldinstance = true := by
      rw [hold r (List.mem_append_right _ (List.mem_cons_self _ _))]
      decide
    obtain ⟨v1, h1, e1, hc⟩ := prepare_replies_append pre (r :: post) [] ⟨0, []⟩ hold1
    unfold accept_value
    rw [e1]
    cases hg : r.n_a.gt ⟨0, []⟩
    · have hh : h1 = ⟨0, []⟩ ∧ v1 = [] := by
        rcases hc with hc | ⟨x, hx, hxa, -, hx0⟩
        · exact hc
        · have h2 := prop_t.gt_trans _ _ _ (hpre x hx hxa) hx0
          rw [hg] at h2
          cases h2
      rw [hh.1, hh.2]
      have hs : prepare_replies (r :: post) [] ⟨0, []⟩ = (true, [], ⟨0, []⟩) := by
        apply prepare_replies_stay
        · intro x hx
          exact hold x (List.mem_append_right _ hx)
        · intro x hx hxa
          rcases List.mem_cons.1 hx with hx | hx
          · rw [hx]
            exact hg
          · cases hx0 : x.n_a.gt ⟨0, []⟩
            · rfl
            · have h2 := prop_t.gt_of_gt_of_not_gt _ _ _ hx0 hg
              rw [hpost x hx hxa] at h2
              cases h2
      rw [hs]
      simp
    · have hgt : r.n_a.gt h1 = true := by
        rcases hc with ⟨hc, -⟩ | ⟨x, hx, hxa, hc, -⟩
        · rw [hc]
          exact hg
        · rw [hc]
          exact hpre x hx hxa
      have hs : prepare_replies (r :: post) v1 h1 = (true, r.v_a, r.n_a) := by
        have step : prepare_replies (r :: post) v1 h1 = prepare_replies post r.v_a r.n_a := by
          simp only [prepare_replies, if_neg hr0, if_pos hr, if_pos hgt]
        rw [step]
        exact prepare_replies_stay post r.v_a r.n_a hold2 hpost
      rw [hs]
      by_cases hv : r.v_a = []
      · simp [hv]
      · simp [hv]
  · unfold accept_value
    rw [prepare_replies_stay replies [] ⟨0, []⟩ hold (fun x hx hxa => by
      rw [hno x hx] at hxa
      cases hxa)]
    simp
  · have hl := prepare_loop_replies me inst my_n r0 nodes net [] [] ⟨0, []⟩ ds
    rw [← e] at hl
    have hs : (prepare_replies replies [] ⟨0, []⟩).1 = true := by
      obtain ⟨v1, h1, e1, -⟩ := prepare_replies_append replies [] [] ⟨0, []⟩ hold
      rw [List.append_nil] at e1
      rw [e1]
      rfl
    unfold prepare
    rw [hl.1, hl.2]
    refine ⟨hs, ?_⟩
    unfold accept_value
    rw [if_pos hs]

/-- The theorem `accept_value_first_greatest` at the replies (1, "a") with the value "x",
(2, "b") with the value "y" and a refusal: the value of the accept phase is "y". -/
theorem accept_value_first_greatest_witness :
    (∀ r ∈ ([⟨false, true, ⟨1, [97]⟩, [120]⟩, ⟨false, true, ⟨2, [98]⟩, [121]⟩,
      ⟨false, false, ⟨3, [99]⟩, [122]⟩] : List prepareres), r.oldinstance = false) ∧
    accept_value [⟨false, true, ⟨1, [97]⟩, [120]⟩, ⟨false, true, ⟨2, [98]⟩, [121]⟩,
      ⟨false, false, ⟨3, [99]⟩, [122]⟩] [119] =
      some (if prop_t.gt ⟨2, [98]⟩ ⟨0, []⟩ = true ∧ ([121] : List Nat) ≠ [] then [121]
        else [119]) :=
  ⟨by decide,
    (accept_value_first_greatest [⟨false, true, ⟨1, [97]⟩, [120]⟩,
      ⟨false, true, ⟨2, [98]⟩, [121]⟩, ⟨false, false, ⟨3, [99]⟩, [122]⟩] [119]
      (by decide)).1 [⟨false, true, ⟨1, [97]⟩, [120]⟩] ⟨false, true, ⟨2, [98]⟩, [121]⟩
      [⟨false, false, ⟨3, [99]⟩, [122]⟩] rfl rfl (by decide) (by decide)⟩

end paxos

/-! ## C36: the indexes of `read_file` and `_write_file` -/

/-- A loop that appends to a list keeps a property of its elements that every round's
elements have. -/
theorem for_loop_append_all {α : Type} (P : α → Prop) (f : Nat → List α) (n lo : Nat)
    (t0 : List α) (h0 : ∀ a ∈ t0, P a) (hf : ∀ i, lo ≤ i → i < lo + n → ∀ a ∈ f i, P a) :
    ∀ a ∈ for_loop (fun i t => t ++ f i) n lo t0, P a := by
  have key := for_loop_inv (fun i t => t ++ f i) (fun _ t => ∀ a ∈ t, P a) n lo t0 h0
    (fun i s h1 h2 hs a ha => by
      rcases List.mem_append.1 ha with ha | ha
      · exact hs a ha
      · exact hf i h1 h2 a ha)
  exact key

/-- The elements of the list that a loop of appending rounds leaves: those of the list at
entry and those of every round. -/
theorem mem_for_loop_append {α : Type} (f : Nat → List α) (n lo : Nat) (t0 : List α) (a : α) :
    a ∈ for_loop (fun i t => t ++ f i) n lo t0 ↔
      a ∈ t0 ∨ ∃ i, lo ≤ i ∧ i < lo + n ∧ a ∈ f i := by
  induction n generalizing lo t0 with
  | zero =>
    constructor
    · exact fun h => Or.inl h
    · rintro (h | ⟨i, h1, h2, -⟩)
      · exact h
      · omega
  | succ n ih =>
    show a ∈ for_loop (fun i t => t ++ f i) n (lo + 1) (t0 ++ f lo) ↔ _
    rw [ih, List.mem_append]
    constructor
    · rintro ((h | h) | ⟨i, h1, h2, h3⟩)
      · exact Or.inl h
      · exact Or.inr ⟨lo, le_refl _, by omega, h⟩
      · exact Or.inr ⟨i, by omega, by omega, h3⟩
    · rintro (h | ⟨i, h1, h2, h3⟩)
      · exact Or.inl (Or.inl h)
      · by_cases e : i = lo
        · subst e
          exact Or.inl (Or.inr h3)
        · exact Or.inr ⟨i, by omega, by omega, h3⟩

namespace inode_manager

/-- C36: for every size that `valid_size` accepts and every inode whose stored size is at
most `MAXFILESIZE`, every index that `_write_file` and `read_file` use into the array
`blocks` of the inode is at most `NDIRECT`, every index into the indirect table is below
`NINDIRECT`, and every read from the caller's buffer lies within its first `size` bytes. -/
theorem accesses_in_bounds (ino_size : Nat) (size : Int) (hsize : valid_size size = true)
    (hino : ino_size ≤ MAXFILESIZE) :
    (∀ a ∈ _write_file_accesses ino_size size.toNat, a.ok size.toNat = true) ∧
    (∀ a ∈ read_file_accesses ino_size, ∀ n, a.ok n = true) := by
  have hs : size.toNat ≤ 81408 := by
    unfold valid_size at hsize
    rw [MAXFILESIZE_eq] at hsize
    by_cases h : size < 0 ∨ size.toNat > 81408
    · rw [if_pos h] at hsize
      cases hsize
    · omega
  rw [MAXFILESIZE_eq] at hino
  generalize size.toNat = sz at hs ⊢
  have hold2 : block_num_of ino_size = (ino_size + 511) / 512 := by
    unfold block_num_of BLOCK_SIZE
    omega
  constructor
  · intro a ha
    simp only [_write_file_accesses, hold2, BLOCK_SIZE, NDIRECT, direct_read, indirect_read]
      at ha
    split_ifs at ha <;>
    simp only [mem_for_loop_append, List.mem_append, List.mem_cons, List.mem_singleton,
      List.not_mem_nil, or_false, false_or] at ha
    all_goals
      casesm* _ ∨ _, ∃ _, _, _ ∧ _
    all_goals
      subst_vars
      try split_ifs
    all_goals
      simp only [access.ok, NDIRECT, NINDIRECT, BLOCK_SIZE, decide_eq_true_eq]
      omega
  · intro a ha n
    simp only [read_file_accesses, hold2, NDIRECT] at ha
    split_ifs at ha <;>
    simp only [mem_for_loop_append, List.mem_append, List.mem_cons, List.mem_singleton,
      List.not_mem_nil, or_false, false_or] at ha
    all_goals
      casesm* _ ∨ _, ∃ _, _, _ ∧ _
    all_goals
      subst_vars
      simp only [access.ok, NDIRECT, NINDIRECT, BLOCK_SIZE, decide_eq_true_eq]
      omega

/-- The theorem `accesses_in_bounds` at an inode of 20000 bytes, which has 40 blocks, and a
write of 300 bytes: the write reads the 300 bytes of the buffer and frees the blocks of the
entries 1 to 31, of the 8 entries of the table and of the entry `NDIRECT`. -/
theorem accesses_in_bounds_witness :
    valid_size 300 = true ∧ 20000 ≤ MAXFILESIZE ∧
    access.buf 0 300 ∈ _write_file_accesses 20000 300 ∧
    access.indirect 7 ∈ _write_file_accesses 20000 300 ∧
    access.blocks NDIRECT ∈ _write_file_accesses 20000 300 ∧
    (∀ a ∈ _write_file_accesses 20000 300, a.ok 300 = true) ∧
    (∀ a ∈ read_file_accesses 20000, ∀ n, a.ok n = true) :=
  ⟨by decide, by decide, by decide, by decide, by decide,
    (accesses_in_bounds 20000 300 (by decide) (by decide)).1,
    (accesses_in_bounds 20000 300 (by decide) (by decide)).2⟩

end inode_manager

/-! ## C40: names that a directory holds twice -/

namespace yfs_client

/-- C40 (defect of the code): on the example service, all of whose calls succeed here.  The
directory 1 holds the entry ("a", 2).  `symlink(1, "t", "a")` returns OK and the directory
then reads as ("a", 2), ("a", 3), whereas `create(1, "a")` and `mkdir(1, "a")` in the same
state return EXIST: so far the code does what the claim says.  But `create` and `mkdir` do
not keep the names of a directory unique: `mkdir(1, "2b")` in that state leaves a directory
that reads as ("a", 22), ("b", 3), with two names, and in this state `mkdir(1, "2b")`
returns OK again and leaves a directory that reads as ("a", 22), ("b", 32), ("b", 4), with
two entries of the name "b"; `create(1, "2b")` does the same. -/
theorem mkdir_digit_name_twice :
    decode (mem_extent.holds [(T_DIR, [97, 0, 50]), (T_FILE, [])] 1) 0 = [⟨[97], 2⟩] ∧
    (symlink mem_extent.client 1 [116] [97] 0 0 ⟨[(T_DIR, [97, 0, 50]), (T_FILE, [])], []⟩).1
      = xxstatus.OK ∧
    decode (mem_extent.holds (symlink mem_extent.client 1 [116] [97] 0 0
      ⟨[(T_DIR, [97, 0, 50]), (T_FILE, [])], []⟩).2.2.ext 1) 0 = [⟨[97], 2⟩, ⟨[97], 3⟩] ∧
    (create mem_extent.client 1 [97] 0 0 ⟨[(T_DIR, [97, 0, 50]), (T_FILE, [])], []⟩).1
      = xxstatus.EXIST ∧
    (mkdir mem_extent.client 1 [97] 0 0 ⟨[(T_DIR, [97, 0, 50]), (T_FILE, [])], []⟩).1
      = xxstatus.EXIST ∧
    (mkdir mem_extent.client 1 [50, 98] 0 0 ⟨[(T_DIR, [97, 0, 50]), (T_FILE, [])], []⟩).2.2.ext
      = [(T_DIR, [97, 0, 50, 50, 98, 0, 51]), (T_FILE, []), (T_DIR, [])] ∧
    decode (mem_extent.holds
      [(T_DIR, [97, 0, 50, 50, 98, 0, 51]), (T_FILE, []), (T_DIR, [])] 1) 0 =
      [⟨[97], 22⟩, ⟨[98], 3⟩] ∧
    (mkdir mem_extent.client 1 [50, 98] 0 0
      ⟨[(T_DIR, [97, 0, 50, 50, 98, 0, 51]), (T_FILE, []), (T_DIR, [])], []⟩).1 = xxstatus.OK ∧
    decode (mem_extent.holds (mkdir mem_extent.client 1 [50, 98] 0 0
      ⟨[(T_DIR, [97, 0, 50, 50, 98, 0, 51]), (T_FILE, []), (T_DIR, [])], []⟩).2.2.ext 1) 0 =
      [⟨[97], 22⟩, ⟨[98], 32⟩, ⟨[98], 4⟩] ∧
    (create mem_extent.client 1 [50, 98] 0 0
      ⟨[(T_DIR, [97, 0, 50, 50, 98, 0, 51]), (T_FILE, []), (T_DIR, [])], []⟩).1 = xxstatus.OK ∧
    decode (mem_extent.holds (create mem_extent.client 1 [50, 98] 0 0
      ⟨[(T_DIR, [97, 0, 50, 50, 98, 0, 51]), (T_FILE, []), (T_DIR, [])], []⟩).2.2.ext 1) 0 =
      [⟨[97], 22⟩, ⟨[98], 32⟩, ⟨[98], 4⟩] := by
  decide

end yfs_client

/-! ## Lemmas on the states of the log manager -/

/-- Records without text are no records. -/
theorem log_text_eq_nil (l : List log_entry) (h : (log_text l).length = 0) : l = [] := by
  have := log_manager.log_text_length l
  exact List.length_eq_zero.1 (by omega)

/-- The text of records that end in a commit. -/
theorem log_text_snoc_commit (pre : List log_entry) :
    log_text (pre ++ [log_entry.commit]) = log_text pre ++ log_entry.commit.bytes := by
  rw [log_text_append]
  show log_text pre ++ (log_entry.commit.bytes ++ []) = _
  rw [List.append_nil]

/-- The text of records around a commit. -/
theorem log_text_commit_split (pre post : List log_entry) :
    log_text (pre ++ log_entry.commit :: post) =
      log_text pre ++ (log_entry.commit.bytes ++ log_text post) := by
  rw [log_text_append]
  rfl

/-- A list of records is free of commits, or it splits at its first commit. -/
theorem first_commit (l : List log_entry) :
    (∀ e ∈ l, e ≠ log_entry.commit) ∨
    ∃ todo rest, l = todo ++ log_entry.commit :: rest ∧ ∀ e ∈ todo, e ≠ log_entry.commit := by
  induction l with
  | nil => exact Or.inl (fun e he => by cases he)
  | cons x t ih =>
    by_cases hx : x = log_entry.commit
    · exact Or.inr ⟨[], t, by rw [hx]; rfl, fun e he => by cases he⟩
    · rcases ih with h | ⟨todo, rest, e, h⟩
      · refine Or.inl (fun e he => ?_)
        rcases List.mem_cons.1 he with he | he
        · rw [he]
          exact hx
        · exact h e he
      · refine Or.inr ⟨x :: todo, rest, by rw [e]; rfl, fun y hy => ?_⟩
        rcases List.mem_cons.1 hy with hy | hy
        · rw [hy]
          exact hx
        · exact h y hy

namespace log_manager

/-- The end of a commit record stays one when records follow. -/
theorem at_commit_append (done x : List log_entry) (c : Nat) (h : at_commit done c) :
    at_commit (done ++ x) c := by
  obtain ⟨pre, post, e, hc⟩ := h
  exact ⟨pre, post ++ x, by rw [e, List.append_assoc]; rfl, hc⟩

/-- The end of a commit record is not beyond the records. -/
theorem at_commit_le (done : List log_entry) (c : Nat) (h : at_commit done c) :
    c ≤ (log_text done).length := by
  obtain ⟨pre, post, e, hc⟩ := h
  rw [e, log_text_commit_split, List.length_append, List.length_append, commit_bytes_length]
  omega

/-- The end of a commit record that is not beyond another one is the end of a commit record
among the records up to that other one. -/
theorem at_commit_cut (pre post : List log_entry) (c : Nat)
    (h : at_commit (pre ++ log_entry.commit :: post) c) (hc : c ≤ (log_text pre).length + 7) :
    at_commit (pre ++ [log_entry.commit]) c := by
  obtain ⟨p, q, e, hp⟩ := h
  rcases List.append_eq_append_iff.1 e with ⟨a, e1, e2⟩ | ⟨b, e1, e2⟩
  · -- p = pre ++ a
    cases a with
    | nil =>
      rw [List.append_nil] at e1
      exact ⟨p, [], by rw [e1], hp⟩
    | cons x a =>
      have hx : (log_text p).length = (log_text pre).length + (log_text (x :: a)).length := by
        rw [e1, log_text_append, List.length_append]
      have hpos : 0 < (log_text (x :: a)).length :=
        Nat.lt_of_lt_of_le (by simp) (log_text_length (x :: a))
      omega
  · -- pre = p ++ b
    cases b with
    | nil =>
      rw [List.append_nil] at e1
      exact ⟨p, [], by rw [e1], hp⟩
    | cons x b =>
      simp only [List.cons_append, List.cons.injEq] at e2
      refine ⟨p, b ++ [log_entry.commit], ?_, hp⟩
      rw [e1, ← e2.1, List.append_assoc]
      rfl

/-- The constructor leaves a consistent state. -/
theorem consistent_init : consistent init :=
  ⟨[], [], (fun e he => by cases he), (fun e he => by cases he), rfl, rfl, List.Pairwise.nil,
    (fun c hc => by cases hc)⟩

/-- The method `log` with the text of a well-formed record keeps the state consistent: the
record is the last one before the position and none is ahead. -/
theorem consistent_log (lm : log_manager) (e : log_entry) (h : consistent lm) :
    ∃ done, (∀ x ∈ done, x.wf) ∧ (lm.log e.bytes).logfile = log_text (done ++ [e]) ∧
      (lm.log e.bytes).pos = (log_text (done ++ [e])).length ∧
      lm.pos = (log_text done).length ∧
      (lm.log e.bytes).previous_checkpoints = lm.previous_checkpoints ∧
      lm.previous_checkpoints.Pairwise (fun a b => a > b) ∧
      ∀ c ∈ lm.previous_checkpoints, at_commit done c := by
  obtain ⟨done, ahead, h1, -, h3, h4, h5, h6⟩ := h
  obtain ⟨g1, g2, g3⟩ := log_cut lm e.bytes
  have ht : lm.logfile.take lm.pos = log_text done := by
    rw [h3, h4]
    exact List.take_left' rfl
  have hfile : (lm.log e.bytes).logfile = log_text (done ++ [e]) := by
    rw [g1, ht, log_text_append]
    show _ = log_text done ++ (e.bytes ++ [])
    rw [List.append_nil]
  refine ⟨done, h1, hfile, ?_, h4, g3, h5, h6⟩
  rw [g2, hfile]

/-- An appended record keeps the state consistent. -/
theorem consistent_append (lm : log_manager) (e : log_entry) (hwf : e.wf)
    (h : consistent lm) : consistent (lm.log e.bytes) := by
  obtain ⟨done, h1, h2, h3, -, h5, h6, h7⟩ := consistent_log lm e h
  refine ⟨done ++ [e], [], ?_, (fun x hx => by cases hx), ?_, h3, ?_, ?_⟩
  · intro x hx
    rcases List.mem_append.1 hx with hx | hx
    · exact h1 x hx
    · rw [List.mem_singleton.1 hx]
      exact hwf
  · rw [h2]
    show _ = _ ++ []
    rw [List.append_nil]
  · rw [h5]
    exact h6
  · rw [h5]
    exact fun c hc => at_commit_append done [e] c (h7 c hc)

/-- The method `commit` keeps the state consistent. -/
theorem consistent_commit (lm : log_manager) (h : consistent lm) : consistent lm.commit := by
  obtain ⟨done, h1, h2, h3, h4, h5, h6, h7⟩ := consistent_log lm log_entry.commit h
  have e : lm.commit = ⟨(lm.log log_entry.commit.bytes).logfile,
      (lm.log log_entry.commit.bytes).pos,
      (lm.log log_entry.commit.bytes).pos ::
        (lm.log log_entry.commit.bytes).previous_checkpoints⟩ := rfl
  rw [e]
  have hlen : (log_text (done ++ [log_entry.commit])).length = (log_text done).length + 7 := by
    rw [log_text_snoc_commit, List.length_append, commit_bytes_length]
  refine ⟨done ++ [log_entry.commit], [], ?_, (fun x hx => by cases hx), ?_, h3, ?_, ?_⟩
  · intro x hx
    rcases List.mem_append.1 hx with hx | hx
    · exact h1 x hx
    · rw [List.mem_singleton.1 hx]
      trivial
  · show (lm.log log_entry.commit.bytes).logfile = _ ++ []
    rw [h2, List.append_nil]
  · show List.Pairwise (fun a b => a > b) ((lm.log log_entry.commit.bytes).pos ::
      (lm.log log_entry.commit.bytes).previous_checkpoints)
    rw [h5, List.pairwise_cons]
    refine ⟨fun c hc => ?_, h6⟩
    have := at_commit_le done c (h7 c hc)
    rw [h3, hlen]
    omega
  · intro c hc
    have hc1 : c ∈ (lm.log log_entry.commit.bytes).pos ::
        (lm.log log_entry.commit.bytes).previous_checkpoints := hc
    rw [h5] at hc1
    rcases List.mem_cons.1 hc1 with hc1 | hc1
    · exact ⟨done, [], rfl, by rw [hc1, h3, hlen]⟩
    · exact at_commit_append done [log_entry.commit] c (h7 c hc1)

/-- Going back to a checkpoint keeps the state consistent: the records up to the commit of
the checkpoint lie before the position, and the checkpoints that stay are not beyond it. -/
theorem consistent_back (lm : log_manager) (pre post ahead : List log_entry) (cks : List Nat)
    (h1 : ∀ e ∈ pre ++ log_entry.commit :: post, e.wf) (h2 : ∀ e ∈ ahead, e.wf)
    (h3 : lm.logfile = log_text (pre ++ log_entry.commit :: post) ++ log_text ahead)
    (h5 : cks.Pairwise (fun a b => a > b))
    (h6 : ∀ c ∈ cks, at_commit (pre ++ log_entry.commit :: post) c)
    (h7 : ∀ c ∈ cks, c ≤ (log_text pre).length + 7) :
    consistent ⟨lm.logfile, (log_text pre).length + 7, cks⟩ := by
  refine ⟨pre ++ [log_entry.commit], post ++ ahead, ?_, ?_, ?_, ?_, h5, ?_⟩
  · intro e he
    apply h1 e
    rcases List.mem_append.1 he with he | he
    · exact List.mem_append_left _ he
    · rw [List.mem_singleton.1 he]
      exact List.mem_append_right _ (List.mem_cons_self _ _)
  · intro e he
    rcases List.mem_append.1 he with he | he
    · exact h1 e (List.mem_append_right _ (List.mem_cons_of_mem _ he))
    · exact h2 e he
  · show lm.logfile = _
    rw [h3, log_text_commit_split, log_text_snoc_commit, log_text_append]
    simp only [List.append_assoc]
  · show (log_text pre).length + 7 = _
    rw [log_text_snoc_commit, List.length_append, commit_bytes_length]
  · intro c hc
    exact at_commit_cut pre post c (h6 c hc) (h7 c hc)

/-- In a consistent state `rollback` returns, and the state after it is consistent. -/
theorem consistent_rollback (lm : log_manager) (h : consistent lm) :
    ∃ entries lm1, lm.rollback = some (entries, lm1) ∧ consistent lm1 := by
  obtain ⟨done, ahead, h1, h2, h3, h4, h5, h6⟩ := h
  cases hck : lm.previous_checkpoints with
  | nil =>
    refine ⟨[], lm, ?_, done, ahead, h1, h2, h3, h4, h5, h6⟩
    unfold rollback
    rw [hck]
  | cons top rest =>
    rw [hck] at h5 h6
    obtain ⟨pre, post, e, ht⟩ := h6 top (List.mem_cons_self _ _)
    subst e
    have hlen : (log_text (pre ++ log_entry.commit :: post)).length =
        top + (log_text post).length := by
      rw [log_text_commit_split, List.length_append, List.length_append, commit_bytes_length]
      omega
    have hdrop_pos : lm.logfile.drop lm.pos = log_text ahead := by
      rw [h3, h4]
      exact List.drop_left' rfl
    have hdrop_top : lm.logfile.drop top = log_text post ++ log_text ahead := by
      have e1 : lm.logfile = (log_text pre ++ log_entry.commit.bytes) ++
          (log_text post ++ log_text ahead) := by
        rw [h3, log_text_commit_split]
        simp only [List.append_assoc]
      rw [e1]
      exact List.drop_left' (by rw [List.length_append, commit_bytes_length, ht])
    have hrest : ∀ c ∈ rest, c < top := (List.pairwise_cons.1 h5).1
    by_cases hp : post = []
    · -- the position is the checkpoint
      subst hp
      have hpos : lm.pos = top := by
        rw [h4, hlen]
        rfl
      cases rest with
      | nil =>
        refine ⟨[], lm, ?_, pre ++ [log_entry.commit], ahead, h1, h2, h3, h4, ?_, ?_⟩
        · unfold rollback
          rw [hck]
          simp only [hpos, gt_iff_lt, lt_irrefl, if_false, if_true]
        · rw [hck]
          exact h5
        · rw [hck]
          exact h6
      | cons c2 cks2 =>
        obtain ⟨p2, q2, e2, hc2⟩ := h6 c2 (List.mem_cons_of_mem _ (List.mem_cons_self _ _))
        have hlt : c2 < top := hrest c2 (List.mem_cons_self _ _)
        have hsplit : ∃ todo, pre = p2 ++ log_entry.commit :: todo := by
          rcases List.append_eq_append_iff.1 e2 with ⟨a, e3, e4⟩ | ⟨b, e3, e4⟩
          · cases a with
            | nil =>
              rw [List.append_nil] at e3
              rw [e3] at hc2
              omega
            | cons x a =>
              have hl := congrArg List.length e4
              simp at hl
          · cases b with
            | nil =>
              rw [List.append_nil] at e3
              rw [e3] at ht
              omega
            | cons x b =>
              simp only [List.cons_append, List.cons.injEq] at e4
              exact ⟨b, by rw [e3, e4.1]⟩
        obtain ⟨todo, hpre⟩ := hsplit
        subst hpre
        have hwf : ∀ x ∈ todo, x.wf := fun x hx =>
          h1 x (List.mem_append_left _ (List.mem_append_right _ (List.mem_cons_of_mem _ hx)))
        have htop : top = c2 + (log_text todo).length + 7 := by
          rw [ht, hc2, log_text_commit_split, List.length_append, List.length_append,
            commit_bytes_length]
          omega
        have hdrop_c2 : lm.logfile.drop c2 =
            log_text todo ++ (log_entry.commit.bytes ++ lm.logfile.drop top) := by
          have e1 : lm.logfile = (log_text p2 ++ log_entry.commit.bytes) ++
              (log_text todo ++ (log_entry.commit.bytes ++ log_text ahead)) := by
            rw [h3, log_text_commit_split, log_text_commit_split]
            simp only [log_text, List.append_assoc, List.append_nil]
          have e5 : lm.logfile.drop top = log_text ahead := by
            rw [hdrop_top]
            rfl
          rw [e5, e1]
          exact List.drop_left' (by rw [List.length_append, commit_bytes_length, hc2])
        refine ⟨todo, _, rollback_pop_spec lm top c2 cks2 todo hwf hck hpos hdrop_c2
          htop.symm, ?_⟩
        have e6 : (p2 ++ log_entry.commit :: todo) ++ [log_entry.commit] =
            p2 ++ log_entry.commit :: (todo ++ [log_entry.commit]) := by
          rw [List.append_assoc]
          rfl
        rw [e6] at h1 h3 h6
        have hc : consistent ⟨lm.logfile, (log_text p2).length + 7, c2 :: cks2⟩ :=
          consistent_back lm p2 (todo ++ [log_entry.commit]) ahead (c2 :: cks2) h1 h2 h3
            (List.pairwise_cons.1 h5).2
            (fun c hc => h6 c (List.mem_cons_of_mem _ hc))
            (fun c hc => by
              rcases List.mem_cons.1 hc with hc | hc
              · omega
              · have := (List.pairwise_cons.1 (List.pairwise_cons.1 h5).2).1 c hc
                omega)
        rw [← hc2] at hc
        exact hc
    · -- the position is above the checkpoint
      have hpos : top + (log_text post).length = lm.pos := by
        rw [h4, hlen]
      have hwf : ∀ x ∈ post, x.wf := fun x hx =>
        h1 x (List.mem_append_right _ (List.mem_cons_of_mem _ hx))
      refine ⟨post, _, rollback_spec lm top rest post hwf hck hp
        (by rw [hdrop_top, hdrop_pos]) hpos, ?_⟩
      have hc : consistent ⟨lm.logfile, (log_text pre).length + 7, top :: rest⟩ :=
        consistent_back lm pre post ahead (top :: rest) h1 h2 h3 h5 h6
          (fun c hc => by
            rcases List.mem_cons.1 hc with hc | hc
            · omega
            · have := hrest c hc
              omega)
      rw [← ht, ← hck] at hc
      exact hc

/-- In a consistent state `forward` returns, and the state after it is consistent. -/
theorem consistent_forward (lm : log_manager) (h : consistent lm) :
    ∃ entries lm1, lm.forward = some (entries, lm1) ∧ consistent lm1 := by
  obtain ⟨done, ahead, h1, h2, h3, h4, h5, h6⟩ := h
  have hlen : lm.logfile.length = lm.pos + (log_text ahead).length := by
    rw [h3, h4, List.length_append]
  have hdrop : lm.logfile.drop lm.pos = log_text ahead := by
    rw [h3, h4]
    exact List.drop_left' rfl
  by_cases ha : ahead = []
  · refine ⟨[], lm, ?_, done, ahead, h1, h2, h3, h4, h5, h6⟩
    unfold forward
    rw [if_neg]
    rw [hlen, ha]
    simp [log_text]
  · have hpos : 0 < ahead.length := List.length_pos.2 ha
    have htl := log_text_length ahead
    have hlt : lm.pos < lm.logfile.length := by omega
    have hf : lm.forward = forward_loop (lm.logfile.length - lm.pos) lm [] := by
      unfold forward
      rw [if_pos hlt]
    rcases first_commit ahead with hnc | ⟨todo, rest, e, hnc⟩
    · refine ⟨[] ++ ahead, { lm with pos := lm.logfile.length }, ?_, done ++ ahead, [], ?_,
        (fun e he => by cases he), ?_, ?_, h5, ?_⟩
      · rw [hf]
        exact forward_loop_end ahead h2 hnc ha _ lm [] (by omega) hdrop
      · intro e he
        rcases List.mem_append.1 he with he | he
        · exact h1 e he
        · exact h2 e he
      · show lm.logfile = _ ++ []
        rw [h3, log_text_append, List.append_nil]
      · show lm.logfile.length = _
        rw [h3, log_text_append]
      · exact fun c hc => at_commit_append done ahead c (h6 c hc)
    · subst e
      have hwf : ∀ x ∈ todo, x.wf := fun x hx => h2 x (List.mem_append_left _ hx)
      have htext : lm.logfile.drop lm.pos =
          log_text todo ++ (log_entry.commit.bytes ++ log_text rest) := by
        rw [hdrop, log_text_commit_split]
      have hlt2 : (log_text (todo ++ log_entry.commit :: rest)).length =
          (log_text todo).length + 7 + (log_text rest).length := by
        rw [log_text_commit_split, List.length_append, List.length_append,
          commit_bytes_length]
        omega
      have htodo := log_text_length todo
      refine ⟨[] ++ todo, ⟨lm.logfile, lm.pos + (log_text todo).length + 7,
        (lm.pos + (log_text todo).length + 7) :: lm.previous_checkpoints⟩, ?_,
        (done ++ todo) ++ [log_entry.commit], rest, ?_, ?_, ?_, ?_, ?_, ?_⟩
      · rw [hf]
        exact forward_loop_commit todo hwf hnc _ lm [] (log_text rest) (by omega) htext
      · intro e he
        rcases List.mem_append.1 he with he | he
        · rcases List.mem_append.1 he with he | he
          · exact h1 e he
          · exact hwf e he
        · rw [List.mem_singleton.1 he]
          trivial
      · exact fun x hx => h2 x (List.mem_append_right _ (List.mem_cons_of_mem _ hx))
      · show lm.logfile = _
        rw [h3, log_text_commit_split, log_text_snoc_commit, log_text_append]
        simp only [List.append_assoc]
      · show lm.pos + (log_text todo).length + 7 = _
        rw [log_text_snoc_commit, log_text_append, List.length_append, List.length_append,
          commit_bytes_length, h4]
      · show List.Pairwise (fun a b => a > b)
          ((lm.pos + (log_text todo).length + 7) :: lm.previous_checkpoints)
        rw [List.pairwise_cons]
        refine ⟨fun c hc => ?_, h5⟩
        have := at_commit_le done c (h6 c hc)
        show c < lm.pos + (log_text todo).length + 7
        omega
      · intro c hc
        have hc1 : c ∈ (lm.pos + (log_text todo).length + 7) :: lm.previous_checkpoints := hc
        rcases List.mem_cons.1 hc1 with hc1 | hc1
        · refine ⟨done ++ todo, [], rfl, ?_⟩
          rw [hc1, log_text_append, List.length_append, h4]
        · have := at_commit_append done (todo ++ [log_entry.commit]) c (h6 c hc1)
          rw [← List.append_assoc] at this
          exact this

/-- Every reachable state of the log manager is consistent. -/
theorem reachable_consistent (lm : log_manager) (h : reachable lm) : consistent lm := by
  induction h with
  | init => exact consistent_init
  | create_log lm inum type _ ih =>
    rw [create_log_eq]
    exact consistent_append lm _ trivial ih
  | update_log lm inum old_size old_buf new_size new_buf _ ih =>
    rw [update_log_eq]
    exact consistent_append lm _ ⟨bytes_of_length _ _, bytes_of_length _ _⟩ ih
  | delete_log lm inum type _ ih =>
    exact consistent_append lm (log_entry.deletee inum type) trivial ih
  | commit lm _ ih => exact consistent_commit lm ih
  | rollback lm entries lm1 _ hr ih =>
    obtain ⟨e2, l2, h2, hc⟩ := consistent_rollback lm ih
    rw [hr] at h2
    cases h2
    exact hc
  | forward lm entries lm1 _ hr ih =>
    obtain ⟨e2, l2, h2, hc⟩ := consistent_forward lm ih
    rw [hr] at h2
    cases h2
    exact hc

end log_manager

/-! ## C35: the checkpoints of a reachable log manager -/

namespace log_manager

/-- C35: in every state of the log manager reached through record appends, `commit`,
`rollback` and `forward`, the checkpoints increase strictly from the bottom of the stack to
its top (the list holds the top first), every checkpoint is the position just after a commit
record, the log up to it being the text of whole records of which the last is a commit, and
the top checkpoint is not above the position; so the case of `rollback` in which the
position is below the top checkpoint is not reached.  In these states `rollback` and
`forward` return. -/
theorem checkpoints_below_cursor (lm : log_manager) (h : reachable lm) :
    lm.previous_checkpoints.Pairwise (fun a b => a > b) ∧
    (∀ c ∈ lm.previous_checkpoints, ∃ pre : List log_entry, (∀ e ∈ pre, e.wf) ∧
      lm.logfile.take c = log_text (pre ++ [log_entry.commit]) ∧
      c = (log_text (pre ++ [log_entry.commit])).length ∧ c ≤ lm.logfile.length) ∧
    (∀ top rest, lm.previous_checkpoints = top :: rest → top ≤ lm.pos) ∧
    (∀ top rest, lm.previous_checkpoints = top :: rest → ¬ lm.pos < top) ∧
    (∃ r, lm.rollback = some r) ∧ (∃ r, lm.forward = some r) := by
  have hc := reachable_consistent lm h
  obtain ⟨e1, l1, hr, -⟩ := consistent_rollback lm hc
  obtain ⟨e2, l2, hf, -⟩ := consistent_forward lm hc
  obtain ⟨done, ahead, h1, h2, h3, h4, h5, h6⟩ := hc
  have htop : ∀ top rest, lm.previous_checkpoints = top :: rest → top ≤ lm.pos := by
    intro top rest e
    have := at_commit_le done top (h6 top (by rw [e]; exact List.mem_cons_self _ _))
    omega
  refine ⟨h5, fun c hc => ?_, htop, fun top rest e => Nat.not_lt.2 (htop top rest e),
    ⟨_, hr⟩, ⟨_, hf⟩⟩
  obtain ⟨pre, post, e, hcp⟩ := h6 c hc
  have hlen : (log_text (pre ++ [log_entry.commit])).length = c := by
    rw [log_text_snoc_commit, List.length_append, commit_bytes_length, hcp]
  have hfile : lm.logfile = log_text (pre ++ [log_entry.commit]) ++
      (log_text post ++ log_text ahead) := by
    rw [h3, e, log_text_commit_split, log_text_snoc_commit]
    simp only [List.append_assoc]
  refine ⟨pre, fun x hx => h1 x (by rw [e]; exact List.mem_append_left _ hx), ?_, hlen.symm,
    ?_⟩
  · rw [hfile]
    exact List.take_left' hlen
  · rw [hfile, List.length_append, hlen]
    omega

/-- The theorem `checkpoints_below_cursor` at the state after `create_log(1, 2)`, `commit`,
`create_log(2, 2)` and `rollback`: the log holds 29 bytes, the position is the checkpoint
18, and `rollback` has returned the second record. -/
theorem checkpoints_below_cursor_witness :
    (((init.create_log 1 2).commit).create_log 2 2).rollback =
      some ([log_entry.create 2 2],
        ⟨(((init.create_log 1 2).commit).create_log 2 2).logfile, 18, [18]⟩) ∧
    (⟨(((init.create_log 1 2).commit).create_log 2 2).logfile, 18, [18]⟩ :
      log_manager).logfile.length = 29 ∧
    18 ≤ (⟨(((init.create_log 1 2).commit).create_log 2 2).logfile, 18, [18]⟩ :
      log_manager).pos :=
  ⟨by decide, by decide,
    (checkpoints_below_cursor
      ⟨(((init.create_log 1 2).commit).create_log 2 2).logfile, 18, [18]⟩
      (reachable.rollback (((init.create_log 1 2).commit).create_log 2 2)
        [log_entry.create 2 2] _
        (reachable.create_log _ 2 2 (reachable.commit _
          (reachable.create_log _ 1 2 reachable.init)))
        (by decide))).2.2.1 18 [] rfl⟩

end log_manager
